import Mathlib

/-!
# lazyvibe: the dashboard controller

A shallow embedding of the data layer (`internal/data`) and of the panel
engines (`internal/ui`) of lazyvibe, with the properties of its specification
stated and proved over the embedding.

Conventions of the embedding.

* A Go `string` is its sequence of bytes (`GoString`).
* A Go `int` is 64 bits wide.  It is a mathematical integer (`Int`) where it
  counts or indexes an in-memory collection, whose size is below `2 ^ 63`; the
  sums and products of numbers that are read from a file are reduced to 64 bits
  as the machine does (`wrapInt64`).
* A `time.Time` is an instant, the number of nanoseconds since the Unix epoch,
  together with the `Location` it is read in: the calendar operations (`Date`,
  `Weekday`, `AddDate`, `Format`) take the location as an argument, which is
  `time.Local` (`Runtime.Local`) for a reading of the clock.  A `time.Duration`
  is a number of nanoseconds.  `Time.Sub` saturates at the bounds of `int64` as
  the library does.
* A finite `float64` is the rational number it denotes (`Float64`); arithmetic
  on it rounds to the nearest double, ties to even (`f64Round`).
* Library behaviour that Go leaves open is a parameter: the order in which
  `sort.Slice` leaves equal elements (`SortSlice`), the order in which a `range`
  visits a map (`MapOrder`), the case mapping of non-ASCII text, the clock and
  the contents of the files the fetches read (`World`).
* Where the program relies on `sort.Slice` beyond its contract (the panels pass
  the negation of a comparator for the descending direction), the code of the
  library is embedded function by function (`Slice`: the pattern-defeating
  quicksort of package `sort`, Go 1.19 and later, with its insertion sort, heap
  sort, partitions, pivot choice and pattern breaking).  A slice is a list, an
  index is an `Int`, and an index out of range is a panic (`none`); a loop is a
  recursion on a bound of its number of iterations.
-/

namespace Lazyvibe

/-! ## Strings -/

/-- A Go string: a sequence of bytes. -/
abbrev GoString := List UInt8

/-- The bytes of an ASCII literal. -/
def ascii (s : String) : GoString := s.data.map (fun c => UInt8.ofNat c.toNat)

/-! ## Machine integers -/

/-- The value of a Go `int` (64 bits, two's complement) after an arithmetic
operation whose exact result is `x`. -/
def wrapInt64 (x : Int) : Int := (x + 9223372036854775808) % 18446744073709551616 -
  9223372036854775808

/-- The integer `x` is a value of a Go `int`. -/
def inInt64 (x : Int) : Prop := -9223372036854775808 ≤ x ∧ x ≤ 9223372036854775807

instance (x : Int) : Decidable (inInt64 x) := by unfold inInt64; infer_instance

/-! ## Time -/

/-- An instant: nanoseconds since the Unix epoch. -/
abbrev Time := Int

/-- A `time.Duration`: a number of nanoseconds. -/
abbrev Duration := Int

def Second : Duration := 1000000000

def minDuration : Duration := -9223372036854775808

def maxDuration : Duration := 9223372036854775807

/-- `t.Sub(u)`: the duration `t - u`, saturated to the range of `int64`. -/
def Time.Sub (t u : Time) : Duration :=
  if t - u < minDuration then minDuration
  else if maxDuration < t - u then maxDuration
  else t - u

/-- `t.After(u)`. -/
def Time.After (t u : Time) : Bool := decide (u < t)

/-- `t.Before(u)`. -/
def Time.Before (t u : Time) : Bool := decide (t < u)

/-! ## Library behaviour left open by Go -/

/-- A comparator that `sort.Slice` is specified for: a strict weak ordering,
given as asymmetry and transitivity of "not less". -/
structure StrictWeak {α : Type} (less : α → α → Bool) : Prop where
  asymm : ∀ a b, less a b = true → less b a = false
  negTrans : ∀ a b c, less a b = false → less b c = false → less a c = false

/-- Go's `sort.Slice`, which is not stable: it rearranges the slice (it only ever
swaps elements), and the result is ordered when the comparator is a strict weak
ordering. -/
structure SortSlice where
  sort : {α : Type} → (α → α → Bool) → List α → List α
  perm : ∀ {α : Type} (less : α → α → Bool) (xs : List α), (sort less xs).Perm xs
  sorted : ∀ {α : Type} (less : α → α → Bool) (xs : List α), StrictWeak less →
    (sort less xs).Pairwise (fun a b => less b a = false)

/-- The order in which one `range` loop visits the entries of a map. -/
structure MapOrder where
  order : {α : Type} → List α → List α
  perm : ∀ {α : Type} (xs : List α), (order xs).Perm xs

/-- One step of the insertion sort that `sort.Slice` runs on slices of at most
12 elements: `x` moves left past every element it is less than.  The sorted
prefix is held right to left. -/
def insertLeft {α : Type} (less : α → α → Bool) (x : α) : List α → List α
  | [] => [x]
  | y :: ys => if less x y then y :: insertLeft less x ys else x :: y :: ys

/-- The insertion sort of `sort.Slice` (`insertionSortLessFunc`). -/
def insertionSort {α : Type} (less : α → α → Bool) (xs : List α) : List α :=
  (xs.foldl (fun sortedRev x => insertLeft less x sortedRev) []).reverse

/-! ## The data model (`internal/data/models.go`) -/

/-- A finite `float64`, as the rational number it denotes. -/
abbrev Float64 := ℚ

abbrev TimeRange := Int

def TimeAll : TimeRange := 0

def TimeToday : TimeRange := 1

def TimeWeek : TimeRange := 2

def TimeMonth : TimeRange := 3

structure VMStatus where
  Running : Bool
  PID : Option Int
  CPUPercent : Option Float64
  MemoryMB : Option Float64
  deriving DecidableEq

structure SessionEntry where
  SessionID : GoString
  ProjectPath : GoString
  ProjectName : GoString
  Summary : GoString
  MessageCount : Int
  Created : Time
  Modified : Time
  GitBranch : Option GoString
  deriving DecidableEq

structure DailyActivity where
  Date : GoString
  MessageCount : Int
  SessionCount : Int
  ToolCallCount : Int
  TokenCount : Int
  deriving DecidableEq

structure ProjectSummary where
  ProjectName : GoString
  ProjectPath : GoString
  SessionCount : Int
  TotalMessages : Int
  LastActivity : Time
  deriving DecidableEq

structure DashboardData where
  VMStatus : VMStatus
  Sessions : List SessionEntry
  DailyActivity : List DailyActivity
  Projects : List ProjectSummary
  deriving DecidableEq

/-! ## Aggregation (`internal/data/sessions.go`) -/

/-- The `map[string]*ProjectSummary` of `AggregateProjects`: its entries, each
key once. -/
abbrev ProjectMap := List (GoString × ProjectSummary)

/-- The lookup `projects[key]`. -/
def ProjectMap.get (m : ProjectMap) (key : GoString) : Option ProjectSummary :=
  match m with
  | [] => none
  | (k, v) :: rest => if k = key then some v else ProjectMap.get rest key

/-- An update through the pointer stored under `key`. -/
def ProjectMap.set (m : ProjectMap) (key : GoString) (v : ProjectSummary) : ProjectMap :=
  m.map (fun e => if e.1 = key then (e.1, v) else e)

/-- The body of the loop over the sessions in `AggregateProjects`.  The sum of
the message counts, which come from the index files, wraps at 64 bits; the
count of the sessions is at most the length of the slice. -/
def aggregateStep (projects : ProjectMap) (session : SessionEntry) : ProjectMap :=
  let key := session.ProjectPath
  match projects.get key with
  | some existing =>
    projects.set key
      { existing with
        SessionCount := existing.SessionCount + 1
        TotalMessages := wrapInt64 (existing.TotalMessages + session.MessageCount)
        LastActivity :=
          if Time.After session.Modified existing.LastActivity then session.Modified
          else existing.LastActivity }
  | none =>
    projects ++ [(key,
      { ProjectName := session.ProjectName
        ProjectPath := session.ProjectPath
        SessionCount := 1
        TotalMessages := session.MessageCount
        LastActivity := session.Modified })]

/-- `AggregateProjects`: one pass over the sessions fills the map, a `range`
over the map collects the summaries, and `sort.Slice` orders them by last
activity, most recent first. -/
def AggregateProjects (sorter : SortSlice) (order : MapOrder) (sessions : List SessionEntry) :
    List ProjectSummary :=
  let projects : ProjectMap := sessions.foldl aggregateStep []
  let result := order.order (projects.map (fun e => e.2))
  sorter.sort (fun a b => Time.After a.LastActivity b.LastActivity) result

/-! ## The cache store (`internal/data/manager.go`) -/

def VMTTL : Duration := 2 * Second

def SessionsTTL : Duration := 10 * Second

def StatsTTL : Duration := 30 * Second

structure cacheEntry (T : Type) where
  data : T
  timestamp : Time
  deriving DecidableEq

/-- `isValid`, with the reading `now` of the clock that `time.Since` takes. -/
def cacheEntry.isValid {T : Type} (c : cacheEntry T) (ttl : Duration) (now : Time) : Bool :=
  decide (Time.Sub now c.timestamp < ttl)

structure Manager where
  vmCache : Option (cacheEntry VMStatus)
  sessionsCache : Option (cacheEntry (List SessionEntry))
  statsCache : Option (cacheEntry (List DailyActivity))
  projectsCache : Option (cacheEntry (List ProjectSummary))
  deriving DecidableEq

def NewManager : Manager :=
  { vmCache := none, sessionsCache := none, statsCache := none, projectsCache := none }

/-- What the cache store reads from outside: the successive readings of the
clock, the successive results of the three fetches (the process query, the
session index files, the activity file), the order of each map `range`, and how
many of each have been consumed. -/
structure World where
  clock : Nat → Time
  clockReads : Nat
  vmSource : Nat → VMStatus
  vmFetches : Nat
  sessionsSource : Nat → List SessionEntry
  sessionsFetches : Nat
  statsSource : Nat → List DailyActivity
  statsFetches : Nat
  mapOrders : Nat → MapOrder
  mapRanges : Nat

/-- `time.Now()`. -/
def World.Now (w : World) : Time × World :=
  (w.clock w.clockReads, { w with clockReads := w.clockReads + 1 })

/-- The fetch `GetVMStatus()` of `vm.go`. -/
def World.fetchVM (w : World) : VMStatus × World :=
  (w.vmSource w.vmFetches, { w with vmFetches := w.vmFetches + 1 })

/-- The fetch `ParseSessions()`. -/
def World.ParseSessions (w : World) : List SessionEntry × World :=
  (w.sessionsSource w.sessionsFetches, { w with sessionsFetches := w.sessionsFetches + 1 })

/-- The fetch `ParseStatsCache()`. -/
def World.ParseStatsCache (w : World) : List DailyActivity × World :=
  (w.statsSource w.statsFetches, { w with statsFetches := w.statsFetches + 1 })

/-- The map order of the next `range`. -/
def World.nextMapOrder (w : World) : MapOrder × World :=
  (w.mapOrders w.mapRanges, { w with mapRanges := w.mapRanges + 1 })

/-- The outcome of a call on the manager: the value returned, the manager and
the world after the call. -/
structure Outcome (T : Type) where
  value : T
  manager : Manager
  world : World

/-- The test `!forceRefresh && cache != nil && cache.isValid(ttl)`: the clock is
read only when the first two conjuncts hold.  Returns the entry when the test
succeeds. -/
def cacheHit {T : Type} (forceRefresh : Bool) (cache : Option (cacheEntry T)) (ttl : Duration)
    (w : World) : Option (cacheEntry T) × World :=
  if forceRefresh then (none, w)
  else
    match cache with
    | none => (none, w)
    | some c =>
      let (now, w1) := w.Now
      if c.isValid ttl now then (some c, w1) else (none, w1)

def Manager.GetVMStatus (m : Manager) (w : World) (forceRefresh : Bool) : Outcome VMStatus :=
  match cacheHit forceRefresh m.vmCache VMTTL w with
  | (some c, w1) => { value := c.data, manager := m, world := w1 }
  | (none, w1) =>
    let (status, w2) := w1.fetchVM
    let (now, w3) := w2.Now
    { value := status
      manager := { m with vmCache := some { data := status, timestamp := now } }
      world := w3 }

def Manager.GetSessions (m : Manager) (w : World) (forceRefresh : Bool) :
    Outcome (List SessionEntry) :=
  match cacheHit forceRefresh m.sessionsCache SessionsTTL w with
  | (some c, w1) => { value := c.data, manager := m, world := w1 }
  | (none, w1) =>
    let (sessions, w2) := w1.ParseSessions
    let (now, w3) := w2.Now
    { value := sessions
      manager :=
        { m with
          sessionsCache := some { data := sessions, timestamp := now }
          projectsCache := none }
      world := w3 }

def Manager.GetDailyActivity (m : Manager) (w : World) (forceRefresh : Bool) :
    Outcome (List DailyActivity) :=
  match cacheHit forceRefresh m.statsCache StatsTTL w with
  | (some c, w1) => { value := c.data, manager := m, world := w1 }
  | (none, w1) =>
    let (activity, w2) := w1.ParseStatsCache
    let (now, w3) := w2.Now
    { value := activity
      manager := { m with statsCache := some { data := activity, timestamp := now } }
      world := w3 }

def Manager.GetProjects (sorter : SortSlice) (m : Manager) (w : World) (forceRefresh : Bool) :
    Outcome (List ProjectSummary) :=
  match cacheHit forceRefresh m.projectsCache SessionsTTL w with
  | (some c, w1) => { value := c.data, manager := m, world := w1 }
  | (none, w1) =>
    let s := m.GetSessions w1 forceRefresh
    let (order, w2) := s.world.nextMapOrder
    let projects := AggregateProjects sorter order s.value
    let (now, w3) := w2.Now
    { value := projects
      manager := { s.manager with projectsCache := some { data := projects, timestamp := now } }
      world := w3 }

/-- `GetDashboardData`: the four fields of the snapshot are computed in the
order in which the composite literal lists them. -/
def Manager.GetDashboardData (sorter : SortSlice) (m : Manager) (w : World)
    (forceRefresh : Bool) : Outcome DashboardData :=
  let vm := m.GetVMStatus w forceRefresh
  let sessions := vm.manager.GetSessions vm.world forceRefresh
  let activity := sessions.manager.GetDailyActivity sessions.world forceRefresh
  let projects := Manager.GetProjects sorter activity.manager activity.world forceRefresh
  { value :=
      { VMStatus := vm.value
        Sessions := sessions.value
        DailyActivity := activity.value
        Projects := projects.value }
    manager := projects.manager
    world := projects.world }

def Manager.RefreshAll (sorter : SortSlice) (m : Manager) (w : World) : Outcome DashboardData :=
  Manager.GetDashboardData sorter m w true

/-! ## Calendar arithmetic of the `time` package -/

def nsPerDay : Int := 86400 * 1000000000

/-- The day number (days since 1970-01-01) of a date of the proleptic Gregorian
calendar; `m` is in `1..12`, `d` is any offset within or beyond the month. -/
def daysFromCivil (y m d : Int) : Int :=
  let y1 := if m ≤ 2 then y - 1 else y
  let era := y1 / 400
  let yoe := y1 - era * 400
  let doy := (153 * (if m > 2 then m - 3 else m + 9) + 2) / 5 + d - 1
  let doe := yoe * 365 + yoe / 4 - yoe / 100 + doy
  era * 146097 + doe - 719468

/-- The date `(year, month, day)` of a day number. -/
def civilFromDays (z : Int) : Int × Int × Int :=
  let z1 := z + 719468
  let era := z1 / 146097
  let doe := z1 - era * 146097
  let yoe := (doe - doe / 1460 + doe / 36524 - doe / 146096) / 365
  let doy := doe - (365 * yoe + yoe / 4 - yoe / 100)
  let mp := (5 * doy + 2) / 153
  let d := doy - (153 * mp + 2) / 5 + 1
  let m := if mp < 10 then mp + 3 else mp - 9
  (if m ≤ 2 then yoe + era * 400 + 1 else yoe + era * 400, m, d)

/-- `time.Date(year, month, day, hour, min, sec, nsec, time.UTC)`: values outside
their usual ranges are normalised, the month first. -/
def Date (year month day hour min sec nsec : Int) : Time :=
  let m0 := month - 1
  let y := year + m0 / 12
  let m := m0 % 12 + 1
  let days := daysFromCivil y m day
  (((days * 24 + hour) * 60 + min) * 60 + sec) * 1000000000 + nsec

/-- A period of a time zone: the offset to UTC, in seconds east, that holds
from the instant `start` up to the instant `stop`, both in seconds since the
Unix epoch (the results `offset`, `start` and `end` of `lookup`). -/
structure ZoneSpan where
  offset : Int
  start : Int
  stop : Int
  deriving DecidableEq

/-- A `*time.Location`, as its method `lookup`: the period that holds at an
instant, given in seconds since the Unix epoch. -/
structure Location where
  lookup : Int → ZoneSpan

/-- `time.UTC`. -/
def UTC : Location :=
  { lookup := fun _ =>
      { offset := 0, start := -9223372036854775808, stop := 9223372036854775807 } }

/-- `time.Date(year, month, day, hour, min, sec, nsec, loc)`: the reading is
taken as one of UTC first and the offset of the period found there is taken
off; when the result lies outside that period, the offset that holds at the
result is used. -/
def Location.Date (loc : Location) (year month day hour min sec nsec : Int) : Time :=
  let total := Lazyvibe.Date year month day hour min sec nsec
  let unix := total / 1000000000
  let z := loc.lookup unix
  let offset :=
    if z.offset ≠ 0 then
      let utc := unix - z.offset
      if utc < z.start ∨ utc ≥ z.stop then (loc.lookup utc).offset else z.offset
    else 0
  (unix - offset) * 1000000000 + total % 1000000000

/-- The offset of `loc` to UTC is `o` seconds at every instant. -/
def Location.FixedOffset (loc : Location) (o : Int) : Prop := ∀ sec, (loc.lookup sec).offset = o

/-- The zone `Europe/Berlin` between 29 October 2023 and 30 March 2025: summer
time, two hours east of UTC, holds from 31 March 2024, 01:00 UTC, up to 27
October 2024, 01:00 UTC, and standard time, one hour east, before and after. -/
def europeBerlin : Location :=
  { lookup := fun sec =>
      if sec < 1711846800 then { offset := 3600, start := 1698541200, stop := 1711846800 }
      else if sec < 1729990800 then { offset := 7200, start := 1711846800, stop := 1729990800 }
      else { offset := 3600, start := 1729990800, stop := 1743296400 } }

/-- The reading of the clock of `loc` at the instant `t`, in seconds
(`t.abs()`). -/
def Time.wallSec (t : Time) (loc : Location) : Int :=
  t / 1000000000 + (loc.lookup (t / 1000000000)).offset

/-- `t.Date()`, for a `t` in the location `loc`. -/
def Time.civil (t : Time) (loc : Location) : Int × Int × Int :=
  civilFromDays (t.wallSec loc / 86400)

/-- `t.AddDate(years, months, days)`, for a `t` in the location `loc`: the
date and the clock of `t` are read in `loc`, and the new date with the same
clock is an instant of `loc` again. -/
def Time.AddDate (t : Time) (loc : Location) (years months days : Int) : Time :=
  let (year, month, day) := t.civil loc
  let inDay := t.wallSec loc % 86400
  loc.Date (year + years) (month + months) (day + days) (inDay / 3600) (inDay % 3600 / 60)
    (inDay % 60) (t % 1000000000)

/-- The zero `time.Time{}`: 1 January of year 1, 00:00 UTC. -/
def zeroTime : Time := Date 1 1 1 0 0 0 0

/-- `TimeRange.StartTime`, with the reading `now` of the clock, which is a time
of the location `loc` (`time.Local`). -/
def StartTime (tr : TimeRange) (now : Time) (loc : Location) : Time :=
  if tr = TimeToday then
    let (year, month, day) := now.civil loc
    loc.Date year month day 0 0 0 0
  else if tr = TimeWeek then now.AddDate loc 0 0 (-7)
  else if tr = TimeMonth then now.AddDate loc 0 (-1) 0
  else zeroTime

/-- `DashboardData.FilterSessions`, with the reading `now` of the clock in the
location `loc`. -/
def DashboardData.FilterSessions (d : DashboardData) (tr : TimeRange) (now : Time)
    (loc : Location) : List SessionEntry :=
  if tr = TimeAll then d.Sessions
  else
    let startTime := StartTime tr now loc
    d.Sessions.filter (fun s => Time.After s.Modified startTime)

/-- `DashboardData.FilterProjects`, with the reading `now` of the clock in the
location `loc`. -/
def DashboardData.FilterProjects (d : DashboardData) (tr : TimeRange) (now : Time)
    (loc : Location) : List ProjectSummary :=
  if tr = TimeAll then d.Projects
  else
    let startTime := StartTime tr now loc
    d.Projects.filter (fun p => Time.After p.LastActivity startTime)

/-! ## Strings (`strings.ToLower`, `strings.Contains`, `<`) -/

/-- The ASCII branch of `strings.ToLower` on one byte. -/
def lowerByte (c : UInt8) : UInt8 := if 65 ≤ c ∧ c ≤ 90 then c + 32 else c

def isASCII (s : GoString) : Bool := s.all (fun c => c < 128)

/-- `strings.ToLower`: byte by byte on an ASCII string; on any other string the
Unicode case mapping `unicodeLower` (`strings.Map(unicode.ToLower, s)`). -/
def ToLower (unicodeLower : GoString → GoString) (s : GoString) : GoString :=
  if isASCII s then s.map lowerByte else unicodeLower s

/-- `strings.Contains(s, substr)`. -/
def Contains (s substr : GoString) : Bool :=
  s.tails.any (fun t => substr.isPrefixOf t)

/-- The comparison `a < b` of two strings: lexicographic on the bytes. -/
def strLess : GoString → GoString → Bool
  | [], [] => false
  | [], _ :: _ => true
  | _ :: _, [] => false
  | a :: as, b :: bs => if a < b then true else if b < a then false else strLess as bs

/-- What the program takes from the Go library and from the process: `sort.Slice`,
the Unicode case mapping and the time zone `time.Local`. -/
structure Runtime where
  sorter : SortSlice
  unicodeLower : GoString → GoString
  Local : Location

/-! ## The Projects panel (`internal/ui/projects.go`) -/

def ProjectSortByActivity : Int := 0

def ProjectSortByName : Int := 1

def ProjectSortBySessions : Int := 2

def ProjectSortByMessages : Int := 3

structure ProjectsModel where
  projects : List ProjectSummary
  allProjects : List ProjectSummary
  cursor : Int
  offset : Int
  focused : Bool
  width : Int
  height : Int
  sortField : Int
  sortDesc : Bool
  filterQuery : GoString
  filterMode : Bool
  timeRange : TimeRange
  deriving DecidableEq

def NewProjectsModel : ProjectsModel :=
  { projects := [], allProjects := [], cursor := 0, offset := 0, focused := false,
    width := 0, height := 0, sortField := ProjectSortByActivity, sortDesc := true,
    filterQuery := [], filterMode := false, timeRange := 0 }

def ProjectsModel.applyFilter (rt : Runtime) (p : ProjectsModel) : ProjectsModel :=
  if p.filterQuery = [] then { p with projects := p.allProjects }
  else
    let query := ToLower rt.unicodeLower p.filterQuery
    { p with
      projects :=
        p.allProjects.filter
          (fun project => Contains (ToLower rt.unicodeLower project.ProjectName) query) }

/-- The comparator that `sortProjects` hands to `sort.Slice`. -/
def ProjectsModel.less (p : ProjectsModel) (a b : ProjectSummary) : Bool :=
  let less :=
    if p.sortField = ProjectSortByName then strLess a.ProjectName b.ProjectName
    else if p.sortField = ProjectSortBySessions then decide (a.SessionCount < b.SessionCount)
    else if p.sortField = ProjectSortByMessages then decide (a.TotalMessages < b.TotalMessages)
    else if p.sortField = ProjectSortByActivity then Time.Before a.LastActivity b.LastActivity
    else false
  if p.sortDesc then !less else less

def ProjectsModel.sortProjects (rt : Runtime) (p : ProjectsModel) : ProjectsModel :=
  { p with projects := rt.sorter.sort p.less p.projects }

def ProjectsModel.Update (rt : Runtime) (p : ProjectsModel) (projects : List ProjectSummary)
    (timeRange : TimeRange) : ProjectsModel :=
  let p1 := { p with allProjects := projects, timeRange := timeRange }
  let p2 := (p1.applyFilter rt).sortProjects rt
  if p2.cursor ≥ p2.projects.length then
    { p2 with cursor := max 0 ((p2.projects.length : Int) - 1) }
  else p2

def ProjectsModel.SetFilterMode (rt : Runtime) (p : ProjectsModel) (enabled : Bool) :
    ProjectsModel :=
  let p1 := { p with filterMode := enabled }
  if !enabled then (({ p1 with filterQuery := [] } : ProjectsModel).applyFilter rt).sortProjects rt
  else p1

def ProjectsModel.IsFilterMode (p : ProjectsModel) : Bool := p.filterMode

def ProjectsModel.HandleFilterInput (rt : Runtime) (p : ProjectsModel) (char : GoString) :
    ProjectsModel :=
  let p1 := { p with filterQuery := p.filterQuery ++ char }
  let p2 := (p1.applyFilter rt).sortProjects rt
  { p2 with cursor := 0, offset := 0 }

def ProjectsModel.HandleFilterBackspace (rt : Runtime) (p : ProjectsModel) : ProjectsModel :=
  if p.filterQuery.length > 0 then
    let p1 := { p with filterQuery := p.filterQuery.take (p.filterQuery.length - 1) }
    (p1.applyFilter rt).sortProjects rt
  else p

def ProjectsModel.CycleSort (rt : Runtime) (p : ProjectsModel) : ProjectsModel :=
  ({ p with sortField := Int.tmod (p.sortField + 1) 4 } : ProjectsModel).sortProjects rt

def ProjectsModel.ToggleSortDirection (rt : Runtime) (p : ProjectsModel) : ProjectsModel :=
  ({ p with sortDesc := !p.sortDesc } : ProjectsModel).sortProjects rt

def ProjectsModel.SetFocused (p : ProjectsModel) (focused : Bool) : ProjectsModel :=
  { p with focused := focused }

def ProjectsModel.SetSize (p : ProjectsModel) (width height : Int) : ProjectsModel :=
  { p with width := width, height := height }

def ProjectsModel.visibleRows (p : ProjectsModel) : Int :=
  if p.height > 0 then p.height - 6 else 10

def ProjectsModel.ensureVisible (p : ProjectsModel) : ProjectsModel :=
  let visibleRows := p.visibleRows
  if visibleRows ≤ 0 then p
  else if p.cursor < p.offset then { p with offset := p.cursor }
  else if p.cursor ≥ p.offset + visibleRows then { p with offset := p.cursor - visibleRows + 1 }
  else p

def ProjectsModel.CursorUp (p : ProjectsModel) : ProjectsModel :=
  if p.cursor > 0 then ({ p with cursor := p.cursor - 1 } : ProjectsModel).ensureVisible else p

def ProjectsModel.CursorDown (p : ProjectsModel) : ProjectsModel :=
  if p.cursor < (p.projects.length : Int) - 1 then
    ({ p with cursor := p.cursor + 1 } : ProjectsModel).ensureVisible
  else p

def ProjectsModel.CursorUpN (p : ProjectsModel) (n : Int) : ProjectsModel :=
  let c := p.cursor - n
  ({ p with cursor := if c < 0 then 0 else c } : ProjectsModel).ensureVisible

def ProjectsModel.CursorDownN (p : ProjectsModel) (n : Int) : ProjectsModel :=
  let c := p.cursor + n
  let c1 := if c ≥ p.projects.length then (p.projects.length : Int) - 1 else c
  let c2 := if c1 < 0 then 0 else c1
  ({ p with cursor := c2 } : ProjectsModel).ensureVisible

/-! ## The Sessions panel (`internal/ui/sessions.go`) -/

def SessionSortByTime : Int := 0

def SessionSortByMessages : Int := 1

def SessionSortByProject : Int := 2

structure SessionsModel where
  sessions : List SessionEntry
  allSessions : List SessionEntry
  cursor : Int
  offset : Int
  focused : Bool
  width : Int
  height : Int
  sortField : Int
  sortDesc : Bool
  filterQuery : GoString
  filterMode : Bool
  timeRange : TimeRange
  deriving DecidableEq

def NewSessionsModel : SessionsModel :=
  { sessions := [], allSessions := [], cursor := 0, offset := 0, focused := false,
    width := 0, height := 0, sortField := SessionSortByTime, sortDesc := true,
    filterQuery := [], filterMode := false, timeRange := 0 }

def SessionsModel.applyFilter (rt : Runtime) (s : SessionsModel) : SessionsModel :=
  if s.filterQuery = [] then { s with sessions := s.allSessions }
  else
    let query := ToLower rt.unicodeLower s.filterQuery
    { s with
      sessions :=
        s.allSessions.filter
          (fun session =>
            Contains (ToLower rt.unicodeLower session.Summary) query ||
              Contains (ToLower rt.unicodeLower session.ProjectName) query) }

/-- The comparator that `sortSessions` hands to `sort.Slice`. -/
def SessionsModel.less (s : SessionsModel) (a b : SessionEntry) : Bool :=
  let less :=
    if s.sortField = SessionSortByTime then Time.Before a.Modified b.Modified
    else if s.sortField = SessionSortByMessages then decide (a.MessageCount < b.MessageCount)
    else if s.sortField = SessionSortByProject then strLess a.ProjectName b.ProjectName
    else false
  if s.sortDesc then !less else less

def SessionsModel.sortSessions (rt : Runtime) (s : SessionsModel) : SessionsModel :=
  { s with sessions := rt.sorter.sort s.less s.sessions }

def SessionsModel.Update (rt : Runtime) (s : SessionsModel) (sessions : List SessionEntry)
    (timeRange : TimeRange) : SessionsModel :=
  let sorted := rt.sorter.sort (fun a b => Time.After a.Modified b.Modified) sessions
  let sorted := if sorted.length > 20 then sorted.take 20 else sorted
  let s1 := { s with allSessions := sorted, timeRange := timeRange }
  let s2 := (s1.applyFilter rt).sortSessions rt
  if s2.cursor ≥ s2.sessions.length then
    { s2 with cursor := max 0 ((s2.sessions.length : Int) - 1) }
  else s2

def SessionsModel.SetFilterMode (rt : Runtime) (s : SessionsModel) (enabled : Bool) :
    SessionsModel :=
  let s1 := { s with filterMode := enabled }
  if !enabled then (({ s1 with filterQuery := [] } : SessionsModel).applyFilter rt).sortSessions rt
  else s1

def SessionsModel.IsFilterMode (s : SessionsModel) : Bool := s.filterMode

def SessionsModel.HandleFilterInput (rt : Runtime) (s : SessionsModel) (char : GoString) :
    SessionsModel :=
  let s1 := { s with filterQuery := s.filterQuery ++ char }
  let s2 := (s1.applyFilter rt).sortSessions rt
  { s2 with cursor := 0, offset := 0 }

def SessionsModel.HandleFilterBackspace (rt : Runtime) (s : SessionsModel) : SessionsModel :=
  if s.filterQuery.length > 0 then
    let s1 := { s with filterQuery := s.filterQuery.take (s.filterQuery.length - 1) }
    (s1.applyFilter rt).sortSessions rt
  else s

def SessionsModel.CycleSort (rt : Runtime) (s : SessionsModel) : SessionsModel :=
  ({ s with sortField := Int.tmod (s.sortField + 1) 3 } : SessionsModel).sortSessions rt

def SessionsModel.ToggleSortDirection (rt : Runtime) (s : SessionsModel) : SessionsModel :=
  ({ s with sortDesc := !s.sortDesc } : SessionsModel).sortSessions rt

def SessionsModel.SetFocused (s : SessionsModel) (focused : Bool) : SessionsModel :=
  { s with focused := focused }

def SessionsModel.SetSize (s : SessionsModel) (width height : Int) : SessionsModel :=
  { s with width := width, height := height }

def SessionsModel.visibleRows (s : SessionsModel) : Int :=
  if s.height > 0 then Int.tdiv (s.height - 4) 2 else 5

def SessionsModel.ensureVisible (s : SessionsModel) : SessionsModel :=
  let visibleRows := s.visibleRows
  if visibleRows ≤ 0 then s
  else if s.cursor < s.offset then { s with offset := s.cursor }
  else if s.cursor ≥ s.offset + visibleRows then { s with offset := s.cursor - visibleRows + 1 }
  else s

def SessionsModel.CursorUp (s : SessionsModel) : SessionsModel :=
  if s.cursor > 0 then ({ s with cursor := s.cursor - 1 } : SessionsModel).ensureVisible else s

def SessionsModel.CursorDown (s : SessionsModel) : SessionsModel :=
  if s.cursor < (s.sessions.length : Int) - 1 then
    ({ s with cursor := s.cursor + 1 } : SessionsModel).ensureVisible
  else s

def SessionsModel.CursorUpN (s : SessionsModel) (n : Int) : SessionsModel :=
  let c := s.cursor - n
  ({ s with cursor := if c < 0 then 0 else c } : SessionsModel).ensureVisible

def SessionsModel.CursorDownN (s : SessionsModel) (n : Int) : SessionsModel :=
  let c := s.cursor + n
  let c1 := if c ≥ s.sessions.length then (s.sessions.length : Int) - 1 else c
  let c2 := if c1 < 0 then 0 else c1
  ({ s with cursor := c2 } : SessionsModel).ensureVisible

/-! ## Operations on a list panel -/

/-- The operations that the controller applies to a list panel.  A key typed in
filter mode reaches `HandleFilterInput` only when it is one printable ASCII
character (`handleFilterInput` in `app.go`); `confirm` is the assignment
`filterMode = false` of the enter key. -/
inductive PanelOp (Item : Type) where
  | update (items : List Item) (timeRange : TimeRange)
  | cursorUp
  | cursorDown
  | cursorUpN (n : Int)
  | cursorDownN (n : Int)
  | filterKey (key : GoString)
  | filterBackspace
  | setFilterMode (enabled : Bool)
  | confirm
  | cycleSort
  | toggleSortDirection

/-- The test of `handleFilterInput` on a key: `len(key) == 1 && key[0] >= 32 &&
key[0] <= 126`. -/
def printableKey (key : GoString) : Bool :=
  match key with
  | [c] => decide (32 ≤ c) && decide (c ≤ 126)
  | _ => false

def ProjectsModel.step (rt : Runtime) (p : ProjectsModel) :
    PanelOp ProjectSummary → ProjectsModel
  | .update items timeRange => p.Update rt items timeRange
  | .cursorUp => p.CursorUp
  | .cursorDown => p.CursorDown
  | .cursorUpN n => p.CursorUpN n
  | .cursorDownN n => p.CursorDownN n
  | .filterKey key => if printableKey key then p.HandleFilterInput rt key else p
  | .filterBackspace => p.HandleFilterBackspace rt
  | .setFilterMode enabled => p.SetFilterMode rt enabled
  | .confirm => { p with filterMode := false }
  | .cycleSort => p.CycleSort rt
  | .toggleSortDirection => p.ToggleSortDirection rt

def SessionsModel.step (rt : Runtime) (s : SessionsModel) :
    PanelOp SessionEntry → SessionsModel
  | .update items timeRange => s.Update rt items timeRange
  | .cursorUp => s.CursorUp
  | .cursorDown => s.CursorDown
  | .cursorUpN n => s.CursorUpN n
  | .cursorDownN n => s.CursorDownN n
  | .filterKey key => if printableKey key then s.HandleFilterInput rt key else s
  | .filterBackspace => s.HandleFilterBackspace rt
  | .setFilterMode enabled => s.SetFilterMode rt enabled
  | .confirm => { s with filterMode := false }
  | .cycleSort => s.CycleSort rt
  | .toggleSortDirection => s.ToggleSortDirection rt

/-- A sequence of operations on the Projects panel, applied left to right. -/
def ProjectsModel.run (rt : Runtime) (p : ProjectsModel) (ops : List (PanelOp ProjectSummary)) :
    ProjectsModel :=
  ops.foldl (ProjectsModel.step rt) p

/-- A sequence of operations on the Sessions panel, applied left to right. -/
def SessionsModel.run (rt : Runtime) (s : SessionsModel) (ops : List (PanelOp SessionEntry)) :
    SessionsModel :=
  ops.foldl (SessionsModel.step rt) s

/-- The cursor is on an item of the list, or at 0 when the list is empty. -/
def cursorInBounds (cursor : Int) (len : Nat) : Prop :=
  (len = 0 → cursor = 0) ∧ (0 < len → 0 ≤ cursor ∧ cursor < len)

/-- The cursor is inside the visible window. -/
def cursorVisible (cursor offset visibleRows : Int) : Prop :=
  offset ≤ cursor ∧ cursor < offset + visibleRows

/-! ## Floating point (`float64`) -/

/-- Rounding of a rational to the nearest integer, ties to the even one. -/
def roundHalfEven (x : ℚ) : ℤ :=
  let f := ⌊x⌋
  let r := x - f
  if r < 1 / 2 then f
  else if 1 / 2 < r then f + 1
  else if f % 2 = 0 then f
  else f + 1

/-- The double nearest to `x`, ties to even: 53 significant bits.  The exponent
range is not modelled; the quotients of two non-zero `int64` values lie within
`2^-63 .. 2^63`, far inside it. -/
def f64Round (x : ℚ) : Float64 :=
  if x = 0 then 0
  else
    let e := Int.log 2 |x|
    let ulp : ℚ := 2 ^ (e - 52)
    roundHalfEven (x / ulp) * ulp

/-- The conversion `float64(n)` of an `int`. -/
def float64OfInt (n : Int) : Float64 := f64Round n

/-- The quotient `a / b` of two doubles, `b` not zero. -/
def f64Div (a b : Float64) : Float64 := f64Round (a / b)

/-! ## The activity heatmap (`internal/ui/activity.go`) -/

def MetricMessages : Int := 0

def MetricSessions : Int := 1

def MetricTools : Int := 2

def MetricTokens : Int := 3

structure ActivityModel where
  data : Option DashboardData
  focused : Bool
  width : Int
  height : Int
  heatmapMetric : Int
  timeRange : TimeRange
  deriving DecidableEq

def NewActivityModel : ActivityModel :=
  { data := none, focused := false, width := 0, height := 0, heatmapMetric := 0, timeRange := 0 }

def ActivityModel.SetFocused (a : ActivityModel) (focused : Bool) : ActivityModel :=
  { a with focused := focused }

/-- The decimal digits of `n`, padded with zeros to `width`. -/
def appendInt (n : Nat) (width : Nat) : GoString :=
  let digits := (Nat.toDigits 10 n).map (fun c => UInt8.ofNat c.toNat)
  List.replicate (width - digits.length) 48 ++ digits

/-- `t.Format("2006-01-02")`, for a `t` in the location `loc`. -/
def Time.formatDate (t : Time) (loc : Location) : GoString :=
  let (year, month, day) := t.civil loc
  (if year < 0 then [45] else []) ++ appendInt year.natAbs 4 ++ [45] ++
    appendInt month.natAbs 2 ++ [45] ++ appendInt day.natAbs 2

/-- `DashboardData.FilterDailyActivity`, with the reading `now` of the clock in
the location `loc`. -/
def DashboardData.FilterDailyActivity (d : DashboardData) (tr : TimeRange) (now : Time)
    (loc : Location) : List Lazyvibe.DailyActivity :=
  if tr = TimeAll then d.DailyActivity
  else
    let startDate := (StartTime tr now loc).formatDate loc
    d.DailyActivity.filter (fun day => !strLess day.Date startDate)

/-- The assignment `activityMap[date] = val`. -/
def activityMapSet (m : List (GoString × Int)) (date : GoString) (val : Int) :
    List (GoString × Int) :=
  (date, val) :: m.filter (fun e => e.1 ≠ date)

/-- The lookup `activityMap[date]`: 0 for a date that is not in the map. -/
def activityMapGet (m : List (GoString × Int)) (date : GoString) : Int :=
  match m.find? (fun e => e.1 = date) with
  | some e => e.2
  | none => 0

/-- The value of a day under the selected metric. -/
def metricValue (metric : Int) (day : DailyActivity) : Int :=
  if metric = MetricMessages then day.MessageCount
  else if metric = MetricSessions then day.SessionCount
  else if metric = MetricTools then day.ToolCallCount
  else if metric = MetricTokens then day.TokenCount
  else 0

/-- `getHeatmapData` on the snapshot `d` that the panel points to. -/
def ActivityModel.getHeatmapData (a : ActivityModel) (d : DashboardData) (now : Time)
    (loc : Location) : List (GoString × Int) × Int :=
  (d.FilterDailyActivity a.timeRange now loc).foldl
    (fun acc day =>
      let val := metricValue a.heatmapMetric day
      (activityMapSet acc.1 day.Date val, if val > acc.2 then val else acc.2))
    ([], 0)

/-- The intensity level of a heatmap cell in `renderHeatmap`, from the count of
the day and the maximum of the metric. -/
def heatmapIntensity (count maxVal : Int) : Int :=
  if maxVal > 0 ∧ count > 0 then
    let ratio := f64Div (float64OfInt count) (float64OfInt maxVal)
    if ratio < 1 / 4 then 1
    else if ratio < 1 / 2 then 2
    else 3
  else 0

/-- The intensity that `renderHeatmap` gives the cell of the day `dateStr`. -/
def ActivityModel.cellIntensity (a : ActivityModel) (d : DashboardData) (now : Time)
    (loc : Location) (dateStr : GoString) : Int :=
  let (activityMap, maxVal) := a.getHeatmapData d now loc
  heatmapIntensity (activityMapGet activityMap dateStr) maxVal

/-! ## The controller: panel focus (`internal/ui/app.go`) -/

def PanelStats : Int := 0

def PanelActivity : Int := 1

def PanelProjects : Int := 2

def PanelSessions : Int := 3

def panelCount : Int := 4

def panelGrid : List (List Int) :=
  [[PanelStats, PanelProjects], [PanelActivity, PanelSessions]]

structure StatsModel where
  data : Option DashboardData
  focused : Bool
  width : Int
  height : Int
  timeRange : TimeRange
  deriving DecidableEq

def NewStatsModel : StatsModel :=
  { data := none, focused := false, width := 0, height := 0, timeRange := 0 }

def StatsModel.SetFocused (s : StatsModel) (focused : Bool) : StatsModel :=
  { s with focused := focused }

structure HeaderModel where
  vmStatus : VMStatus
  paused : Bool
  width : Int
  deriving DecidableEq

def NewHeaderModel : HeaderModel :=
  { vmStatus := { Running := false, PID := none, CPUPercent := none, MemoryMB := none },
    paused := false, width := 0 }

structure HelpModel where
  visible : Bool
  width : Int
  height : Int
  deriving DecidableEq

def NewHelpModel : HelpModel := { visible := false, width := 0, height := 0 }

structure DetailModal where
  visible : Bool
  session : Option SessionEntry
  width : Int
  height : Int
  deriving DecidableEq

def NewDetailModal : DetailModal := { visible := false, session := none, width := 0, height := 0 }

/-- The application model, without the pointer to the data manager and the
tickers. -/
structure Model where
  dashData : Option DashboardData
  width : Int
  height : Int
  focused : Int
  paused : Bool
  showHelp : Bool
  timeRange : TimeRange
  flashMessage : GoString
  flashExpiry : Time
  header : HeaderModel
  stats : StatsModel
  activity : ActivityModel
  projects : ProjectsModel
  sessions : SessionsModel
  help : HelpModel
  detail : DetailModal
  deriving DecidableEq

def NewModel : Model :=
  { dashData := none, width := 0, height := 0, focused := PanelStats, paused := false,
    showHelp := false, timeRange := 0, flashMessage := [], flashExpiry := zeroTime,
    header := NewHeaderModel, stats := NewStatsModel, activity := NewActivityModel,
    projects := NewProjectsModel, sessions := NewSessionsModel, help := NewHelpModel,
    detail := NewDetailModal }

def Model.updateFocusStates (m : Model) : Model :=
  { m with
    stats := m.stats.SetFocused (m.focused = PanelStats)
    activity := m.activity.SetFocused (m.focused = PanelActivity)
    projects := m.projects.SetFocused (m.focused = PanelProjects)
    sessions := m.sessions.SetFocused (m.focused = PanelSessions) }

/-- The inner loop of `getPanelPosition`: the first column of the row that
holds `index`, counting from `c`. -/
def findColumn (index : Int) (c : Int) : List Int → Option Int
  | [] => none
  | panelIdx :: rest => if panelIdx = index then some c else findColumn index (c + 1) rest

/-- The outer loop of `getPanelPosition`, counting the rows from `r`. -/
def findPosition (index : Int) (r : Int) : List (List Int) → Option (Int × Int)
  | [] => none
  | rowPanels :: rest =>
    match findColumn index 0 rowPanels with
    | some c => some (r, c)
    | none => findPosition index (r + 1) rest

def getPanelPosition (index : Int) : Int × Int :=
  match findPosition index 0 panelGrid with
  | some pos => pos
  | none => (0, 0)

/-- The row `panelGrid[row]`. -/
def gridRow (row : Int) : List Int := panelGrid.getD row.toNat []

/-- The entry `panelGrid[row][col]`. -/
def gridAt (row col : Int) : Int := (gridRow row).getD col.toNat 0

def Model.focusPanel (m : Model) (index : Int) : Model :=
  ({ m with focused := index } : Model).updateFocusStates

def Model.navLeft (m : Model) : Model :=
  let (row, col) := getPanelPosition m.focused
  if col > 0 then ({ m with focused := gridAt row (col - 1) } : Model).updateFocusStates
  else m

def Model.navRight (m : Model) : Model :=
  let (row, col) := getPanelPosition m.focused
  if col < ((gridRow row).length : Int) - 1 then
    ({ m with focused := gridAt row (col + 1) } : Model).updateFocusStates
  else m

/-! ## Statements about the cache store -/

/-- The contract of one kind of the cache store whose fetch reads `source` from
the world.  The entry is fresh when no refresh is forced and an entry is stored
whose age, at the reading of the clock that the call takes, is below the TTL.
A call on a fresh entry returns its value, fetches nothing and leaves the
manager as it is; every other call fetches once, returns what it fetched and
stores it with the last reading of the clock that the call takes. -/
def CacheContract {T : Type} (get : Manager → World → Bool → Outcome T)
    (cache : Manager → Option (cacheEntry T)) (ttl : Duration)
    (fetches : World → Nat) (source : World → T) : Prop :=
  ∀ (m : Manager) (w : World) (forceRefresh : Bool),
    let o := get m w forceRefresh
    let fresh := forceRefresh = false ∧
      ∃ e, cache m = some e ∧ w.clock w.clockReads - e.timestamp < ttl
    (fresh → fetches o.world = fetches w ∧ o.manager = m ∧
      ∃ e, cache m = some e ∧ o.value = e.data) ∧
    (¬ fresh → fetches o.world = fetches w + 1 ∧ o.value = source w ∧
      cache o.manager =
        some { data := source w, timestamp := w.clock (o.world.clockReads - 1) })

/-- The contract of the projects kind, whose fetch is the aggregation of what
`GetSessions` returns: a call on a fresh entry returns its value, aggregates
nothing, fetches no sessions and leaves the manager as it is; every other call
aggregates once the sessions that `GetSessions` returned (they are the sessions
entry after the call), returns the aggregate and stores it with the last reading
of the clock that the call takes. -/
def ProjectsCacheContract (sorter : SortSlice) : Prop :=
  ∀ (m : Manager) (w : World) (forceRefresh : Bool),
    let o := Manager.GetProjects sorter m w forceRefresh
    let fresh := forceRefresh = false ∧
      ∃ e, m.projectsCache = some e ∧ w.clock w.clockReads - e.timestamp < 10 * Second
    (fresh → o.world.mapRanges = w.mapRanges ∧ o.world.sessionsFetches = w.sessionsFetches ∧
      o.manager = m ∧ ∃ e, m.projectsCache = some e ∧ o.value = e.data) ∧
    (¬ fresh → o.world.mapRanges = w.mapRanges + 1 ∧
      ∃ sessions stamp, o.manager.sessionsCache = some { data := sessions, timestamp := stamp } ∧
        o.value = AggregateProjects sorter (w.mapOrders w.mapRanges) sessions ∧
        o.manager.projectsCache =
          some { data := o.value, timestamp := w.clock (o.world.clockReads - 1) })

/-- Two calls in a row without forced refresh: after the first call an entry
holds the value it returned, and when the second call finds that entry younger
than the TTL it returns the same value without a fetch, so that the two calls
fetch at most once. -/
def CachedTwice {T : Type} (get : Manager → World → Bool → Outcome T)
    (cache : Manager → Option (cacheEntry T)) (ttl : Duration) (fetches : World → Nat) : Prop :=
  ∀ (m : Manager) (w : World),
    let first := get m w false
    let second := get first.manager first.world false
    ∃ e, cache first.manager = some e ∧ e.data = first.value ∧
      (first.world.clock first.world.clockReads - e.timestamp < ttl →
        second.value = first.value ∧ fetches second.world = fetches first.world ∧
          fetches second.world ≤ fetches w + 1)

/-! ## A concrete runtime -/

/-- `sort.Slice` as it runs on slices of at most 12 elements. -/
def insertionSorter : SortSlice where
  sort := fun less xs => insertionSort less xs
  perm := by
    intro α less xs
    have step : ∀ (x : α) (l : List α), (insertLeft less x l).Perm (x :: l) := by
      intro x l
      induction l with
      | nil => exact List.Perm.refl _
      | cons y ys ih =>
        unfold insertLeft
        split_ifs
        · exact ((List.Perm.cons y ih).trans (List.Perm.swap x y ys))
        · exact List.Perm.refl _
    have loop : ∀ (ys acc : List α),
        (ys.foldl (fun sortedRev x => insertLeft less x sortedRev) acc).Perm (ys ++ acc) := by
      intro ys
      induction ys with
      | nil => intro acc; exact List.Perm.refl _
      | cons y ys ih =>
        intro acc
        refine (ih _).trans ?_
        refine (List.Perm.append_left ys (step y acc)).trans ?_
        exact List.perm_middle
    unfold insertionSort
    refine (List.reverse_perm _).trans ?_
    simpa using loop xs []
  sorted := by
    intro α less xs hsw
    have stepPerm : ∀ (x : α) (l : List α), (insertLeft less x l).Perm (x :: l) := by
      intro x l
      induction l with
      | nil => exact List.Perm.refl _
      | cons y ys ih =>
        unfold insertLeft
        split_ifs
        · exact ((List.Perm.cons y ih).trans (List.Perm.swap x y ys))
        · exact List.Perm.refl _
    have step : ∀ (x : α) (l : List α), l.Pairwise (fun a b => less a b = false) →
        (insertLeft less x l).Pairwise (fun a b => less a b = false) := by
      intro x l
      induction l with
      | nil => intro _; simp [insertLeft]
      | cons y ys ih =>
        intro hp
        have hy := (List.pairwise_cons.mp hp).1
        have hys := (List.pairwise_cons.mp hp).2
        have mem : ∀ z, z ∈ insertLeft less x ys → z = x ∨ z ∈ ys := by
          intro z hz
          simpa using ((stepPerm x ys).mem_iff).mp hz
        unfold insertLeft
        split_ifs with hlt
        · refine List.pairwise_cons.mpr ⟨?_, ih hys⟩
          intro z hz
          rcases mem z hz with rfl | hz
          · exact hsw.asymm _ _ hlt
          · exact hy z hz
        · refine List.pairwise_cons.mpr ⟨?_, hp⟩
          intro z hz
          rcases List.mem_cons.mp hz with rfl | hz
          · simpa using hlt
          · exact hsw.negTrans _ _ _ (by simpa using hlt) (hy z hz)
    have loop : ∀ (ys acc : List α), acc.Pairwise (fun a b => less a b = false) →
        (ys.foldl (fun sortedRev x => insertLeft less x sortedRev) acc).Pairwise
          (fun a b => less a b = false) := by
      intro ys
      induction ys with
      | nil => intro acc h; exact h
      | cons y ys ih => intro acc h; exact ih _ (step y acc h)
    unfold insertionSort
    exact List.pairwise_reverse.mpr (loop xs [] List.Pairwise.nil)

/-- A map `range` that visits the entries in the order of their insertion. -/
def insertionOrder : MapOrder where
  order := fun xs => xs
  perm := fun _ => List.Perm.refl _

/-- A runtime for ASCII data: insertion sort, and no case mapping beyond ASCII. -/
def asciiRuntime : Runtime :=
  { sorter := insertionSorter, unicodeLower := fun s => s, Local := UTC }

/-! ## Sequences of calls on the cache store -/

inductive ManagerOp where
  | getVMStatus (forceRefresh : Bool)
  | getSessions (forceRefresh : Bool)
  | getDailyActivity (forceRefresh : Bool)
  | getProjects (forceRefresh : Bool)
  | getDashboardData (forceRefresh : Bool)
  | refreshAll

/-- One call on the manager, its result dropped. -/
def Manager.apply (sorter : SortSlice) (s : Manager × World) : ManagerOp → Manager × World
  | .getVMStatus f => let o := s.1.GetVMStatus s.2 f; (o.manager, o.world)
  | .getSessions f => let o := s.1.GetSessions s.2 f; (o.manager, o.world)
  | .getDailyActivity f => let o := s.1.GetDailyActivity s.2 f; (o.manager, o.world)
  | .getProjects f => let o := Manager.GetProjects sorter s.1 s.2 f; (o.manager, o.world)
  | .getDashboardData f =>
    let o := Manager.GetDashboardData sorter s.1 s.2 f; (o.manager, o.world)
  | .refreshAll => let o := Manager.RefreshAll sorter s.1 s.2; (o.manager, o.world)

/-- A sequence of calls on the manager, left to right. -/
def Manager.runOps (sorter : SortSlice) (s : Manager × World) (ops : List ManagerOp) :
    Manager × World :=
  ops.foldl (Manager.apply sorter) s

/-- A session of project `/a`. -/
def sessionA (messageCount : Int) (modified : Time) : SessionEntry :=
  { SessionID := ascii "s", ProjectPath := ascii "/a", ProjectName := ascii "a",
    Summary := ascii "work", MessageCount := messageCount, Created := 0,
    Modified := modified, GitBranch := none }

/-- A summary of project `/a`. -/
def projectA (sessionCount totalMessages : Int) (lastActivity : Time) : ProjectSummary :=
  { ProjectName := ascii "a", ProjectPath := ascii "/a", SessionCount := sessionCount,
    TotalMessages := totalMessages, LastActivity := lastActivity }

/-- A world in which the clock advances by one second at each reading and the
session files change between the first and the second parse: no session at
first, one session from then on. -/
def changingWorld : World :=
  { clock := fun n => n * Second
    clockReads := 0
    vmSource := fun _ => { Running := false, PID := none, CPUPercent := none, MemoryMB := none }
    vmFetches := 0
    sessionsSource := fun n => if n = 0 then [] else [sessionA 2 5]
    sessionsFetches := 0
    statsSource := fun _ => []
    statsFetches := 0
    mapOrders := fun _ => insertionOrder
    mapRanges := 0 }

/-! ## Statements about the aggregation -/

/-- The sessions of the project with path `path`. -/
def sessionsOf (sessions : List SessionEntry) (path : GoString) : List SessionEntry :=
  sessions.filter (fun s => s.ProjectPath = path)

/-- The summary `p` aggregates the sessions of `sessions` that have its path:
it counts them, its total is their sum in 64-bit arithmetic (and a value of an
`int` when their counts are), and its last activity is the latest of them. -/
def Summarizes (sessions : List SessionEntry) (p : ProjectSummary) : Prop :=
  p.SessionCount = (sessionsOf sessions p.ProjectPath).length ∧
  wrapInt64 p.TotalMessages =
    wrapInt64 ((sessionsOf sessions p.ProjectPath).map (fun s => s.MessageCount)).sum ∧
  ((∀ s ∈ sessionsOf sessions p.ProjectPath, inInt64 s.MessageCount) →
    inInt64 p.TotalMessages) ∧
  (∃ s ∈ sessionsOf sessions p.ProjectPath, s.Modified = p.LastActivity) ∧
  ∀ s ∈ sessionsOf sessions p.ProjectPath, s.Modified ≤ p.LastActivity

/-- The invariant of the loop of `AggregateProjects` after the sessions `ss`. -/
def AggregateInv (m : ProjectMap) (ss : List SessionEntry) : Prop :=
  (m.map Prod.fst).Nodup ∧
  (∀ k, k ∈ m.map Prod.fst ↔ k ∈ ss.map (fun s => s.ProjectPath)) ∧
  ∀ e ∈ m, e.2.ProjectPath = e.1 ∧ Summarizes ss e.2

/-! ## Sample panels -/

/-- A Projects panel with two projects and the query `api`. -/
def apiPanel : ProjectsModel :=
  { NewProjectsModel with
    allProjects :=
      [{ ProjectName := ascii "API Gateway", ProjectPath := ascii "/srv/api", SessionCount := 1,
         TotalMessages := 4, LastActivity := 10 },
       { ProjectName := ascii "Web", ProjectPath := ascii "/srv/web", SessionCount := 2,
         TotalMessages := 6, LastActivity := 20 }]
    filterQuery := ascii "api" }

/-! ## Statements about the cursor of the list panels -/

/-- The count of a cursor step by `n` is not negative. -/
def PanelOp.nonNegative {Item : Type} : PanelOp Item → Bool
  | .cursorUpN n => decide (0 ≤ n)
  | .cursorDownN n => decide (0 ≤ n)
  | _ => true

/-- The invariant of the Projects panel behind the bound on its cursor: the
cursor is in bounds, the items are the filtered items in some order, and the
query is ASCII text. -/
def ProjectsModel.Inv (rt : Runtime) (p : ProjectsModel) : Prop :=
  cursorInBounds p.cursor p.projects.length ∧
  p.projects.Perm (p.applyFilter rt).projects ∧
  isASCII p.filterQuery = true

/-- The invariant of the Sessions panel behind the bound on its cursor. -/
def SessionsModel.Inv (rt : Runtime) (s : SessionsModel) : Prop :=
  cursorInBounds s.cursor s.sessions.length ∧
  s.sessions.Perm (s.applyFilter rt).sessions ∧
  isASCII s.filterQuery = true

/-- The first `n` of a family of projects. -/
def numberedProjects (n : Nat) : List ProjectSummary :=
  (List.range n).map (fun i =>
    { ProjectName := ascii "p" ++ [UInt8.ofNat (97 + i)], ProjectPath := [UInt8.ofNat (97 + i)],
      SessionCount := 1, TotalMessages := i, LastActivity := i })

/-- The first `n` of a family of sessions. -/
def numberedSessions (n : Nat) : List SessionEntry :=
  (List.range n).map (fun i =>
    { SessionID := [UInt8.ofNat (97 + i)], ProjectPath := ascii "/a", ProjectName := ascii "a",
      Summary := ascii "s" ++ [UInt8.ofNat (97 + i)], MessageCount := i, Created := 0,
      Modified := i, GitBranch := none })

/-- A session at the Projects panel: data arrives, the cursor moves, a filter
is typed and edited, the data shrinks, the sort changes. -/
def sampleProjectOps : List (PanelOp ProjectSummary) :=
  [.update (numberedProjects 4) 0, .cursorDownN 5, .setFilterMode true, .filterKey (ascii "p"),
   .filterKey (ascii "b"), .filterBackspace, .confirm, .cursorDown, .cycleSort,
   .update (numberedProjects 1) 0, .cursorUpN 5, .toggleSortDirection, .setFilterMode false,
   .update [] 0, .cursorUp]

/-- A session at the Sessions panel. -/
def sampleSessionOps : List (PanelOp SessionEntry) :=
  [.update (numberedSessions 4) 0, .cursorDownN 5, .setFilterMode true, .filterKey (ascii "s"),
   .filterKey (ascii "b"), .filterBackspace, .confirm, .cursorDown, .cycleSort,
   .update (numberedSessions 1) 0, .cursorUpN 5, .toggleSortDirection, .setFilterMode false,
   .update [] 0, .cursorUp]

/-- The sequence at which the Projects panel loses its cursor from the window:
twelve projects, two steps down by 5, then a replacement by a single project. -/
def shrinkProjectOps : List (PanelOp ProjectSummary) :=
  [.update (numberedProjects 12) 0, .cursorDownN 5, .cursorDownN 5,
   .update (numberedProjects 1) 0]

/-- The sequence at which the Sessions panel loses its cursor from the window:
seven sessions, one step down by 5, then a replacement by a single session. -/
def shrinkSessionOps : List (PanelOp SessionEntry) :=
  [.update (numberedSessions 7) 0, .cursorDownN 5, .update (numberedSessions 1) 0]

/-! ## A sample snapshot -/

/-- A snapshot with two sessions of `/a`: one modified on 2024-06-01 at noon, one
on 2024-06-05 at noon. -/
def juneSnapshot : DashboardData :=
  { VMStatus := { Running := false, PID := none, CPUPercent := none, MemoryMB := none }
    Sessions := [sessionA 3 (Date 2024 6 1 12 0 0 0), sessionA 4 (Date 2024 6 5 12 0 0 0)]
    DailyActivity := []
    Projects := [] }

/-- A snapshot with one session of `/a`, modified on 2024-03-26 at 10:30 UTC. -/
def marchSnapshot : DashboardData :=
  { VMStatus := { Running := false, PID := none, CPUPercent := none, MemoryMB := none }
    Sessions := [sessionA 4 (Date 2024 3 26 10 30 0 0)]
    DailyActivity := []
    Projects := [] }

/-! ## Statements about the grid of panels -/

/-- The row of the grid that holds the panel. -/
def panelRow (index : Int) : Int := (getPanelPosition index).1

/-- The column of the grid that holds the panel. -/
def panelCol (index : Int) : Int := (getPanelPosition index).2

/-! ## The controller: focus cycling, sizes and the mouse (`internal/ui/app.go`) -/

def Model.focusNext (m : Model) : Model :=
  ({ m with focused := Int.tmod (m.focused + 1) panelCount } : Model).updateFocusStates

def Model.focusPrevious (m : Model) : Model :=
  ({ m with focused := Int.tmod (m.focused - 1 + panelCount) panelCount } :
    Model).updateFocusStates

def Model.cursorDown (m : Model) : Model :=
  if m.focused = PanelProjects then { m with projects := m.projects.CursorDown }
  else if m.focused = PanelSessions then { m with sessions := m.sessions.CursorDown }
  else m

def Model.cursorUp (m : Model) : Model :=
  if m.focused = PanelProjects then { m with projects := m.projects.CursorUp }
  else if m.focused = PanelSessions then { m with sessions := m.sessions.CursorUp }
  else m

def StatsModel.SetSize (s : StatsModel) (width height : Int) : StatsModel :=
  { s with width := width, height := height }

def ActivityModel.SetSize (a : ActivityModel) (width height : Int) : ActivityModel :=
  { a with width := width, height := height }

def HeaderModel.SetWidth (h : HeaderModel) (width : Int) : HeaderModel :=
  { h with width := width }

def HelpModel.SetSize (h : HelpModel) (width height : Int) : HelpModel :=
  { h with width := width, height := height }

def DetailModal.SetSize (d : DetailModal) (width height : Int) : DetailModal :=
  { d with width := width, height := height }

def Model.updateSizes (m : Model) : Model :=
  let headerHeight := 1
  let footerHeight := 1
  let contentHeight := m.height - headerHeight - footerHeight
  let leftWidth := Int.tdiv (m.width * 35) 100
  let rightWidth := m.width - leftWidth
  let topHeight := Int.tdiv (contentHeight * 35) 100
  let bottomHeight := contentHeight - topHeight
  { m with
    header := m.header.SetWidth m.width
    stats := m.stats.SetSize leftWidth topHeight
    activity := m.activity.SetSize leftWidth bottomHeight
    projects := m.projects.SetSize rightWidth topHeight
    sessions := m.sessions.SetSize rightWidth bottomHeight
    help := m.help.SetSize m.width m.height
    detail := m.detail.SetSize m.width m.height }

/-- The case `tea.WindowSizeMsg` of `Model.Update`. -/
def Model.UpdateWindowSize (m : Model) (width height : Int) : Model :=
  ({ m with width := width, height := height } : Model).updateSizes

/-- The buttons of `tea.MouseMsg`. -/
inductive MouseButton where
  | none
  | left
  | middle
  | right
  | wheelUp
  | wheelDown
  | wheelLeft
  | wheelRight
  | backward
  | forward
  deriving DecidableEq

/-- The actions of `tea.MouseMsg`. -/
inductive MouseAction where
  | press
  | release
  | motion
  deriving DecidableEq

/-- The fields of `tea.MouseMsg` that `handleMouse` reads. -/
structure MouseMsg where
  X : Int
  Y : Int
  Action : MouseAction
  Button : MouseButton
  deriving DecidableEq

/-- The first half of `handleMouse`: the panel it takes the pointer at `(x, y)`
to be on, `none` where it returns without one. -/
def Model.targetPanel (m : Model) (x y : Int) : Option Int :=
  let headerHeight := 1
  let leftWidth := Int.tdiv (m.width * 35) 100
  let contentHeight := m.height - headerHeight - 1
  let topHeight := Int.tdiv (contentHeight * 35) 100
  if x < leftWidth then
    if y > headerHeight ∧ y < headerHeight + topHeight then some PanelStats
    else if y ≥ headerHeight + topHeight then some PanelActivity
    else none
  else
    if y > headerHeight ∧ y < headerHeight + topHeight then some PanelProjects
    else if y ≥ headerHeight + topHeight then some PanelSessions
    else none

def Model.handleMouse (m : Model) (msg : MouseMsg) : Model :=
  if m.help.visible || m.detail.visible then m
  else
    match m.targetPanel msg.X msg.Y with
    | none => m
    | some targetPanel =>
      match msg.Button with
      | .left => if msg.Action = .press then m.focusPanel targetPanel else m
      | .wheelUp => if targetPanel = m.focused then m.cursorUp else m
      | .wheelDown => if targetPanel = m.focused then m.cursorDown else m
      | _ => m

/-! ## Statements about the controller -/

/-- A transition that changes the focus: the keys `1` to `4`, `tab`,
`shift+tab`, `h`, `l`, and a press of the left mouse button. -/
inductive FocusOp where
  | jump (panel : Fin 4)
  | tab
  | shiftTab
  | left
  | right
  | click (x y : Int)
  deriving DecidableEq

def Model.focusStep (m : Model) : FocusOp → Model
  | .jump panel => m.focusPanel panel.val
  | .tab => m.focusNext
  | .shiftTab => m.focusPrevious
  | .left => m.navLeft
  | .right => m.navRight
  | .click x y => m.handleMouse { X := x, Y := y, Action := .press, Button := .left }

def Model.focusRun (m : Model) (ops : List FocusOp) : Model := ops.foldl Model.focusStep m

/-- The focused flags of the four panels, in the order of the panel ids. -/
def Model.focusFlags (m : Model) : List Bool :=
  [m.stats.focused, m.activity.focused, m.projects.focused, m.sessions.focused]

/-- Exactly one panel has its focused flag set, and it is the panel `focused`. -/
def Model.FocusInv (m : Model) : Prop :=
  m.focusFlags = (List.range 4).map (fun i => decide (m.focused = (i : Int)))
    ∧ 0 ≤ m.focused ∧ m.focused < 4

instance (m : Model) : Decidable m.FocusInv := by unfold Model.FocusInv; infer_instance

/-- Following the specification: the panel whose rectangle of the layout holds
the cell `(x, y)`.  The left column is `x < width * 35 / 100`; the top row of
panels is the `topHeight = (height - 2) * 35 / 100` rows that start at row 1. -/
def layoutPanel (width height x y : Int) : Int :=
  let leftWidth := Int.tdiv (width * 35) 100
  let topHeight := Int.tdiv ((height - 2) * 35) 100
  if x < leftWidth then
    if 1 ≤ y ∧ y < 1 + topHeight then PanelStats else PanelActivity
  else
    if 1 ≤ y ∧ y < 1 + topHeight then PanelProjects else PanelSessions

/-- A terminal of 80 columns and 24 rows, focus on Stats. -/
def terminal80x24 : Model := (NewModel.UpdateWindowSize 80 24).focusPanel PanelStats

/-- The state of `terminal80x24` after three sessions have been loaded into the
Sessions panel and the focus has moved to it. -/
def terminalWithSessions : Model :=
  ({ terminal80x24 with
    sessions := terminal80x24.sessions.Update asciiRuntime (numberedSessions 3) TimeAll } :
    Model).focusPanel PanelSessions

/-! ## The controller: filter mode (`internal/ui/app.go`) -/

def Model.isFilterMode (m : Model) : Bool :=
  if m.focused = PanelProjects then m.projects.IsFilterMode
  else if m.focused = PanelSessions then m.sessions.IsFilterMode
  else false

def Model.enterFilterMode (rt : Runtime) (m : Model) : Model :=
  if m.focused = PanelProjects then { m with projects := m.projects.SetFilterMode rt true }
  else if m.focused = PanelSessions then { m with sessions := m.sessions.SetFilterMode rt true }
  else m

/-- The function `handleFilterInput`, on the string `msg.String()` of the key. -/
def Model.handleFilterInput (rt : Runtime) (m : Model) (key : GoString) : Model :=
  if key = ascii "esc" then
    if m.focused = PanelProjects then { m with projects := m.projects.SetFilterMode rt false }
    else if m.focused = PanelSessions then
      { m with sessions := m.sessions.SetFilterMode rt false }
    else m
  else if key = ascii "enter" then
    if m.focused = PanelProjects then { m with projects := { m.projects with filterMode := false } }
    else if m.focused = PanelSessions then
      { m with sessions := { m.sessions with filterMode := false } }
    else m
  else if key = ascii "backspace" then
    if m.focused = PanelProjects then { m with projects := m.projects.HandleFilterBackspace rt }
    else if m.focused = PanelSessions then
      { m with sessions := m.sessions.HandleFilterBackspace rt }
    else m
  else if printableKey key then
    if m.focused = PanelProjects then { m with projects := m.projects.HandleFilterInput rt key }
    else if m.focused = PanelSessions then
      { m with sessions := m.sessions.HandleFilterInput rt key }
    else m
  else m

/-- The state of `terminal80x24` after three projects and three sessions have
been loaded, with the focus on `panel`. -/
def loadedTerminal (panel : Int) : Model :=
  ({ terminal80x24 with
    projects := terminal80x24.projects.Update asciiRuntime (numberedProjects 3) TimeAll
    sessions := terminal80x24.sessions.Update asciiRuntime (numberedSessions 3) TimeAll } :
    Model).focusPanel panel

/-- Twelve projects and seven sessions are loaded, in each list panel the
query `p` (or `s`), which every item matches, is typed and confirmed and the
cursor is moved down by ten (or five) rows; then the focus goes to `panel`, and
`/` enters filter mode again. -/
def filteringTerminal (panel : Int) : Model :=
  let m : Model :=
    { terminal80x24 with
      projects :=
        terminal80x24.projects.run asciiRuntime
          [.update (numberedProjects 12) TimeAll, .setFilterMode true, .filterKey (ascii "p"),
            .confirm, .cursorDownN 5, .cursorDownN 5]
      sessions :=
        terminal80x24.sessions.run asciiRuntime
          [.update (numberedSessions 7) TimeAll, .setFilterMode true, .filterKey (ascii "s"),
            .confirm, .cursorDownN 5] }
  (m.focusPanel panel).enterFilterMode asciiRuntime

/-- The state `filteringTerminal` with the Projects panel in filter mode. -/
def projectsFiltering : Model := filteringTerminal PanelProjects

/-- The state `filteringTerminal` with the Sessions panel in filter mode. -/
def sessionsFiltering : Model := filteringTerminal PanelSessions

/-! ## The scrollbar (`internal/ui/styles.go`) -/

/-- The bytes of `▓` (U+2593) in UTF-8. -/
def thumbGlyph : GoString := [0xE2, 0x96, 0x93]

/-- The bytes of `░` (U+2591) in UTF-8. -/
def trackGlyph : GoString := [0xE2, 0x96, 0x91]

/-- One pass of the loop of `RenderScrollbar`, on the string builder `sb`. -/
def scrollbarStep (thumbPos thumbSize height : Int) (sb : GoString) (i : Int) : GoString :=
  let sb := if i ≥ thumbPos ∧ i < thumbPos + thumbSize then sb ++ thumbGlyph else sb ++ trackGlyph
  if i < height - 1 then sb ++ [10] else sb

/-- `RenderScrollbar`; the result `none` is the run-time panic of an integer
division by zero. -/
def RenderScrollbar (total visible offset height : Int) : Option GoString :=
  if total ≤ visible ∨ height ≤ 0 then some []
  else if total = 0 then none
  else
    let thumbSize := Int.tdiv (height * visible) total
    let thumbSize := if thumbSize < 1 then 1 else thumbSize
    let thumbPos := Int.tdiv (height * offset) total
    some (((List.range height.toNat).map (fun i : Nat => (i : Int))).foldl
      (scrollbarStep thumbPos thumbSize height) [])

/-- Following the specification: the cells of the scrollbar from top to bottom,
`true` for a cell of the thumb.  There are `height` cells, and cell `i` belongs
to the thumb when `thumbPos ≤ i < thumbPos + thumbSize`, where `thumbSize =
max(1, height * visible / total)` and `thumbPos = height * offset / total`. -/
def scrollbarCells (total visible offset height : Int) : List Bool :=
  (List.range height.toNat).map (fun i : Nat =>
    decide (height * offset / total ≤ (i : Int) ∧
      (i : Int) < height * offset / total + max 1 (height * visible / total)))

/-- The glyph of a cell. -/
def cellGlyph (thumb : Bool) : GoString := if thumb then thumbGlyph else trackGlyph

/-! ## The dates of the heatmap (`renderHeatmap` in `internal/ui/activity.go`) -/

/-- `t.Weekday()`, for a `t` in the location `loc`, from `Sunday = 0` to
`Saturday = 6`; the first of January 1970 was a Thursday. -/
def Time.Weekday (t : Time) (loc : Location) : Int := (t.wallSec loc / 86400 + 4) % 7

def Sunday : Int := 0

def Monday : Int := 1

def Saturday : Int := 6

/-- The number of rows of weeks that `renderHeatmap` shows. -/
def ActivityModel.weeksToShow (a : ActivityModel) : Int :=
  let availableHeight := a.height - 8
  let weeksToShow := availableHeight - 2
  let weeksToShow := if weeksToShow > 12 then 12 else weeksToShow
  if weeksToShow < 4 then 4 else weeksToShow

/-- The local `endDate` of `renderHeatmap`, with the reading `now` of the clock
in the location `loc`. -/
def heatmapEndDate (now : Time) (loc : Location) : Time :=
  let daysUntilSunday := now.Weekday loc
  now.AddDate loc 0 0 (-daysUntilSunday + 6)

/-- The local `startDate` of `renderHeatmap`. -/
def heatmapStartDate (now : Time) (loc : Location) (weeksToShow : Int) : Time :=
  (heatmapEndDate now loc).AddDate loc 0 0 (-(weeksToShow * 7 - 1))

/-- The local `cellDate` of `renderHeatmap`, for the row `week` and the column
`dayOfWeek`. -/
def heatmapCellDate (now : Time) (loc : Location) (weeksToShow week dayOfWeek : Int) : Time :=
  let dayOffset := week * 7 + dayOfWeek
  (heatmapStartDate now loc weeksToShow).AddDate loc 0 0 dayOffset

/-- The column headers of the heatmap. -/
def dayLabels : List GoString :=
  [ascii "Mo", ascii "Tu", ascii "We", ascii "Th", ascii "Fr", ascii "Sa", ascii "Su"]

/-- The weekday that a column header names. -/
def labelWeekday (label : GoString) : Option Int :=
  if label = ascii "Su" then some 0
  else if label = ascii "Mo" then some 1
  else if label = ascii "Tu" then some 2
  else if label = ascii "We" then some 3
  else if label = ascii "Th" then some 4
  else if label = ascii "Fr" then some 5
  else if label = ascii "Sa" then some 6
  else none

/-- Following the specification: the most recent Saturday on or before `now`,
at the time of day of `now`. -/
def mostRecentSaturday (now : Time) (loc : Location) : Time :=
  now - ((now.Weekday loc + 1) % 7) * nsPerDay

/-- A Projects panel of 12 rows (6 visible) with the cursor at 9 and the
window at the top. -/
def scrolledProjects : ProjectsModel := { NewProjectsModel with height := 12, cursor := 9 }

/-- A Sessions panel of 12 rows (4 visible) with the cursor at 2 and the
window at 7. -/
def scrolledSessions : SessionsModel :=
  { NewSessionsModel with height := 12, cursor := 2, offset := 7 }

/-! ## The sparkline (`internal/ui/sparkline.go`) -/

structure SparklineModel where
  activity : List DailyActivity
  focused : Bool
  width : Int
  height : Int
  deriving DecidableEq

def NewSparklineModel : SparklineModel :=
  { activity := [], focused := false, width := 0, height := 0 }

/-- The colours of the theme that `GradientColor` returns. -/
inductive GradientTier where
  | Success
  | Warning
  | Error
  deriving DecidableEq

/-- `GradientColor`; the constants are the doubles nearest to 0.33 and 0.66. -/
def GradientColor (ratio : Float64) : GradientTier :=
  if ratio < f64Round (33 / 100) then .Success
  else if ratio < f64Round (66 / 100) then .Warning
  else .Error

/-- The runes `blocks` of `blockSparkline`: a blank and the eight block
characters U+2581 to U+2588. -/
def blocks : List Nat := [0x20, 0x2581, 0x2582, 0x2583, 0x2584, 0x2585, 0x2586, 0x2587, 0x2588]

/-- One character of the sparkline with the colour it is rendered in, `none`
for a character that is written without a style. -/
structure SparkCell where
  char : Nat
  color : Option GradientTier
  deriving DecidableEq

/-- The loop of `blockSparkline` that finds `maxVal`, starting from 0. -/
def sparkMaxVal (values : List Int) : Int :=
  values.foldl (fun maxVal v => if v > maxVal then v else maxVal) 0

/-- The body of the rendering loop of `blockSparkline` for the value `v`;
`none` is the run-time panic of `blocks[idx]` with `idx` out of range.  The
product `v * 8` is an `int` and wraps; only the upper side of `idx` is
clamped. -/
def sparkCell (maxVal v : Int) : Option SparkCell :=
  let idx := Int.tdiv (wrapInt64 (v * 8)) maxVal
  let idx := if idx > 8 then 8 else idx
  if idx < 0 then none
  else
    match blocks.get? idx.toNat with
    | none => none
    | some char =>
      let ratio := f64Div (float64OfInt v) (float64OfInt maxVal)
      some { char := char, color := some (GradientColor ratio) }

/-- The rendering loop of `blockSparkline`. -/
def sparkCells (maxVal : Int) : List Int → Option (List SparkCell)
  | [] => some []
  | v :: rest =>
    match sparkCell maxVal v with
    | none => none
    | some cell =>
      match sparkCells maxVal rest with
      | none => none
      | some cells => some (cell :: cells)

/-- `blockSparkline`: the characters of the string it returns, or `none` when
it panics. -/
def SparklineModel.blockSparkline (values : List Int) : Option (List SparkCell) :=
  if values.length = 0 then some []
  else
    let maxVal := sparkMaxVal values
    if maxVal = 0 then some (List.replicate values.length { char := 0x2581, color := none })
    else sparkCells maxVal values

/-- The slice `values` that `View` hands to `blockSparkline`: the message
counts of the last 30 days of the activity. -/
def SparklineModel.viewValues (s : SparklineModel) : List Int :=
  let recent :=
    if s.activity.length > 30 then s.activity.drop (s.activity.length - 30) else s.activity
  recent.map (fun day => day.MessageCount)

/-- Following the specification: the level of the value `v` in a series with
maximum `max`, `min(8, floor(v * 8 / max))`. -/
def sparkLevel (v max : Int) : Int := min 8 (v * 8 / max)

/-! ## Reading the session index (`internal/data/sessions.go`) -/

structure sessionEntryJSON where
  SessionID : GoString
  ProjectPath : GoString
  Summary : GoString
  FirstPrompt : GoString
  MessageCount : Int
  Created : GoString
  Modified : GoString
  GitBranch : Option GoString
  deriving DecidableEq

/-- `SessionEntry.Duration` (`internal/data/models.go`). -/
def SessionEntry.Duration (s : SessionEntry) : Duration := Time.Sub s.Modified s.Created

/-- The library function `time.Parse(layout, value)`, `none` when it returns an
error. -/
structure TimeParser where
  Parse : GoString → GoString → Option Time

/-- The layout `time.RFC3339`. -/
def RFC3339 : GoString := ascii "2006-01-02T15:04:05Z07:00"

/-- The layout `time.RFC3339Nano`. -/
def RFC3339Nano : GoString := ascii "2006-01-02T15:04:05.999999999Z07:00"

/-- `strings.HasSuffix(s, suffix)`. -/
def HasSuffix (s suffix : GoString) : Bool :=
  decide (s.length ≥ suffix.length) && decide (s.drop (s.length - suffix.length) = suffix)

/-- The loop of `parseTimestamp` over the layouts: the first that parses. -/
def firstParse (lib : TimeParser) (ts : GoString) : List GoString → Option Time
  | [] => none
  | format :: rest =>
    match lib.Parse format ts with
    | some t => some t
    | none => firstParse lib ts rest

/-- `parseTimestamp`; the clock is read where the source calls `time.Now()`. -/
def parseTimestamp (lib : TimeParser) (ts : GoString) (w : World) : Time × World :=
  if ts = [] then w.Now
  else
    let ts := if HasSuffix ts (ascii "Z") then ts.take (ts.length - 1) ++ ascii "+00:00" else ts
    let formats :=
      [RFC3339, RFC3339Nano, ascii "2006-01-02T15:04:05", ascii "2006-01-02T15:04:05.000"]
    match firstParse lib ts formats with
    | some t => (t, w)
    | none => w.Now

/-- The library function `filepath.Base` with the separator `/`. -/
def filepathBase (path : GoString) : GoString :=
  if path = [] then ascii "."
  else
    let stripped := (path.reverse.dropWhile (fun c => c = 47)).reverse
    let last := (stripped.reverse.takeWhile (fun c => c ≠ 47)).reverse
    if last = [] then ascii "/" else last

/-- The body of the loop of `ParseSessions` over the entries of an index file:
the session made from one entry. -/
def sessionFromJSON (lib : TimeParser) (entry : sessionEntryJSON) (w : World) :
    SessionEntry × World :=
  let summary := entry.Summary
  let summary := if summary = [] then entry.FirstPrompt else summary
  let summary := if summary.length > 100 then summary.take 100 else summary
  let projectName := filepathBase entry.ProjectPath
  let projectName :=
    if projectName = [] ∨ projectName = ascii "." then ascii "Unknown" else projectName
  let (created, w1) := parseTimestamp lib entry.Created w
  let (modified, w2) := parseTimestamp lib entry.Modified w1
  ({ SessionID := entry.SessionID
     ProjectPath := entry.ProjectPath
     ProjectName := projectName
     Summary := summary
     MessageCount := entry.MessageCount
     Created := created
     Modified := modified
     GitBranch := entry.GitBranch }, w2)

/-! ## Statements about the session index -/

/-- The number that the decimal digits `ds` write, `none` when one of the bytes
is not a digit. -/
def digitsValue (ds : GoString) : Option Int :=
  ds.foldl (fun (acc : Option Int) (c : UInt8) =>
    match acc with
    | none => none
    | some n => if 48 ≤ c ∧ c ≤ 57 then some (n * 10 + ((c.toNat : Int) - 48)) else none)
    (some 0)

/-- A parser that accepts, for the layout `time.RFC3339`, the timestamps of
the form `YYYY-MM-DDTHH:MM:SS+00:00` and rejects everything else; on the
timestamps of the examples it returns what `time.Parse` returns. -/
def utcParser : TimeParser :=
  { Parse := fun layout value =>
      if layout = RFC3339 ∧ value.length = 25 ∧ value.drop 19 = ascii "+00:00" ∧
          (value.drop 4).take 1 = ascii "-" ∧ (value.drop 7).take 1 = ascii "-" ∧
          (value.drop 10).take 1 = ascii "T" ∧ (value.drop 13).take 1 = ascii ":" ∧
          (value.drop 16).take 1 = ascii ":" then
        match digitsValue (value.take 4), digitsValue ((value.drop 5).take 2),
          digitsValue ((value.drop 8).take 2), digitsValue ((value.drop 11).take 2),
          digitsValue ((value.drop 14).take 2), digitsValue ((value.drop 17).take 2) with
        | some y, some mo, some d, some h, some mi, some s =>
          if 1 ≤ mo ∧ mo ≤ 12 ∧ 1 ≤ d ∧ d ≤ 31 ∧ h < 24 ∧ mi < 60 ∧ s < 60 then
            some (Date y mo d h mi s 0)
          else none
        | _, _, _, _, _, _ => none
      else none }

/-- A world whose clock stands at 12 June 2024, 10:30 UTC, and advances by 100
nanoseconds at each reading. -/
def juneWorld : World :=
  { changingWorld with clock := fun n => Date 2024 6 12 10 30 0 0 + 100 * n }

/-- An entry of a session index with the timestamps `created` and `modified`. -/
def entryA (created modified : String) : sessionEntryJSON :=
  { SessionID := ascii "s1", ProjectPath := ascii "/home/u/api", Summary := ascii "fix",
    FirstPrompt := [], MessageCount := 3, Created := ascii created, Modified := ascii modified,
    GitBranch := none }

/-- The instant that `parseTimestamp` reads from the timestamp `ts`, `none`
when `ts` is empty or malformed (no layout parses it) and the clock is read
instead. -/
def timestampValue (lib : TimeParser) (ts : GoString) : Option Time :=
  if ts = [] then none
  else
    firstParse lib
      (if HasSuffix ts (ascii "Z") then ts.take (ts.length - 1) ++ ascii "+00:00" else ts)
      [RFC3339, RFC3339Nano, ascii "2006-01-02T15:04:05", ascii "2006-01-02T15:04:05.000"]

/-- A snapshot with three sessions of two projects, modified on 1 June, 10
June and 11 June 2024, and the projects aggregated from them. -/
def twoProjectSnapshot : DashboardData :=
  { VMStatus := { Running := false, PID := none, CPUPercent := none, MemoryMB := none }
    Sessions :=
      [{ sessionA 2 (Date 2024 6 1 9 0 0 0) with ProjectPath := ascii "/old" },
       sessionA 5 (Date 2024 6 10 9 0 0 0), sessionA 1 (Date 2024 6 11 9 0 0 0)]
    DailyActivity := []
    Projects :=
      AggregateProjects insertionSorter insertionOrder
        [{ sessionA 2 (Date 2024 6 1 9 0 0 0) with ProjectPath := ascii "/old" },
         sessionA 5 (Date 2024 6 10 9 0 0 0), sessionA 1 (Date 2024 6 11 9 0 0 0)] }

/-! ## `sort.Slice` (package `sort`, Go 1.19 and later) -/

/-- The element `data[i]` of a slice; `none` outside the slice. -/
def sliceAt {α : Type} (data : List α) (i : Int) : Option α :=
  if 0 ≤ i then data.get? i.toNat else none

/-- `data.Less(i, j)`, the comparator on the elements at `i` and `j`; `none` is
the panic of an index out of range. -/
def lessSwap.Less {α : Type} (less : α → α → Bool) (data : List α) (i j : Int) : Option Bool :=
  match sliceAt data i, sliceAt data j with
  | some x, some y => some (less x y)
  | _, _ => none

/-- `data.Swap(i, j)`; `none` is the panic of an index out of range. -/
def lessSwap.Swap {α : Type} (data : List α) (i j : Int) : Option (List α) :=
  match sliceAt data i, sliceAt data j with
  | some x, some y => some ((data.set i.toNat y).set j.toNat x)
  | _, _ => none

/-- A loop `for i <= hi && test(i) { i++ }`; the fuel bounds the number of
iterations, and `none` is a panic of the test or the end of the fuel. -/
def scanUp (test : Int → Option Bool) (hi : Int) : Nat → Int → Option Int
  | 0, _ => none
  | fuel + 1, i =>
    if i ≤ hi then
      match test i with
      | none => none
      | some true => scanUp test hi fuel (i + 1)
      | some false => some i
    else some i

/-- A loop `for lo <= j && test(j) { j-- }`. -/
def scanDown (test : Int → Option Bool) (lo : Int) : Nat → Int → Option Int
  | 0, _ => none
  | fuel + 1, j =>
    if lo ≤ j then
      match test j with
      | none => none
      | some true => scanDown test lo fuel (j - 1)
      | some false => some j
    else some j

/-- The negation of a test that can panic. -/
def notTest (t : Option Bool) : Option Bool := t.map (fun r => !r)

/-- A loop `for j := start; j > lo; j-- { if !data.Less(j, j-1) { break }; data.Swap(j, j-1) }`,
also written `for j := start; j > lo && data.Less(j, j-1); j--`: the element at
`start` moves left past the elements it is less than. -/
def shiftLeft {α : Type} (less : α → α → Bool) (lo : Int) : Nat → List α → Int → Option (List α)
  | 0, _, _ => none
  | fuel + 1, data, j =>
    if j > lo then
      match lessSwap.Less less data j (j - 1) with
      | none => none
      | some false => some data
      | some true =>
        match lessSwap.Swap data j (j - 1) with
        | none => none
        | some data1 => shiftLeft less lo fuel data1 (j - 1)
    else some data

/-- A loop `for j := start; j < hi; j++ { if !data.Less(j, j-1) { break }; data.Swap(j, j-1) }`:
the element at `start - 1` moves right past the elements that are less than it. -/
def shiftRight {α : Type} (less : α → α → Bool) (hi : Int) : Nat → List α → Int → Option (List α)
  | 0, _, _ => none
  | fuel + 1, data, j =>
    if j < hi then
      match lessSwap.Less less data j (j - 1) with
      | none => none
      | some false => some data
      | some true =>
        match lessSwap.Swap data j (j - 1) with
        | none => none
        | some data1 => shiftRight less hi fuel data1 (j + 1)
    else some data

/-- The outer loop of `insertionSort_func`, from `i` on. -/
def insertionSort_func.loop {α : Type} (less : α → α → Bool) (a b : Int) :
    Nat → List α → Int → Option (List α)
  | 0, _, _ => none
  | fuel + 1, data, i =>
    if i < b then
      match shiftLeft less a (i - a + 1).toNat data i with
      | none => none
      | some data1 => insertionSort_func.loop less a b fuel data1 (i + 1)
    else some data

/-- `insertionSort_func`: sorts `data[a:b]` by insertion. -/
def insertionSort_func {α : Type} (less : α → α → Bool) (data : List α) (a b : Int) :
    Option (List α) :=
  insertionSort_func.loop less a b (b - a + 1).toNat data (a + 1)

/-- `siftDown_func`: the loop from `root` on. -/
def siftDown_func.loop {α : Type} (less : α → α → Bool) (hi first : Int) :
    Nat → List α → Int → Option (List α)
  | 0, _, _ => none
  | fuel + 1, data, root =>
    let child := 2 * root + 1
    if child ≥ hi then some data
    else
      match (if child + 1 < hi then lessSwap.Less less data (first + child) (first + child + 1)
        else some false) with
      | none => none
      | some up =>
        let child := if up then child + 1 else child
        match lessSwap.Less less data (first + root) (first + child) with
        | none => none
        | some false => some data
        | some true =>
          match lessSwap.Swap data (first + root) (first + child) with
          | none => none
          | some data1 => siftDown_func.loop less hi first fuel data1 child

/-- `siftDown_func`: restores the heap property on `data[lo:hi]`, offset by
`first`. -/
def siftDown_func {α : Type} (less : α → α → Bool) (data : List α) (lo hi first : Int) :
    Option (List α) :=
  siftDown_func.loop less hi first (hi + 1).toNat data lo

/-- The first loop of `heapSort_func`: `for i := (hi - 1) / 2; i >= 0; i--`. -/
def heapSort_func.build {α : Type} (less : α → α → Bool) (hi first : Int) :
    Nat → List α → Int → Option (List α)
  | 0, _, _ => none
  | fuel + 1, data, i =>
    if i ≥ 0 then
      match siftDown_func less data i hi first with
      | none => none
      | some data1 => heapSort_func.build less hi first fuel data1 (i - 1)
    else some data

/-- The second loop of `heapSort_func`: `for i := hi - 1; i >= 0; i--`. -/
def heapSort_func.pop {α : Type} (less : α → α → Bool) (lo first : Int) :
    Nat → List α → Int → Option (List α)
  | 0, _, _ => none
  | fuel + 1, data, i =>
    if i ≥ 0 then
      match lessSwap.Swap data first (first + i) with
      | none => none
      | some data1 =>
        match siftDown_func less data1 lo i first with
        | none => none
        | some data2 => heapSort_func.pop less lo first fuel data2 (i - 1)
    else some data

/-- `heapSort_func`. -/
def heapSort_func {α : Type} (less : α → α → Bool) (data : List α) (a b : Int) :
    Option (List α) :=
  let first := a
  let lo := 0
  let hi := b - a
  match heapSort_func.build less hi first (hi + 2).toNat data (Int.tdiv (hi - 1) 2) with
  | none => none
  | some data1 => heapSort_func.pop less lo first (hi + 2).toNat data1 (hi - 1)

/-- The loop of `partition_func` after the first exchange. -/
def partition_func.loop {α : Type} (less : α → α → Bool) (a : Int) :
    Nat → List α → Int → Int → Option (List α × Int)
  | 0, _, _, _ => none
  | fuel + 1, data, i, j =>
    match scanUp (fun i => lessSwap.Less less data i a) j (j - i + 2).toNat i with
    | none => none
    | some i =>
      match scanDown (fun j => notTest (lessSwap.Less less data j a)) i (j - i + 2).toNat j with
      | none => none
      | some j =>
        if i > j then some (data, j)
        else
          match lessSwap.Swap data i j with
          | none => none
          | some data1 => partition_func.loop less a fuel data1 (i + 1) (j - 1)

/-- `partition_func`: the new index of the pivot and whether the slice was
partitioned already. -/
def partition_func {α : Type} (less : α → α → Bool) (data : List α) (a b pivot : Int) :
    Option (List α × Int × Bool) :=
  match lessSwap.Swap data a pivot with
  | none => none
  | some data =>
    let i := a + 1
    let j := b - 1
    match scanUp (fun i => lessSwap.Less less data i a) j (j - i + 2).toNat i with
    | none => none
    | some i =>
      match scanDown (fun j => notTest (lessSwap.Less less data j a)) i (j - i + 2).toNat j with
      | none => none
      | some j =>
        if i > j then
          match lessSwap.Swap data j a with
          | none => none
          | some data => some (data, j, true)
        else
          match lessSwap.Swap data i j with
          | none => none
          | some data =>
            match partition_func.loop less a (b - a + 1).toNat data (i + 1) (j - 1) with
            | none => none
            | some (data, j) =>
              match lessSwap.Swap data j a with
              | none => none
              | some data => some (data, j, false)

/-- The loop of `partitionEqual_func`. -/
def partitionEqual_func.loop {α : Type} (less : α → α → Bool) (a : Int) :
    Nat → List α → Int → Int → Option (List α × Int)
  | 0, _, _, _ => none
  | fuel + 1, data, i, j =>
    match scanUp (fun i => notTest (lessSwap.Less less data a i)) j (j - i + 2).toNat i with
    | none => none
    | some i =>
      match scanDown (fun j => lessSwap.Less less data a j) i (j - i + 2).toNat j with
      | none => none
      | some j =>
        if i > j then some (data, i)
        else
          match lessSwap.Swap data i j with
          | none => none
          | some data1 => partitionEqual_func.loop less a fuel data1 (i + 1) (j - 1)

/-- `partitionEqual_func`. -/
def partitionEqual_func {α : Type} (less : α → α → Bool) (data : List α) (a b pivot : Int) :
    Option (List α × Int) :=
  match lessSwap.Swap data a pivot with
  | none => none
  | some data => partitionEqual_func.loop less a (b - a + 1).toNat data (a + 1) (b - 1)

/-- The loop `for j := 0; j < maxSteps; j++` of `partialInsertionSort_func`,
with the number of steps that are left and the index `i`. -/
def partialInsertionSort_func.loop {α : Type} (less : α → α → Bool) (a b : Int) :
    Nat → List α → Int → Option (List α × Bool)
  | 0, data, _ => some (data, false)
  | steps + 1, data, i =>
    match scanUp (fun i => notTest (lessSwap.Less less data i (i - 1))) (b - 1) (b - i + 1).toNat
      i with
    | none => none
    | some i =>
      if i = b then some (data, true)
      else if b - a < 50 then some (data, false)
      else
        match lessSwap.Swap data i (i - 1) with
        | none => none
        | some data =>
          match (if i - a ≥ 2 then shiftLeft less 0 i.toNat data (i - 1) else some data) with
          | none => none
          | some data =>
            match (if b - i ≥ 2 then shiftRight less b (b - i).toNat data (i + 1)
              else some data) with
            | none => none
            | some data => partialInsertionSort_func.loop less a b steps data i

/-- `partialInsertionSort_func`: whether the slice is sorted at the end. -/
def partialInsertionSort_func {α : Type} (less : α → α → Bool) (data : List α) (a b : Int) :
    Option (List α × Bool) :=
  partialInsertionSort_func.loop less a b 5 data (a + 1)

/-- `bits.Len(uint(x))` for an `x` that is not negative. -/
def bitsLen (x : Int) : Int := (Nat.size x.toNat : Int)

/-- `nextPowerOfTwo`. -/
def nextPowerOfTwo (length : Int) : Nat := (1 <<< (bitsLen length).toNat) % 2 ^ 64

/-- `xorshift.Next`, on the 64-bit state `r`: the new state, which is the
result.  The statements about `Slice` use of this generator only that
`breakPatterns_func` exchanges elements inside `data[a:b]`; they hold whatever
the shifts are. -/
def xorshift.Next (r : Nat) : Nat :=
  let r := r ^^^ ((r <<< 13) % 2 ^ 64)
  let r := r ^^^ (r >>> 7)
  r ^^^ ((r <<< 17) % 2 ^ 64)

/-- The loop `for i := 0; i < 3; i++` of `breakPatterns_func`. -/
def breakPatterns_func.loop {α : Type} (a length idx : Int) (modulus : Nat) :
    Nat → List α → Nat → Int → Option (List α)
  | 0, data, _, _ => some data
  | steps + 1, data, random, i =>
    let random := xorshift.Next random
    let other : Int := ((random &&& ((modulus + 2 ^ 64 - 1) % 2 ^ 64) : Nat) : Int)
    let other := if other ≥ length then other - length else other
    match lessSwap.Swap data (idx - 1 + i) (a + other) with
    | none => none
    | some data => breakPatterns_func.loop a length idx modulus steps data random (i + 1)

/-- `breakPatterns_func`. -/
def breakPatterns_func {α : Type} (data : List α) (a b : Int) : Option (List α) :=
  let length := b - a
  if length ≥ 8 then
    let random := length.toNat
    let modulus := nextPowerOfTwo length
    let idx := a + Int.tdiv length 4 * 2 - 1
    breakPatterns_func.loop a length idx modulus 3 data random 0
  else some data

/-- The hints of `choosePivot_func`. -/
inductive sortedHint where
  | unknownHint
  | increasingHint
  | decreasingHint
  deriving DecidableEq

/-- `order2_func`, with the counter `swaps`. -/
def order2_func {α : Type} (less : α → α → Bool) (data : List α) (a b : Int) (swaps : Int) :
    Option (Int × Int × Int) :=
  match lessSwap.Less less data b a with
  | none => none
  | some true => some (b, a, swaps + 1)
  | some false => some (a, b, swaps)

/-- `median_func`, with the counter `swaps`. -/
def median_func {α : Type} (less : α → α → Bool) (data : List α) (a b c : Int) (swaps : Int) :
    Option (Int × Int) :=
  match order2_func less data a b swaps with
  | none => none
  | some (a, b, swaps) =>
    match order2_func less data b c swaps with
    | none => none
    | some (b, _, swaps) =>
      match order2_func less data a b swaps with
      | none => none
      | some (_, b, swaps) => some (b, swaps)

/-- `medianAdjacent_func`. -/
def medianAdjacent_func {α : Type} (less : α → α → Bool) (data : List α) (a : Int)
    (swaps : Int) : Option (Int × Int) :=
  median_func less data (a - 1) a (a + 1) swaps

/-- `choosePivot_func`. -/
def choosePivot_func {α : Type} (less : α → α → Bool) (data : List α) (a b : Int) :
    Option (Int × sortedHint) :=
  let l := b - a
  let swaps : Int := 0
  let i := a + Int.tdiv l 4 * 1
  let j := a + Int.tdiv l 4 * 2
  let k := a + Int.tdiv l 4 * 3
  let chosen : Option (Int × Int) :=
    if l ≥ 8 then
      let ninther : Option (Int × Int × Int × Int) :=
        if l ≥ 50 then
          match medianAdjacent_func less data i swaps with
          | none => none
          | some (i, swaps) =>
            match medianAdjacent_func less data j swaps with
            | none => none
            | some (j, swaps) =>
              match medianAdjacent_func less data k swaps with
              | none => none
              | some (k, swaps) => some (i, j, k, swaps)
        else some (i, j, k, swaps)
      match ninther with
      | none => none
      | some (i, j, k, swaps) => median_func less data i j k swaps
    else some (j, swaps)
  match chosen with
  | none => none
  | some (j, swaps) =>
    if swaps = 0 then some (j, .increasingHint)
    else if swaps = 4 * 3 then some (j, .decreasingHint)
    else some (j, .unknownHint)

/-- The loop of `reverseRange_func`. -/
def reverseRange_func.loop {α : Type} : Nat → List α → Int → Int → Option (List α)
  | 0, _, _, _ => none
  | fuel + 1, data, i, j =>
    if i < j then
      match lessSwap.Swap data i j with
      | none => none
      | some data => reverseRange_func.loop fuel data (i + 1) (j - 1)
    else some data

/-- `reverseRange_func`. -/
def reverseRange_func {α : Type} (data : List α) (a b : Int) : Option (List α) :=
  reverseRange_func.loop (b - a + 1).toNat data a (b - 1)

/-- `pdqsort_func`: its loop with the local variables `wasBalanced` and
`wasPartitioned`.  The fuel bounds the depth of the iterations and of the
recursive calls, which work on ever shorter parts of the slice. -/
def pdqsort_func.loop {α : Type} (less : α → α → Bool) :
    Nat → List α → Int → Int → Int → Bool → Bool → Option (List α)
  | 0, _, _, _, _, _, _ => none
  | fuel + 1, data, a, b, limit, wasBalanced, wasPartitioned =>
    let length := b - a
    if length ≤ 12 then insertionSort_func less data a b
    else if limit = 0 then heapSort_func less data a b
    else
      match (if !wasBalanced then
          (breakPatterns_func data a b).map (fun data => (data, limit - 1))
        else some (data, limit)) with
      | none => none
      | some (data, limit) =>
        match choosePivot_func less data a b with
        | none => none
        | some (pivot, hint) =>
          match (if hint = .decreasingHint then
              (reverseRange_func data a b).map
                (fun data => (data, (b - 1) - (pivot - a), sortedHint.increasingHint))
            else some (data, pivot, hint)) with
          | none => none
          | some (data, pivot, hint) =>
            match (if wasBalanced && wasPartitioned && hint = .increasingHint then
                partialInsertionSort_func less data a b
              else some (data, false)) with
            | none => none
            | some (data, true) => some data
            | some (data, false) =>
              match (if a > 0 then notTest (lessSwap.Less less data (a - 1) pivot)
                else some false) with
              | none => none
              | some true =>
                match partitionEqual_func less data a b pivot with
                | none => none
                | some (data, mid) =>
                  pdqsort_func.loop less fuel data mid b limit wasBalanced wasPartitioned
              | some false =>
                match partition_func less data a b pivot with
                | none => none
                | some (data, mid, alreadyPartitioned) =>
                  let leftLen := mid - a
                  let rightLen := b - mid
                  let balanceThreshold := Int.tdiv length 8
                  if leftLen < rightLen then
                    match pdqsort_func.loop less fuel data a mid limit true true with
                    | none => none
                    | some data =>
                      pdqsort_func.loop less fuel data (mid + 1) b limit
                        (decide (leftLen ≥ balanceThreshold)) alreadyPartitioned
                  else
                    match pdqsort_func.loop less fuel data (mid + 1) b limit true true with
                    | none => none
                    | some data =>
                      pdqsort_func.loop less fuel data a mid limit
                        (decide (rightLen ≥ balanceThreshold)) alreadyPartitioned

/-- `pdqsort_func`: sorts `data[a:b]`. -/
def pdqsort_func {α : Type} (less : α → α → Bool) (data : List α) (a b limit : Int) :
    Option (List α) :=
  pdqsort_func.loop less (b - a + 1).toNat data a b limit true true

/-- `sort.Slice(x, less)`, for the slice with the elements `data` and the
comparator `less` on elements; `none` is a panic. -/
def Slice {α : Type} (less : α → α → Bool) (data : List α) : Option (List α) :=
  let length : Int := data.length
  let limit := bitsLen length
  pdqsort_func less data 0 length limit

/-! ## Statements about `sort.Slice` -/

/-- The comparator `less` decides the total preorder `le`: an answer `true` for
`x` and `y` puts `x` before or beside `y`, an answer `false` puts `y` before or
beside `x`.  A strict weak ordering decides "not after"; its negation, which
the panels pass for the descending direction, decides "not before". -/
structure Decides {α : Type} (less : α → α → Bool) (le : α → α → Prop) : Prop where
  trans : ∀ x y z, le x y → le y z → le x z
  of_true : ∀ x y, less x y = true → le x y
  of_false : ∀ x y, less x y = false → le y x

/-- The index `i` is inside the slice. -/
def InSlice {α : Type} (data : List α) (i : Int) : Prop := 0 ≤ i ∧ i < data.length

/-- The element at `i` is before or beside the element at `j`. -/
def LeAt {α : Type} (le : α → α → Prop) (data : List α) (i j : Int) : Prop :=
  ∀ x y, sliceAt data i = some x → sliceAt data j = some y → le x y

/-- The cut before the index `k` is in order: every element on its left is
before or beside every element on its right. -/
def CutOK {α : Type} (le : α → α → Prop) (data : List α) (k : Int) : Prop :=
  ∀ i j, i < k → k ≤ j → LeAt le data i j

/-- The part `data[a:b]` is in order. -/
def SortedOn {α : Type} (le : α → α → Prop) (data : List α) (a b : Int) : Prop :=
  ∀ i j, a ≤ i → i < j → j < b → LeAt le data i j

/-- Every element of `data[a:b]` has the property `P`. -/
def AllIn {α : Type} (data : List α) (a b : Int) (P : α → Prop) : Prop :=
  ∀ k x, a ≤ k → k < b → sliceAt data k = some x → P x

/-- The slice `data1` is a rearrangement of `data` that keeps every cut in
order that was in order and lies outside `data[a:b]`. -/
def Frame {α : Type} (le : α → α → Prop) (a b : Int) (data data1 : List α) : Prop :=
  data1.length = data.length ∧ data1.Perm data ∧
  ∀ k, (k ≤ a ∨ b ≤ k) → CutOK le data k → CutOK le data1 k

/-- The slice `data1` is `data` with the elements of `data[a:b]` rearranged. -/
def Inside {α : Type} (a b : Int) (data data1 : List α) : Prop :=
  data1.length = data.length ∧ data1.Perm data ∧
  (∀ k, (k < a ∨ b ≤ k) → sliceAt data1 k = sliceAt data k) ∧
  ∀ P : α → Prop, AllIn data a b P → AllIn data1 a b P

/-- In the heap of `n` elements that starts at the index `first`, every node
from the node `lo` on is not before its children. -/
def HeapOK {α : Type} (le : α → α → Prop) (d : List α) (first lo n : Int) : Prop :=
  ∀ p c, lo ≤ p → (c = 2 * p + 1 ∨ c = 2 * p + 2) → c < n → LeAt le d (first + c) (first + p)

/-! ## The runtime that runs the library's sort -/

/-- The `sort.Slice` of the runtime is the library's code: on every slice and
with every comparator it returns what `Slice` computes. -/
def SortSlice.IsSlice (sorter : SortSlice) : Prop :=
  ∀ (α : Type) (less : α → α → Bool) (xs : List α), Slice less xs = some (sorter.sort less xs)

/-- The sorter that runs `Slice`.  The two laws of a sorter are arguments; they
are proved of `Slice` as `Slice_getD_perm` and `Slice_getD_sorted`. -/
def sliceSorter
    (hperm : ∀ (α : Type) (less : α → α → Bool) (xs : List α),
      ((Slice less xs).getD xs).Perm xs)
    (hsorted : ∀ (α : Type) (less : α → α → Bool) (xs : List α), StrictWeak less →
      ((Slice less xs).getD xs).Pairwise (fun a b => less b a = false)) : SortSlice where
  sort := fun less xs => (Slice less xs).getD xs
  perm := fun {α} less xs => hperm α less xs
  sorted := fun {α} less xs h => hsorted α less xs h

/-- A runtime for ASCII data whose `sort.Slice` is the library's code. -/
def goRuntime
    (hperm : ∀ (α : Type) (less : α → α → Bool) (xs : List α),
      ((Slice less xs).getD xs).Perm xs)
    (hsorted : ∀ (α : Type) (less : α → α → Bool) (xs : List α), StrictWeak less →
      ((Slice less xs).getD xs).Pairwise (fun a b => less b a = false)) : Runtime :=
  { sorter := sliceSorter hperm hsorted, unicodeLower := fun s => s, Local := UTC }

/-- A Projects panel of fourteen projects, in the order of their paths, with the
sort of a new panel: by activity, descending. -/
def longProjects : ProjectsModel :=
  { NewProjectsModel with projects := numberedProjects 14, allProjects := numberedProjects 14 }

/-- A Sessions panel of twenty sessions, which is as many as the panel keeps,
with the sort of a new panel: by time, descending. -/
def longSessions : SessionsModel :=
  { NewSessionsModel with sessions := numberedSessions 20, allSessions := numberedSessions 20 }

/-- The terminal of 80 columns and 24 rows with the panels `longProjects` and
`longSessions`, in each of which the query `x`, which no item matches, has been
typed; the focus is on `panel`, which is in filter mode. -/
def longTerminal (panel : Int) : Model :=
  ({ terminal80x24 with
    projects := { longProjects with filterQuery := ascii "x", filterMode := true, projects := [] }
    sessions := { longSessions with filterQuery := ascii "x", filterMode := true, sessions := [] } } :
    Model).focusPanel panel

/-! ## Statements about the sort of the list panels -/

/-- A sorter that orders the slice by a comparator that is total and
transitive ("not after"), such as the negation of a strict weak ordering that
the panels pass for the descending direction.  This is outside the contract
of `sort.Slice`; the code of `sort.Slice` has the property
(`isSlice_ordersTotal`). -/
def SortSlice.OrdersTotal (sorter : SortSlice) : Prop :=
  ∀ (α : Type) (less : α → α → Bool) (xs : List α),
    (∀ a b, less a b = true ∨ less b a = true) →
    (∀ a b c, less a b = true → less b c = true → less a c = true) →
    (sorter.sort less xs).Pairwise (fun a b => less a b = true)

/-- The key of `a` is at most the key of `b`, for the sort field of the
Projects panel. -/
def ProjectsModel.keyLE (p : ProjectsModel) (a b : ProjectSummary) : Prop :=
  if p.sortField = ProjectSortByName then strLess b.ProjectName a.ProjectName = false
  else if p.sortField = ProjectSortBySessions then a.SessionCount ≤ b.SessionCount
  else if p.sortField = ProjectSortByMessages then a.TotalMessages ≤ b.TotalMessages
  else if p.sortField = ProjectSortByActivity then a.LastActivity ≤ b.LastActivity
  else True

/-- The key of `a` is at most the key of `b`, for the sort field of the
Sessions panel. -/
def SessionsModel.keyLE (s : SessionsModel) (a b : SessionEntry) : Prop :=
  if s.sortField = SessionSortByTime then a.Modified ≤ b.Modified
  else if s.sortField = SessionSortByMessages then a.MessageCount ≤ b.MessageCount
  else if s.sortField = SessionSortByProject then strLess b.ProjectName a.ProjectName = false
  else True

/-- The items of the Projects panel are in the order of the current sort. -/
def ProjectsModel.Ordered (p : ProjectsModel) : Prop :=
  if p.sortDesc then p.projects.Pairwise (fun a b => p.keyLE b a)
  else p.projects.Pairwise (fun a b => p.keyLE a b)

/-- The items of the Sessions panel are in the order of the current sort. -/
def SessionsModel.Ordered (s : SessionsModel) : Prop :=
  if s.sortDesc then s.sessions.Pairwise (fun a b => s.keyLE b a)
  else s.sessions.Pairwise (fun a b => s.keyLE a b)

/-! ## The controller: messages, commands and keys (`internal/ui/app.go`) -/

/-- The commands that the controller returns (`nil` is `none`). -/
inductive Cmd where
  | Quit
  | loadData
  | vmTickCmd
  | sessionsTickCmd
  deriving DecidableEq

/-- The messages that `Update` distinguishes; a key is given by `msg.String()`. -/
inductive Msg where
  | KeyMsg (key : GoString)
  | MouseMsg (msg : MouseMsg)
  | WindowSizeMsg (width height : Int)
  | DashboardData (d : DashboardData)
  | vmTickMsg
  | sessionsTickMsg
  | other
  deriving DecidableEq

/-- How a run of the external program `pbcopy` ends: at `StdinPipe`, at `Start`,
at `Wait`, or well. -/
inductive PbcopyOutcome where
  | pipeFailed
  | startFailed
  | waitFailed
  | ok
  deriving DecidableEq

/-- The controller with what it shares with the outside: the model, the data
manager behind its pointer, the world the manager reads, the package variable
`CurrentTheme`, and the runs of `pbcopy` with what was written to them. -/
structure App where
  model : Model
  dataManager : Manager
  world : World
  CurrentTheme : GoString
  pbcopy : Nat → PbcopyOutcome
  pbcopyRuns : Nat
  copied : List GoString

def HeaderModel.Update (h : HeaderModel) (vmStatus : VMStatus) (paused : Bool) : HeaderModel :=
  { h with vmStatus := vmStatus, paused := paused }

def StatsModel.Update (s : StatsModel) (d : DashboardData) (timeRange : TimeRange) :
    StatsModel :=
  { s with data := some d, timeRange := timeRange }

def ActivityModel.Update (a : ActivityModel) (d : DashboardData) (timeRange : TimeRange) :
    ActivityModel :=
  { a with data := some d, timeRange := timeRange }

def ActivityModel.CycleMetric (a : ActivityModel) : ActivityModel :=
  { a with heatmapMetric := Int.tmod (a.heatmapMetric + 1) 4 }

def HelpModel.Toggle (h : HelpModel) : HelpModel := { h with visible := !h.visible }

def HelpModel.Hide (h : HelpModel) : HelpModel := { h with visible := false }

def DetailModal.Show (d : DetailModal) (session : SessionEntry) : DetailModal :=
  { d with session := some session, visible := true }

def DetailModal.Hide (d : DetailModal) : DetailModal :=
  { d with visible := false, session := none }

/-- `SessionsModel.GetSelected`: `some none` is the result `nil`, and `none`
the run-time panic of the index expression on a negative cursor. -/
def SessionsModel.GetSelected (s : SessionsModel) : Option (Option SessionEntry) :=
  if s.sessions.length = 0 ∨ s.cursor ≥ s.sessions.length then some none
  else if s.cursor < 0 then none
  else some (s.sessions.get? s.cursor.toNat)

def Model.cursorUp5 (m : Model) : Model :=
  if m.focused = PanelProjects then { m with projects := m.projects.CursorUpN 5 }
  else if m.focused = PanelSessions then { m with sessions := m.sessions.CursorUpN 5 }
  else m

def Model.cursorDown5 (m : Model) : Model :=
  if m.focused = PanelProjects then { m with projects := m.projects.CursorDownN 5 }
  else if m.focused = PanelSessions then { m with sessions := m.sessions.CursorDownN 5 }
  else m

def Model.cycleSort (rt : Runtime) (m : Model) : Model :=
  if m.focused = PanelProjects then { m with projects := m.projects.CycleSort rt }
  else if m.focused = PanelSessions then { m with sessions := m.sessions.CycleSort rt }
  else m

def Model.toggleSortDirection (rt : Runtime) (m : Model) : Model :=
  if m.focused = PanelProjects then { m with projects := m.projects.ToggleSortDirection rt }
  else if m.focused = PanelSessions then { m with sessions := m.sessions.ToggleSortDirection rt }
  else m

/-- `ThemeNames` of `internal/config/themes.go`. -/
def ThemeNames : List GoString :=
  [ascii "default", ascii "dracula", ascii "nord", ascii "gruvbox", ascii "catppuccin"]

/-- The loop of `CycleTheme` from the index `i` on: the name after the first
that is the current theme. -/
def cycleThemeFrom (current : GoString) (i : Nat) : List GoString → Option GoString
  | [] => none
  | name :: rest =>
    if name = current then some (ThemeNames.getD ((i + 1) % ThemeNames.length) [])
    else cycleThemeFrom current (i + 1) rest

/-- `CycleTheme`: the new value of `CurrentTheme`, which `ApplyTheme` sets
together with the colours and styles that it determines. -/
def CycleTheme (current : GoString) : GoString :=
  match cycleThemeFrom current 0 ThemeNames with
  | some next => next
  | none => ascii "default"

/-- `DashboardData.FilterProjects` with its reading of the clock: `StartTime`
is called, and reads the clock, only when the range is not `TimeAll`. -/
def World.FilterProjects (w : World) (loc : Location) (d : DashboardData) (tr : TimeRange) :
    List ProjectSummary × World :=
  if tr = TimeAll then (d.Projects, w)
  else
    let (now, w1) := w.Now
    (d.FilterProjects tr now loc, w1)

/-- `DashboardData.FilterSessions` with its reading of the clock. -/
def World.FilterSessions (w : World) (loc : Location) (d : DashboardData) (tr : TimeRange) :
    List SessionEntry × World :=
  if tr = TimeAll then (d.Sessions, w)
  else
    let (now, w1) := w.Now
    (d.FilterSessions tr now loc, w1)

def App.updateWidgets (rt : Runtime) (a : App) : App :=
  match a.model.dashData with
  | none => a
  | some d =>
    let m := a.model
    let header := m.header.Update d.VMStatus m.paused
    let stats := m.stats.Update d m.timeRange
    let activity := m.activity.Update d m.timeRange
    let (filteredProjects, w1) := a.world.FilterProjects rt.Local d m.timeRange
    let (filteredSessions, w2) := w1.FilterSessions rt.Local d m.timeRange
    let projects := m.projects.Update rt filteredProjects m.timeRange
    let sessions := m.sessions.Update rt filteredSessions m.timeRange
    { a with
      world := w2
      model :=
        ({ m with
          header := header, stats := stats, activity := activity, projects := projects,
          sessions := sessions } : Model).updateFocusStates }

def App.cycleTimeRange (rt : Runtime) (a : App) : App :=
  ({ a with model := { a.model with timeRange := Int.tmod (a.model.timeRange + 1) 4 } } :
    App).updateWidgets rt

/-- `copySessionIDDirect`: one run of `pbcopy`, to which the session id is
written once it has started, and the flash message for two seconds. -/
def App.copySessionIDDirect (a : App) (sessionID : GoString) : App :=
  let outcome := a.pbcopy a.pbcopyRuns
  let copied :=
    if outcome = .waitFailed ∨ outcome = .ok then a.copied ++ [sessionID] else a.copied
  let (now, w1) := a.world.Now
  let flashMessage :=
    if outcome = .ok then
      let id := sessionID
      let id := if id.length > 12 then id.take 12 ++ ascii "..." else id
      ascii "Copied: " ++ id
    else ascii "Copy failed"
  { a with
    pbcopyRuns := a.pbcopyRuns + 1
    copied := copied
    world := w1
    model := { a.model with flashMessage := flashMessage, flashExpiry := now + 2 * Second } }

/-- `copySessionID`: after its two guards it runs the statements of
`copySessionIDDirect` on the id of the selected session. -/
def App.copySessionID (a : App) : Option App :=
  if a.model.focused ≠ PanelSessions then some a
  else
    match a.model.sessions.GetSelected with
    | none => none
    | some none => some a
    | some (some session) => some (a.copySessionIDDirect session.SessionID)

def App.openDetailModal (a : App) : Option App :=
  if a.model.focused ≠ PanelSessions then some a
  else
    match a.model.sessions.GetSelected with
    | none => none
    | some none => some a
    | some (some session) =>
      some { a with model := { a.model with detail := a.model.detail.Show session } }

/-- `handleKeypress`; the result `none` is a run-time panic. -/
def App.handleKeypress (rt : Runtime) (a : App) (key : GoString) : Option (App × Option Cmd) :=
  let m := a.model
  if m.detail.visible then
    if key = ascii "esc" ∨ key = ascii "enter" ∨ key = ascii "q" then
      some ({ a with model := { m with detail := m.detail.Hide } }, none)
    else if key = ascii "y" then
      match m.detail.session with
      | some session => some (a.copySessionIDDirect session.SessionID, none)
      | none => some (a, none)
    else some (a, none)
  else if m.help.visible then
    if key = ascii "esc" ∨ key = ascii "?" then
      some ({ a with model := { m with help := m.help.Hide } }, none)
    else some (a, none)
  else if m.isFilterMode then some ({ a with model := m.handleFilterInput rt key }, none)
  else if key = ascii "q" ∨ key = ascii "ctrl+c" then some (a, some .Quit)
  else if key = ascii "r" then
    let o := Manager.RefreshAll rt.sorter a.dataManager a.world
    some (({ a with
      dataManager := o.manager
      world := o.world
      model := { m with dashData := some o.value } } : App).updateWidgets rt, none)
  else if key = ascii "p" then
    let paused := !m.paused
    let header :=
      match m.dashData with
      | some d => m.header.Update d.VMStatus paused
      | none => m.header
    some ({ a with model := { m with paused := paused, header := header } }, none)
  else if key = ascii "1" then some ({ a with model := m.focusPanel PanelStats }, none)
  else if key = ascii "2" then some ({ a with model := m.focusPanel PanelActivity }, none)
  else if key = ascii "3" then some ({ a with model := m.focusPanel PanelProjects }, none)
  else if key = ascii "4" then some ({ a with model := m.focusPanel PanelSessions }, none)
  else if key = ascii "h" then some ({ a with model := m.navLeft }, none)
  else if key = ascii "l" then some ({ a with model := m.navRight }, none)
  else if key = ascii "tab" then some ({ a with model := m.focusNext }, none)
  else if key = ascii "shift+tab" then some ({ a with model := m.focusPrevious }, none)
  else if key = ascii "m" then
    if m.focused = PanelActivity then
      some ({ a with model := { m with activity := m.activity.CycleMetric } }, none)
    else some (a, none)
  else if key = ascii "j" ∨ key = ascii "up" then some ({ a with model := m.cursorUp }, none)
  else if key = ascii "k" ∨ key = ascii "down" then some ({ a with model := m.cursorDown }, none)
  else if key = ascii "u" then some ({ a with model := m.cursorUp5 }, none)
  else if key = ascii "i" then some ({ a with model := m.cursorDown5 }, none)
  else if key = ascii "s" then some ({ a with model := m.cycleSort rt }, none)
  else if key = ascii "S" then some ({ a with model := m.toggleSortDirection rt }, none)
  else if key = ascii "t" then some (a.cycleTimeRange rt, none)
  else if key = ascii "T" then some ({ a with CurrentTheme := CycleTheme a.CurrentTheme }, none)
  else if key = ascii "/" then some ({ a with model := m.enterFilterMode rt }, none)
  else if key = ascii "y" then
    match a.copySessionID with
    | some a1 => some (a1, none)
    | none => none
  else if key = ascii "enter" then
    match a.openDetailModal with
    | some a1 => some (a1, none)
    | none => none
  else if key = ascii "?" then some ({ a with model := { m with help := m.help.Toggle } }, none)
  else some (a, none)

/-- `Model.Update`; the result `none` is a run-time panic. -/
def App.Update (rt : Runtime) (a : App) : Msg → Option (App × Option Cmd)
  | .KeyMsg key => a.handleKeypress rt key
  | .MouseMsg msg => some ({ a with model := a.model.handleMouse msg }, none)
  | .WindowSizeMsg width height =>
    some ({ a with model := a.model.UpdateWindowSize width height }, none)
  | .DashboardData d =>
    some (({ a with model := { a.model with dashData := some d } } : App).updateWidgets rt, none)
  | .vmTickMsg =>
    if !a.model.paused then
      let o := a.dataManager.GetVMStatus a.world false
      some ({ a with
        dataManager := o.manager
        world := o.world
        model := { a.model with header := a.model.header.Update o.value a.model.paused } },
        some .vmTickCmd)
    else some (a, some .vmTickCmd)
  | .sessionsTickMsg =>
    if !a.model.paused then some (a, some .loadData)
    else some (a, some .sessionsTickCmd)
  | .other => some (a, none)

/-- `Model.Init`: the commands of the batch it returns. -/
def App.Init : List Cmd := [.loadData, .vmTickCmd, .sessionsTickCmd]

/-- What the Bubble Tea runtime does with a command: it runs it and delivers
the message it returns, for the two timers after their period; `tea.Quit` ends
the program.  `loadData` calls `GetDashboardData(false)` on the data manager. -/
def App.runCmd (rt : Runtime) (a : App) : Cmd → App × Option Msg
  | .Quit => (a, none)
  | .loadData =>
    let o := Manager.GetDashboardData rt.sorter a.dataManager a.world false
    ({ a with dataManager := o.manager, world := o.world }, some (.DashboardData o.value))
  | .vmTickCmd => (a, some .vmTickMsg)
  | .sessionsTickCmd => (a, some .sessionsTickMsg)

/-- The messages that the chain of commands starting with `cmd` delivers to
`Update`, each command being the one that `Update` returned for the message
before; at most `fuel` of them. -/
def App.followCmd (rt : Runtime) : Nat → App → Option Cmd → List Msg
  | 0, _, _ => []
  | _ + 1, _, none => []
  | fuel + 1, a, some cmd =>
    match a.runCmd rt cmd with
    | (_, none) => []
    | (a1, some msg) =>
      match a1.Update rt msg with
      | none => [msg]
      | some (a2, next) => msg :: App.followCmd rt fuel a2 next

/-- A controller around the model `m`, with a new data manager, in the world
`changingWorld`, with a `pbcopy` that works. -/
def sampleApp (m : Model) : App :=
  { model := m, dataManager := NewManager, world := changingWorld,
    CurrentTheme := ascii "default", pbcopy := fun _ => .ok, pbcopyRuns := 0, copied := [] }

/-! ## Statements about the keys and the timers -/

/-- The terminal `loadedTerminal` with the detail modal open on a session. -/
def detailOpen : App :=
  sampleApp
    { loadedTerminal PanelSessions with
      detail := (loadedTerminal PanelSessions).detail.Show (sessionA 2 5) }

/-- The terminal `loadedTerminal` with the help modal open. -/
def helpOpen : App :=
  sampleApp
    { loadedTerminal PanelProjects with help := (loadedTerminal PanelProjects).help.Toggle }

/-- The terminal `loadedTerminal`, paused. -/
def pausedApp : App := sampleApp { loadedTerminal PanelProjects with paused := true }

/-- The terminal `loadedTerminal` with the focus on the Projects panel and its
cursor on the second of the three projects. -/
def secondRow : App := sampleApp (loadedTerminal PanelProjects).cursorDown

/-- The projects panel `q` differs from `p` in the fields of the filter at
most: query, filter mode, items, cursor and offset. -/
def ProjectsModel.FilterFrame (p q : ProjectsModel) : Prop :=
  q = { p with
    filterQuery := q.filterQuery, filterMode := q.filterMode, projects := q.projects,
    cursor := q.cursor, offset := q.offset }

/-- The sessions panel `t` differs from `s` in the fields of the filter at
most. -/
def SessionsModel.FilterFrame (s t : SessionsModel) : Prop :=
  t = { s with
    filterQuery := t.filterQuery, filterMode := t.filterMode, sessions := t.sessions,
    cursor := t.cursor, offset := t.offset }

/-! # Properties -/

/-! ## Machine integers -/

theorem wrapInt64_range (x : Int) : inInt64 (wrapInt64 x) := by
  unfold inInt64 wrapInt64
  omega

theorem wrapInt64_of_range (x : Int) (h : inInt64 x) : wrapInt64 x = x := by
  unfold inInt64 at h
  unfold wrapInt64
  omega

theorem wrapInt64_add_congr (t sum mc : Int) (h : wrapInt64 t = wrapInt64 sum) :
    wrapInt64 (wrapInt64 (t + mc)) = wrapInt64 (sum + mc) := by
  unfold wrapInt64 at *
  omega

/-! ## The cache store -/

theorem Time.Sub_lt_iff (t u : Time) (ttl : Duration) (h1 : minDuration < ttl)
    (h2 : ttl ≤ maxDuration) : Time.Sub t u < ttl ↔ t - u < ttl := by
  unfold Time.Sub
  split_ifs with a b
  · constructor
    · intro _; exact lt_trans a h1
    · intro _; exact h1
  · constructor
    · intro h; exact absurd (lt_of_lt_of_le h h2) (lt_irrefl _)
    · intro h; exact absurd (lt_of_lt_of_le (lt_trans b h) h2) (lt_irrefl _)
  · rfl

theorem cacheHit_some {T : Type} (forceRefresh : Bool) (cache : Option (cacheEntry T))
    (ttl : Duration) (h1 : minDuration < ttl) (h2 : ttl ≤ maxDuration) (w : World)
    (e : cacheEntry T) (hf : forceRefresh = false) (hc : cache = some e)
    (hv : w.clock w.clockReads - e.timestamp < ttl) :
    cacheHit forceRefresh cache ttl w = (some e, { w with clockReads := w.clockReads + 1 }) := by
  subst hf; subst hc
  simp [cacheHit, World.Now, cacheEntry.isValid, Time.Sub_lt_iff _ _ _ h1 h2, hv]

theorem cacheHit_none {T : Type} (forceRefresh : Bool) (cache : Option (cacheEntry T))
    (ttl : Duration) (h1 : minDuration < ttl) (h2 : ttl ≤ maxDuration) (w : World)
    (h : ¬ (forceRefresh = false ∧
      ∃ e, cache = some e ∧ w.clock w.clockReads - e.timestamp < ttl)) :
    ∃ k, cacheHit forceRefresh cache ttl w =
      (none, { w with clockReads := w.clockReads + k }) := by
  cases forceRefresh
  · cases cache with
    | none => exact ⟨0, by simp [cacheHit]⟩
    | some e =>
      have hv : ¬ (w.clock w.clockReads - e.timestamp < ttl) := fun hv => h ⟨rfl, e, rfl, hv⟩
      exact ⟨1, by
        simp [cacheHit, World.Now, cacheEntry.isValid, Time.Sub_lt_iff _ _ _ h1 h2, hv]⟩
  · exact ⟨0, by simp [cacheHit]⟩

theorem vm_contract : CacheContract Manager.GetVMStatus Manager.vmCache (2 * Second)
    World.vmFetches (fun w => w.vmSource w.vmFetches) := by
  intro m w forceRefresh
  have h1 : minDuration < 2 * Second := by decide
  have h2 : 2 * Second ≤ maxDuration := by decide
  refine ⟨?_, ?_⟩
  · rintro ⟨hf, e, hc, hv⟩
    have := cacheHit_some forceRefresh m.vmCache (2 * Second) h1 h2 w e hf hc hv
    simp [Manager.GetVMStatus, VMTTL, this]
    exact ⟨e, hc, rfl⟩
  · intro h
    obtain ⟨k, hk⟩ := cacheHit_none forceRefresh m.vmCache (2 * Second) h1 h2 w h
    simp [Manager.GetVMStatus, VMTTL, hk, World.fetchVM, World.Now]

theorem sessions_contract : CacheContract Manager.GetSessions Manager.sessionsCache
    (10 * Second) World.sessionsFetches (fun w => w.sessionsSource w.sessionsFetches) := by
  intro m w forceRefresh
  have h1 : minDuration < 10 * Second := by decide
  have h2 : 10 * Second ≤ maxDuration := by decide
  refine ⟨?_, ?_⟩
  · rintro ⟨hf, e, hc, hv⟩
    have := cacheHit_some forceRefresh m.sessionsCache (10 * Second) h1 h2 w e hf hc hv
    simp [Manager.GetSessions, SessionsTTL, this]
    exact ⟨e, hc, rfl⟩
  · intro h
    obtain ⟨k, hk⟩ := cacheHit_none forceRefresh m.sessionsCache (10 * Second) h1 h2 w h
    simp [Manager.GetSessions, SessionsTTL, hk, World.ParseSessions, World.Now]

theorem stats_contract : CacheContract Manager.GetDailyActivity Manager.statsCache
    (30 * Second) World.statsFetches (fun w => w.statsSource w.statsFetches) := by
  intro m w forceRefresh
  have h1 : minDuration < 30 * Second := by decide
  have h2 : 30 * Second ≤ maxDuration := by decide
  refine ⟨?_, ?_⟩
  · rintro ⟨hf, e, hc, hv⟩
    have := cacheHit_some forceRefresh m.statsCache (30 * Second) h1 h2 w e hf hc hv
    simp [Manager.GetDailyActivity, StatsTTL, this]
    exact ⟨e, hc, rfl⟩
  · intro h
    obtain ⟨k, hk⟩ := cacheHit_none forceRefresh m.statsCache (30 * Second) h1 h2 w h
    simp [Manager.GetDailyActivity, StatsTTL, hk, World.ParseStatsCache, World.Now]

theorem getSessions_frame (m : Manager) (w : World) (forceRefresh : Bool) :
    (m.GetSessions w forceRefresh).world.clock = w.clock ∧
    (m.GetSessions w forceRefresh).world.mapOrders = w.mapOrders ∧
    (m.GetSessions w forceRefresh).world.mapRanges = w.mapRanges ∧
    ∃ stamp, (m.GetSessions w forceRefresh).manager.sessionsCache =
      some { data := (m.GetSessions w forceRefresh).value, timestamp := stamp } := by
  have h1 : minDuration < 10 * Second := by decide
  have h2 : 10 * Second ≤ maxDuration := by decide
  by_cases h : forceRefresh = false ∧
      ∃ e, m.sessionsCache = some e ∧ w.clock w.clockReads - e.timestamp < 10 * Second
  · obtain ⟨hf, e, hc, hv⟩ := h
    have := cacheHit_some forceRefresh m.sessionsCache (10 * Second) h1 h2 w e hf hc hv
    simp [Manager.GetSessions, SessionsTTL, this]
    exact ⟨e.timestamp, hc⟩
  · obtain ⟨k, hk⟩ := cacheHit_none forceRefresh m.sessionsCache (10 * Second) h1 h2 w h
    simp [Manager.GetSessions, SessionsTTL, hk, World.ParseSessions, World.Now]

theorem projects_contract (sorter : SortSlice) : ProjectsCacheContract sorter := by
  intro m w forceRefresh
  have h1 : minDuration < 10 * Second := by decide
  have h2 : 10 * Second ≤ maxDuration := by decide
  refine ⟨?_, ?_⟩
  · rintro ⟨hf, e, hc, hv⟩
    have := cacheHit_some forceRefresh m.projectsCache (10 * Second) h1 h2 w e hf hc hv
    simp [Manager.GetProjects, SessionsTTL, this]
    exact ⟨e, hc, rfl⟩
  · intro h
    obtain ⟨k, hk⟩ := cacheHit_none forceRefresh m.projectsCache (10 * Second) h1 h2 w h
    obtain ⟨f1, f2, f3, stamp, f4⟩ :=
      getSessions_frame m { w with clockReads := w.clockReads + k } forceRefresh
    simp only [Manager.GetProjects, SessionsTTL, hk, World.nextMapOrder, World.Now]
    simp only [f1, f2, f3]
    refine ⟨trivial, _, stamp, f4, rfl, ?_⟩
    simp

theorem cachedTwice_of_contract {T : Type} (get : Manager → World → Bool → Outcome T)
    (cache : Manager → Option (cacheEntry T)) (ttl : Duration)
    (fetches : World → Nat) (source : World → T)
    (h : CacheContract get cache ttl fetches source) : CachedTwice get cache ttl fetches := by
  intro m w
  have hfirst : ∃ e, cache (get m w false).manager = some e ∧ e.data = (get m w false).value ∧
      fetches (get m w false).world ≤ fetches w + 1 := by
    by_cases hf : false = false ∧
        ∃ e, cache m = some e ∧ w.clock w.clockReads - e.timestamp < ttl
    · obtain ⟨a, b, e, hc, hv⟩ := (h m w false).1 hf
      exact ⟨e, by rw [b]; exact hc, hv.symm, by omega⟩
    · obtain ⟨a, b, c⟩ := (h m w false).2 hf
      exact ⟨_, c, b.symm, by omega⟩
  obtain ⟨e, hc, hd, hle⟩ := hfirst
  refine ⟨e, hc, hd, fun hv => ?_⟩
  obtain ⟨a, _, e2, hc2, hv2⟩ :=
    (h (get m w false).manager (get m w false).world false).1 ⟨rfl, e, hc, hv⟩
  rw [hc] at hc2
  cases hc2
  exact ⟨by rw [hv2, hd], a, by omega⟩

theorem projects_twice (sorter : SortSlice) :
    CachedTwice (Manager.GetProjects sorter) Manager.projectsCache (10 * Second)
      World.mapRanges := by
  intro m w
  have h := projects_contract sorter
  have hfirst : ∃ e, (Manager.GetProjects sorter m w false).manager.projectsCache = some e ∧
      e.data = (Manager.GetProjects sorter m w false).value ∧
      (Manager.GetProjects sorter m w false).world.mapRanges ≤ w.mapRanges + 1 := by
    by_cases hf : false = false ∧
        ∃ e, m.projectsCache = some e ∧ w.clock w.clockReads - e.timestamp < 10 * Second
    · obtain ⟨a, _, b, e, hc, hv⟩ := (h m w false).1 hf
      exact ⟨e, by rw [b]; exact hc, hv.symm, by omega⟩
    · obtain ⟨a, _, _, _, _, c⟩ := (h m w false).2 hf
      exact ⟨_, c, rfl, by omega⟩
  obtain ⟨e, hc, hd, hle⟩ := hfirst
  refine ⟨e, hc, hd, fun hv => ?_⟩
  obtain ⟨a, _, _, e2, hc2, hv2⟩ :=
    (h (Manager.GetProjects sorter m w false).manager
      (Manager.GetProjects sorter m w false).world false).1 ⟨rfl, e, hc, hv⟩
  rw [hc] at hc2
  cases hc2
  exact ⟨by rw [hv2, hd], a, by omega⟩

/-- C1. Every kind of the cache store (VM status with a TTL of 2 s, sessions
10 s, daily activity 30 s, projects 10 s), in every state, at every reading of
the clock and for every `forceRefresh`: `Get<Kind>` returns the stored value
without a fetch exactly when no refresh is forced and an entry is stored whose
age is below the TTL; otherwise it fetches, returns what it fetched and stores
it with the current timestamp.  Two calls without forced refresh within the TTL
return the same value and fetch at most once. -/
theorem cache_get_contract (sorter : SortSlice) :
    CacheContract Manager.GetVMStatus Manager.vmCache (2 * Second) World.vmFetches
        (fun w => w.vmSource w.vmFetches) ∧
      CacheContract Manager.GetSessions Manager.sessionsCache (10 * Second)
        World.sessionsFetches (fun w => w.sessionsSource w.sessionsFetches) ∧
      CacheContract Manager.GetDailyActivity Manager.statsCache (30 * Second)
        World.statsFetches (fun w => w.statsSource w.statsFetches) ∧
      ProjectsCacheContract sorter ∧
      CachedTwice Manager.GetVMStatus Manager.vmCache (2 * Second) World.vmFetches ∧
      CachedTwice Manager.GetSessions Manager.sessionsCache (10 * Second)
        World.sessionsFetches ∧
      CachedTwice Manager.GetDailyActivity Manager.statsCache (30 * Second)
        World.statsFetches ∧
      CachedTwice (Manager.GetProjects sorter) Manager.projectsCache (10 * Second)
        World.mapRanges :=
  ⟨vm_contract, sessions_contract, stats_contract, projects_contract sorter,
    cachedTwice_of_contract _ _ _ _ _ vm_contract,
    cachedTwice_of_contract _ _ _ _ _ sessions_contract,
    cachedTwice_of_contract _ _ _ _ _ stats_contract, projects_twice sorter⟩

/-- C1, at a concrete input: on a new manager, with a clock that advances by one
second at each reading, a second `GetVMStatus(false)` finds the entry one second
old and returns the value of the first call without a fetch. -/
theorem cache_get_contract_witness :
    ((NewManager.GetVMStatus changingWorld false).manager.GetVMStatus
        (NewManager.GetVMStatus changingWorld false).world false).value =
      (NewManager.GetVMStatus changingWorld false).value ∧
    ((NewManager.GetVMStatus changingWorld false).manager.GetVMStatus
        (NewManager.GetVMStatus changingWorld false).world false).world.vmFetches = 1 := by
  obtain ⟨e, h1, _, h3⟩ := (cache_get_contract insertionSorter).2.2.2.2.1 NewManager changingWorld
  have he : e = { data := changingWorld.vmSource 0, timestamp := 0 } := by
    have h0 : (NewManager.GetVMStatus changingWorld false).manager.vmCache =
        some { data := changingWorld.vmSource 0, timestamp := 0 } := by decide
    rw [h0] at h1
    exact (Option.some.inj h1).symm
  have hfresh : (NewManager.GetVMStatus changingWorld false).world.clock
      (NewManager.GetVMStatus changingWorld false).world.clockReads - e.timestamp
        < 2 * Second := by
    rw [he]
    decide
  obtain ⟨a, b, _⟩ := h3 hfresh
  exact ⟨a, b.trans (by decide)⟩

theorem getSessions_fetch (m : Manager) (w : World) (forceRefresh : Bool)
    (h : (m.GetSessions w forceRefresh).world.sessionsFetches ≠ w.sessionsFetches) :
    (m.GetSessions w forceRefresh).manager.projectsCache = none ∧
      ∃ stamp, (m.GetSessions w forceRefresh).manager.sessionsCache =
        some { data := w.sessionsSource w.sessionsFetches, timestamp := stamp } := by
  by_cases hf : forceRefresh = false ∧
      ∃ e, m.sessionsCache = some e ∧ w.clock w.clockReads - e.timestamp < 10 * Second
  · exact absurd ((sessions_contract m w forceRefresh).1 hf).1 h
  · have h1 : minDuration < 10 * Second := by decide
    have h2 : 10 * Second ≤ maxDuration := by decide
    obtain ⟨k, hk⟩ := cacheHit_none forceRefresh m.sessionsCache (10 * Second) h1 h2 w hf
    simp [Manager.GetSessions, SessionsTTL, hk, World.ParseSessions, World.Now]

/-- C2. In every state of the manager, also the one that any sequence of
`Get*` calls leaves, and for every `forceRefresh`: whenever `GetSessions`
fetches, and so replaces the sessions entry by the fetched list, the projects
entry is absent in the state right after that call. -/
theorem sessions_fetch_clears_projects (sorter : SortSlice) (m0 : Manager) (w0 : World)
    (ops : List ManagerOp) (forceRefresh : Bool) :
    ((Manager.runOps sorter (m0, w0) ops).1.GetSessions
        (Manager.runOps sorter (m0, w0) ops).2 forceRefresh).world.sessionsFetches ≠
      (Manager.runOps sorter (m0, w0) ops).2.sessionsFetches →
    ((Manager.runOps sorter (m0, w0) ops).1.GetSessions
        (Manager.runOps sorter (m0, w0) ops).2 forceRefresh).manager.projectsCache = none ∧
    ∃ stamp,
      ((Manager.runOps sorter (m0, w0) ops).1.GetSessions
        (Manager.runOps sorter (m0, w0) ops).2 forceRefresh).manager.sessionsCache =
      some { data := (Manager.runOps sorter (m0, w0) ops).2.sessionsSource
                (Manager.runOps sorter (m0, w0) ops).2.sessionsFetches,
             timestamp := stamp } :=
  fun h => getSessions_fetch _ _ _ h

/-- C2, at a concrete input: the projects entry that `GetProjects` has stored is
gone after a forced `GetSessions`. -/
theorem sessions_fetch_clears_projects_witness :
    (Manager.runOps insertionSorter (NewManager, changingWorld)
        [ManagerOp.getProjects false]).1.projectsCache ≠ none ∧
    ((Manager.runOps insertionSorter (NewManager, changingWorld)
        [ManagerOp.getProjects false]).1.GetSessions
      (Manager.runOps insertionSorter (NewManager, changingWorld)
        [ManagerOp.getProjects false]).2 true).manager.projectsCache = none :=
  ⟨by decide,
    (sessions_fetch_clears_projects insertionSorter NewManager changingWorld
      [ManagerOp.getProjects false] true (by decide)).1⟩

/-- C3, at the failing input: a forced refresh while the session files change
between the two parses.  The snapshot lists no session, and a project. -/
theorem dashboard_snapshot_disagrees :
    (Manager.GetDashboardData insertionSorter NewManager changingWorld true).value.Sessions
        = [] ∧
      (Manager.GetDashboardData insertionSorter NewManager changingWorld true).value.Projects
        = [projectA 1 2 5] ∧
      (Manager.RefreshAll insertionSorter NewManager changingWorld).value
        = (Manager.GetDashboardData insertionSorter NewManager changingWorld true).value ∧
      ¬ ∃ (sorter : SortSlice) (order : MapOrder),
        (Manager.GetDashboardData insertionSorter NewManager changingWorld true).value.Projects
          = AggregateProjects sorter order
            (Manager.GetDashboardData insertionSorter NewManager changingWorld
              true).value.Sessions := by
  have hs : (Manager.GetDashboardData insertionSorter NewManager changingWorld
      true).value.Sessions = [] := by decide
  have hp : (Manager.GetDashboardData insertionSorter NewManager changingWorld
      true).value.Projects = [projectA 1 2 5] := by decide
  refine ⟨hs, hp, rfl, ?_⟩
  rintro ⟨sorter, order, h⟩
  rw [hs, hp] at h
  have hlen := congrArg List.length h
  have h1 := (sorter.perm (fun a b : ProjectSummary =>
    Time.After a.LastActivity b.LastActivity) (order.order ([] : List ProjectSummary))).length_eq
  have h2 := (order.perm ([] : List ProjectSummary)).length_eq
  simp only [AggregateProjects, List.foldl_nil, List.map_nil, List.length_cons,
    List.length_nil] at hlen
  rw [h1, h2] at hlen
  exact absurd hlen (by decide)

/-! ## Aggregation -/

theorem ProjectMap.get_none (m : ProjectMap) (key : GoString) :
    m.get key = none ↔ key ∉ m.map Prod.fst := by
  induction m with
  | nil => simp [ProjectMap.get]
  | cons e rest ih =>
    obtain ⟨k, v⟩ := e
    unfold ProjectMap.get
    by_cases h : k = key
    · simp [h]
    · simp only [h, if_false, ih, List.map_cons, List.mem_cons, not_or]
      exact ⟨fun a => ⟨fun b => h b.symm, a⟩, fun a => a.2⟩

theorem ProjectMap.get_some (m : ProjectMap) (key : GoString) (v : ProjectSummary)
    (h : m.get key = some v) : (key, v) ∈ m := by
  induction m with
  | nil => simp [ProjectMap.get] at h
  | cons e rest ih =>
    obtain ⟨k, u⟩ := e
    unfold ProjectMap.get at h
    by_cases hk : k = key
    · simp [hk] at h
      simp [hk, h]
    · simp [hk] at h
      exact List.mem_cons_of_mem _ (ih h)

theorem sessionsOf_append (ss : List SessionEntry) (s : SessionEntry) (k : GoString) :
    sessionsOf (ss ++ [s]) k =
      if s.ProjectPath = k then sessionsOf ss k ++ [s] else sessionsOf ss k := by
  unfold sessionsOf
  by_cases h : s.ProjectPath = k <;> simp [List.filter_append, h]

theorem sessionsOf_eq_nil (ss : List SessionEntry) (k : GoString)
    (h : k ∉ ss.map (fun s => s.ProjectPath)) : sessionsOf ss k = [] := by
  unfold sessionsOf
  rw [List.filter_eq_nil_iff]
  intro s hs
  simp only [decide_eq_true_eq]
  intro hk
  exact h (List.mem_map.mpr ⟨s, hs, hk⟩)

theorem Summarizes.other (ss : List SessionEntry) (s : SessionEntry) (p : ProjectSummary)
    (hne : s.ProjectPath ≠ p.ProjectPath) (h : Summarizes ss p) : Summarizes (ss ++ [s]) p := by
  unfold Summarizes at *
  rw [sessionsOf_append, if_neg hne]
  exact h

theorem aggregateStep_none (m : ProjectMap) (s : SessionEntry)
    (h : m.get s.ProjectPath = none) :
    aggregateStep m s = m ++ [(s.ProjectPath,
      { ProjectName := s.ProjectName
        ProjectPath := s.ProjectPath
        SessionCount := 1
        TotalMessages := s.MessageCount
        LastActivity := s.Modified })] := by
  simp [aggregateStep, h]

theorem aggregateStep_some (m : ProjectMap) (s : SessionEntry) (existing : ProjectSummary)
    (h : m.get s.ProjectPath = some existing) :
    aggregateStep m s = m.set s.ProjectPath
      { existing with
        SessionCount := existing.SessionCount + 1
        TotalMessages := wrapInt64 (existing.TotalMessages + s.MessageCount)
        LastActivity :=
          if Time.After s.Modified existing.LastActivity then s.Modified
          else existing.LastActivity } := by
  simp [aggregateStep, h]

theorem aggregateStep_inv (m : ProjectMap) (ss : List SessionEntry) (s : SessionEntry)
    (h : AggregateInv m ss) : AggregateInv (aggregateStep m s) (ss ++ [s]) := by
  obtain ⟨hnd, hkeys, hgood⟩ := h
  cases hget : m.get s.ProjectPath with
  | none =>
    rw [aggregateStep_none m s hget]
    have hnot := (ProjectMap.get_none m s.ProjectPath).mp hget
    have hnil := sessionsOf_eq_nil ss s.ProjectPath (fun hk => hnot ((hkeys _).mpr hk))
    refine ⟨?_, ?_, ?_⟩
    · simp only [List.map_append, List.map_cons, List.map_nil]
      exact List.Nodup.append hnd (List.nodup_singleton _) (by simpa using hnot)
    · intro k
      simp only [List.map_append, List.map_cons, List.map_nil, List.mem_append,
        List.mem_singleton, hkeys k]
    · intro e he
      rcases List.mem_append.mp he with he | he
      · have hne : s.ProjectPath ≠ e.2.ProjectPath := by
          rw [(hgood e he).1]
          intro heq
          exact hnot (heq ▸ List.mem_map_of_mem Prod.fst he)
        exact ⟨(hgood e he).1, Summarizes.other ss s e.2 hne (hgood e he).2⟩
      · rw [List.mem_singleton] at he
        subst he
        refine ⟨rfl, ?_⟩
        unfold Summarizes
        simp only [sessionsOf_append, if_true, hnil, List.nil_append]
        simp
  | some existing =>
    rw [aggregateStep_some m s existing hget]
    have hmem := ProjectMap.get_some m _ _ hget
    obtain ⟨hpath, hcount, hsum, hrange, ⟨smax, hsmax, hsmaxeq⟩, hle⟩ := hgood _ hmem
    dsimp only at hpath hcount hsum hrange hsmaxeq hle
    have hfst : (ProjectMap.set m s.ProjectPath
        { existing with
          SessionCount := existing.SessionCount + 1
          TotalMessages := wrapInt64 (existing.TotalMessages + s.MessageCount)
          LastActivity :=
            if Time.After s.Modified existing.LastActivity then s.Modified
            else existing.LastActivity }).map Prod.fst = m.map Prod.fst := by
      unfold ProjectMap.set
      rw [List.map_map]
      apply List.map_congr_left
      intro e _
      by_cases hk : e.1 = s.ProjectPath <;> simp [hk]
    refine ⟨?_, ?_, ?_⟩
    · rw [hfst]; exact hnd
    · intro k
      rw [hfst, hkeys k]
      simp only [List.map_append, List.map_cons, List.map_nil, List.mem_append,
        List.mem_singleton]
      constructor
      · exact Or.inl
      · rintro (h | h)
        · exact h
        · rw [h, ← hkeys]; exact List.mem_map_of_mem Prod.fst hmem
    · intro e he
      simp only [ProjectMap.set, List.mem_map] at he
      obtain ⟨e0, he0, rfl⟩ := he
      by_cases hk : e0.1 = s.ProjectPath
      · simp only [hk, if_true]
        refine ⟨hpath, ?_⟩
        unfold Summarizes
        simp only [hpath, sessionsOf_append, if_true]
        rw [hpath] at hcount hsum hsmax hle
        refine ⟨?_, ?_, ?_, ?_, ?_⟩
        · simp [hcount]
        · simp only [List.map_append, List.map_cons, List.map_nil, List.sum_append,
            List.sum_cons, List.sum_nil, add_zero]
          exact wrapInt64_add_congr _ _ _ hsum
        · intro _
          exact wrapInt64_range _
        · by_cases hafter : Time.After s.Modified existing.LastActivity = true
          · exact ⟨s, by simp, by simp [hafter]⟩
          · exact ⟨smax, by simp [hsmax], by simp [hafter, hsmaxeq]⟩
        · intro t ht
          rcases List.mem_append.mp ht with ht | ht
          · have := hle t ht
            by_cases hafter : Time.After s.Modified existing.LastActivity = true
            · simp only [hafter, if_true]
              simp only [Time.After, decide_eq_true_eq] at hafter
              exact le_of_lt (lt_of_le_of_lt this hafter)
            · simp only [hafter]
              exact this
          · rw [List.mem_singleton] at ht
            subst ht
            by_cases hafter : Time.After t.Modified existing.LastActivity = true
            · simp [hafter]
            · simp only [hafter]
              simp only [Time.After, decide_eq_true_eq] at hafter
              simp only [Bool.false_eq_true, if_false]
              exact not_lt.mp hafter
      · simp only [hk, if_false]
        have hne : s.ProjectPath ≠ e0.2.ProjectPath := by
          rw [(hgood e0 he0).1]; exact fun h => hk h.symm
        exact ⟨(hgood e0 he0).1, Summarizes.other ss s e0.2 hne (hgood e0 he0).2⟩

theorem aggregate_foldl_inv (ss : List SessionEntry) :
    AggregateInv (ss.foldl aggregateStep []) ss := by
  induction ss using List.reverseRecOn with
  | nil => exact ⟨List.nodup_nil, by simp, by simp⟩
  | append_singleton ss s ih =>
    rw [List.foldl_append]
    exact aggregateStep_inv _ ss s ih

theorem sessionsOf_length (ss : List SessionEntry) (k : GoString) :
    (sessionsOf ss k).length =
      @List.count GoString instBEqOfDecidableEq k (ss.map (fun s => s.ProjectPath)) := by
  induction ss with
  | nil => rfl
  | cons s ss ih =>
    rw [List.map_cons, @List.count_cons GoString instBEqOfDecidableEq, ← ih]
    unfold sessionsOf
    by_cases h : s.ProjectPath = k
    · simp [List.filter_cons, h]
    · simp [List.filter_cons, h]

theorem AggregateProjects_perm (sorter : SortSlice) (order : MapOrder)
    (sessions : List SessionEntry) :
    (AggregateProjects sorter order sessions).Perm
      ((sessions.foldl aggregateStep []).map (fun e => e.2)) :=
  (sorter.perm _ _).trans (order.perm _)

theorem singleton_of_perm {α : Type} (l : List α) (a : α) (h : l.Perm [a]) : l = [a] :=
  List.perm_singleton.mp h

/-- C4 (amended). For every list of sessions whose message counts are values
of an `int`, whatever the order of the map and of equal keys in the sort:
`AggregateProjects` returns one summary for each distinct `ProjectPath` of the
input and none for another path; the `SessionCount` of a summary is the number
of the sessions with its path; `TotalMessages` is the sum of their
`MessageCount` in 64-bit arithmetic, which is the sum itself when that is a
value of an `int`; `LastActivity` is the greatest of their `Modified`; the
`SessionCount`s add up to the length of the input.  Three sessions of `/a` with
2, 5 and 1 messages, modified at `T1 < T2 < T3`, give the one summary with 3
sessions, 8 messages and last activity `T3`. -/
theorem aggregate_projects_spec (sorter : SortSlice) (order : MapOrder)
    (sessions : List SessionEntry) (hwf : ∀ s ∈ sessions, inInt64 s.MessageCount) :
    ((AggregateProjects sorter order sessions).map (fun p => p.ProjectPath)).Perm
        ((sessions.map (fun s => s.ProjectPath)).dedup) ∧
      (∀ p ∈ AggregateProjects sorter order sessions,
        p.SessionCount = (sessionsOf sessions p.ProjectPath).length ∧
        p.TotalMessages =
          wrapInt64 ((sessionsOf sessions p.ProjectPath).map (fun s => s.MessageCount)).sum ∧
        (inInt64 ((sessionsOf sessions p.ProjectPath).map (fun s => s.MessageCount)).sum →
          p.TotalMessages =
            ((sessionsOf sessions p.ProjectPath).map (fun s => s.MessageCount)).sum) ∧
        (∃ s ∈ sessionsOf sessions p.ProjectPath, s.Modified = p.LastActivity) ∧
        ∀ s ∈ sessionsOf sessions p.ProjectPath, s.Modified ≤ p.LastActivity) ∧
      ((AggregateProjects sorter order sessions).map (fun p => p.SessionCount)).sum
        = sessions.length ∧
      ∀ T1 T2 T3 : Time, T1 < T2 → T2 < T3 →
        AggregateProjects sorter order [sessionA 2 T1, sessionA 5 T2, sessionA 1 T3]
          = [projectA 3 8 T3] := by
  obtain ⟨hnd, hkeys, hgood⟩ := aggregate_foldl_inv sessions
  have hperm := AggregateProjects_perm sorter order sessions
  have hpaths : (sessions.foldl aggregateStep []).map (fun e => e.2.ProjectPath) =
      (sessions.foldl aggregateStep []).map Prod.fst :=
    List.map_congr_left (fun e he => (hgood e he).1)
  have hkeysPerm : ((sessions.foldl aggregateStep []).map Prod.fst).Perm
      ((sessions.map (fun s => s.ProjectPath)).dedup) :=
    (List.perm_ext_iff_of_nodup hnd (List.nodup_dedup _)).mpr
      (fun k => by rw [hkeys k, List.mem_dedup])
  refine ⟨?_, ?_, ?_, ?_⟩
  · have := hperm.map (fun p => p.ProjectPath)
    rw [List.map_map] at this
    have hcomp : ((fun p : ProjectSummary => p.ProjectPath) ∘
        fun e : GoString × ProjectSummary => e.2) = fun e => e.2.ProjectPath := rfl
    rw [hcomp, hpaths] at this
    exact this.trans hkeysPerm
  · intro p hp
    obtain ⟨e, he, rfl⟩ := List.mem_map.mp (hperm.subset hp)
    obtain ⟨hcount, hsum, hrange, hex, hle⟩ := (hgood e he).2
    have hin : inInt64 e.2.TotalMessages :=
      hrange (fun s hs => hwf s (List.mem_filter.mp hs).1)
    have htot : e.2.TotalMessages =
        wrapInt64 ((sessionsOf sessions e.2.ProjectPath).map (fun s => s.MessageCount)).sum := by
      rw [← hsum, wrapInt64_of_range _ hin]
    refine ⟨hcount, htot, ?_, hex, hle⟩
    intro hs
    rw [htot, wrapInt64_of_range _ hs]
  · have h1 := (hperm.map (fun p => p.SessionCount)).sum_eq
    rw [h1, List.map_map]
    have h2 : (sessions.foldl aggregateStep []).map
        ((fun p : ProjectSummary => p.SessionCount) ∘ fun e => e.2) =
        ((sessions.foldl aggregateStep []).map Prod.fst).map
          (fun k => ((@List.count GoString instBEqOfDecidableEq k
            (sessions.map (fun s => s.ProjectPath)) : Nat) : Int)) := by
      rw [List.map_map]
      apply List.map_congr_left
      intro e he
      have := (hgood e he).2.1
      simp only [Function.comp]
      rw [this, (hgood e he).1, sessionsOf_length]
    rw [h2, (hkeysPerm.map _).sum_eq]
    have h3 := List.sum_map_count_dedup_eq_length (sessions.map (fun s => s.ProjectPath))
    rw [List.length_map] at h3
    rw [← h3]
    simp only [Nat.cast_list_sum, List.map_map, Function.comp_def]
  · intro T1 T2 T3 h12 h23
    have hmap : ([sessionA 2 T1, sessionA 5 T2, sessionA 1 T3].foldl aggregateStep []).map
        (fun e => e.2) = [projectA 3 8 T3] := by
      have a12 : Time.After T2 T1 = true := by simp [Time.After, h12]
      have a23 : Time.After T3 T2 = true := by simp [Time.After, h23]
      have w7 : wrapInt64 7 = 7 := by decide
      have w8 : wrapInt64 8 = 8 := by decide
      simp [aggregateStep, ProjectMap.get, ProjectMap.set, sessionA, projectA, a12, a23, w7, w8]
    exact singleton_of_perm _ _
      (hmap ▸ AggregateProjects_perm sorter order [sessionA 2 T1, sessionA 5 T2, sessionA 1 T3])

/-- C4, at a concrete input: the three sessions of the scenario. -/
theorem aggregate_projects_witness :
    AggregateProjects insertionSorter insertionOrder
      [sessionA 2 100, sessionA 5 200, sessionA 1 300] = [projectA 3 8 300] :=
  (aggregate_projects_spec insertionSorter insertionOrder
    [sessionA 2 100, sessionA 5 200, sessionA 1 300] (by decide)).2.2.2 100 200 300
    (by decide) (by decide)

/-- C4 (as worded, fails). Two sessions of `/a` with `2 ^ 62` messages each
have the sum `2 ^ 63`, which is no value of an `int`: `TotalMessages` of their
summary is `-2 ^ 63`. -/
theorem aggregate_total_wraps :
    AggregateProjects insertionSorter insertionOrder
        [sessionA 4611686018427387904 1, sessionA 4611686018427387904 2] =
      [projectA 2 (-9223372036854775808) 2] ∧
    (([sessionA 4611686018427387904 1, sessionA 4611686018427387904 2].map
      (fun s => s.MessageCount)).sum = 9223372036854775808) ∧
    inInt64 (4611686018427387904 : Int) := by
  decide

/-! ## The filter of the list panels -/

theorem Contains_iff (s substr : GoString) : Contains s substr = true ↔ substr <:+: s := by
  unfold Contains
  rw [List.any_eq_true]
  constructor
  · rintro ⟨t, ht, hp⟩
    exact List.infix_iff_prefix_suffix.mpr
      ⟨t, List.isPrefixOf_iff_prefix.mp hp, (List.mem_tails _ _).mp ht⟩
  · intro h
    obtain ⟨t, hp, hs⟩ := List.infix_iff_prefix_suffix.mp h
    exact ⟨t, (List.mem_tails _ _).mpr hs, List.isPrefixOf_iff_prefix.mpr hp⟩

theorem ToLower_nil (ul : GoString → GoString) : ToLower ul [] = [] := by
  simp [ToLower, isASCII]

theorem ToLower_ascii (ul : GoString → GoString) (s : GoString) (h : isASCII s = true) :
    ToLower ul s = s.map lowerByte := by
  simp [ToLower, h]

theorem Contains_nil (s : GoString) : Contains s [] = true :=
  (Contains_iff s []).mpr List.nil_infix

theorem ProjectsModel.applyFilter_projects (rt : Runtime) (p : ProjectsModel) :
    (p.applyFilter rt).projects =
      p.allProjects.filter (fun project =>
        Contains (ToLower rt.unicodeLower project.ProjectName)
          (ToLower rt.unicodeLower p.filterQuery)) := by
  unfold ProjectsModel.applyFilter
  split_ifs with h
  · simp [h, ToLower_nil, Contains_nil]
  · rfl

theorem SessionsModel.applyFilter_sessions (rt : Runtime) (s : SessionsModel) :
    (s.applyFilter rt).sessions =
      s.allSessions.filter (fun session =>
        Contains (ToLower rt.unicodeLower session.Summary)
            (ToLower rt.unicodeLower s.filterQuery) ||
          Contains (ToLower rt.unicodeLower session.ProjectName)
            (ToLower rt.unicodeLower s.filterQuery)) := by
  unfold SessionsModel.applyFilter
  split_ifs with h
  · simp [h, ToLower_nil, Contains_nil]
  · rfl

/-- C5. For every list `allItems` and every query: `applyFilter` keeps, in their
order, exactly the items whose lower-cased project name (Projects panel),
respectively lower-cased summary or lower-cased project name (Sessions panel),
contains the lower-cased query as a substring; with the empty query it keeps all
of `allItems`; and it changes no other field of the panel.  The query `api`
keeps the item named `API Gateway`. -/
theorem applyFilter_spec (rt : Runtime) (p : ProjectsModel) (s : SessionsModel) :
    (p.applyFilter rt).projects =
        p.allProjects.filter (fun project =>
          decide (ToLower rt.unicodeLower p.filterQuery <:+:
            ToLower rt.unicodeLower project.ProjectName)) ∧
      (s.applyFilter rt).sessions =
        s.allSessions.filter (fun session =>
          decide (ToLower rt.unicodeLower s.filterQuery <:+:
              ToLower rt.unicodeLower session.Summary) ||
            decide (ToLower rt.unicodeLower s.filterQuery <:+:
              ToLower rt.unicodeLower session.ProjectName)) ∧
      (({ p with filterQuery := [] } : ProjectsModel).applyFilter rt).projects = p.allProjects ∧
      (({ s with filterQuery := [] } : SessionsModel).applyFilter rt).sessions = s.allSessions ∧
      p.applyFilter rt = { p with projects := (p.applyFilter rt).projects } ∧
      s.applyFilter rt = { s with sessions := (s.applyFilter rt).sessions } ∧
      (apiPanel.applyFilter rt).projects = apiPanel.allProjects.take 1 := by
  refine ⟨?_, ?_, ?_, ?_, ?_, ?_, ?_⟩
  · rw [ProjectsModel.applyFilter_projects]
    apply List.filter_congr
    intro x _
    rw [Bool.eq_iff_iff, Contains_iff, decide_eq_true_iff]
  · rw [SessionsModel.applyFilter_sessions]
    apply List.filter_congr
    intro x _
    rw [Bool.eq_iff_iff]
    simp only [Bool.or_eq_true, Contains_iff, decide_eq_true_iff]
  · simp [ProjectsModel.applyFilter]
  · simp [SessionsModel.applyFilter]
  · unfold ProjectsModel.applyFilter
    split_ifs <;> rfl
  · unfold SessionsModel.applyFilter
    split_ifs <;> rfl
  · rw [ProjectsModel.applyFilter_projects]
    have hq : ToLower rt.unicodeLower apiPanel.filterQuery = (ascii "api").map lowerByte :=
      ToLower_ascii _ _ (by decide)
    have h1 : ToLower rt.unicodeLower (ascii "API Gateway") =
        (ascii "API Gateway").map lowerByte := ToLower_ascii _ _ (by decide)
    have h2 : ToLower rt.unicodeLower (ascii "Web") = (ascii "Web").map lowerByte :=
      ToLower_ascii _ _ (by decide)
    rw [hq]
    simp only [apiPanel, NewProjectsModel, List.filter, h1, h2]
    decide

/-- C5, at a concrete input: with an ASCII runtime the query `api` keeps
`API Gateway` and drops `Web`. -/
theorem applyFilter_witness :
    ((apiPanel.applyFilter asciiRuntime).projects.map (fun x => x.ProjectName))
      = [ascii "API Gateway"] := by
  rw [(applyFilter_spec asciiRuntime apiPanel NewSessionsModel).2.2.2.2.2.2]
  decide

/-! ## The cursor of the list panels -/

theorem cursorInBounds_nonneg (c : Int) (n : Nat) (h : cursorInBounds c n) : 0 ≤ c := by
  rcases Nat.eq_zero_or_pos n with h0 | h0
  · rw [h.1 h0]
  · exact (h.2 h0).1

theorem cursorInBounds_mono (c : Int) (n n' : Nat) (h : cursorInBounds c n) (hle : n ≤ n') :
    cursorInBounds c n' := by
  refine ⟨fun h0 => h.1 (by omega), fun hpos => ?_⟩
  rcases Nat.eq_zero_or_pos n with h0 | h0
  · rw [h.1 h0]; exact ⟨le_refl _, by exact_mod_cast hpos⟩
  · have := h.2 h0
    exact ⟨this.1, lt_of_lt_of_le this.2 (by exact_mod_cast hle)⟩

theorem cursorInBounds_zero (n : Nat) : cursorInBounds 0 n :=
  ⟨fun _ => rfl, fun h => ⟨le_refl _, by exact_mod_cast h⟩⟩

theorem cursorInBounds_clamp (c : Int) (n : Nat) (h0 : 0 ≤ c) :
    cursorInBounds (if c ≥ (n : Int) then max 0 ((n : Int) - 1) else c) n := by
  split_ifs with h
  · refine ⟨fun hn => by subst hn; simp, fun hpos => ?_⟩
    have : (1 : Int) ≤ n := by exact_mod_cast hpos
    rw [max_eq_right (by omega)]
    exact ⟨by omega, by omega⟩
  · refine ⟨fun hn => ?_, fun _ => ⟨h0, by omega⟩⟩
    subst hn
    simp at h
    omega

theorem isASCII_initial (q q' : GoString) (h : isASCII q = true) (hp : q' <+: q) :
    isASCII q' = true := by
  unfold isASCII at *
  rw [List.all_eq_true] at *
  exact fun c hc => h c (hp.subset hc)

theorem ToLower_initial (ul : GoString → GoString) (q q' : GoString) (h : isASCII q = true)
    (hp : q' <+: q) : ToLower ul q' <+: ToLower ul q := by
  rw [ToLower_ascii ul q h, ToLower_ascii ul q' (isASCII_initial q q' h hp)]
  exact hp.map lowerByte

theorem Contains_initial (ul : GoString → GoString) (t q q' : GoString) (h : isASCII q = true)
    (hp : q' <+: q) (hc : Contains t (ToLower ul q) = true) :
    Contains t (ToLower ul q') = true := by
  rw [Contains_iff] at *
  exact (ToLower_initial ul q q' h hp).isInfix.trans hc

theorem isASCII_append_key (q key : GoString) (h : isASCII q = true)
    (hk : printableKey key = true) : isASCII (q ++ key) = true := by
  unfold isASCII at *
  rw [List.all_append, h, Bool.true_and]
  match key, hk with
  | [c], hk =>
    simp only [printableKey, Bool.and_eq_true, decide_eq_true_eq] at hk
    simp only [List.all_cons, List.all_nil, Bool.and_true, decide_eq_true_eq]
    have h126 : c.toNat ≤ 126 := hk.2
    exact (show c.toNat < 128 from Nat.lt_of_le_of_lt h126 (by decide))

theorem projectsPanel_Inv_iff (rt : Runtime) (p : ProjectsModel) :
    p.Inv rt ↔ cursorInBounds p.cursor p.projects.length ∧
      p.projects.Perm (p.allProjects.filter (fun project =>
        Contains (ToLower rt.unicodeLower project.ProjectName)
          (ToLower rt.unicodeLower p.filterQuery))) ∧
      isASCII p.filterQuery = true := by
  unfold ProjectsModel.Inv
  rw [ProjectsModel.applyFilter_projects]

theorem projectsPanel_ensureVisible_fields (p : ProjectsModel) :
    p.ensureVisible.cursor = p.cursor ∧ p.ensureVisible.projects = p.projects ∧
      p.ensureVisible.allProjects = p.allProjects ∧
      p.ensureVisible.filterQuery = p.filterQuery := by
  unfold ProjectsModel.ensureVisible
  simp only []
  split_ifs <;> exact ⟨rfl, rfl, rfl, rfl⟩

theorem projectsPanel_ensureVisible_inv (rt : Runtime) (p : ProjectsModel) (h : p.Inv rt) :
    p.ensureVisible.Inv rt := by
  rw [projectsPanel_Inv_iff] at *
  obtain ⟨a, b, c, d⟩ := projectsPanel_ensureVisible_fields p
  rw [a, b, c, d]
  exact h

/-- The filtered and sorted items after a change of the items or of the query. -/
theorem projectsPanel_refilter_fields (rt : Runtime) (p : ProjectsModel) :
    ((p.applyFilter rt).sortProjects rt).projects.Perm
        (p.allProjects.filter (fun project =>
          Contains (ToLower rt.unicodeLower project.ProjectName)
            (ToLower rt.unicodeLower p.filterQuery))) ∧
      ((p.applyFilter rt).sortProjects rt).cursor = p.cursor ∧
      ((p.applyFilter rt).sortProjects rt).allProjects = p.allProjects ∧
      ((p.applyFilter rt).sortProjects rt).filterQuery = p.filterQuery := by
  refine ⟨?_, ?_, ?_, ?_⟩
  · rw [← ProjectsModel.applyFilter_projects]
    exact rt.sorter.perm _ _
  all_goals
    unfold ProjectsModel.sortProjects ProjectsModel.applyFilter
    split_ifs <;> rfl

theorem projectsPanel_filter_length_mono (rt : Runtime) (all : List ProjectSummary)
    (q q' : GoString) (h : isASCII q = true) (hp : q' <+: q) :
    (all.filter (fun project =>
        Contains (ToLower rt.unicodeLower project.ProjectName)
          (ToLower rt.unicodeLower q))).length ≤
      (all.filter (fun project =>
        Contains (ToLower rt.unicodeLower project.ProjectName)
          (ToLower rt.unicodeLower q'))).length := by
  apply List.Sublist.length_le
  apply List.monotone_filter_right
  intro x hx
  exact Contains_initial _ _ q q' h hp hx

theorem projectsPanel_reload_inv (rt : Runtime) (p : ProjectsModel)
    (items : List ProjectSummary) (timeRange : TimeRange) (hc0 : 0 ≤ p.cursor)
    (hq : isASCII p.filterQuery = true) :
    ProjectsModel.Inv rt
      (if ((({ p with allProjects := items, timeRange := timeRange } : ProjectsModel).applyFilter
            rt).sortProjects rt).cursor ≥
          ((({ p with allProjects := items, timeRange := timeRange } :
            ProjectsModel).applyFilter rt).sortProjects rt).projects.length then
        { (({ p with allProjects := items, timeRange := timeRange } : ProjectsModel).applyFilter
            rt).sortProjects rt with
          cursor := max 0
            (((((({ p with allProjects := items, timeRange := timeRange } :
              ProjectsModel).applyFilter rt).sortProjects rt).projects.length : Nat) : Int) - 1) }
      else (({ p with allProjects := items, timeRange := timeRange } : ProjectsModel).applyFilter
        rt).sortProjects rt) := by
  obtain ⟨f1, f2, f3, f4⟩ := projectsPanel_refilter_fields rt
    { p with allProjects := items, timeRange := timeRange }
  have key := cursorInBounds_clamp p.cursor
    (({ p with allProjects := items, timeRange := timeRange } : ProjectsModel).applyFilter
      rt |>.sortProjects rt).projects.length hc0
  rw [projectsPanel_Inv_iff]
  split_ifs with hge
  · rw [f2] at hge
    rw [if_pos hge] at key
    exact ⟨by simpa [f2] using key, by simpa [f3, f4] using f1, by simpa [f4] using hq⟩
  · rw [f2] at hge
    rw [if_neg hge] at key
    exact ⟨by simpa [f2] using key, by simpa [f3, f4] using f1, by simpa [f4] using hq⟩

theorem projectsPanel_step_inv (rt : Runtime) (p : ProjectsModel) (op : PanelOp ProjectSummary)
    (h : p.Inv rt) (hop : op.nonNegative = true) : (p.step rt op).Inv rt := by
  have h' := (projectsPanel_Inv_iff rt p).mp h
  obtain ⟨hc, hperm, hq⟩ := h'
  have hc0 := cursorInBounds_nonneg _ _ hc
  cases op with
  | update items timeRange =>
    exact projectsPanel_reload_inv rt p items timeRange hc0 hq
  | cursorUp =>
    simp only [ProjectsModel.step, ProjectsModel.CursorUp]
    split_ifs with hpos
    · apply projectsPanel_ensureVisible_inv
      rw [projectsPanel_Inv_iff]
      refine ⟨?_, hperm, hq⟩
      have hlen : 0 < p.projects.length := by
        rcases Nat.eq_zero_or_pos p.projects.length with h0 | h0
        · have := hc.1 h0; omega
        · exact h0
      have := hc.2 hlen
      show cursorInBounds (p.cursor - 1) p.projects.length
      exact ⟨fun h0 => by omega, fun _ => ⟨by omega, by omega⟩⟩
    · exact h
  | cursorDown =>
    simp only [ProjectsModel.step, ProjectsModel.CursorDown]
    split_ifs with hlt
    · apply projectsPanel_ensureVisible_inv
      rw [projectsPanel_Inv_iff]
      refine ⟨?_, hperm, hq⟩
      show cursorInBounds (p.cursor + 1) p.projects.length
      exact ⟨fun h0 => by rw [h0] at hlt; simp at hlt; omega,
        fun _ => ⟨by omega, by omega⟩⟩
    · exact h
  | cursorUpN n =>
    simp only [PanelOp.nonNegative, decide_eq_true_eq] at hop
    simp only [ProjectsModel.step, ProjectsModel.CursorUpN]
    apply projectsPanel_ensureVisible_inv
    rw [projectsPanel_Inv_iff]
    refine ⟨?_, hperm, hq⟩
    show cursorInBounds (if p.cursor - n < 0 then 0 else p.cursor - n) p.projects.length
    split_ifs with hneg
    · exact cursorInBounds_zero _
    · refine ⟨fun h0 => ?_, fun hpos => ?_⟩
      · have := hc.1 h0; omega
      · have := hc.2 hpos; exact ⟨by omega, by omega⟩
  | cursorDownN n =>
    simp only [ProjectsModel.step, ProjectsModel.CursorDownN]
    apply projectsPanel_ensureVisible_inv
    rw [projectsPanel_Inv_iff]
    refine ⟨?_, hperm, hq⟩
    show cursorInBounds
      (if (if p.cursor + n ≥ (p.projects.length : Int) then (p.projects.length : Int) - 1
          else p.cursor + n) < 0 then 0
        else (if p.cursor + n ≥ (p.projects.length : Int) then (p.projects.length : Int) - 1
          else p.cursor + n)) p.projects.length
    refine ⟨fun h0 => ?_, fun hpos => ?_⟩
    · have hl : ((p.projects.length : Nat) : Int) = 0 := by rw [h0]; rfl
      split_ifs <;> omega
    · have : (0 : Int) < p.projects.length := by exact_mod_cast hpos
      split_ifs <;> exact ⟨by omega, by omega⟩
  | filterKey key =>
    simp only [ProjectsModel.step]
    split_ifs with hk
    · simp only [ProjectsModel.HandleFilterInput]
      obtain ⟨f1, f2, f3, f4⟩ := projectsPanel_refilter_fields rt
        { p with filterQuery := p.filterQuery ++ key }
      rw [projectsPanel_Inv_iff]
      exact ⟨cursorInBounds_zero _, by simpa [f3, f4] using f1,
        by simpa [f4] using isASCII_append_key _ _ hq hk⟩
    · exact h
  | filterBackspace =>
    simp only [ProjectsModel.step, ProjectsModel.HandleFilterBackspace]
    split_ifs with hlen
    · obtain ⟨f1, f2, f3, f4⟩ := projectsPanel_refilter_fields rt
        { p with filterQuery := p.filterQuery.take (p.filterQuery.length - 1) }
      rw [projectsPanel_Inv_iff]
      have hpre : p.filterQuery.take (p.filterQuery.length - 1) <+: p.filterQuery :=
        List.take_prefix _ _
      refine ⟨?_, by simpa [f3, f4] using f1, by simpa [f4] using isASCII_initial _ _ hq hpre⟩
      rw [f2]
      refine cursorInBounds_mono _ _ _ hc ?_
      rw [f1.length_eq, hperm.length_eq]
      exact projectsPanel_filter_length_mono rt p.allProjects _ _ hq hpre
    · exact h
  | setFilterMode enabled =>
    simp only [ProjectsModel.step, ProjectsModel.SetFilterMode]
    cases enabled
    · obtain ⟨f1, f2, f3, f4⟩ := projectsPanel_refilter_fields rt
        { p with filterMode := false, filterQuery := [] }
      simp only [Bool.not_false, if_true]
      rw [projectsPanel_Inv_iff]
      refine ⟨?_, by simpa [f3, f4] using f1, by simp [f4, isASCII]⟩
      rw [f2]
      refine cursorInBounds_mono _ _ _ hc ?_
      rw [f1.length_eq, hperm.length_eq]
      exact projectsPanel_filter_length_mono rt p.allProjects _ _ hq List.nil_prefix
    · simp only [Bool.not_true, Bool.false_eq_true, if_false]
      rw [projectsPanel_Inv_iff]
      exact ⟨hc, hperm, hq⟩
  | confirm =>
    simp only [ProjectsModel.step]
    rw [projectsPanel_Inv_iff]
    exact ⟨hc, hperm, hq⟩
  | cycleSort =>
    simp only [ProjectsModel.step, ProjectsModel.CycleSort, ProjectsModel.sortProjects]
    rw [projectsPanel_Inv_iff]
    refine ⟨?_, (rt.sorter.perm _ _).trans hperm, hq⟩
    show cursorInBounds p.cursor _
    rw [(rt.sorter.perm _ _).length_eq]
    exact hc
  | toggleSortDirection =>
    simp only [ProjectsModel.step, ProjectsModel.ToggleSortDirection,
      ProjectsModel.sortProjects]
    rw [projectsPanel_Inv_iff]
    refine ⟨?_, (rt.sorter.perm _ _).trans hperm, hq⟩
    show cursorInBounds p.cursor _
    rw [(rt.sorter.perm _ _).length_eq]
    exact hc

theorem sessionsPanel_Inv_iff (rt : Runtime) (s : SessionsModel) :
    s.Inv rt ↔ cursorInBounds s.cursor s.sessions.length ∧
      s.sessions.Perm (s.allSessions.filter (fun session =>
        Contains (ToLower rt.unicodeLower session.Summary)
            (ToLower rt.unicodeLower s.filterQuery) ||
          Contains (ToLower rt.unicodeLower session.ProjectName)
            (ToLower rt.unicodeLower s.filterQuery))) ∧
      isASCII s.filterQuery = true := by
  unfold SessionsModel.Inv
  rw [SessionsModel.applyFilter_sessions]

theorem sessionsPanel_ensureVisible_fields (s : SessionsModel) :
    s.ensureVisible.cursor = s.cursor ∧ s.ensureVisible.sessions = s.sessions ∧
      s.ensureVisible.allSessions = s.allSessions ∧
      s.ensureVisible.filterQuery = s.filterQuery := by
  unfold SessionsModel.ensureVisible
  simp only []
  split_ifs <;> exact ⟨rfl, rfl, rfl, rfl⟩

theorem sessionsPanel_ensureVisible_inv (rt : Runtime) (s : SessionsModel) (h : s.Inv rt) :
    s.ensureVisible.Inv rt := by
  rw [sessionsPanel_Inv_iff] at *
  obtain ⟨a, b, c, d⟩ := sessionsPanel_ensureVisible_fields s
  rw [a, b, c, d]
  exact h

/-- The filtered and sorted items after a change of the items or of the query. -/
theorem sessionsPanel_refilter_fields (rt : Runtime) (s : SessionsModel) :
    ((s.applyFilter rt).sortSessions rt).sessions.Perm
        (s.allSessions.filter (fun session =>
          Contains (ToLower rt.unicodeLower session.Summary)
              (ToLower rt.unicodeLower s.filterQuery) ||
            Contains (ToLower rt.unicodeLower session.ProjectName)
              (ToLower rt.unicodeLower s.filterQuery))) ∧
      ((s.applyFilter rt).sortSessions rt).cursor = s.cursor ∧
      ((s.applyFilter rt).sortSessions rt).allSessions = s.allSessions ∧
      ((s.applyFilter rt).sortSessions rt).filterQuery = s.filterQuery := by
  refine ⟨?_, ?_, ?_, ?_⟩
  · rw [← SessionsModel.applyFilter_sessions]
    exact rt.sorter.perm _ _
  all_goals
    unfold SessionsModel.sortSessions SessionsModel.applyFilter
    split_ifs <;> rfl

theorem sessionsPanel_filter_length_mono (rt : Runtime) (all : List SessionEntry)
    (q q' : GoString) (h : isASCII q = true) (hp : q' <+: q) :
    (all.filter (fun session =>
        Contains (ToLower rt.unicodeLower session.Summary) (ToLower rt.unicodeLower q) ||
          Contains (ToLower rt.unicodeLower session.ProjectName)
            (ToLower rt.unicodeLower q))).length ≤
      (all.filter (fun session =>
        Contains (ToLower rt.unicodeLower session.Summary) (ToLower rt.unicodeLower q') ||
          Contains (ToLower rt.unicodeLower session.ProjectName)
            (ToLower rt.unicodeLower q'))).length := by
  apply List.Sublist.length_le
  apply List.monotone_filter_right
  intro x hx
  rw [Bool.or_eq_true] at *
  exact hx.imp (Contains_initial _ _ q q' h hp) (Contains_initial _ _ q q' h hp)

theorem sessionsPanel_reload_inv (rt : Runtime) (s : SessionsModel)
    (items : List SessionEntry) (timeRange : TimeRange) (hc0 : 0 ≤ s.cursor)
    (hq : isASCII s.filterQuery = true) :
    SessionsModel.Inv rt
      (if ((({ s with allSessions := items, timeRange := timeRange } : SessionsModel).applyFilter
            rt).sortSessions rt).cursor ≥
          ((({ s with allSessions := items, timeRange := timeRange } :
            SessionsModel).applyFilter rt).sortSessions rt).sessions.length then
        { (({ s with allSessions := items, timeRange := timeRange } : SessionsModel).applyFilter
            rt).sortSessions rt with
          cursor := max 0
            (((((({ s with allSessions := items, timeRange := timeRange } :
              SessionsModel).applyFilter rt).sortSessions rt).sessions.length : Nat) : Int) - 1) }
      else (({ s with allSessions := items, timeRange := timeRange } : SessionsModel).applyFilter
        rt).sortSessions rt) := by
  obtain ⟨f1, f2, f3, f4⟩ := sessionsPanel_refilter_fields rt
    { s with allSessions := items, timeRange := timeRange }
  have key := cursorInBounds_clamp s.cursor
    (({ s with allSessions := items, timeRange := timeRange } : SessionsModel).applyFilter
      rt |>.sortSessions rt).sessions.length hc0
  rw [sessionsPanel_Inv_iff]
  split_ifs with hge
  · rw [f2] at hge
    rw [if_pos hge] at key
    exact ⟨by simpa [f2] using key, by simpa [f3, f4] using f1, by simpa [f4] using hq⟩
  · rw [f2] at hge
    rw [if_neg hge] at key
    exact ⟨by simpa [f2] using key, by simpa [f3, f4] using f1, by simpa [f4] using hq⟩

theorem sessionsPanel_step_inv (rt : Runtime) (s : SessionsModel) (op : PanelOp SessionEntry)
    (h : s.Inv rt) (hop : op.nonNegative = true) : (s.step rt op).Inv rt := by
  have h' := (sessionsPanel_Inv_iff rt s).mp h
  obtain ⟨hc, hperm, hq⟩ := h'
  have hc0 := cursorInBounds_nonneg _ _ hc
  cases op with
  | update items timeRange =>
    exact sessionsPanel_reload_inv rt s _ timeRange hc0 hq
  | cursorUp =>
    simp only [SessionsModel.step, SessionsModel.CursorUp]
    split_ifs with hpos
    · apply sessionsPanel_ensureVisible_inv
      rw [sessionsPanel_Inv_iff]
      refine ⟨?_, hperm, hq⟩
      have hlen : 0 < s.sessions.length := by
        rcases Nat.eq_zero_or_pos s.sessions.length with h0 | h0
        · have := hc.1 h0; omega
        · exact h0
      have := hc.2 hlen
      show cursorInBounds (s.cursor - 1) s.sessions.length
      exact ⟨fun h0 => by omega, fun _ => ⟨by omega, by omega⟩⟩
    · exact h
  | cursorDown =>
    simp only [SessionsModel.step, SessionsModel.CursorDown]
    split_ifs with hlt
    · apply sessionsPanel_ensureVisible_inv
      rw [sessionsPanel_Inv_iff]
      refine ⟨?_, hperm, hq⟩
      show cursorInBounds (s.cursor + 1) s.sessions.length
      exact ⟨fun h0 => by rw [h0] at hlt; simp at hlt; omega,
        fun _ => ⟨by omega, by omega⟩⟩
    · exact h
  | cursorUpN n =>
    simp only [PanelOp.nonNegative, decide_eq_true_eq] at hop
    simp only [SessionsModel.step, SessionsModel.CursorUpN]
    apply sessionsPanel_ensureVisible_inv
    rw [sessionsPanel_Inv_iff]
    refine ⟨?_, hperm, hq⟩
    show cursorInBounds (if s.cursor - n < 0 then 0 else s.cursor - n) s.sessions.length
    split_ifs with hneg
    · exact cursorInBounds_zero _
    · refine ⟨fun h0 => ?_, fun hpos => ?_⟩
      · have := hc.1 h0; omega
      · have := hc.2 hpos; exact ⟨by omega, by omega⟩
  | cursorDownN n =>
    simp only [SessionsModel.step, SessionsModel.CursorDownN]
    apply sessionsPanel_ensureVisible_inv
    rw [sessionsPanel_Inv_iff]
    refine ⟨?_, hperm, hq⟩
    show cursorInBounds
      (if (if s.cursor + n ≥ (s.sessions.length : Int) then (s.sessions.length : Int) - 1
          else s.cursor + n) < 0 then 0
        else (if s.cursor + n ≥ (s.sessions.length : Int) then (s.sessions.length : Int) - 1
          else s.cursor + n)) s.sessions.length
    refine ⟨fun h0 => ?_, fun hpos => ?_⟩
    · have hl : ((s.sessions.length : Nat) : Int) = 0 := by rw [h0]; rfl
      split_ifs <;> omega
    · have : (0 : Int) < s.sessions.length := by exact_mod_cast hpos
      split_ifs <;> exact ⟨by omega, by omega⟩
  | filterKey key =>
    simp only [SessionsModel.step]
    split_ifs with hk
    · simp only [SessionsModel.HandleFilterInput]
      obtain ⟨f1, f2, f3, f4⟩ := sessionsPanel_refilter_fields rt
        { s with filterQuery := s.filterQuery ++ key }
      rw [sessionsPanel_Inv_iff]
      exact ⟨cursorInBounds_zero _, by simpa [f3, f4] using f1,
        by simpa [f4] using isASCII_append_key _ _ hq hk⟩
    · exact h
  | filterBackspace =>
    simp only [SessionsModel.step, SessionsModel.HandleFilterBackspace]
    split_ifs with hlen
    · obtain ⟨f1, f2, f3, f4⟩ := sessionsPanel_refilter_fields rt
        { s with filterQuery := s.filterQuery.take (s.filterQuery.length - 1) }
      rw [sessionsPanel_Inv_iff]
      have hpre : s.filterQuery.take (s.filterQuery.length - 1) <+: s.filterQuery :=
        List.take_prefix _ _
      refine ⟨?_, by simpa [f3, f4] using f1, by simpa [f4] using isASCII_initial _ _ hq hpre⟩
      rw [f2]
      refine cursorInBounds_mono _ _ _ hc ?_
      rw [f1.length_eq, hperm.length_eq]
      exact sessionsPanel_filter_length_mono rt s.allSessions _ _ hq hpre
    · exact h
  | setFilterMode enabled =>
    simp only [SessionsModel.step, SessionsModel.SetFilterMode]
    cases enabled
    · obtain ⟨f1, f2, f3, f4⟩ := sessionsPanel_refilter_fields rt
        { s with filterMode := false, filterQuery := [] }
      simp only [Bool.not_false, if_true]
      rw [sessionsPanel_Inv_iff]
      refine ⟨?_, by simpa [f3, f4] using f1, by simp [f4, isASCII]⟩
      rw [f2]
      refine cursorInBounds_mono _ _ _ hc ?_
      rw [f1.length_eq, hperm.length_eq]
      exact sessionsPanel_filter_length_mono rt s.allSessions _ _ hq List.nil_prefix
    · simp only [Bool.not_true, Bool.false_eq_true, if_false]
      rw [sessionsPanel_Inv_iff]
      exact ⟨hc, hperm, hq⟩
  | confirm =>
    simp only [SessionsModel.step]
    rw [sessionsPanel_Inv_iff]
    exact ⟨hc, hperm, hq⟩
  | cycleSort =>
    simp only [SessionsModel.step, SessionsModel.CycleSort, SessionsModel.sortSessions]
    rw [sessionsPanel_Inv_iff]
    refine ⟨?_, (rt.sorter.perm _ _).trans hperm, hq⟩
    show cursorInBounds s.cursor _
    rw [(rt.sorter.perm _ _).length_eq]
    exact hc
  | toggleSortDirection =>
    simp only [SessionsModel.step, SessionsModel.ToggleSortDirection,
      SessionsModel.sortSessions]
    rw [sessionsPanel_Inv_iff]
    refine ⟨?_, (rt.sorter.perm _ _).trans hperm, hq⟩
    show cursorInBounds s.cursor _
    rw [(rt.sorter.perm _ _).length_eq]
    exact hc

theorem projectsPanel_run_inv (rt : Runtime) (ops : List (PanelOp ProjectSummary))
    (p : ProjectsModel) (h : p.Inv rt) (hops : ∀ op ∈ ops, op.nonNegative = true) :
    (p.run rt ops).Inv rt := by
  induction ops generalizing p with
  | nil => exact h
  | cons op ops ih =>
    exact ih (p.step rt op)
      (projectsPanel_step_inv rt p op h (hops op (List.mem_cons_self _ _)))
      (fun o ho => hops o (List.mem_cons_of_mem _ ho))

theorem sessionsPanel_run_inv (rt : Runtime) (ops : List (PanelOp SessionEntry))
    (s : SessionsModel) (h : s.Inv rt) (hops : ∀ op ∈ ops, op.nonNegative = true) :
    (s.run rt ops).Inv rt := by
  induction ops generalizing s with
  | nil => exact h
  | cons op ops ih =>
    exact ih (s.step rt op)
      (sessionsPanel_step_inv rt s op h (hops op (List.mem_cons_self _ _)))
      (fun o ho => hops o (List.mem_cons_of_mem _ ho))

/-- C6. From the freshly constructed Projects or Sessions panel, after any
finite sequence of `Update` (also with a shorter or an empty list), `CursorUp`,
`CursorDown`, `CursorUpN(n)` and `CursorDownN(n)` with `n >= 0`, filter keys,
`HandleFilterBackspace`, `SetFilterMode`, the confirmation of the filter,
`CycleSort` and `ToggleSortDirection`: the cursor is on an item when the items
are not empty, and is 0 when they are. -/
theorem cursor_in_bounds (rt : Runtime) (projectOps : List (PanelOp ProjectSummary))
    (sessionOps : List (PanelOp SessionEntry))
    (hp : ∀ op ∈ projectOps, op.nonNegative = true)
    (hs : ∀ op ∈ sessionOps, op.nonNegative = true) :
    cursorInBounds (NewProjectsModel.run rt projectOps).cursor
        (NewProjectsModel.run rt projectOps).projects.length ∧
      cursorInBounds (NewSessionsModel.run rt sessionOps).cursor
        (NewSessionsModel.run rt sessionOps).sessions.length := by
  have hp0 : NewProjectsModel.Inv rt :=
    ⟨cursorInBounds_zero _, by simp [NewProjectsModel, ProjectsModel.applyFilter], rfl⟩
  have hs0 : NewSessionsModel.Inv rt :=
    ⟨cursorInBounds_zero _, by simp [NewSessionsModel, SessionsModel.applyFilter], rfl⟩
  exact ⟨(projectsPanel_run_inv rt projectOps _ hp0 hp).1,
    (sessionsPanel_run_inv rt sessionOps _ hs0 hs).1⟩

/-- C6, at a concrete input. -/
theorem cursor_in_bounds_witness :
    cursorInBounds (NewProjectsModel.run asciiRuntime sampleProjectOps).cursor
        (NewProjectsModel.run asciiRuntime sampleProjectOps).projects.length ∧
      cursorInBounds (NewSessionsModel.run asciiRuntime sampleSessionOps).cursor
        (NewSessionsModel.run asciiRuntime sampleSessionOps).sessions.length :=
  cursor_in_bounds asciiRuntime sampleProjectOps sampleSessionOps (by decide) (by decide)

/-- C7, at the failing input: after the replacement of the data by a shorter
list the cursor is clamped and the offset is not, so that the offset is beyond
the cursor. -/
theorem window_lost_after_shrink :
    (NewProjectsModel.run asciiRuntime shrinkProjectOps).visibleRows = 10 ∧
      (NewProjectsModel.run asciiRuntime shrinkProjectOps).projects.length = 1 ∧
      (NewProjectsModel.run asciiRuntime shrinkProjectOps).cursor = 0 ∧
      (NewProjectsModel.run asciiRuntime shrinkProjectOps).offset = 1 ∧
      ¬ cursorVisible (NewProjectsModel.run asciiRuntime shrinkProjectOps).cursor
        (NewProjectsModel.run asciiRuntime shrinkProjectOps).offset
        (NewProjectsModel.run asciiRuntime shrinkProjectOps).visibleRows ∧
      (NewSessionsModel.run asciiRuntime shrinkSessionOps).visibleRows = 5 ∧
      (NewSessionsModel.run asciiRuntime shrinkSessionOps).sessions.length = 1 ∧
      (NewSessionsModel.run asciiRuntime shrinkSessionOps).cursor = 0 ∧
      (NewSessionsModel.run asciiRuntime shrinkSessionOps).offset = 1 ∧
      ¬ cursorVisible (NewSessionsModel.run asciiRuntime shrinkSessionOps).cursor
        (NewSessionsModel.run asciiRuntime shrinkSessionOps).offset
        (NewSessionsModel.run asciiRuntime shrinkSessionOps).visibleRows := by
  unfold cursorVisible
  decide

/-! ## Time ranges -/

theorem dayOfYear_bounds (doe yoe : Int) (h0 : 0 ≤ doe) (h1 : doe ≤ 146096)
    (hy : yoe = (doe - doe / 1460 + doe / 36524 - doe / 146096) / 365) :
    0 ≤ yoe ∧ yoe ≤ 399 ∧ 0 ≤ doe - (365 * yoe + yoe / 4 - yoe / 100) ∧
      doe - (365 * yoe + yoe / 4 - yoe / 100) ≤ 365 := by
  obtain ⟨c, hc⟩ : ∃ c, c = doe / 36524 := ⟨_, rfl⟩
  have hc0 : 0 ≤ c := by omega
  have hc4 : c ≤ 4 := by omega
  obtain ⟨q, hq⟩ : ∃ q, q = yoe / 100 := ⟨_, rfl⟩
  have hq0 : 0 ≤ q := by omega
  have hq3 : q ≤ 3 := by omega
  refine ⟨by omega, by omega, ?_⟩
  interval_cases c <;> interval_cases q <;> omega

theorem civil_roundtrip (z : Int) :
    daysFromCivil (civilFromDays z).1 (civilFromDays z).2.1 (civilFromDays z).2.2 = z ∧
      1 ≤ (civilFromDays z).2.1 ∧ (civilFromDays z).2.1 ≤ 12 := by
  obtain ⟨era, hera⟩ : ∃ era, era = (z + 719468) / 146097 := ⟨_, rfl⟩
  obtain ⟨doe, hdoe⟩ : ∃ doe, doe = z + 719468 - era * 146097 := ⟨_, rfl⟩
  obtain ⟨yoe, hyoe⟩ : ∃ yoe, yoe = (doe - doe / 1460 + doe / 36524 - doe / 146096) / 365 :=
    ⟨_, rfl⟩
  obtain ⟨doy, hdoy⟩ : ∃ doy, doy = doe - (365 * yoe + yoe / 4 - yoe / 100) := ⟨_, rfl⟩
  obtain ⟨mp, hmp⟩ : ∃ mp, mp = (5 * doy + 2) / 153 := ⟨_, rfl⟩
  have h0 : 0 ≤ doe := by omega
  have h1 : doe ≤ 146096 := by omega
  obtain ⟨b1, b2, b3, b4⟩ := dayOfYear_bounds doe yoe h0 h1 hyoe
  rw [← hdoy] at b3 b4
  have hmp0 : 0 ≤ mp := by omega
  have hmp11 : mp ≤ 11 := by omega
  have hk : (yoe + era * 400) / 400 = era := by omega
  have hy : yoe + era * 400 - era * 400 = yoe := by omega
  simp only [civilFromDays, daysFromCivil, ← hera, ← hdoe, ← hyoe, ← hdoy, ← hmp]
  by_cases hlt : mp < 10
  · have e1 : ¬ (mp + 3 ≤ 2) := by omega
    have e2 : mp + 3 > 2 := by omega
    simp only [hlt, if_true, e1, if_false, e2, hk, hy]
    refine ⟨?_, by omega, by omega⟩
    have e3 : mp + 3 - 3 = mp := by omega
    rw [e3]
    omega
  · have e1 : mp - 9 ≤ 2 := by omega
    have e2 : ¬ (mp - 9 > 2) := by omega
    have e4 : yoe + era * 400 + 1 - 1 = yoe + era * 400 := by omega
    simp only [hlt, if_false, e1, if_true, e2, e4, hk, hy]
    refine ⟨?_, by omega, by omega⟩
    have e3 : mp - 9 + 9 = mp := by omega
    rw [e3]
    omega

theorem daysFromCivil_add (y m d k : Int) : daysFromCivil y m (d + k) = daysFromCivil y m d + k := by
  simp only [daysFromCivil]
  omega

theorem Date_of_civil (q r days y m d : Int) (hc : civilFromDays q = (y, m, d)) :
    Date (y + 0) (m + 0) (d + days) 0 0 0 r = (q + days) * nsPerDay + r := by
  obtain ⟨hr, hm1, hm12⟩ := civil_roundtrip q
  rw [hc] at hr hm1 hm12
  simp only at hr hm1 hm12
  have e1 : (m - 1) / 12 = 0 := by omega
  have e2 : (m - 1) % 12 + 1 = m := by omega
  unfold Date
  simp only [add_zero, e1, e2, daysFromCivil_add, hr, nsPerDay]
  ring

/-- The date with a clock: the instant, read as UTC, of a date that is `days`
days after the date of the reading `w` (in seconds), at the clock of `w`. -/
theorem Date_of_wall (w days ns y m d : Int) (hc : civilFromDays (w / 86400) = (y, m, d)) :
    Date (y + 0) (m + 0) (d + days) (w % 86400 / 3600) (w % 86400 % 3600 / 60) (w % 86400 % 60)
      ns = (w + days * 86400) * 1000000000 + ns := by
  obtain ⟨hr, hm1, hm12⟩ := civil_roundtrip (w / 86400)
  rw [hc] at hr hm1 hm12
  simp only at hr hm1 hm12
  have e1 : (m - 1) / 12 = 0 := by omega
  have e2 : (m - 1) % 12 + 1 = m := by omega
  unfold Date
  simp only [add_zero, e1, e2, daysFromCivil_add, hr]
  have key : ∀ q r : Int, q = w / 86400 → r = w % 86400 →
      (((q + days) * 24 + r / 3600) * 60 + r % 3600 / 60) * 60 + r % 60 = w + days * 86400 := by
    intro q r hq hr
    omega
  rw [key _ _ rfl rfl]

/-- The offset that `Date` takes off is one that the zone has at some instant. -/
theorem Location.Date_offset (loc : Location) (year month day hour min sec nsec : Int) :
    ∃ at_ : Int, loc.Date year month day hour min sec nsec =
      Lazyvibe.Date year month day hour min sec nsec -
        (loc.lookup at_).offset * 1000000000 := by
  have h := Int.ediv_add_emod (Lazyvibe.Date year month day hour min sec nsec) 1000000000
  unfold Location.Date
  simp only []
  split_ifs with h1 h2
  · exact ⟨_, by linarith⟩
  · exact ⟨Lazyvibe.Date year month day hour min sec nsec / 1000000000, by linarith⟩
  · refine ⟨Lazyvibe.Date year month day hour min sec nsec / 1000000000, ?_⟩
    rw [not_not] at h1
    rw [h1]
    linarith

theorem UTC_fixed : UTC.FixedOffset 0 := fun _ => rfl

/-- Adding days to a time, in every location: the result is the instant that
many times 24 hours later, moved by the difference between the offset of the
zone at `t` and an offset of the zone. -/
theorem Time.AddDate_days_offset (t : Time) (loc : Location) (days : Int) :
    ∃ at_ : Int, t.AddDate loc 0 0 days =
      t + days * nsPerDay +
        ((loc.lookup (t / 1000000000)).offset - (loc.lookup at_).offset) * 1000000000 := by
  have h := Int.ediv_add_emod t 1000000000
  unfold Time.AddDate Time.civil
  rcases hc : civilFromDays (t.wallSec loc / 86400) with ⟨y, m, d⟩
  simp only
  obtain ⟨at_, e⟩ := loc.Date_offset (y + 0) (m + 0) (d + days) (t.wallSec loc % 86400 / 3600)
    (t.wallSec loc % 86400 % 3600 / 60) (t.wallSec loc % 86400 % 60) (t % 1000000000)
  refine ⟨at_, ?_⟩
  rw [e, Date_of_wall _ _ _ _ _ _ hc]
  unfold Time.wallSec nsPerDay
  linarith

/-- Adding days to a time in a zone whose offset does not change: the result is
that many times 24 hours later. -/
theorem Time.AddDate_days (t : Time) (loc : Location) (o : Int) (ho : loc.FixedOffset o)
    (days : Int) : t.AddDate loc 0 0 days = t + days * nsPerDay := by
  obtain ⟨at_, e⟩ := Time.AddDate_days_offset t loc days
  rw [e, ho, ho]
  ring

theorem Time.AddDate_days_UTC (t : Time) (days : Int) :
    t.AddDate UTC 0 0 days = t + days * nsPerDay :=
  Time.AddDate_days t UTC 0 UTC_fixed days

/-- C9 (amended). For every snapshot, every instant `now` and every local time
zone: `FilterSessions(Week)` drops every session that was not modified after
the instant `now.AddDate(0, 0, -7)`, the reading of the local clock of `now`
seven calendar days earlier, and keeps, in their order, the sessions modified
after that instant; `FilterSessions(All)` returns the sessions as they are.
That instant is `now` minus 7 times 24 hours, moved by the difference between
the offset of the zone at `now` and an offset of the zone: in a zone whose
offset to UTC does not change, such as UTC, it is `now` minus 7 times 24 hours,
and there, with `now` on or after 2024-06-10 (00:00 UTC), no session modified
before 2024-06-03 is in the result. -/
theorem filterSessions_week (d : DashboardData) (now : Time) (loc : Location) :
    StartTime TimeWeek now loc = now.AddDate loc 0 0 (-7) ∧
      d.FilterSessions TimeWeek now loc =
        d.Sessions.filter (fun s => decide (now.AddDate loc 0 0 (-7) < s.Modified)) ∧
      (∀ s ∈ d.Sessions, s.Modified ≤ now.AddDate loc 0 0 (-7) →
        s ∉ d.FilterSessions TimeWeek now loc) ∧
      (∀ s ∈ d.Sessions, now.AddDate loc 0 0 (-7) < s.Modified →
        s ∈ d.FilterSessions TimeWeek now loc) ∧
      (d.FilterSessions TimeWeek now loc).Sublist d.Sessions ∧
      d.FilterSessions TimeAll now loc = d.Sessions ∧
      (∃ at_ : Int, now.AddDate loc 0 0 (-7) =
        now - 7 * nsPerDay +
          ((loc.lookup (now / 1000000000)).offset - (loc.lookup at_).offset) * 1000000000) ∧
      (∀ o : Int, loc.FixedOffset o →
        now.AddDate loc 0 0 (-7) = now - 7 * nsPerDay ∧
        d.FilterSessions TimeWeek now loc =
          d.Sessions.filter (fun s => decide (now - 7 * nsPerDay < s.Modified)) ∧
        (Date 2024 6 10 0 0 0 0 ≤ now →
          ∀ s ∈ d.Sessions, s.Modified < Date 2024 6 3 0 0 0 0 →
            s ∉ d.FilterSessions TimeWeek now loc)) := by
  have hstart : StartTime TimeWeek now loc = now.AddDate loc 0 0 (-7) := by
    simp only [StartTime, TimeWeek, TimeToday]
    rw [if_neg (by decide), if_pos trivial]
  have hfilter : d.FilterSessions TimeWeek now loc =
      d.Sessions.filter (fun s => decide (now.AddDate loc 0 0 (-7) < s.Modified)) := by
    unfold DashboardData.FilterSessions
    rw [if_neg (by decide)]
    simp only [hstart, Time.After]
  refine ⟨hstart, hfilter, ?_, ?_, ?_, ?_, ?_, ?_⟩
  · intro s _ hlt hmem
    rw [hfilter, List.mem_filter, decide_eq_true_eq] at hmem
    exact absurd hmem.2 (not_lt.mpr hlt)
  · intro s hs hlt
    rw [hfilter, List.mem_filter, decide_eq_true_eq]
    exact ⟨hs, hlt⟩
  · rw [hfilter]
    exact List.filter_sublist _
  · simp [DashboardData.FilterSessions, TimeAll]
  · obtain ⟨at_, e⟩ := Time.AddDate_days_offset now loc (-7)
    exact ⟨at_, by rw [e]; ring⟩
  · intro o ho
    have e : now.AddDate loc 0 0 (-7) = now - 7 * nsPerDay := by
      rw [Time.AddDate_days now loc o ho]
      ring
    refine ⟨e, by rw [hfilter, e], ?_⟩
    intro hnow s _ hlt hmem
    rw [hfilter, e, List.mem_filter, decide_eq_true_eq] at hmem
    have h10 : Date 2024 6 10 0 0 0 0 - 7 * nsPerDay = Date 2024 6 3 0 0 0 0 := by decide
    have h1 : Date 2024 6 3 0 0 0 0 ≤ now - 7 * nsPerDay := by
      rw [← h10]
      exact sub_le_sub_right hnow _
    exact absurd (lt_of_le_of_lt h1 hmem.2) (not_lt.mpr (le_of_lt hlt))

/-- C9, at a concrete input: on 2024-06-10, in UTC, the session of 2024-06-01 is
dropped and the session of 2024-06-05 is kept. -/
theorem filterSessions_week_witness :
    juneSnapshot.FilterSessions TimeWeek (Date 2024 6 10 0 0 0 0) UTC
      = [sessionA 4 (Date 2024 6 5 12 0 0 0)] := by
  rw [((filterSessions_week juneSnapshot (Date 2024 6 10 0 0 0 0) UTC).2.2.2.2.2.2.2 0
    UTC_fixed).2.1]
  decide

/-- C9 (as worded, fails). In the zone `Europe/Berlin`, summer time began on
31 March 2024.  At `now` = 2 April 2024, 10:00 UTC (12:00 local time),
`now.AddDate(0, 0, -7)` is 26 March 2024, 12:00 local time, which is 11:00 UTC
and 167 hours before `now`, where `now` minus 7 days is 26 March 2024, 10:00
UTC.  The session modified on 26 March 2024 at 10:30 UTC was modified after
`now` minus 7 days, and `FilterSessions(Week)` drops it. -/
theorem filterSessions_week_dst :
    (Date 2024 4 2 10 0 0 0).AddDate europeBerlin 0 0 (-7) = Date 2024 3 26 11 0 0 0 ∧
    Date 2024 4 2 10 0 0 0 - 7 * nsPerDay = Date 2024 3 26 10 0 0 0 ∧
    marchSnapshot.Sessions = [sessionA 4 (Date 2024 3 26 10 30 0 0)] ∧
    Date 2024 4 2 10 0 0 0 - 7 * nsPerDay < Date 2024 3 26 10 30 0 0 ∧
    marchSnapshot.FilterSessions TimeWeek (Date 2024 4 2 10 0 0 0) europeBerlin = [] ∧
    marchSnapshot.FilterSessions TimeWeek (Date 2024 4 2 10 0 0 0) UTC =
      [sessionA 4 (Date 2024 3 26 10 30 0 0)] := by
  refine ⟨by decide, by decide, rfl, by decide, by decide, by decide⟩

/-! ## Navigation on the grid of panels -/

theorem getPanelPosition_table :
    getPanelPosition PanelStats = (0, 0) ∧ getPanelPosition PanelProjects = (0, 1) ∧
      getPanelPosition PanelActivity = (1, 0) ∧ getPanelPosition PanelSessions = (1, 1) := by
  decide

theorem grid_table :
    panelRow PanelStats = 0 ∧ panelCol PanelStats = 0 ∧
      panelRow PanelProjects = 0 ∧ panelCol PanelProjects = 1 ∧
      panelRow PanelActivity = 1 ∧ panelCol PanelActivity = 0 ∧
      panelRow PanelSessions = 1 ∧ panelCol PanelSessions = 1 ∧
      gridAt 0 0 = PanelStats ∧ gridAt 0 1 = PanelProjects ∧
      gridAt 1 0 = PanelActivity ∧ gridAt 1 1 = PanelSessions := by
  decide

theorem navRight_focused (m : Model) :
    (m.focused = PanelStats → m.navRight = ({ m with focused := PanelProjects } :
        Model).updateFocusStates) ∧
      (m.focused = PanelActivity → m.navRight = ({ m with focused := PanelSessions } :
        Model).updateFocusStates) ∧
      (m.focused = PanelProjects → m.navRight = m) ∧
      (m.focused = PanelSessions → m.navRight = m) := by
  obtain ⟨h1, h2, h3, h4⟩ := getPanelPosition_table
  refine ⟨?_, ?_, ?_, ?_⟩ <;> intro h <;> unfold Model.navRight <;> rw [h]
  · rw [h1]; rfl
  · rw [h3]; rfl
  · rw [h2]; rfl
  · rw [h4]; rfl

theorem navLeft_focused (m : Model) :
    (m.focused = PanelProjects → m.navLeft = ({ m with focused := PanelStats } :
        Model).updateFocusStates) ∧
      (m.focused = PanelSessions → m.navLeft = ({ m with focused := PanelActivity } :
        Model).updateFocusStates) ∧
      (m.focused = PanelStats → m.navLeft = m) ∧
      (m.focused = PanelActivity → m.navLeft = m) := by
  obtain ⟨h1, h2, h3, h4⟩ := getPanelPosition_table
  refine ⟨?_, ?_, ?_, ?_⟩ <;> intro h <;> unfold Model.navLeft <;> rw [h]
  · rw [h2]; rfl
  · rw [h4]; rfl
  · rw [h1]; rfl
  · rw [h3]; rfl

/-- C10. On the grid with row 0 = (Stats, Projects) and row 1 = (Activity,
Sessions), for every focused panel: `navRight` moves the focus to the panel of
the same row in the next column when there is one and changes nothing
otherwise, `navLeft` does the same towards the previous column; the focus stays
in its row, `navRight` twice is `navRight` once, and from Stats `navRight` gives
Projects and a second `navRight` changes nothing. -/
theorem grid_navigation (m : Model)
    (h : m.focused ∈ [PanelStats, PanelActivity, PanelProjects, PanelSessions]) :
    panelGrid = [[PanelStats, PanelProjects], [PanelActivity, PanelSessions]] ∧
      gridAt (panelRow m.focused) (panelCol m.focused) = m.focused ∧
      (panelCol m.focused = 0 →
        m.navRight.focused = gridAt (panelRow m.focused) 1 ∧
          m.navRight = ({ m with focused := gridAt (panelRow m.focused) 1 } :
            Model).updateFocusStates) ∧
      (panelCol m.focused = 1 → m.navRight = m) ∧
      (panelCol m.focused = 1 →
        m.navLeft.focused = gridAt (panelRow m.focused) 0 ∧
          m.navLeft = ({ m with focused := gridAt (panelRow m.focused) 0 } :
            Model).updateFocusStates) ∧
      (panelCol m.focused = 0 → m.navLeft = m) ∧
      (panelCol m.focused = 0 ∨ panelCol m.focused = 1) ∧
      panelRow m.navRight.focused = panelRow m.focused ∧
      panelRow m.navLeft.focused = panelRow m.focused ∧
      m.navRight.navRight = m.navRight ∧
      m.navLeft.navLeft = m.navLeft ∧
      (m.focused = PanelStats →
        m.navRight.focused = PanelProjects ∧ m.navRight.navRight = m.navRight) := by
  obtain ⟨r1, r2, r3, r4⟩ := navRight_focused m
  obtain ⟨l1, l2, l3, l4⟩ := navLeft_focused m
  simp only [List.mem_cons, List.mem_singleton, List.not_mem_nil, or_false] at h
  rcases h with h | h | h | h
  · have hr := r1 h
    have hl := l3 h
    have hrr := (navRight_focused m.navRight).2.2.1 (by rw [hr]; rfl)
    have hll := (navLeft_focused m.navLeft).2.2.1 (by rw [hl]; exact h)
    rw [hrr, hll, hl, hr, h]
    obtain ⟨t1, t2, t3, t4, t5, t6, t7, t8, t9, t10, t11, t12⟩ := grid_table
    simp [Model.updateFocusStates, t1, t2, t3, t4, t5, t6, t7, t8, t9, t10, t11, t12,
      panelGrid]
  · have hr := r2 h
    have hl := l4 h
    have hrr := (navRight_focused m.navRight).2.2.2 (by rw [hr]; rfl)
    have hll := (navLeft_focused m.navLeft).2.2.2 (by rw [hl]; exact h)
    rw [hrr, hll, hl, hr, h]
    obtain ⟨t1, t2, t3, t4, t5, t6, t7, t8, t9, t10, t11, t12⟩ := grid_table
    simp [Model.updateFocusStates, t1, t2, t3, t4, t5, t6, t7, t8, t9, t10, t11, t12,
      panelGrid]
    all_goals decide
  · have hr := r3 h
    have hl := l1 h
    have hrr := (navRight_focused m.navRight).2.2.1 (by rw [hr]; exact h)
    have hll := (navLeft_focused m.navLeft).2.2.1 (by rw [hl]; rfl)
    rw [hrr, hll, hl, hr, h]
    obtain ⟨t1, t2, t3, t4, t5, t6, t7, t8, t9, t10, t11, t12⟩ := grid_table
    simp [Model.updateFocusStates, t1, t2, t3, t4, t5, t6, t7, t8, t9, t10, t11, t12,
      panelGrid]
  · have hr := r4 h
    have hl := l2 h
    have hrr := (navRight_focused m.navRight).2.2.2 (by rw [hr]; exact h)
    have hll := (navLeft_focused m.navLeft).2.2.2 (by rw [hl]; rfl)
    rw [hrr, hll, hl, hr, h]
    obtain ⟨t1, t2, t3, t4, t5, t6, t7, t8, t9, t10, t11, t12⟩ := grid_table
    simp [Model.updateFocusStates, t1, t2, t3, t4, t5, t6, t7, t8, t9, t10, t11, t12,
      panelGrid]
    all_goals decide

/-- C10, at a concrete input: the freshly constructed model, focused on Stats. -/
theorem grid_navigation_witness :
    NewModel.navRight.focused = PanelProjects ∧ NewModel.navRight.navRight = NewModel.navRight :=
  (grid_navigation NewModel (by decide)).2.2.2.2.2.2.2.2.2.2.2 rfl

/-! ## The intensity of a heatmap cell -/

theorem roundHalfEven_ge_floor (y : ℚ) : ⌊y⌋ ≤ roundHalfEven y := by
  unfold roundHalfEven
  simp only []
  split_ifs <;> omega

theorem roundHalfEven_le_floor_succ (y : ℚ) : roundHalfEven y ≤ ⌊y⌋ + 1 := by
  unfold roundHalfEven
  simp only []
  split_ifs <;> omega

theorem roundHalfEven_intCast (k : ℤ) : roundHalfEven (k : ℚ) = k := by
  unfold roundHalfEven
  simp

theorem le_roundHalfEven (y : ℚ) (N : ℤ) (h : (N : ℚ) ≤ y) : N ≤ roundHalfEven y :=
  le_trans (Int.le_floor.mpr h) (roundHalfEven_ge_floor y)

theorem roundHalfEven_le (y : ℚ) (N : ℤ) (h : y ≤ (N : ℚ)) : roundHalfEven y ≤ N := by
  rcases lt_or_eq_of_le h with hlt | heq
  · have : ⌊y⌋ < N := Int.floor_lt.mpr hlt
    have := roundHalfEven_le_floor_succ y
    omega
  · rw [heq, roundHalfEven_intCast]

theorem f64Round_pos (x : ℚ) (hx : 0 < x) :
    f64Round x = roundHalfEven (x / 2 ^ (Int.log 2 x - 52)) * 2 ^ (Int.log 2 x - 52) := by
  unfold f64Round
  rw [if_neg (ne_of_gt hx), abs_of_pos hx]

theorem log2_bounds (x : ℚ) (hx : 0 < x) :
    (2 : ℚ) ^ Int.log 2 x ≤ x ∧ x < (2 : ℚ) ^ (Int.log 2 x + 1) := by
  have h1 := Int.zpow_log_le_self (b := 2) (r := x) (by norm_num) hx
  have h2 := Int.lt_zpow_succ_log_self (b := 2) (by norm_num) x
  simp only [Nat.cast_ofNat] at h1 h2
  exact ⟨h1, h2⟩

/-- Rounding does not go below a power of two that the argument reaches. -/
theorem f64Round_ge_pow (x : ℚ) (k : ℤ) (hx : 0 < x) (h : (2 : ℚ) ^ k ≤ x) :
    (2 : ℚ) ^ k ≤ f64Round x := by
  obtain ⟨h1, h2⟩ := log2_bounds x hx
  have hke : k ≤ Int.log 2 x := by
    have := (Int.zpow_le_iff_le_log (b := 2) (by norm_num) hx (x := k)).mp
      (by simpa using h)
    exact this
  set e := Int.log 2 x with he
  have hulp : (0 : ℚ) < 2 ^ (e - 52) := by positivity
  rw [f64Round_pos x hx, ← he]
  have hy : (((2 ^ 52 : ℤ)) : ℚ) ≤ x / 2 ^ (e - 52) := by
    rw [le_div_iff₀ hulp]
    have : (((2 ^ 52 : ℤ)) : ℚ) * 2 ^ (e - 52) = 2 ^ e := by
      rw [show (((2 ^ 52 : ℤ)) : ℚ) = (2 : ℚ) ^ (52 : ℤ) by norm_num,
        ← zpow_add₀ (by norm_num : (2 : ℚ) ≠ 0)]
      congr 1
      omega
    rw [this]
    exact h1
  have hr := le_roundHalfEven _ _ hy
  have hr' : ((2 : ℚ) ^ (52 : ℤ)) ≤ (roundHalfEven (x / 2 ^ (e - 52)) : ℚ) := by
    rw [show (2 : ℚ) ^ (52 : ℤ) = (((2 ^ 52 : ℤ)) : ℚ) by norm_num]
    exact_mod_cast hr
  calc (2 : ℚ) ^ k ≤ 2 ^ e := zpow_le_zpow_right₀ (by norm_num) hke
    _ = 2 ^ (52 : ℤ) * 2 ^ (e - 52) := by
      rw [← zpow_add₀ (by norm_num : (2 : ℚ) ≠ 0)]
      congr 1
      omega
    _ ≤ _ := mul_le_mul_of_nonneg_right hr' (le_of_lt hulp)

/-- Rounding stays below a power of two from which the argument is at least
one unit of the 53rd bit away. -/
theorem f64Round_lt_pow (x : ℚ) (k : ℤ) (hx : 0 < x)
    (h : x ≤ (2 : ℚ) ^ k - 2 ^ (k - 53)) : f64Round x < (2 : ℚ) ^ k := by
  obtain ⟨h1, h2⟩ := log2_bounds x hx
  have hxk : x < (2 : ℚ) ^ k := by
    have : (0 : ℚ) < 2 ^ (k - 53) := by positivity
    linarith
  have hek : Int.log 2 x < k :=
    (Int.lt_zpow_iff_log_lt (b := 2) (by norm_num) hx (x := k)).mp (by simpa using hxk)
  set e := Int.log 2 x with he
  have hulp : (0 : ℚ) < 2 ^ (e - 52) := by positivity
  obtain ⟨d, hd⟩ := Int.eq_ofNat_of_zero_le (by omega : 0 ≤ k - 1 - e)
  have hN : (((2 ^ (d + 53) : ℤ)) : ℚ) * 2 ^ (e - 52) = 2 ^ k := by
    rw [show (((2 ^ (d + 53) : ℤ)) : ℚ) = (2 : ℚ) ^ (((d + 53 : ℕ)) : ℤ) by
      rw [zpow_natCast]; norm_num, ← zpow_add₀ (by norm_num : (2 : ℚ) ≠ 0)]
    congr 1
    push_cast
    omega
  have hle : (2 : ℚ) ^ (e - 52) ≤ 2 ^ (k - 53) :=
    zpow_le_zpow_right₀ (by norm_num) (by omega)
  have hy : x / 2 ^ (e - 52) ≤ (((2 ^ (d + 53) - 1 : ℤ)) : ℚ) := by
    rw [div_le_iff₀ hulp]
    push_cast
    have : ((2 : ℚ) ^ (d + 53) - 1) * 2 ^ (e - 52) = 2 ^ k - 2 ^ (e - 52) := by
      have := hN
      push_cast at this
      rw [sub_mul, this, one_mul]
    rw [this]
    linarith
  have hr := roundHalfEven_le _ _ hy
  have hr' : (roundHalfEven (x / 2 ^ (e - 52)) : ℚ) ≤ (((2 ^ (d + 53) - 1 : ℤ)) : ℚ) := by
    exact_mod_cast hr
  rw [f64Round_pos x hx, ← he]
  calc (roundHalfEven (x / 2 ^ (e - 52)) : ℚ) * 2 ^ (e - 52)
      ≤ (((2 ^ (d + 53) - 1 : ℤ)) : ℚ) * 2 ^ (e - 52) :=
        mul_le_mul_of_nonneg_right hr' (le_of_lt hulp)
    _ = 2 ^ k - 2 ^ (e - 52) := by
      have := hN
      push_cast at this ⊢
      rw [sub_mul, this, one_mul]
    _ < 2 ^ k := by linarith

/-- The conversion of an integer of at most 53 bits is exact. -/
theorem float64OfInt_exact (n : Int) (h0 : 0 < n) (h1 : n ≤ 2 ^ 53) : float64OfInt n = n := by
  have hx : (0 : ℚ) < (n : ℚ) := by exact_mod_cast h0
  obtain ⟨b1, b2⟩ := log2_bounds (n : ℚ) hx
  have he0 : 0 ≤ Int.log 2 (n : ℚ) :=
    (Int.zpow_le_iff_le_log (b := 2) (by norm_num) hx (x := 0)).mp (by
      simp only [zpow_zero]
      exact_mod_cast h0)
  have he53 : Int.log 2 (n : ℚ) < 54 :=
    (Int.lt_zpow_iff_log_lt (b := 2) (by norm_num) hx (x := 54)).mp (by
      have : (n : ℚ) ≤ 2 ^ 53 := by exact_mod_cast h1
      have h54 : ((2 : ℕ) : ℚ) ^ (54 : ℤ) = 2 ^ 54 := by norm_num
      rw [h54]
      linarith [show (2 : ℚ) ^ 53 < 2 ^ 54 by norm_num])
  unfold float64OfInt
  rw [f64Round_pos _ hx]
  set e := Int.log 2 (n : ℚ) with he
  have hulp : (0 : ℚ) < 2 ^ (e - 52) := by positivity
  by_cases hcase : e ≤ 52
  · obtain ⟨j, hj⟩ := Int.eq_ofNat_of_zero_le (by omega : 0 ≤ 52 - e)
    have hq : (n : ℚ) / 2 ^ (e - 52) = (((n * 2 ^ j : ℤ)) : ℚ) := by
      rw [div_eq_iff (ne_of_gt hulp)]
      push_cast
      rw [mul_assoc, ← zpow_natCast, ← zpow_add₀ (by norm_num : (2 : ℚ) ≠ 0)]
      have : (j : ℤ) + (e - 52) = 0 := by omega
      rw [this, zpow_zero, mul_one]
    rw [hq, roundHalfEven_intCast]
    push_cast
    rw [mul_assoc, ← zpow_natCast, ← zpow_add₀ (by norm_num : (2 : ℚ) ≠ 0)]
    have : (j : ℤ) + (e - 52) = 0 := by omega
    rw [this, zpow_zero, mul_one]
  · have he : e = 53 := by omega
    rw [he] at b1 ⊢
    have hn : (n : ℚ) = 2 ^ 53 := by
      have : (n : ℚ) ≤ 2 ^ 53 := by exact_mod_cast h1
      have b1' : (2 : ℚ) ^ 53 ≤ n := by
        have h53 : (2 : ℚ) ^ (53 : ℤ) = 2 ^ 53 := by norm_num
        rw [h53] at b1
        exact b1
      linarith
    rw [hn]
    have hq : ((2 : ℚ) ^ 53) / 2 ^ ((53 : ℤ) - 52) = (((2 ^ 52 : ℤ)) : ℚ) := by norm_num
    rw [hq, roundHalfEven_intCast]
    norm_num

/-- The rounded quotient of two integers, the divisor of at most 53 bits, is
below `2^-j` exactly when the exact quotient is. -/
theorem f64Round_div_lt_iff (c m : Int) (j : ℕ) (hc : 0 < c) (hm : 0 < m)
    (hm53 : m ≤ 2 ^ 53) :
    f64Round ((c : ℚ) / m) < (2 : ℚ) ^ (-(j : ℤ)) ↔ 2 ^ j * c < m := by
  have hcq : (0 : ℚ) < c := by exact_mod_cast hc
  have hmq : (0 : ℚ) < m := by exact_mod_cast hm
  have hx : (0 : ℚ) < (c : ℚ) / m := div_pos hcq hmq
  have hpow : (2 : ℚ) ^ (-(j : ℤ)) = 1 / 2 ^ j := by
    rw [zpow_neg, zpow_natCast, one_div]
  have h2j : (0 : ℚ) < 2 ^ j := by positivity
  constructor
  · intro hlt
    by_contra hge
    have hge' : m ≤ 2 ^ j * c := not_lt.mp hge
    have hgeq : (m : ℚ) ≤ 2 ^ j * c := by exact_mod_cast hge'
    have : (2 : ℚ) ^ (-(j : ℤ)) ≤ (c : ℚ) / m := by
      rw [hpow, le_div_iff₀ hmq, div_mul_eq_mul_div, one_mul, div_le_iff₀ h2j]
      linarith
    exact absurd hlt (not_lt.mpr (f64Round_ge_pow _ _ hx this))
  · intro hlt
    apply f64Round_lt_pow _ _ hx
    have hle : 2 ^ j * c ≤ m - 1 := by omega
    have hleq : (2 : ℚ) ^ j * c ≤ m - 1 := by exact_mod_cast hle
    have hm53q : (m : ℚ) ≤ 2 ^ 53 := by exact_mod_cast hm53
    have hpow2 : (2 : ℚ) ^ (-(j : ℤ) - 53) = 1 / (2 ^ j * 2 ^ 53) := by
      rw [show (-(j : ℤ) - 53) = -(((j + 53 : ℕ)) : ℤ) by push_cast; ring, zpow_neg,
        zpow_natCast, pow_add, one_div]
    rw [hpow, hpow2, div_le_iff₀ hmq]
    have key : (1 / (2 : ℚ) ^ j - 1 / (2 ^ j * 2 ^ 53)) * m =
        (m - m / 2 ^ 53) / 2 ^ j := by
      field_simp
      ring
    rw [key, le_div_iff₀ h2j]
    have : (m : ℚ) / 2 ^ 53 ≤ 1 := by
      rw [div_le_one (by positivity)]
      exact hm53q
    linarith

theorem roundHalfEven_near (y : ℚ) (N : ℤ) (h1 : (N : ℚ) - 1 / 2 < y)
    (h2 : y < (N : ℚ) + 1 / 2) : roundHalfEven y = N := by
  have hf1 : N - 1 ≤ ⌊y⌋ := Int.le_floor.mpr (by push_cast; linarith)
  have hf2 : ⌊y⌋ < N + 1 := Int.floor_lt.mpr (by push_cast; linarith)
  have hfl := Int.floor_le y
  have hfl2 := Int.lt_floor_add_one y
  unfold roundHalfEven
  simp only []
  rcases (by omega : ⌊y⌋ = N ∨ ⌊y⌋ = N - 1) with hN | hN
  · rw [hN] at hfl hfl2 ⊢
    rw [if_pos (by linarith)]
  · rw [hN] at hfl hfl2 ⊢
    push_cast at hfl hfl2 ⊢
    rw [if_neg (by linarith), if_pos (by linarith)]
    ring

/-- The double nearest to `x`, from its binade and its rounded significand. -/
theorem f64Round_eval (x : ℚ) (e N : ℤ) (hx : 0 < x) (h1 : (2 : ℚ) ^ e ≤ x)
    (h2 : x < (2 : ℚ) ^ (e + 1)) (h3 : (N : ℚ) - 1 / 2 < x / 2 ^ (e - 52))
    (h4 : x / 2 ^ (e - 52) < (N : ℚ) + 1 / 2) : f64Round x = N * 2 ^ (e - 52) := by
  have he : Int.log 2 x = e := by
    apply le_antisymm
    · have := (Int.lt_zpow_iff_log_lt (b := 2) (by norm_num) hx (x := e + 1)).mp
        (by simpa using h2)
      omega
    · exact (Int.zpow_le_iff_le_log (b := 2) (by norm_num) hx (x := e)).mp (by simpa using h1)
  rw [f64Round_pos x hx, he, roundHalfEven_near _ N h3 h4]

/-- C8, amended: for every day value `c` and every maximum `m` of at most 53
bits (`m <= 2^53`), the intensity of `renderHeatmap` is 0 when `c <= 0` or
`m <= 0`, and otherwise 1 when `4c < m`, 2 when `m <= 4c` and `2c < m`, and 3
when `m <= 2c`. -/
theorem heatmapIntensity_spec (c m : Int) (hm : m ≤ 2 ^ 53) :
    heatmapIntensity c m =
      if c ≤ 0 ∨ m ≤ 0 then 0 else if 4 * c < m then 1 else if 2 * c < m then 2 else 3 := by
  unfold heatmapIntensity
  by_cases hpos : m > 0 ∧ c > 0
  · obtain ⟨hm0, hc0⟩ := hpos
    rw [if_pos ⟨hm0, hc0⟩, if_neg (show ¬ (c ≤ 0 ∨ m ≤ 0) by omega)]
    simp only [f64Div]
    rw [float64OfInt_exact m hm0 hm]
    by_cases hc53 : c ≤ 2 ^ 53
    · rw [float64OfInt_exact c hc0 hc53]
      have i4 := f64Round_div_lt_iff c m 2 hc0 hm0 hm
      have i2 := f64Round_div_lt_iff c m 1 hc0 hm0 hm
      have hq : (2 : ℚ) ^ (-((2 : ℕ) : ℤ)) = 1 / 4 := by norm_num
      have hh : (2 : ℚ) ^ (-((1 : ℕ) : ℤ)) = 1 / 2 := by norm_num
      rw [hq] at i4
      rw [hh] at i2
      simp only [i4, i2]
      norm_num
    · have h53 : (2 : ℚ) ^ (53 : ℤ) = (((2 ^ 53 : ℤ)) : ℚ) := by norm_num
      have hcq : (2 : ℚ) ^ (53 : ℤ) ≤ (c : ℚ) := by
        rw [h53]
        exact_mod_cast (by omega : (2 : ℤ) ^ 53 ≤ c)
      have hcpos : (0 : ℚ) < c := by exact_mod_cast hc0
      have ha : (2 : ℚ) ^ (53 : ℤ) ≤ float64OfInt c := f64Round_ge_pow _ 53 hcpos hcq
      have hmq : (m : ℚ) ≤ 2 ^ (53 : ℤ) := by
        rw [h53]
        exact_mod_cast hm
      have hmpos : (0 : ℚ) < m := by exact_mod_cast hm0
      have hone : (2 : ℚ) ^ (0 : ℤ) ≤ float64OfInt c / m := by
        rw [zpow_zero, le_div_iff₀ hmpos, one_mul]
        exact le_trans hmq ha
      have hr := f64Round_ge_pow _ 0 (lt_of_lt_of_le (by norm_num) hone) hone
      rw [zpow_zero] at hr
      split_ifs <;> first | rfl | (exfalso; omega) | (exfalso; linarith)
  · rw [if_neg hpos, if_pos (by omega)]

/-- C8, at concrete inputs: with a maximum of 100 the value 25 has intensity 2,
the value 50 has intensity 3 and the value 0 has intensity 0. -/
theorem heatmapIntensity_witness :
    heatmapIntensity 25 100 = 2 ∧ heatmapIntensity 50 100 = 3 ∧ heatmapIntensity 0 100 = 0 ∧
      heatmapIntensity 24 100 = 1 ∧ heatmapIntensity 49 100 = 2 :=
  ⟨heatmapIntensity_spec 25 100 (by decide), heatmapIntensity_spec 50 100 (by decide),
    heatmapIntensity_spec 0 100 (by decide), heatmapIntensity_spec 24 100 (by decide),
    heatmapIntensity_spec 49 100 (by decide)⟩

/-- C8, as stated, fails at the day value `2^58 - 1` with the maximum `2^60`:
four times the value is below the maximum, and the intensity is 2, not 1. -/
theorem heatmapIntensity_rounding :
    4 * (288230376151711743 : Int) < 1152921504606846976 ∧
      heatmapIntensity 288230376151711743 1152921504606846976 = 2 := by
  refine ⟨by decide, ?_⟩
  have hc : float64OfInt 288230376151711743 = 288230376151711744 := by
    unfold float64OfInt
    rw [f64Round_eval _ 57 9007199254740992 (by norm_num) (by norm_num) (by norm_num)
      (by norm_num) (by norm_num)]
    norm_num
  have hm : float64OfInt 1152921504606846976 = 1152921504606846976 := by
    unfold float64OfInt
    rw [f64Round_eval _ 60 4503599627370496 (by norm_num) (by norm_num) (by norm_num)
      (by norm_num) (by norm_num)]
    norm_num
  have hratio : f64Div 288230376151711744 1152921504606846976 = 1 / 4 := by
    unfold f64Div
    rw [f64Round_eval _ (-2) 4503599627370496 (by norm_num) (by norm_num) (by norm_num)
      (by norm_num) (by norm_num)]
    norm_num
  unfold heatmapIntensity
  rw [if_pos (by decide), hc, hm, hratio]
  norm_num

theorem updateFocusStates_inv (m : Model) (h : 0 ≤ m.focused ∧ m.focused < 4) :
    m.updateFocusStates.FocusInv := by
  obtain ⟨h0, h4⟩ := h
  refine ⟨?_, h0, h4⟩
  simp [Model.focusFlags, Model.updateFocusStates, StatsModel.SetFocused,
    ActivityModel.SetFocused, ProjectsModel.SetFocused, SessionsModel.SetFocused,
    PanelStats, PanelActivity, PanelProjects, PanelSessions, List.range, List.range.loop]

theorem focused_cases (f : Int) (h : 0 ≤ f ∧ f < 4) : f = 0 ∨ f = 1 ∨ f = 2 ∨ f = 3 := by
  omega

theorem focusNext_focused (m : Model) :
    m.focusNext.focused = Int.tmod (m.focused + 1) 4 := rfl

theorem focusPrevious_focused (m : Model) :
    m.focusPrevious.focused = Int.tmod (m.focused - 1 + 4) 4 := rfl

theorem updateFocusStates_idem (m : Model) :
    m.updateFocusStates.updateFocusStates = m.updateFocusStates := rfl

/-- C11. With the focus on one of the four panels, `focusNext` moves it to
`(f + 1) mod 4` and `focusPrevious` to `(f - 1) mod 4`, both again one of the
four panels; each undoes the other and four applications of either return to
`f`, where the whole model comes back with its focus flags recomputed. -/
theorem focus_cycle (m : Model) (hf : 0 ≤ m.focused ∧ m.focused < 4) :
    m.focusNext.focused = (m.focused + 1) % 4 ∧
    m.focusPrevious.focused = (m.focused - 1) % 4 ∧
    (0 ≤ m.focusNext.focused ∧ m.focusNext.focused < 4) ∧
    (0 ≤ m.focusPrevious.focused ∧ m.focusPrevious.focused < 4) ∧
    m.focusNext.focusPrevious = m.updateFocusStates ∧
    m.focusPrevious.focusNext = m.updateFocusStates ∧
    m.focusNext.focusNext.focusNext.focusNext = m.updateFocusStates ∧
    m.focusPrevious.focusPrevious.focusPrevious.focusPrevious = m.updateFocusStates := by
  rcases focused_cases m.focused hf with h | h | h | h <;>
    simp [Model.focusNext, Model.focusPrevious, Model.updateFocusStates, h, panelCount,
      StatsModel.SetFocused, ActivityModel.SetFocused, ProjectsModel.SetFocused,
      SessionsModel.SetFocused, PanelStats, PanelActivity, PanelProjects, PanelSessions] <;>
    decide

theorem focus_cycle_witness :
    NewModel.focusNext.focused = (NewModel.focused + 1) % 4 ∧
    NewModel.focusPrevious.focused = (NewModel.focused - 1) % 4 ∧
    (0 ≤ NewModel.focusNext.focused ∧ NewModel.focusNext.focused < 4) ∧
    (0 ≤ NewModel.focusPrevious.focused ∧ NewModel.focusPrevious.focused < 4) ∧
    NewModel.focusNext.focusPrevious = NewModel.updateFocusStates ∧
    NewModel.focusPrevious.focusNext = NewModel.updateFocusStates ∧
    NewModel.focusNext.focusNext.focusNext.focusNext = NewModel.updateFocusStates ∧
    NewModel.focusPrevious.focusPrevious.focusPrevious.focusPrevious =
      NewModel.updateFocusStates :=
  focus_cycle NewModel (by decide)

theorem targetPanel_range (m : Model) (x y : Int) (t : Int)
    (h : m.targetPanel x y = some t) : 0 ≤ t ∧ t < 4 := by
  unfold Model.targetPanel at h
  simp only [PanelStats, PanelActivity, PanelProjects, PanelSessions] at h
  split_ifs at h <;> simp at h <;> omega

theorem gridAt_range (row col : Int) : 0 ≤ gridAt row col ∧ gridAt row col < 4 := by
  unfold gridAt gridRow panelGrid
  rcases h : row.toNat with _ | _ | n <;> simp [List.getD, PanelStats, PanelProjects,
    PanelActivity, PanelSessions]
  all_goals rcases h2 : col.toNat with _ | _ | k <;> simp

/-- Every focus transition keeps the focus flags right once they are. -/
theorem focusStep_inv (m : Model) (op : FocusOp) (h : m.FocusInv) :
    (m.focusStep op).FocusInv := by
  obtain ⟨_, h0, h4⟩ := id h
  cases op with
  | jump panel =>
    apply updateFocusStates_inv
    have := panel.isLt
    show 0 ≤ (panel.val : Int) ∧ (panel.val : Int) < 4
    omega
  | tab =>
    apply updateFocusStates_inv
    show 0 ≤ Int.tmod (m.focused + 1) 4 ∧ Int.tmod (m.focused + 1) 4 < 4
    rw [Int.tmod_eq_emod (by omega) (by omega)]
    omega
  | shiftTab =>
    apply updateFocusStates_inv
    show 0 ≤ Int.tmod (m.focused - 1 + 4) 4 ∧ Int.tmod (m.focused - 1 + 4) 4 < 4
    rw [Int.tmod_eq_emod (by omega) (by omega)]
    omega
  | left =>
    simp only [Model.focusStep, Model.navLeft]
    split_ifs
    · exact updateFocusStates_inv _ (gridAt_range _ _)
    · exact h
  | right =>
    simp only [Model.focusStep, Model.navRight]
    split_ifs
    · exact updateFocusStates_inv _ (gridAt_range _ _)
    · exact h
  | click x y =>
    simp only [Model.focusStep, Model.handleMouse]
    split_ifs
    · exact h
    · cases ht : m.targetPanel x y with
      | none => exact h
      | some t => exact updateFocusStates_inv _ (targetPanel_range m x y t ht)

/-- C12 (fails in the initial state). `NewModel` names the Stats panel as the
focused one and leaves the focused flag of every panel unset; the transitions
that do not move the focus (`h` in the left column, a click that hits no panel)
leave the flags as they are, so after them still no panel has its flag set. -/
theorem focus_flags_unset_initially :
    NewModel.focused = PanelStats ∧
    NewModel.focusFlags = [false, false, false, false] ∧
    ¬ (NewModel.focusRun []).FocusInv ∧
    (NewModel.focusRun [.left, .click 0 0, .left]).focusFlags = [false, false, false, false] ∧
    ¬ (NewModel.focusRun [.left, .click 0 0, .left]).FocusInv ∧
    (NewModel.focusRun [.left, .tab]).focusFlags = [false, true, false, false] ∧
    (NewModel.focusRun [.left, .tab]).FocusInv := by
  decide

/-- The header row is never taken to be on a panel. -/
theorem header_row_no_target (m : Model) (x : Int) (h : 0 ≤ m.height) :
    m.targetPanel x 0 = none := by
  have ht : 0 ≤ Int.tdiv ((m.height - 1 - 1) * 35) 100 := by
    rcases Nat.lt_or_ge m.height.toNat 2 with h2 | h2
    · have : m.height = 0 ∨ m.height = 1 := by omega
      rcases this with e | e <;> rw [e] <;> decide
    · exact Int.tdiv_nonneg (by omega) (by omega)
  unfold Model.targetPanel
  simp only []
  split_ifs <;> first | rfl | omega

/-- From two rows of terminal on, the footer row is taken to be on the bottom
panel of the pointer's column. -/
theorem footer_row_target (m : Model) (x : Int) (h : 2 ≤ m.height) :
    m.targetPanel x (m.height - 1) =
      some (if x < Int.tdiv (m.width * 35) 100 then PanelActivity else PanelSessions) := by
  have ht : Int.tdiv ((m.height - 1 - 1) * 35) 100 ≤ m.height - 2 := by
    rw [Int.tdiv_eq_ediv (by omega) (by omega)]
    omega
  unfold Model.targetPanel
  simp only []
  split_ifs <;> first | rfl | omega

/-- C13 (fails on the footer row). On a terminal of 80 columns and 24 rows the
footer is row 23.  `handleMouse` takes a pointer on that row to be on the bottom
panel of its column: a left press at (10, 23) moves the focus from Stats to
Activity, one at (40, 23) moves it to Sessions, and with the focus on Sessions
a turn of the wheel at (40, 23) moves the cursor of the Sessions panel.  A
pointer on the header row 0 changes nothing. -/
theorem footer_row_targets_bottom_panel :
    terminal80x24.height - 1 = 23 ∧
    terminal80x24.focused = PanelStats ∧
    terminal80x24.targetPanel 10 23 = some PanelActivity ∧
    terminal80x24.targetPanel 40 23 = some PanelSessions ∧
    (terminal80x24.handleMouse ⟨10, 23, .press, .left⟩).focused = PanelActivity ∧
    (terminal80x24.handleMouse ⟨40, 23, .press, .left⟩).focused = PanelSessions ∧
    terminalWithSessions.sessions.cursor = 0 ∧
    (terminalWithSessions.handleMouse ⟨40, 23, .press, .wheelDown⟩).sessions.cursor = 1 ∧
    terminal80x24.handleMouse ⟨10, 0, .press, .left⟩ = terminal80x24 ∧
    terminalWithSessions.handleMouse ⟨40, 0, .press, .wheelDown⟩ = terminalWithSessions := by
  decide

/-- The sizes that `updateSizes` gives the four panels. -/
theorem updateSizes_panels (m : Model) (width height : Int) :
    let sized := m.UpdateWindowSize width height
    let leftWidth := Int.tdiv (width * 35) 100
    let topHeight := Int.tdiv ((height - 2) * 35) 100
    (sized.stats.width, sized.stats.height) = (leftWidth, topHeight) ∧
    (sized.activity.width, sized.activity.height) = (leftWidth, height - 2 - topHeight) ∧
    (sized.projects.width, sized.projects.height) = (width - leftWidth, topHeight) ∧
    (sized.sessions.width, sized.sessions.height) =
      (width - leftWidth, height - 2 - topHeight) := by
  refine ⟨?_, ?_, ?_, ?_⟩ <;> simp [Model.UpdateWindowSize, Model.updateSizes,
    StatsModel.SetSize, ActivityModel.SetSize, ProjectsModel.SetSize, SessionsModel.SetSize,
    Int.sub_sub]

/-- From row 2 on, and on row 1 when the top row of panels is empty, the
panel that `handleMouse` targets is the panel of the layout. -/
theorem targetPanel_layout (m : Model) (x y : Int) (hy : 1 ≤ y) (hh : y ≤ m.height - 2)
    (h : 2 ≤ y ∨ Int.tdiv ((m.height - 2) * 35) 100 = 0) :
    m.targetPanel x y = some (layoutPanel m.width m.height x y) := by
  have ht : 0 ≤ Int.tdiv ((m.height - 2) * 35) 100 :=
    Int.tdiv_nonneg (by omega) (by omega)
  have e : m.height - 1 - 1 = m.height - 2 := by omega
  unfold Model.targetPanel layoutPanel
  simp only [e]
  generalize Int.tdiv ((m.height - 2) * 35) 100 = top at *
  split_ifs <;> first | rfl | (exfalso; omega)

/-- On row 1, when the top row of panels is not empty, `handleMouse` targets no
panel. -/
theorem targetPanel_first_row (m : Model) (x : Int)
    (h : 1 ≤ Int.tdiv ((m.height - 2) * 35) 100) : m.targetPanel x 1 = none := by
  have e : m.height - 1 - 1 = m.height - 2 := by omega
  unfold Model.targetPanel
  simp only [e]
  generalize Int.tdiv ((m.height - 2) * 35) 100 = top at *
  split_ifs <;> first | rfl | (exfalso; omega)

/-- C14 (fails on row 1). On a terminal of 80 columns and 24 rows the top row
of panels is 7 rows high and starts at row 1, so the cells (10, 1) and (40, 1)
lie in the rectangles of Stats and Projects.  `handleMouse` targets no panel
there: a left press at (40, 1) leaves the focus on Stats.  One row further down
the targets are Stats and Projects. -/
theorem first_panel_row_has_no_target :
    (terminal80x24.width, terminal80x24.height) = (80, 24) ∧
    (terminal80x24.stats.width, terminal80x24.stats.height) = (28, 7) ∧
    (terminal80x24.projects.width, terminal80x24.projects.height) = (52, 7) ∧
    layoutPanel 80 24 10 1 = PanelStats ∧
    layoutPanel 80 24 40 1 = PanelProjects ∧
    terminal80x24.targetPanel 10 1 = none ∧
    terminal80x24.targetPanel 40 1 = none ∧
    (terminal80x24.handleMouse ⟨40, 1, .press, .left⟩).focused = PanelStats ∧
    terminal80x24.targetPanel 10 2 = some PanelStats ∧
    terminal80x24.targetPanel 40 2 = some PanelProjects ∧
    (terminal80x24.handleMouse ⟨40, 2, .press, .left⟩).focused = PanelProjects := by
  decide

theorem projectsPanel_cancel (rt : Runtime) (p : ProjectsModel) :
    p.SetFilterMode rt false =
      { p with filterMode := false, filterQuery := [],
               projects := rt.sorter.sort p.less p.allProjects } := by
  simp only [ProjectsModel.SetFilterMode, ProjectsModel.applyFilter,
    ProjectsModel.sortProjects, Bool.not_false, if_true]
  rfl

theorem sessionsPanel_cancel (rt : Runtime) (s : SessionsModel) :
    s.SetFilterMode rt false =
      { s with filterMode := false, filterQuery := [],
               sessions := rt.sorter.sort s.less s.allSessions } := by
  simp only [SessionsModel.SetFilterMode, SessionsModel.applyFilter,
    SessionsModel.sortSessions, Bool.not_false, if_true]
  rfl

theorem projectsPanel_input (rt : Runtime) (p : ProjectsModel) (key : GoString) :
    (p.HandleFilterInput rt key).filterQuery = p.filterQuery ++ key ∧
    (p.HandleFilterInput rt key).projects.Perm
      (p.allProjects.filter (fun project =>
        Contains (ToLower rt.unicodeLower project.ProjectName)
          (ToLower rt.unicodeLower (p.filterQuery ++ key)))) ∧
    (p.HandleFilterInput rt key).cursor = 0 ∧ (p.HandleFilterInput rt key).offset = 0 := by
  have hf := projectsPanel_refilter_fields rt { p with filterQuery := p.filterQuery ++ key }
  exact ⟨hf.2.2.2, hf.1, rfl, rfl⟩

theorem sessionsPanel_input (rt : Runtime) (s : SessionsModel) (key : GoString) :
    (s.HandleFilterInput rt key).filterQuery = s.filterQuery ++ key ∧
    (s.HandleFilterInput rt key).sessions.Perm
      (s.allSessions.filter (fun session =>
        Contains (ToLower rt.unicodeLower session.Summary)
            (ToLower rt.unicodeLower (s.filterQuery ++ key)) ||
          Contains (ToLower rt.unicodeLower session.ProjectName)
            (ToLower rt.unicodeLower (s.filterQuery ++ key)))) ∧
    (s.HandleFilterInput rt key).cursor = 0 ∧ (s.HandleFilterInput rt key).offset = 0 := by
  have hf := sessionsPanel_refilter_fields rt { s with filterQuery := s.filterQuery ++ key }
  exact ⟨hf.2.2.2, hf.1, rfl, rfl⟩

/-- What `HandleFilterBackspace` does on a query that is not empty: the query
loses its last byte and the items are recomputed; the cursor and the offset
stay as they were. -/
theorem projectsPanel_backspace (rt : Runtime) (p : ProjectsModel)
    (h : p.filterQuery ≠ []) :
    (p.HandleFilterBackspace rt).filterQuery = p.filterQuery.dropLast ∧
    (p.HandleFilterBackspace rt).filterQuery.length + 1 = p.filterQuery.length ∧
    (p.HandleFilterBackspace rt).projects.Perm
      (p.allProjects.filter (fun project =>
        Contains (ToLower rt.unicodeLower project.ProjectName)
          (ToLower rt.unicodeLower p.filterQuery.dropLast))) ∧
    (p.HandleFilterBackspace rt).cursor = p.cursor ∧
    (p.HandleFilterBackspace rt).offset = p.offset := by
  have hl : p.filterQuery.length > 0 := List.length_pos.mpr h
  have hq : p.filterQuery.take (p.filterQuery.length - 1) = p.filterQuery.dropLast :=
    (List.dropLast_eq_take _).symm
  have e : p.HandleFilterBackspace rt =
      (({ p with filterQuery := p.filterQuery.dropLast } : ProjectsModel).applyFilter
        rt).sortProjects rt := by
    simp only [ProjectsModel.HandleFilterBackspace, hl, if_true, hq]
  have hf := projectsPanel_refilter_fields rt { p with filterQuery := p.filterQuery.dropLast }
  rw [e]
  refine ⟨hf.2.2.2, ?_, hf.1, hf.2.1, ?_⟩
  · rw [hf.2.2.2]
    simp only [List.length_dropLast]
    omega
  · unfold ProjectsModel.sortProjects ProjectsModel.applyFilter
    split_ifs <;> rfl

theorem sessionsPanel_backspace (rt : Runtime) (s : SessionsModel)
    (h : s.filterQuery ≠ []) :
    (s.HandleFilterBackspace rt).filterQuery = s.filterQuery.dropLast ∧
    (s.HandleFilterBackspace rt).filterQuery.length + 1 = s.filterQuery.length ∧
    (s.HandleFilterBackspace rt).sessions.Perm
      (s.allSessions.filter (fun session =>
        Contains (ToLower rt.unicodeLower session.Summary)
            (ToLower rt.unicodeLower s.filterQuery.dropLast) ||
          Contains (ToLower rt.unicodeLower session.ProjectName)
            (ToLower rt.unicodeLower s.filterQuery.dropLast))) ∧
    (s.HandleFilterBackspace rt).cursor = s.cursor ∧
    (s.HandleFilterBackspace rt).offset = s.offset := by
  have hl : s.filterQuery.length > 0 := List.length_pos.mpr h
  have hq : s.filterQuery.take (s.filterQuery.length - 1) = s.filterQuery.dropLast :=
    (List.dropLast_eq_take _).symm
  have e : s.HandleFilterBackspace rt =
      (({ s with filterQuery := s.filterQuery.dropLast } : SessionsModel).applyFilter
        rt).sortSessions rt := by
    simp only [SessionsModel.HandleFilterBackspace, hl, if_true, hq]
  have hf := sessionsPanel_refilter_fields rt { s with filterQuery := s.filterQuery.dropLast }
  rw [e]
  refine ⟨hf.2.2.2, ?_, hf.1, hf.2.1, ?_⟩
  · rw [hf.2.2.2]
    simp only [List.length_dropLast]
    omega
  · unfold SessionsModel.sortSessions SessionsModel.applyFilter
    split_ifs <;> rfl

/-- C16 (fails for backspace). The Projects panel holds twelve projects, the
Sessions panel seven sessions, the cursors stand at 10 and 5 with offsets 10
and 1, the query is one byte long and the focused panel is in filter mode.  The
key `backspace` shortens the query by one byte and recomputes the items, and the
cursor and the offset stay at 10 and 10 (Projects) and at 5 and 1 (Sessions).
A printable key in the same state lengthens the query by one byte and sets
both to 0. -/
theorem backspace_keeps_cursor :
    (projectsFiltering.isFilterMode = true ∧ projectsFiltering.projects.filterQuery = ascii "p" ∧
      projectsFiltering.projects.projects.length = 12 ∧
      (projectsFiltering.projects.cursor, projectsFiltering.projects.offset) = (10, 10)) ∧
    ((projectsFiltering.handleFilterInput asciiRuntime (ascii "backspace")).projects.filterQuery = [] ∧
      (projectsFiltering.handleFilterInput asciiRuntime (ascii "backspace")).projects.projects.length = 12 ∧
      ((projectsFiltering.handleFilterInput asciiRuntime (ascii "backspace")).projects.cursor,
        (projectsFiltering.handleFilterInput asciiRuntime (ascii "backspace")).projects.offset) = (10, 10)) ∧
    ((projectsFiltering.handleFilterInput asciiRuntime (ascii "a")).projects.filterQuery = ascii "pa" ∧
      (projectsFiltering.handleFilterInput asciiRuntime (ascii "a")).projects.projects.length = 1 ∧
      ((projectsFiltering.handleFilterInput asciiRuntime (ascii "a")).projects.cursor,
        (projectsFiltering.handleFilterInput asciiRuntime (ascii "a")).projects.offset) = (0, 0)) ∧
    (sessionsFiltering.isFilterMode = true ∧ sessionsFiltering.sessions.filterQuery = ascii "s" ∧
      sessionsFiltering.sessions.sessions.length = 7 ∧
      (sessionsFiltering.sessions.cursor, sessionsFiltering.sessions.offset) = (5, 1)) ∧
    ((sessionsFiltering.handleFilterInput asciiRuntime (ascii "backspace")).sessions.filterQuery = [] ∧
      (sessionsFiltering.handleFilterInput asciiRuntime (ascii "backspace")).sessions.sessions.length = 7 ∧
      ((sessionsFiltering.handleFilterInput asciiRuntime (ascii "backspace")).sessions.cursor,
        (sessionsFiltering.handleFilterInput asciiRuntime (ascii "backspace")).sessions.offset) = (5, 1)) ∧
    ((sessionsFiltering.handleFilterInput asciiRuntime (ascii "a")).sessions.filterQuery = ascii "sa" ∧
      (sessionsFiltering.handleFilterInput asciiRuntime (ascii "a")).sessions.sessions.length = 1 ∧
      ((sessionsFiltering.handleFilterInput asciiRuntime (ascii "a")).sessions.cursor,
        (sessionsFiltering.handleFilterInput asciiRuntime (ascii "a")).sessions.offset) = (0, 0)) := by
  decide

theorem after_strictWeak :
    StrictWeak (fun a b : SessionEntry => Time.After a.Modified b.Modified) := by
  constructor
  · intro a b h
    simp only [Time.After, decide_eq_true_eq, decide_eq_false_iff_not, not_lt] at h ⊢
    exact le_of_lt h
  · intro a b c h1 h2
    simp only [Time.After, decide_eq_false_iff_not, not_lt] at h1 h2 ⊢
    exact le_trans h1 h2

theorem sessionsPanel_update_all (rt : Runtime) (s : SessionsModel)
    (sessions : List SessionEntry) (tr : TimeRange) :
    (s.Update rt sessions tr).allSessions =
      (rt.sorter.sort (fun a b => Time.After a.Modified b.Modified) sessions).take 20 ∧
    (s.Update rt sessions tr).filterQuery = s.filterQuery ∧
    (s.Update rt sessions tr).sessions.Perm
      ((s.Update rt sessions tr).allSessions.filter (fun session =>
        Contains (ToLower rt.unicodeLower session.Summary)
            (ToLower rt.unicodeLower s.filterQuery) ||
          Contains (ToLower rt.unicodeLower session.ProjectName)
            (ToLower rt.unicodeLower s.filterQuery))) := by
  have hcap : (if (rt.sorter.sort (fun a b : SessionEntry =>
        Time.After a.Modified b.Modified) sessions).length > 20
      then (rt.sorter.sort (fun a b : SessionEntry =>
        Time.After a.Modified b.Modified) sessions).take 20
      else rt.sorter.sort (fun a b : SessionEntry => Time.After a.Modified b.Modified) sessions) =
      (rt.sorter.sort (fun a b : SessionEntry =>
        Time.After a.Modified b.Modified) sessions).take 20 := by
    split_ifs with h
    · rfl
    · exact (List.take_of_length_le (by omega)).symm
  have hf := sessionsPanel_refilter_fields rt
    { s with
      allSessions := (rt.sorter.sort (fun a b : SessionEntry =>
        Time.After a.Modified b.Modified) sessions).take 20,
      timeRange := tr }
  unfold SessionsModel.Update
  simp only [hcap]
  split_ifs
  · exact ⟨hf.2.2.1, hf.2.2.2, by rw [hf.2.2.1]; exact hf.1⟩
  · exact ⟨hf.2.2.1, hf.2.2.2, by rw [hf.2.2.1]; exact hf.1⟩

/-- C17. `SessionsModel.Update` keeps as `allSessions` the first 20 of the
input sorted by `Modified`, newest first: its length is `min 20 (len input)`,
it is a sub-multiset of the input (the input is a rearrangement of the kept
sessions followed by the dropped ones), and no dropped session was modified
later than a kept one.  The kept list does not depend on the query or on the
sort of the panel, and the items of the panel are then computed from it: they
are a rearrangement of the kept sessions that match the query. -/
theorem sessions_update_cap (rt : Runtime) (s : SessionsModel) (sessions : List SessionEntry)
    (tr : TimeRange) :
    (s.Update rt sessions tr).allSessions.length = min 20 sessions.length ∧
    (s.Update rt sessions tr).allSessions.Subperm sessions ∧
    (∃ dropped, sessions.Perm ((s.Update rt sessions tr).allSessions ++ dropped) ∧
      ∀ a ∈ (s.Update rt sessions tr).allSessions, ∀ b ∈ dropped, b.Modified ≤ a.Modified) ∧
    (s.Update rt sessions tr).allSessions =
      (rt.sorter.sort (fun a b => Time.After a.Modified b.Modified) sessions).take 20 ∧
    (s.Update rt sessions tr).sessions.Perm
      ((s.Update rt sessions tr).allSessions.filter (fun session =>
        Contains (ToLower rt.unicodeLower session.Summary)
            (ToLower rt.unicodeLower s.filterQuery) ||
          Contains (ToLower rt.unicodeLower session.ProjectName)
            (ToLower rt.unicodeLower s.filterQuery))) := by
  obtain ⟨hall, _, hitems⟩ := sessionsPanel_update_all rt s sessions tr
  have hperm := rt.sorter.perm (fun a b : SessionEntry => Time.After a.Modified b.Modified) sessions
  have hsorted := rt.sorter.sorted (fun a b : SessionEntry => Time.After a.Modified b.Modified)
    sessions after_strictWeak
  refine ⟨?_, ?_, ?_, hall, hitems⟩
  · rw [hall, List.length_take, hperm.length_eq]
  · rw [hall]
    exact ((List.take_sublist _ _).subperm).trans hperm.subperm
  · refine ⟨(rt.sorter.sort (fun a b : SessionEntry =>
        Time.After a.Modified b.Modified) sessions).drop 20, ?_, ?_⟩
    · rw [hall, List.take_append_drop]
      exact hperm.symm
    · rw [hall]
      rw [← List.take_append_drop 20 (rt.sorter.sort (fun a b : SessionEntry =>
        Time.After a.Modified b.Modified) sessions), List.pairwise_append] at hsorted
      intro a ha b hb
      have h := hsorted.2.2 a ha b hb
      simp only [Time.After, decide_eq_false_iff_not, not_lt] at h
      exact h

theorem intercalate_concat {α : Type} (sep : List α) (xs : List (List α)) (x : List α) :
    List.intercalate sep (xs ++ [x]) = (xs.map (fun y => y ++ sep)).flatten ++ x := by
  induction xs with
  | nil => simp [List.intercalate]
  | cons y ys ih =>
    cases ys with
    | nil => simp [List.intercalate]
    | cons z zs =>
      simp only [List.intercalate, List.cons_append, List.intersperse_cons₂, List.flatten_cons,
        List.map_cons, List.append_assoc] at ih ⊢
      rw [ih]

theorem scrollbar_loop (thumbPos thumbSize height : Int) (cell : Int → GoString)
    (hcell : ∀ i : Int, cell i =
      if i ≥ thumbPos ∧ i < thumbPos + thumbSize then thumbGlyph else trackGlyph)
    (k : Nat) (hk : (k : Int) < height) (sb : GoString) :
    ((List.range k).map (fun i : Nat => (i : Int))).foldl
        (scrollbarStep thumbPos thumbSize height) sb =
      sb ++ (((List.range k).map (fun i : Nat => cell (i : Int))).map
        (fun y => y ++ [10])).flatten := by
  induction k with
  | zero => simp
  | succ k ih =>
    have hstep : scrollbarStep thumbPos thumbSize height
        (sb ++ (((List.range k).map (fun i : Nat => cell (i : Int))).map
          (fun y => y ++ [10])).flatten) (k : Int) =
        sb ++ (((List.range k).map (fun i : Nat => cell (i : Int))).map
          (fun y => y ++ [10])).flatten ++ (cell (k : Int) ++ [10]) := by
      have hlt : (k : Int) < height - 1 := by push_cast at hk; omega
      unfold scrollbarStep
      simp only [hlt, if_true, hcell (k : Int)]
      split_ifs <;> simp
    rw [List.range_succ, List.map_append, List.foldl_append, ih (by push_cast at hk; omega)]
    simp only [List.map_cons, List.map_nil, List.foldl_cons, List.foldl_nil, hstep,
      List.map_append, List.flatten_append, List.flatten_cons, List.flatten_nil,
      List.append_nil, List.append_assoc]

/-- C18. `RenderScrollbar` returns the empty string when `total ≤ visible`.
Otherwise, for `total > 0`, `height > 0` and `offset ≥ 0`, it returns (without
a panic) the `height` cells of the specification, one glyph each and joined by
newlines, where cell `i` is the thumb glyph exactly when
`thumbPos ≤ i < thumbPos + thumbSize` with `thumbSize = max(1, height *
visible / total)` and `thumbPos = height * offset / total`. -/
theorem renderScrollbar_spec (total visible offset height : Int) :
    (total ≤ visible → RenderScrollbar total visible offset height = some []) ∧
    (visible < total → 0 < total → 0 < height → 0 ≤ offset →
      RenderScrollbar total visible offset height =
          some (List.intercalate [10]
            ((scrollbarCells total visible offset height).map cellGlyph)) ∧
        ((scrollbarCells total visible offset height).length : Int) = height ∧
        ∀ (i : Nat) (hi : i < (scrollbarCells total visible offset height).length),
          ((scrollbarCells total visible offset height).get ⟨i, hi⟩ = true ↔
            height * offset / total ≤ (i : Int) ∧
              (i : Int) < height * offset / total + max 1 (height * visible / total))) := by
  constructor
  · intro h
    simp [RenderScrollbar, h]
  · intro hv ht hh ho
    obtain ⟨n, hn⟩ : ∃ n : Nat, height = ((n + 1 : Nat) : Int) :=
      ⟨(height - 1).toNat, by push_cast; omega⟩
    have hpos : Int.tdiv (height * offset) total = height * offset / total :=
      Int.tdiv_eq_ediv (Int.mul_nonneg (le_of_lt hh) ho) (le_of_lt ht)
    have hsize : (if Int.tdiv (height * visible) total < 1 then 1
        else Int.tdiv (height * visible) total) = max 1 (height * visible / total) := by
      rcases le_or_lt 0 visible with h0 | h0
      · rw [Int.tdiv_eq_ediv (Int.mul_nonneg (le_of_lt hh) h0) (le_of_lt ht)]
        split_ifs with h1
        · exact (max_eq_left (by omega)).symm
        · exact (max_eq_right (by omega)).symm
      · have hneg : height * visible < 0 := Int.mul_neg_of_pos_of_neg hh h0
        have h1 : Int.tdiv (height * visible) total ≤ 0 := by
          have := Int.tdiv_nonneg (show 0 ≤ -(height * visible) by omega) (le_of_lt ht)
          rw [Int.neg_tdiv] at this
          omega
        have h2 : height * visible / total < 0 := Int.ediv_neg' hneg ht
        rw [if_pos (by omega)]
        exact (max_eq_left (by omega)).symm
    refine ⟨?_, ?_, ?_⟩
    · have hne : ¬ (total ≤ visible ∨ height ≤ 0) := by omega
      have hne0 : total ≠ 0 := by omega
      simp only [RenderScrollbar, hne, hne0, if_false, hpos, hsize]
      congr 1
      have htn : height.toNat = n + 1 := by omega
      rw [scrollbarCells, htn, List.range_succ]
      simp only [List.map_append, List.foldl_append, List.map_cons, List.map_nil,
        List.foldl_cons, List.foldl_nil]
      rw [intercalate_concat]
      rw [scrollbar_loop (height * offset / total) (max 1 (height * visible / total)) height
        (fun i => cellGlyph (decide (height * offset / total ≤ i ∧
          i < height * offset / total + max 1 (height * visible / total))))
        (by intro i; unfold cellGlyph; simp only [decide_eq_true_eq, ge_iff_le])
        n (by omega) []]
      have hlast : ¬ ((n : Int) < height - 1) := by omega
      unfold scrollbarStep
      simp only [hlast, if_false, List.nil_append, List.map_map, ge_iff_le]
      by_cases hc : height * offset / total ≤ (n : Int) ∧
          (n : Int) < height * offset / total + max 1 (height * visible / total)
      · rw [if_pos hc]
        simp only [hc, cellGlyph, decide_True, if_true, and_self]
        rfl
      · rw [if_neg hc]
        simp only [hc, cellGlyph, decide_False, if_false]
        rfl
    · unfold scrollbarCells
      simp only [List.length_map, List.length_range]
      omega
    · intro i hi
      unfold scrollbarCells
      simp only [List.get_eq_getElem, List.getElem_map, List.getElem_range, decide_eq_true_eq]

theorem renderScrollbar_spec_witness :
    RenderScrollbar 3 3 0 4 = some [] ∧
    RenderScrollbar 10 4 5 4 =
      some (trackGlyph ++ [10] ++ trackGlyph ++ [10] ++ thumbGlyph ++ [10] ++ trackGlyph) :=
  ⟨(renderScrollbar_spec 3 3 0 4).1 (by decide),
   ((renderScrollbar_spec 10 4 5 4).2 (by decide) (by decide) (by decide) (by decide)).1.trans
    (by decide)⟩

theorem weekday_add_days (t : Time) (loc : Location) (o : Int) (ho : loc.FixedOffset o)
    (days : Int) :
    Time.Weekday (t + days * nsPerDay) loc = (t.Weekday loc + days) % 7 := by
  unfold Time.Weekday Time.wallSec nsPerDay
  rw [ho, ho]
  have key : ∀ x : Int, (x + days * (86400 * 1000000000)) / 1000000000 =
      x / 1000000000 + days * 86400 := by
    intro x
    omega
  rw [key]
  omega

theorem weekday_range (t : Time) (loc : Location) : 0 ≤ t.Weekday loc ∧ t.Weekday loc < 7 := by
  unfold Time.Weekday
  omega

/-- In a zone whose offset does not change, the end date is the Saturday of the
week, from Sunday to Saturday, that holds `now`: it is `6 - weekday` days after
`now`. -/
theorem heatmapEndDate_eq (now : Time) (loc : Location) (o : Int) (ho : loc.FixedOffset o) :
    heatmapEndDate now loc = now + (6 - now.Weekday loc) * nsPerDay ∧
    (heatmapEndDate now loc).Weekday loc = Saturday ∧
    now ≤ heatmapEndDate now loc ∧ heatmapEndDate now loc - now < 7 * nsPerDay ∧
    (heatmapEndDate now loc ≤ now ↔ now.Weekday loc = Saturday) := by
  have hr := weekday_range now loc
  have e : heatmapEndDate now loc = now + (6 - now.Weekday loc) * nsPerDay := by
    unfold heatmapEndDate
    simp only [Time.AddDate_days _ loc o ho]
    ring
  have hw := weekday_add_days now loc o ho (6 - now.Weekday loc)
  rw [← e] at hw
  have key : ∀ (t w : Int), 0 ≤ w → w < 7 →
      t ≤ t + (6 - w) * 86400000000000 ∧
      t + (6 - w) * 86400000000000 - t < 7 * 86400000000000 ∧
      (t + (6 - w) * 86400000000000 ≤ t ↔ w = 6) := by
    intro t w h0 h7
    refine ⟨by omega, by omega, ?_⟩
    constructor <;> intro h <;> omega
  have hk := key now (now.Weekday loc) hr.1 hr.2
  refine ⟨e, ?_, ?_, ?_, ?_⟩
  · rw [hw]
    unfold Saturday
    omega
  · rw [e]
    exact hk.1
  · rw [e]
    exact hk.2.1
  · rw [e]
    exact hk.2.2

/-- The start date and the cells, in a zone whose offset does not change: the
grid is the `7 * weeksToShow` days that end with the end date, and column
`dayOfWeek` holds the weekday `dayOfWeek`, counted from Sunday. -/
theorem heatmapCellDate_eq (now : Time) (loc : Location) (o : Int) (ho : loc.FixedOffset o)
    (weeksToShow week dayOfWeek : Int) :
    heatmapStartDate now loc weeksToShow =
      heatmapEndDate now loc - (7 * weeksToShow - 1) * nsPerDay ∧
    heatmapCellDate now loc weeksToShow week dayOfWeek =
      heatmapStartDate now loc weeksToShow + (7 * week + dayOfWeek) * nsPerDay ∧
    (0 ≤ dayOfWeek ∧ dayOfWeek < 7 →
      (heatmapCellDate now loc weeksToShow week dayOfWeek).Weekday loc = dayOfWeek) := by
  have e1 : heatmapStartDate now loc weeksToShow =
      heatmapEndDate now loc - (7 * weeksToShow - 1) * nsPerDay := by
    unfold heatmapStartDate
    simp only [Time.AddDate_days _ loc o ho]
    ring
  have e2 : heatmapCellDate now loc weeksToShow week dayOfWeek =
      heatmapStartDate now loc weeksToShow + (7 * week + dayOfWeek) * nsPerDay := by
    unfold heatmapCellDate
    simp only [Time.AddDate_days _ loc o ho]
    ring
  refine ⟨e1, e2, ?_⟩
  intro hd
  have e3 : heatmapCellDate now loc weeksToShow week dayOfWeek =
      heatmapEndDate now loc + (7 * week + dayOfWeek - (7 * weeksToShow - 1)) * nsPerDay := by
    rw [e2, e1]
    ring
  have hs := (heatmapEndDate_eq now loc o ho).2.1
  rw [e3, weekday_add_days _ loc o ho, hs]
  unfold Saturday
  omega

/-- C19 (fails unless today is a Saturday). On Wednesday 12 June 2024, 10:30
UTC, in the zone UTC, the end date of the heatmap is Saturday 15 June 2024,
three days after today, where the most recent Saturday on or before today is 8
June 2024.  The start date is `7 * weeksToShow - 1` days before the end date:
with 4 weeks, Sunday 19 May 2024.  On Saturday 15 June 2024 the end date is
that day. -/
theorem heatmap_ends_after_today :
    (Date 2024 6 12 10 30 0 0).Weekday UTC = 3 ∧
    heatmapEndDate (Date 2024 6 12 10 30 0 0) UTC = Date 2024 6 15 10 30 0 0 ∧
    (heatmapEndDate (Date 2024 6 12 10 30 0 0) UTC).Weekday UTC = Saturday ∧
    Date 2024 6 12 10 30 0 0 < heatmapEndDate (Date 2024 6 12 10 30 0 0) UTC ∧
    mostRecentSaturday (Date 2024 6 12 10 30 0 0) UTC = Date 2024 6 8 10 30 0 0 ∧
    heatmapStartDate (Date 2024 6 12 10 30 0 0) UTC 4 = Date 2024 5 19 10 30 0 0 ∧
    heatmapEndDate (Date 2024 6 15 10 30 0 0) UTC = Date 2024 6 15 10 30 0 0 := by
  refine ⟨?_, ?_, ?_, ?_, ?_, ?_, ?_⟩ <;>
    first
    | (simp only [heatmapStartDate, heatmapEndDate, Time.AddDate_days_UTC]
       decide)
    | decide

/-- C20 (fails in every column). On Wednesday 12 June 2024, with 4 weeks
shown, the cell in column 0 of the oldest week is Sunday 19 May 2024 and the
cell in column 6 is Saturday 25 May 2024, under the headers `Mo` and `Su`;
the column of today, 12 June, is column 3, under the header `Th`. -/
theorem heatmap_columns_start_on_sunday :
    heatmapCellDate (Date 2024 6 12 10 30 0 0) UTC 4 0 0 = Date 2024 5 19 10 30 0 0 ∧
    (heatmapCellDate (Date 2024 6 12 10 30 0 0) UTC 4 0 0).Weekday UTC = Sunday ∧
    dayLabels.get? 0 = some (ascii "Mo") ∧ labelWeekday (ascii "Mo") = some Monday ∧
    heatmapCellDate (Date 2024 6 12 10 30 0 0) UTC 4 0 6 = Date 2024 5 25 10 30 0 0 ∧
    (heatmapCellDate (Date 2024 6 12 10 30 0 0) UTC 4 0 6).Weekday UTC = Saturday ∧
    dayLabels.get? 6 = some (ascii "Su") ∧ labelWeekday (ascii "Su") = some Sunday ∧
    heatmapCellDate (Date 2024 6 12 10 30 0 0) UTC 4 3 3 = Date 2024 6 12 10 30 0 0 ∧
    dayLabels.get? 3 = some (ascii "Th") := by
  refine ⟨?_, ?_, ?_, ?_, ?_, ?_, ?_, ?_, ?_, ?_⟩ <;>
    first
    | (simp only [heatmapCellDate, heatmapStartDate, heatmapEndDate, Time.AddDate_days_UTC]
       decide)
    | decide

/-- The arithmetic of `ensureVisible`: the offset it chooses is in the window
condition, it is the old offset when that was, and no offset in the window
condition is nearer to the old one. -/
theorem ensureVisible_offset (cursor offset visibleRows : Int) (h : 0 < visibleRows) :
    (if cursor < offset then cursor
      else if cursor ≥ offset + visibleRows then cursor - visibleRows + 1 else offset) ≤ cursor ∧
    cursor < (if cursor < offset then cursor
      else if cursor ≥ offset + visibleRows then cursor - visibleRows + 1 else offset)
        + visibleRows ∧
    (offset ≤ cursor ∧ cursor < offset + visibleRows →
      (if cursor < offset then cursor
        else if cursor ≥ offset + visibleRows then cursor - visibleRows + 1 else offset)
          = offset) ∧
    ∀ o : Int, o ≤ cursor → cursor < o + visibleRows →
      |(if cursor < offset then cursor
        else if cursor ≥ offset + visibleRows then cursor - visibleRows + 1 else offset)
          - offset| ≤ |o - offset| := by
  refine ⟨?_, ?_, ?_, ?_⟩
  · split_ifs <;> omega
  · split_ifs <;> omega
  · intro hw
    split_ifs <;> omega
  · intro o h1 h2
    split_ifs <;> simp only [abs_le, le_abs] <;> omega

theorem projectsPanel_ensureVisible_offset (p : ProjectsModel) :
    p.ensureVisible =
      { p with offset := p.ensureVisible.offset } ∧
    (0 < p.visibleRows → p.ensureVisible.offset =
      if p.cursor < p.offset then p.cursor
      else if p.cursor ≥ p.offset + p.visibleRows then p.cursor - p.visibleRows + 1
      else p.offset) ∧
    (p.visibleRows ≤ 0 → p.ensureVisible = p) := by
  unfold ProjectsModel.ensureVisible
  simp only []
  refine ⟨?_, ?_, ?_⟩
  · split_ifs <;> rfl
  · intro h
    rw [if_neg (not_le.mpr h)]
    split_ifs <;> rfl
  · intro h
    rw [if_pos h]

theorem sessionsPanel_ensureVisible_offset (s : SessionsModel) :
    s.ensureVisible =
      { s with offset := s.ensureVisible.offset } ∧
    (0 < s.visibleRows → s.ensureVisible.offset =
      if s.cursor < s.offset then s.cursor
      else if s.cursor ≥ s.offset + s.visibleRows then s.cursor - s.visibleRows + 1
      else s.offset) ∧
    (s.visibleRows ≤ 0 → s.ensureVisible = s) := by
  unfold SessionsModel.ensureVisible
  simp only []
  refine ⟨?_, ?_, ?_⟩
  · split_ifs <;> rfl
  · intro h
    rw [if_neg (not_le.mpr h)]
    split_ifs <;> rfl
  · intro h
    rw [if_pos h]

/-- C29. `ensureVisible` of the Projects and of the Sessions panel changes at
most the offset.  When `visibleRows > 0`, the new offset satisfies
`offset' ≤ cursor < offset' + visibleRows`; it is the old offset when that
satisfied the condition already; and for every offset `o` that satisfies the
condition, `|offset' - offset| ≤ |o - offset|`.  When `visibleRows ≤ 0` the
panel is left as it is. -/
theorem ensureVisible_minimal (p : ProjectsModel) (s : SessionsModel) :
    (p.ensureVisible = { p with offset := p.ensureVisible.offset } ∧
      (0 < p.visibleRows →
        cursorVisible p.cursor p.ensureVisible.offset p.visibleRows ∧
        (cursorVisible p.cursor p.offset p.visibleRows → p.ensureVisible.offset = p.offset) ∧
        ∀ o : Int, cursorVisible p.cursor o p.visibleRows →
          |p.ensureVisible.offset - p.offset| ≤ |o - p.offset|) ∧
      (p.visibleRows ≤ 0 → p.ensureVisible = p)) ∧
    (s.ensureVisible = { s with offset := s.ensureVisible.offset } ∧
      (0 < s.visibleRows →
        cursorVisible s.cursor s.ensureVisible.offset s.visibleRows ∧
        (cursorVisible s.cursor s.offset s.visibleRows → s.ensureVisible.offset = s.offset) ∧
        ∀ o : Int, cursorVisible s.cursor o s.visibleRows →
          |s.ensureVisible.offset - s.offset| ≤ |o - s.offset|) ∧
      (s.visibleRows ≤ 0 → s.ensureVisible = s)) := by
  obtain ⟨p1, p2, p3⟩ := projectsPanel_ensureVisible_offset p
  obtain ⟨s1, s2, s3⟩ := sessionsPanel_ensureVisible_offset s
  refine ⟨⟨p1, ?_, p3⟩, ⟨s1, ?_, s3⟩⟩
  · intro h
    obtain ⟨a, b, c, d⟩ := ensureVisible_offset p.cursor p.offset p.visibleRows h
    rw [p2 h]
    exact ⟨⟨a, b⟩, c, fun o ho => d o ho.1 ho.2⟩
  · intro h
    obtain ⟨a, b, c, d⟩ := ensureVisible_offset s.cursor s.offset s.visibleRows h
    rw [s2 h]
    exact ⟨⟨a, b⟩, c, fun o ho => d o ho.1 ho.2⟩

theorem ensureVisible_minimal_witness :
    cursorVisible scrolledProjects.cursor scrolledProjects.ensureVisible.offset
        scrolledProjects.visibleRows ∧
    cursorVisible scrolledSessions.cursor scrolledSessions.ensureVisible.offset
        scrolledSessions.visibleRows ∧
    scrolledProjects.ensureVisible.offset = 4 ∧ scrolledSessions.ensureVisible.offset = 2 :=
  ⟨((ensureVisible_minimal scrolledProjects scrolledSessions).1.2.1 (by decide)).1,
   ((ensureVisible_minimal scrolledProjects scrolledSessions).2.2.1 (by decide)).1,
   by decide, by decide⟩

theorem sparkMaxVal_foldl (values : List Int) (m0 : Int) :
    m0 ≤ values.foldl (fun maxVal v => if v > maxVal then v else maxVal) m0 ∧
    (∀ v ∈ values, v ≤ values.foldl (fun maxVal v => if v > maxVal then v else maxVal) m0) ∧
    (values.foldl (fun maxVal v => if v > maxVal then v else maxVal) m0 = m0 ∨
      values.foldl (fun maxVal v => if v > maxVal then v else maxVal) m0 ∈ values) := by
  induction values generalizing m0 with
  | nil => simp
  | cons v vs ih =>
    simp only [List.foldl_cons, List.mem_cons, forall_eq_or_imp]
    obtain ⟨h1, h2, h3⟩ := ih (if v > m0 then v else m0)
    have hm : m0 ≤ (if v > m0 then v else m0) ∧ v ≤ (if v > m0 then v else m0) := by
      split_ifs <;> omega
    refine ⟨le_trans hm.1 h1, ⟨le_trans hm.2 h1, h2⟩, ?_⟩
    rcases h3 with h | h
    · rw [h]
      split_ifs
      · right; left; rfl
      · left; rfl
    · right; right; exact h

/-- On a series without negative values `maxVal` is the maximum of the series. -/
theorem sparkMaxVal_eq (values : List Int) (M : Int) (hM : M ∈ values)
    (hmax : ∀ v ∈ values, v ≤ M) (hnn : ∀ v ∈ values, 0 ≤ v) : sparkMaxVal values = M := by
  obtain ⟨h1, h2, h3⟩ := sparkMaxVal_foldl values 0
  unfold sparkMaxVal
  have hle := h2 M hM
  rcases h3 with h | h
  · have := hnn M hM
    omega
  · have := hmax _ h
    omega

theorem sparkLevel_range (v M : Int) (h0 : 0 ≤ v) (hv : v ≤ M) (hM : 0 < M) :
    0 ≤ sparkLevel v M ∧ sparkLevel v M ≤ 8 ∧ Int.tdiv (v * 8) M = v * 8 / M ∧
    v * 8 / M ≤ 8 := by
  have hd : 0 ≤ v * 8 / M := Int.ediv_nonneg (by omega) (le_of_lt hM)
  have hu : v * 8 / M ≤ 8 := by
    have : v * 8 / M ≤ M * 8 / M := Int.ediv_le_ediv hM (by omega)
    rwa [Int.mul_ediv_cancel_left _ (ne_of_gt hM)] at this
  refine ⟨?_, ?_, Int.tdiv_eq_ediv (by omega) (le_of_lt hM), hu⟩
  · unfold sparkLevel
    omega
  · unfold sparkLevel
    omega

theorem blocks_get (n : Int) (h0 : 0 ≤ n) (h8 : n ≤ 8) :
    blocks.get? n.toNat = some (blocks.getD n.toNat 0) := by
  have : n = 0 ∨ n = 1 ∨ n = 2 ∨ n = 3 ∨ n = 4 ∨ n = 5 ∨ n = 6 ∨ n = 7 ∨ n = 8 := by omega
  rcases this with h | h | h | h | h | h | h | h | h <;> subst h <;> rfl

theorem sparkCell_eq (v M : Int) (h0 : 0 ≤ v) (hv : v ≤ M) (hM : 0 < M)
    (hfit : M * 8 ≤ 9223372036854775807) :
    sparkCell M v =
      some { char := blocks.getD (sparkLevel v M).toNat 0,
             color := some (GradientColor (f64Div (float64OfInt v) (float64OfInt M))) } := by
  obtain ⟨l0, l8, ht, hu⟩ := sparkLevel_range v M h0 hv hM
  have hl : sparkLevel v M = v * 8 / M := by
    unfold sparkLevel
    omega
  have hw : wrapInt64 (v * 8) = v * 8 := wrapInt64_of_range _ ⟨by omega, by omega⟩
  unfold sparkCell
  simp only [hw, ht, if_neg (not_lt.mpr hu)]
  rw [if_neg (by rw [← hl]; omega), ← hl, blocks_get _ l0 l8]

theorem sparkCells_eq (M : Int) (hM : 0 < M) (hfit : M * 8 ≤ 9223372036854775807)
    (values : List Int) (h : ∀ v ∈ values, 0 ≤ v ∧ v ≤ M) :
    sparkCells M values =
      some (values.map (fun v =>
        { char := blocks.getD (sparkLevel v M).toNat 0,
          color := some (GradientColor (f64Div (float64OfInt v) (float64OfInt M))) })) := by
  induction values with
  | nil => rfl
  | cons v vs ih =>
    have hv := h v (List.mem_cons_self _ _)
    rw [sparkCells, sparkCell_eq v M hv.1 hv.2 hM hfit]
    simp only [ih (fun w hw => h w (List.mem_cons_of_mem _ hw)), List.map_cons]

/-- The sparkline of a series in the range where the index is computed
exactly: for every non-empty series of integers none of which is negative,
with a maximum `M` such that `M * 8` is a value of an `int`: when `M > 0`,
`blockSparkline` returns, without a panic, one character for each value `v`,
the entry `min(8, floor(v * 8 / M))` of the table `blocks`; that level is one
of 0..8 and is 8 for the maximal value.  When `M = 0` it returns U+2581, the
lowest block that is not blank, once for each value.  The values that `View`
passes are the message counts of the last 30 days of the activity at most. -/
theorem blockSparkline_in_range (values : List Int) (M : Int) (hM : M ∈ values)
    (hmax : ∀ v ∈ values, v ≤ M) (hnn : ∀ v ∈ values, 0 ≤ v)
    (hfit : M * 8 ≤ 9223372036854775807) (s : SparklineModel) :
    (0 < M →
      SparklineModel.blockSparkline values =
        some (values.map (fun v =>
          { char := blocks.getD (sparkLevel v M).toNat 0,
            color := some (GradientColor (f64Div (float64OfInt v) (float64OfInt M))) })) ∧
      (∀ v ∈ values, 0 ≤ sparkLevel v M ∧ sparkLevel v M ≤ 8 ∧
        (sparkLevel v M).toNat < blocks.length) ∧
      sparkLevel M M = 8) ∧
    (M = 0 →
      SparklineModel.blockSparkline values =
        some (List.replicate values.length { char := 0x2581, color := none })) ∧
    s.viewValues.length = min 30 s.activity.length ∧
    s.viewValues = (s.activity.map (fun day => day.MessageCount)).drop (s.activity.length - 30) := by
  have hne : values.length ≠ 0 := by
    intro h
    rw [List.length_eq_zero] at h
    rw [h] at hM
    exact List.not_mem_nil _ hM
  have hmv := sparkMaxVal_eq values M hM hmax hnn
  refine ⟨?_, ?_, ?_, ?_⟩
  · intro hpos
    refine ⟨?_, ?_, ?_⟩
    · unfold SparklineModel.blockSparkline
      simp only [hne, if_false, hmv, if_neg (ne_of_gt hpos)]
      exact sparkCells_eq M hpos hfit values (fun v hv => ⟨hnn v hv, hmax v hv⟩)
    · intro v hv
      obtain ⟨l0, l8, _, _⟩ := sparkLevel_range v M (hnn v hv) (hmax v hv) hpos
      refine ⟨l0, l8, ?_⟩
      have : blocks.length = 9 := rfl
      omega
    · unfold sparkLevel
      rw [Int.mul_ediv_cancel_left _ (ne_of_gt hpos)]
      rfl
  · intro h0
    unfold SparklineModel.blockSparkline
    simp only [hne, if_false, hmv, h0, if_true]
  · unfold SparklineModel.viewValues
    simp only [List.length_map]
    split_ifs with h
    · rw [List.length_drop]
      omega
    · omega
  · unfold SparklineModel.viewValues
    simp only []
    split_ifs with h
    · rw [List.map_drop]
    · have : s.activity.length - 30 = 0 := by omega
      rw [this, List.drop_zero]

theorem blockSparkline_in_range_witness :
    SparklineModel.blockSparkline [0, 3, 10] =
      some ([0, 3, 10].map (fun v =>
        { char := blocks.getD (sparkLevel v 10).toNat 0,
          color := some (GradientColor (f64Div (float64OfInt v) (float64OfInt 10))) })) ∧
    sparkLevel 0 10 = 0 ∧ sparkLevel 3 10 = 2 ∧ sparkLevel 10 10 = 8 :=
  ⟨((blockSparkline_in_range [0, 3, 10] 10 (by decide) (by decide) (by decide) (by decide)
      NewSparklineModel).1 (by decide)).1, by decide, by decide, by decide⟩

/-- C21. The code does not keep the index inside the table.  In the series
`[-1, 1]` the maximum is 1 and the value -1 gets the index `-1 * 8 / 1 = -8`:
`blockSparkline` panics on `blocks[idx]`, as only `idx > 8` is clamped.  In the
series of the one value `2 ^ 60`, a value of an `int` that is not negative and
is the maximum, the product `v * 8` wraps to `-2 ^ 63` and the index is -8
again: a panic, where the level `min(8, floor(v * 8 / max))` is 8.  In
`[-1, 100]` the code takes entry 0 for the value -1 (Go's division truncates),
where `min(8, floor(-8 / 100))` is -1. -/
theorem blockSparkline_panics :
    SparklineModel.blockSparkline [-1, 1] = none ∧ sparkLevel (-1) 1 = -8 ∧
    inInt64 1152921504606846976 ∧
    sparkMaxVal [1152921504606846976] = 1152921504606846976 ∧
    wrapInt64 (1152921504606846976 * 8) = -9223372036854775808 ∧
    SparklineModel.blockSparkline [1152921504606846976] = none ∧
    sparkLevel 1152921504606846976 1152921504606846976 = 8 ∧
    (SparklineModel.blockSparkline [-1, 100]).map (fun cells => cells.map (fun c => c.char)) =
      some [0x20, 0x2588] ∧
    sparkLevel (-1) 100 = -1 := by
  refine ⟨by decide, by decide, by decide, by decide, by decide, by decide, by decide, ?_,
    by decide⟩
  rfl

theorem parseTimestamp_eq (lib : TimeParser) (ts : GoString) (w : World) :
    parseTimestamp lib ts w =
      match timestampValue lib ts with
      | some t => (t, w)
      | none => w.Now := by
  unfold parseTimestamp timestampValue
  split_ifs <;> rfl

theorem Time.Sub_nonneg_iff (t u : Time) : 0 ≤ Time.Sub t u ↔ u ≤ t := by
  have key : ∀ d : Int,
      0 ≤ (if d < -9223372036854775808 then -9223372036854775808
        else if 9223372036854775807 < d then 9223372036854775807 else d) ↔ 0 ≤ d := by
    intro d
    split_ifs <;> omega
  exact (key (t - u)).trans sub_nonneg

theorem Time.Sub_eq_zero_iff (t u : Time) : Time.Sub t u = 0 ↔ t = u := by
  have key : ∀ d : Int,
      (if d < -9223372036854775808 then -9223372036854775808
        else if 9223372036854775807 < d then 9223372036854775807 else d) = 0 ↔ d = 0 := by
    intro d
    split_ifs <;> constructor <;> intro h <;> first | omega | (norm_num at h)
  exact (key (t - u)).trans sub_eq_zero

theorem sessionFromJSON_times (lib : TimeParser) (entry : sessionEntryJSON) (w : World) :
    (sessionFromJSON lib entry w).1.Created = (parseTimestamp lib entry.Created w).1 ∧
    (sessionFromJSON lib entry w).1.Modified =
      (parseTimestamp lib entry.Modified (parseTimestamp lib entry.Created w).2).1 := by
  unfold sessionFromJSON
  exact ⟨rfl, rfl⟩

/-- C26 (amended). For every entry of a session index, `Duration()` of the
session made from it is `Modified - Created` (saturated to the range of a
duration), so it is non-negative exactly when the created instant is not after
the modified one.  The two timestamps are read in this order, each replaced by
a reading of the clock when it is empty or malformed.  When both are well
formed the two instants are the parsed ones; when both are empty or malformed
they are two successive readings of the clock, the duration is non-negative
when the clock did not go back between them, and it is zero only when the two
readings are equal; when only the created timestamp is empty or malformed, the
created instant is the reading of the clock and the modified instant the parsed
one. -/
theorem session_duration (lib : TimeParser) (entry : sessionEntryJSON) (w : World) :
    (sessionFromJSON lib entry w).1.Duration =
      Time.Sub (sessionFromJSON lib entry w).1.Modified (sessionFromJSON lib entry w).1.Created ∧
    (0 ≤ (sessionFromJSON lib entry w).1.Duration ↔
      (sessionFromJSON lib entry w).1.Created ≤ (sessionFromJSON lib entry w).1.Modified) ∧
    (∀ c m : Time, timestampValue lib entry.Created = some c →
      timestampValue lib entry.Modified = some m →
      (sessionFromJSON lib entry w).1.Created = c ∧
      (sessionFromJSON lib entry w).1.Modified = m) ∧
    (timestampValue lib entry.Created = none → timestampValue lib entry.Modified = none →
      (sessionFromJSON lib entry w).1.Created = w.clock w.clockReads ∧
      (sessionFromJSON lib entry w).1.Modified = w.clock (w.clockReads + 1) ∧
      (w.clock w.clockReads ≤ w.clock (w.clockReads + 1) →
        0 ≤ (sessionFromJSON lib entry w).1.Duration) ∧
      ((sessionFromJSON lib entry w).1.Duration = 0 ↔
        w.clock (w.clockReads + 1) = w.clock w.clockReads)) ∧
    (∀ m : Time, timestampValue lib entry.Created = none →
      timestampValue lib entry.Modified = some m →
      (sessionFromJSON lib entry w).1.Created = w.clock w.clockReads ∧
      (sessionFromJSON lib entry w).1.Modified = m) := by
  obtain ⟨hc, hm⟩ := sessionFromJSON_times lib entry w
  refine ⟨rfl, Time.Sub_nonneg_iff _ _, ?_, ?_, ?_⟩
  · intro c m h1 h2
    rw [hc, hm]
    simp only [parseTimestamp_eq, h1, h2, and_self]
  · intro h1 h2
    have e1 : (sessionFromJSON lib entry w).1.Created = w.clock w.clockReads := by
      rw [hc]
      simp only [parseTimestamp_eq, h1]
      rfl
    have e2 : (sessionFromJSON lib entry w).1.Modified = w.clock (w.clockReads + 1) := by
      rw [hm]
      simp only [parseTimestamp_eq, h1, h2]
      rfl
    refine ⟨e1, e2, ?_, ?_⟩
    · intro hmono
      show 0 ≤ Time.Sub _ _
      rw [e1, e2]
      exact (Time.Sub_nonneg_iff _ _).mpr hmono
    · show Time.Sub _ _ = 0 ↔ _
      rw [e1, e2]
      exact Time.Sub_eq_zero_iff _ _
  · intro m h1 h2
    rw [hc, hm]
    simp only [parseTimestamp_eq, h1, h2]
    exact ⟨rfl, trivial⟩

theorem session_duration_witness :
    (sessionFromJSON utcParser (entryA "2024-06-01T08:00:00Z" "2024-06-01T09:30:00Z")
        juneWorld).1.Created = Date 2024 6 1 8 0 0 0 ∧
    (sessionFromJSON utcParser (entryA "2024-06-01T08:00:00Z" "2024-06-01T09:30:00Z")
        juneWorld).1.Modified = Date 2024 6 1 9 30 0 0 :=
  (session_duration utcParser (entryA "2024-06-01T08:00:00Z" "2024-06-01T09:30:00Z")
    juneWorld).2.2.1 _ _ (by decide) (by decide)

/-- C26 (as worded, fails). With the clock at 12 June 2024, 10:30: an entry
whose created timestamp is empty and whose modified timestamp is 1 January 2024
has the duration of minus 163 days and 10.5 hours; an entry created on 2
January and modified on 1 January 2024 has the duration of minus 24 hours; an
entry with two malformed timestamps has the duration of the 100 nanoseconds
between the two readings of the clock, not zero. -/
theorem session_duration_negative :
    (sessionFromJSON utcParser (entryA "" "2024-01-01T00:00:00Z") juneWorld).1.Duration
      = -(163 * 24 * 3600 + 10 * 3600 + 1800) * Second ∧
    (sessionFromJSON utcParser (entryA "2024-01-02T00:00:00Z" "2024-01-01T00:00:00Z")
      juneWorld).1.Duration = -(24 * 3600) * Second ∧
    (sessionFromJSON utcParser (entryA "yesterday" "today") juneWorld).1.Duration = 100 := by
  decide

/-- What aggregation gives for the members of its result: each summarizes the
sessions of its path, and the paths are those of the sessions. -/
theorem aggregate_members (sorter : SortSlice) (order : MapOrder)
    (sessions : List SessionEntry) :
    (∀ p ∈ AggregateProjects sorter order sessions, Summarizes sessions p) ∧
    ∀ path, path ∈ (AggregateProjects sorter order sessions).map (fun p => p.ProjectPath) ↔
      path ∈ sessions.map (fun s => s.ProjectPath) := by
  obtain ⟨_, hkeys, hgood⟩ := aggregate_foldl_inv sessions
  have hperm := AggregateProjects_perm sorter order sessions
  constructor
  · intro p hp
    obtain ⟨e, he, rfl⟩ := List.mem_map.mp (hperm.subset hp)
    exact (hgood e he).2
  · intro path
    rw [← hkeys path]
    constructor
    · intro h
      obtain ⟨p, hp, rfl⟩ := List.mem_map.mp h
      obtain ⟨e, he, rfl⟩ := List.mem_map.mp (hperm.subset hp)
      rw [(hgood e he).1]
      exact List.mem_map.mpr ⟨e, he, rfl⟩
    · intro h
      obtain ⟨e, he, rfl⟩ := List.mem_map.mp h
      refine List.mem_map.mpr ⟨e.2, hperm.symm.subset (List.mem_map.mpr ⟨e, he, rfl⟩), ?_⟩
      exact (hgood e he).1

/-- A project was active after `start` exactly when one of its sessions was
modified after `start`. -/
theorem summarizes_after (sessions : List SessionEntry) (p : ProjectSummary)
    (h : Summarizes sessions p) (start : Time) :
    Time.After p.LastActivity start = true ↔
      ∃ s ∈ sessions, s.ProjectPath = p.ProjectPath ∧ Time.After s.Modified start = true := by
  obtain ⟨_, _, _, ⟨s0, hs0, hlast⟩, hmax⟩ := h
  simp only [Time.After, decide_eq_true_eq]
  constructor
  · intro hlt
    have hmem := List.mem_filter.mp hs0
    refine ⟨s0, hmem.1, of_decide_eq_true hmem.2, ?_⟩
    rw [hlast]
    exact hlt
  · rintro ⟨s, hs, hpath, hlt⟩
    have hle := hmax s (List.mem_filter.mpr ⟨hs, decide_eq_true hpath⟩)
    exact lt_of_lt_of_le hlt hle

/-- C30. For every snapshot whose projects are the aggregation of its
sessions, every time range, every instant `now` and every local time zone: the
project paths listed by
`FilterProjects` are the project paths of the sessions listed by
`FilterSessions`.  The listed projects are entries of the unfiltered list, so
their counts still include the sessions outside the range. -/
theorem filter_commutes_with_aggregation (sorter : SortSlice) (order : MapOrder)
    (d : DashboardData) (hd : d.Projects = AggregateProjects sorter order d.Sessions)
    (tr : TimeRange) (now : Time) (loc : Location) :
    (∀ path : GoString,
      path ∈ (d.FilterProjects tr now loc).map (fun p => p.ProjectPath) ↔
        path ∈ (d.FilterSessions tr now loc).map (fun s => s.ProjectPath)) ∧
    (d.FilterProjects tr now loc).Sublist d.Projects ∧
    ∀ p ∈ d.FilterProjects tr now loc, Summarizes d.Sessions p := by
  obtain ⟨hsum, hpaths⟩ := aggregate_members sorter order d.Sessions
  rw [← hd] at hsum hpaths
  unfold DashboardData.FilterProjects DashboardData.FilterSessions
  split_ifs with htr
  · exact ⟨hpaths, List.Sublist.refl _, hsum⟩
  · refine ⟨?_, List.filter_sublist _, fun p hp => hsum p (List.mem_filter.mp hp).1⟩
    intro path
    simp only [List.mem_map, List.mem_filter]
    constructor
    · rintro ⟨p, ⟨hp, hafter⟩, rfl⟩
      obtain ⟨s, hs, hpath, hlt⟩ := (summarizes_after d.Sessions p (hsum p hp) _).mp hafter
      exact ⟨s, ⟨hs, hlt⟩, hpath⟩
    · rintro ⟨s, ⟨hs, hafter⟩, rfl⟩
      obtain ⟨p, hp, hpp⟩ := List.mem_map.mp
        ((hpaths s.ProjectPath).mpr (List.mem_map.mpr ⟨s, hs, rfl⟩))
      exact ⟨p, ⟨hp, (summarizes_after d.Sessions p (hsum p hp) _).mpr ⟨s, hs, hpp.symm, hafter⟩⟩,
        hpp⟩

theorem filter_commutes_with_aggregation_witness :
    (∀ path : GoString,
      path ∈ (twoProjectSnapshot.FilterProjects TimeWeek (Date 2024 6 12 10 30 0 0) UTC).map
          (fun p => p.ProjectPath) ↔
        path ∈ (twoProjectSnapshot.FilterSessions TimeWeek (Date 2024 6 12 10 30 0 0) UTC).map
          (fun s => s.ProjectPath)) ∧
    (twoProjectSnapshot.FilterProjects TimeWeek (Date 2024 6 12 10 30 0 0) UTC).map
      (fun p => p.ProjectPath) = [ascii "/a"] :=
  ⟨(filter_commutes_with_aggregation insertionSorter insertionOrder twoProjectSnapshot rfl
      TimeWeek (Date 2024 6 12 10 30 0 0) UTC).1, by decide⟩

theorem strLess_strictWeak : StrictWeak strLess := by
  have lt_iff : ∀ x y : UInt8, x < y ↔ x.toNat < y.toNat := fun x y => Iff.rfl
  have eq_of : ∀ x y : UInt8, ¬ x < y → ¬ y < x → x = y := by
    intro x y h1 h2
    rw [lt_iff] at h1 h2
    exact UInt8.ext (by omega)
  constructor
  · intro a
    induction a with
    | nil =>
      intro b h
      cases b with
      | nil => rfl
      | cons y ys => rfl
    | cons x xs ih =>
      intro b h
      cases b with
      | nil => simp [strLess] at h
      | cons y ys =>
        simp only [strLess] at h ⊢
        by_cases h1 : x < y
        · have h2 : ¬ y < x := by
            rw [lt_iff] at h1 ⊢
            omega
          simp only [h2, if_false, h1, if_true]
        · by_cases h2 : y < x
          · simp [h1, h2] at h
          · simp only [h1, h2, if_false] at h ⊢
            exact ih ys h
  · intro a
    induction a with
    | nil =>
      intro b c h1 h2
      cases b with
      | nil => exact h2
      | cons y ys => simp [strLess] at h1
    | cons x xs ih =>
      intro b c h1 h2
      cases b with
      | nil =>
        cases c with
        | nil => rfl
        | cons z zs => simp [strLess] at h2
      | cons y ys =>
        cases c with
        | nil => rfl
        | cons z zs =>
          simp only [strLess] at h1 h2 ⊢
          by_cases hxy : x < y
          · simp [hxy] at h1
          · by_cases hyz : y < z
            · simp [hyz] at h2
            · simp only [hxy, hyz, if_false] at h1 h2
              by_cases hyx : y < x
              · have hxz : ¬ x < z := by
                  rw [lt_iff] at *
                  omega
                have hzx : z < x := by
                  rw [lt_iff] at *
                  by_cases hzy : z < y
                  · rw [lt_iff] at hzy; omega
                  · have := eq_of y z hyz hzy
                    subst this
                    exact hyx
                simp only [hxz, if_false, hzx, if_true]
              · have hxy' := eq_of x y hxy hyx
                subst hxy'
                simp only [hyx, if_false] at h1
                by_cases hzx : z < x
                · simp only [hyz, if_false, hzx, if_true]
                · simp only [hzx, if_false] at h2
                  simp only [hyz, hzx, if_false]
                  exact ih ys zs h1 h2

theorem StrictWeak.comap {α β : Type} {less : β → β → Bool} (h : StrictWeak less) (f : α → β) :
    StrictWeak (fun a b => less (f a) (f b)) :=
  ⟨fun a b => h.asymm (f a) (f b), fun a b c => h.negTrans (f a) (f b) (f c)⟩

theorem int_lt_strictWeak : StrictWeak (fun a b : Int => decide (a < b)) := by
  constructor
  · intro a b h
    simp only [decide_eq_true_eq, decide_eq_false_iff_not, not_lt] at h ⊢
    exact le_of_lt h
  · intro a b c h1 h2
    simp only [decide_eq_false_iff_not, not_lt] at h1 h2 ⊢
    exact le_trans h2 h1

theorem const_false_strictWeak {α : Type} : StrictWeak (fun _ _ : α => false) :=
  ⟨fun _ _ h => by simp at h, fun _ _ _ _ _ => rfl⟩

/-- The negation of a strict weak ordering is total and transitive. -/
theorem StrictWeak.not_total {α : Type} {less : α → α → Bool} (h : StrictWeak less) :
    (∀ a b, (!less a b) = true ∨ (!less b a) = true) ∧
    ∀ a b c, (!less a b) = true → (!less b c) = true → (!less a c) = true := by
  constructor
  · intro a b
    cases hab : less a b with
    | false => left; rfl
    | true => right; rw [h.asymm a b hab]; rfl
  · intro a b c h1 h2
    simp only [Bool.not_eq_true'] at h1 h2 ⊢
    exact h.negTrans a b c h1 h2

theorem Decides.le_self {α : Type} {less : α → α → Bool} {le : α → α → Prop} (h : Decides less le) (x : α) :
    le x x := by
  cases hc : less x x with
  | true => exact h.of_true x x hc
  | false => exact h.of_false x x hc

theorem sliceAt_nonneg {α : Type} (data : List α) {i : Int} (h : 0 ≤ i) :
    sliceAt data i = data.get? i.toNat := by
  unfold sliceAt
  rw [if_pos h]

theorem sliceAt_neg {α : Type} (data : List α) {i : Int} (h : ¬ 0 ≤ i) : sliceAt data i = none := by
  unfold sliceAt
  rw [if_neg h]

theorem sliceAt_inSlice {α : Type} {data : List α} {i : Int} {x : α} (h : sliceAt data i = some x) :
    InSlice data i := by
  unfold sliceAt at h
  split_ifs at h with h0
  obtain ⟨hlt, _⟩ := List.get?_eq_some.mp h
  exact ⟨h0, by omega⟩

theorem sliceAt_of_inSlice {α : Type} {data : List α} {i : Int} (h : InSlice data i) :
    ∃ x, sliceAt data i = some x := by
  obtain ⟨h0, h1⟩ := h
  have hl : i.toNat < data.length := by omega
  refine ⟨data.get ⟨i.toNat, hl⟩, ?_⟩
  unfold sliceAt
  rw [if_pos h0]
  exact List.get?_eq_get hl

theorem Less_of_some {α : Type} {less : α → α → Bool} {data : List α} {i j : Int} {x y : α}
    (hx : sliceAt data i = some x) (hy : sliceAt data j = some y) :
    lessSwap.Less less data i j = some (less x y) := by
  unfold lessSwap.Less
  rw [hx, hy]

theorem Less_ok {α : Type} (less : α → α → Bool) {data : List α} {i j : Int}
    (hi : InSlice data i) (hj : InSlice data j) :
    ∃ x y, sliceAt data i = some x ∧ sliceAt data j = some y ∧
      lessSwap.Less less data i j = some (less x y) := by
  obtain ⟨x, hx⟩ := sliceAt_of_inSlice hi
  obtain ⟨y, hy⟩ := sliceAt_of_inSlice hj
  exact ⟨x, y, hx, hy, Less_of_some hx hy⟩

theorem swap_perm_nat {α : Type} (l : List α) (i j : Nat) (hi : i < l.length) (hj : j < l.length) :
    ((l.set i (l.get ⟨j, hj⟩)).set j (l.get ⟨i, hi⟩)).Perm l := by
  classical
  rw [List.perm_iff_count]
  intro a
  rw [List.count_set _ _ _ _ (by simpa using hj), List.count_set _ _ _ _ hi]
  simp only [List.getElem_set, List.get_eq_getElem]
  by_cases hij : i = j
  · subst hij
    simp only [if_true]
    have : 0 < List.count a l ∨ ¬ (l[i] == a) = true := by
      by_cases h : (l[i] == a) = true
      · left
        have : l[i] = a := by simpa using h
        rw [← this]
        exact List.count_pos_iff.mpr (List.getElem_mem _)
      · right; exact h
    rcases this with h | h
    · split_ifs <;> omega
    · simp [h]
  · simp only [hij, if_false]
    have h1 : (l[i] == a) = true → 0 < List.count a l := by
      intro h
      have : l[i] = a := by simpa using h
      rw [← this]
      exact List.count_pos_iff.mpr (List.getElem_mem _)
    by_cases c1 : (l[i] == a) = true
    · have hpos := h1 c1
      rw [if_pos c1]
      split_ifs <;> omega
    · rw [if_neg c1]
      split_ifs <;> omega

theorem Swap_ok {α : Type} {data : List α} {i j : Int} (hi : InSlice data i) (hj : InSlice data j) :
    ∃ data1, lessSwap.Swap data i j = some data1 ∧ data1.length = data.length ∧
      data1.Perm data ∧
      ∀ k, sliceAt data1 k = sliceAt data (if k = j then i else if k = i then j else k) := by
  obtain ⟨hi0, hi1⟩ := hi
  obtain ⟨hj0, hj1⟩ := hj
  have hil : i.toNat < data.length := by omega
  have hjl : j.toNat < data.length := by omega
  have hx : sliceAt data i = some (data.get ⟨i.toNat, hil⟩) := by
    unfold sliceAt
    rw [if_pos hi0]
    exact List.get?_eq_get hil
  have hy : sliceAt data j = some (data.get ⟨j.toNat, hjl⟩) := by
    unfold sliceAt
    rw [if_pos hj0]
    exact List.get?_eq_get hjl
  refine ⟨_, by unfold lessSwap.Swap; rw [hx, hy], by simp, swap_perm_nat data _ _ hil hjl, ?_⟩
  intro k
  by_cases hk : 0 ≤ k
  · by_cases hkj : k = j
    · subst hkj
      rw [if_pos rfl, hx, sliceAt_nonneg _ hk]
      simp [List.getElem?_set, hjl]
    · rw [if_neg hkj]
      have hne : ¬ j.toNat = k.toNat := by omega
      by_cases hki : k = i
      · subst hki
        rw [if_pos rfl, hy, sliceAt_nonneg _ hk]
        simp [List.getElem?_set, hil, hne]
      · rw [if_neg hki]
        have hne2 : ¬ i.toNat = k.toNat := by omega
        rw [sliceAt_nonneg _ hk, sliceAt_nonneg _ hk]
        simp [List.getElem?_set, hne, hne2]
  · have e1 : ¬ k = j := by omega
    have e2 : ¬ k = i := by omega
    rw [if_neg e1, if_neg e2, sliceAt_neg _ hk, sliceAt_neg _ hk]

theorem Swap_inSlice {α : Type} {data data1 : List α} {i j : Int}
    (h : lessSwap.Swap data i j = some data1) : InSlice data i ∧ InSlice data j := by
  unfold lessSwap.Swap at h
  cases hx : sliceAt data i with
  | none => rw [hx] at h; simp at h
  | some x =>
    cases hy : sliceAt data j with
    | none => rw [hx, hy] at h; simp at h
    | some y => exact ⟨sliceAt_inSlice hx, sliceAt_inSlice hy⟩

/-- What an exchange of two elements of the slice gives. -/
theorem Swap_spec {α : Type} {data data1 : List α} {i j : Int}
    (h : lessSwap.Swap data i j = some data1) :
    data1.length = data.length ∧ data1.Perm data ∧
      ∀ k, sliceAt data1 k = sliceAt data (if k = j then i else if k = i then j else k) := by
  obtain ⟨hi, hj⟩ := Swap_inSlice h
  obtain ⟨d, hd, r⟩ := Swap_ok hi hj
  rw [h] at hd
  cases hd
  exact r

theorem InSlice_of_length {α : Type} {d d1 : List α} (hl : d1.length = d.length) {i : Int}
    (h : InSlice d i) : InSlice d1 i := by
  unfold InSlice at *
  rw [hl]
  exact h

/-! ### Frames -/

theorem Inside.unchanged {α : Type} (a b : Int) (d : List α) : Inside a b d d :=
  ⟨rfl, List.Perm.refl _, fun _ _ => rfl, fun _ h => h⟩

theorem Inside.andThen {α : Type} {a b : Int} {d1 d2 d3 : List α} (h1 : Inside a b d1 d2)
    (h2 : Inside a b d2 d3) : Inside a b d1 d3 :=
  ⟨h2.1.trans h1.1, h2.2.1.trans h1.2.1, fun k hk => (h2.2.2.1 k hk).trans (h1.2.2.1 k hk),
    fun P hP => h2.2.2.2 P (h1.2.2.2 P hP)⟩

theorem Inside.widen {α : Type} {a b a1 b1 : Int} {d1 d2 : List α} (h : Inside a b d1 d2) (ha : a1 ≤ a)
    (hb : b ≤ b1) : Inside a1 b1 d1 d2 := by
  refine ⟨h.1, h.2.1, fun k hk => h.2.2.1 k (by omega), ?_⟩
  intro P hP k x hk1 hk2 hx
  by_cases hin : a ≤ k ∧ k < b
  · exact h.2.2.2 P (fun k x h1 h2 hx => hP k x (by omega) (by omega) hx) k x hin.1 hin.2 hx
  · rw [h.2.2.1 k (by omega)] at hx
    exact hP k x hk1 hk2 hx

theorem Frame.idle {α : Type} (le : α → α → Prop) (a b : Int) (d : List α) : Frame le a b d d :=
  ⟨rfl, List.Perm.refl _, fun _ _ h => h⟩

theorem Frame.followedBy {α : Type} {le : α → α → Prop} {a b : Int} {d1 d2 d3 : List α}
    (h1 : Frame le a b d1 d2) (h2 : Frame le a b d2 d3) : Frame le a b d1 d3 :=
  ⟨h2.1.trans h1.1, h2.2.1.trans h1.2.1, fun k hk h => h2.2.2 k hk (h1.2.2 k hk h)⟩

theorem Frame.enlarge {α : Type} {le : α → α → Prop} {a b a1 b1 : Int} {d1 d2 : List α}
    (h : Frame le a b d1 d2) (ha : a1 ≤ a) (hb : b ≤ b1) : Frame le a1 b1 d1 d2 :=
  ⟨h.1, h.2.1, fun k hk => h.2.2 k (by omega)⟩

theorem Inside.toFrame {α : Type} (le : α → α → Prop) {a b : Int} {d1 d2 : List α} (h : Inside a b d1 d2) :
    Frame le a b d1 d2 := by
  refine ⟨h.1, h.2.1, ?_⟩
  intro k hk hcut i j hi hj x y hx hy
  rcases hk with hk | hk
  · -- the left side is untouched
    rw [h.2.2.1 i (by omega)] at hx
    by_cases hin : a ≤ j ∧ j < b
    · exact h.2.2.2 (fun y => le x y)
        (fun q y hq1 hq2 hy => hcut i q hi (by omega) x y hx hy) j y hin.1 hin.2 hy
    · rw [h.2.2.1 j (by omega)] at hy
      exact hcut i j hi hj x y hx hy
  · rw [h.2.2.1 j (by omega)] at hy
    by_cases hin : a ≤ i ∧ i < b
    · exact h.2.2.2 (fun x => le x y)
        (fun q x hq1 hq2 hx => hcut q j (by omega) hj x y hx hy) i x hin.1 hin.2 hx
    · rw [h.2.2.1 i (by omega)] at hx
      exact hcut i j hi hj x y hx hy

/-- An exchange inside `data[a:b]`. -/
theorem Swap_inside {α : Type} (a b : Int) {data data1 : List α} {i j : Int}
    (h : lessSwap.Swap data i j = some data1) (hi : a ≤ i ∧ i < b) (hj : a ≤ j ∧ j < b) :
    Inside a b data data1 := by
  obtain ⟨hl, hp, hat⟩ := Swap_spec h
  refine ⟨hl, hp, ?_, ?_⟩
  · intro k hk
    rw [hat k, if_neg (by omega), if_neg (by omega)]
  · intro P hP k x hk1 hk2 hx
    rw [hat k] at hx
    split_ifs at hx with h1 h2
    · exact hP i x hi.1 hi.2 hx
    · exact hP j x hj.1 hj.2 hx
    · exact hP k x hk1 hk2 hx

/-- An exchange of two neighbours of which the right one is before or beside
the left one keeps every cut in order that was in order. -/
theorem Swap_adjacent {α : Type} {le : α → α → Prop} (htrans : ∀ x y z, le x y → le y z → le x z)
    {data data1 : List α} {j : Int}
    (h : lessSwap.Swap data j (j - 1) = some data1) (hle : LeAt le data j (j - 1)) :
    data1.length = data.length ∧ data1.Perm data ∧
      (∀ k, CutOK le data k → CutOK le data1 k) ∧
      ∀ k, sliceAt data1 k =
        sliceAt data (if k = j - 1 then j else if k = j then j - 1 else k) := by
  obtain ⟨hl, hp, hat⟩ := Swap_spec h
  obtain ⟨hj, hj1⟩ := Swap_inSlice h
  obtain ⟨xj, hxj⟩ := sliceAt_of_inSlice hj
  obtain ⟨xj1, hxj1⟩ := sliceAt_of_inSlice hj1
  have hjj := hle xj xj1 hxj hxj1
  refine ⟨hl, hp, ?_, hat⟩
  intro k hcut p q hp1 hq1 x y hx hy
  rw [hat p] at hx
  rw [hat q] at hy
  by_cases hkj : k = j
  · subst hkj
    have hq2 : ¬ q = k - 1 := by omega
    have hp2 : ¬ p = k := by omega
    rw [if_neg hq2] at hy
    by_cases hp3 : p = k - 1
    · rw [if_pos hp3, hxj] at hx
      cases hx
      by_cases hq3 : q = k
      · rw [if_pos hq3, hxj1] at hy
        cases hy
        exact hjj
      · rw [if_neg hq3] at hy
        exact htrans _ _ _ hjj (hcut (k - 1) q (by omega) hq1 xj1 y hxj1 hy)
    · rw [if_neg hp3, if_neg hp2] at hx
      by_cases hq3 : q = k
      · rw [if_pos hq3, hxj1] at hy
        cases hy
        exact htrans _ _ _ (hcut p k hp1 (le_refl _) x xj hx hxj) hjj
      · rw [if_neg hq3] at hy
        exact hcut p q hp1 hq1 x y hx hy
  · refine hcut _ _ ?_ ?_ x y hx hy
    · split_ifs <;> omega
    · split_ifs <;> omega

/-! ### Order -/

theorem SortedOn.cuts {α : Type} {le : α → α → Prop} {d : List α} {a b : Int} (hs : SortedOn le d a b)
    (ha : CutOK le d a) (hb : CutOK le d b) (k : Int) (hk : a ≤ k ∧ k ≤ b) : CutOK le d k := by
  intro i j hi hj
  by_cases h1 : i < a
  · exact ha i j h1 (by omega)
  · by_cases h2 : b ≤ j
    · exact hb i j (by omega) h2
    · exact hs i j (by omega) (by omega) (by omega)

theorem CutOK.atStart {α : Type} (le : α → α → Prop) (d : List α) : CutOK le d 0 := by
  intro i j hi _ x _ hx _
  have := (sliceAt_inSlice hx).1
  omega

theorem CutOK.atEnd {α : Type} (le : α → α → Prop) (d : List α) : CutOK le d d.length := by
  intro i j _ hj x y _ hy
  have := (sliceAt_inSlice hy).2
  omega

/-- A slice all of whose cuts are in order is a list in order. -/
theorem pairwise_of_cuts {α : Type} {le : α → α → Prop} (d : List α)
    (h : ∀ k : Int, 0 ≤ k ∧ k ≤ d.length → CutOK le d k) : d.Pairwise le := by
  rw [List.pairwise_iff_get]
  intro i j hij
  have hi : sliceAt d (i.val : Int) = some (d.get i) := by
    unfold sliceAt
    rw [if_pos (by omega)]
    simp
  have hj : sliceAt d (j.val : Int) = some (d.get j) := by
    unfold sliceAt
    rw [if_pos (by omega)]
    simp
  have hlt : i.val < j.val := hij
  exact h (j.val : Int) ⟨by omega, by have := j.isLt; omega⟩ i.val j.val (by omega) (le_refl _)
    _ _ hi hj

/-! ### Loops that move an index -/

theorem scanUp_spec (test : Int → Option Bool) (hi : Int) :
    ∀ (fuel : Nat) (i : Int), (hi - i + 2).toNat ≤ fuel → i ≤ hi + 1 →
      (∀ k, i ≤ k → k ≤ hi → ∃ r, test k = some r) →
      ∃ r, scanUp test hi fuel i = some r ∧ i ≤ r ∧ r ≤ hi + 1 ∧
        (∀ k, i ≤ k → k < r → test k = some true) ∧ (r ≤ hi → test r = some false) := by
  intro fuel
  induction fuel with
  | zero => intro i h1 h2 _; omega
  | succ n ih =>
    intro i hf hi1 hok
    unfold scanUp
    by_cases h : i ≤ hi
    · rw [if_pos h]
      obtain ⟨r, hr⟩ := hok i (le_refl _) h
      rw [hr]
      cases r with
      | false =>
        exact ⟨i, rfl, le_refl _, hi1, fun k h1 h2 => by omega, fun _ => hr⟩
      | true =>
        obtain ⟨r, e, r1, r2, r3, r4⟩ := ih (i + 1) (by omega) (by omega)
          (fun k h1 h2 => hok k (by omega) h2)
        refine ⟨r, e, by omega, r2, ?_, r4⟩
        intro k h1 h2
        by_cases hk : k = i
        · rw [hk]; exact hr
        · exact r3 k (by omega) h2
    · rw [if_neg h]
      exact ⟨i, rfl, le_refl _, hi1, fun k h1 h2 => by omega, fun h' => absurd h' h⟩

theorem scanDown_spec (test : Int → Option Bool) (lo : Int) :
    ∀ (fuel : Nat) (j : Int), (j - lo + 2).toNat ≤ fuel → lo ≤ j + 1 →
      (∀ k, lo ≤ k → k ≤ j → ∃ r, test k = some r) →
      ∃ r, scanDown test lo fuel j = some r ∧ r ≤ j ∧ lo ≤ r + 1 ∧
        (∀ k, r < k → k ≤ j → test k = some true) ∧ (lo ≤ r → test r = some false) := by
  intro fuel
  induction fuel with
  | zero => intro j h1 h2 _; omega
  | succ n ih =>
    intro j hf hj1 hok
    unfold scanDown
    by_cases h : lo ≤ j
    · rw [if_pos h]
      obtain ⟨r, hr⟩ := hok j h (le_refl _)
      rw [hr]
      cases r with
      | false =>
        exact ⟨j, rfl, le_refl _, hj1, fun k h1 h2 => by omega, fun _ => hr⟩
      | true =>
        obtain ⟨r, e, r1, r2, r3, r4⟩ := ih (j - 1) (by omega) (by omega)
          (fun k h1 h2 => hok k h1 (by omega))
        refine ⟨r, e, by omega, r2, ?_, r4⟩
        intro k h1 h2
        by_cases hk : k = j
        · rw [hk]; exact hr
        · exact r3 k h1 (by omega)
    · rw [if_neg h]
      exact ⟨j, rfl, le_refl _, hj1, fun k h1 h2 => by omega, fun h' => absurd h' h⟩

theorem notTest_true {t : Option Bool} (h : notTest t = some true) : t = some false := by
  cases t with
  | none => simp [notTest] at h
  | some r => cases r <;> simp [notTest] at h ⊢

theorem notTest_false {t : Option Bool} (h : notTest t = some false) : t = some true := by
  cases t with
  | none => simp [notTest] at h
  | some r => cases r <;> simp [notTest] at h ⊢

theorem notTest_ok {t : Option Bool} (h : ∃ r, t = some r) : ∃ r, notTest t = some r := by
  obtain ⟨r, rfl⟩ := h
  exact ⟨!r, rfl⟩

/-- What an answer of the comparator says about the elements. -/
theorem Less_true {α : Type} {less : α → α → Bool} {le : α → α → Prop} (hd : Decides less le)
    {data : List α} {i j : Int} (h : lessSwap.Less less data i j = some true) :
    InSlice data i ∧ InSlice data j ∧ LeAt le data i j := by
  unfold lessSwap.Less at h
  cases hx : sliceAt data i with
  | none => rw [hx] at h; simp at h
  | some x =>
    cases hy : sliceAt data j with
    | none => rw [hx, hy] at h; simp at h
    | some y =>
      rw [hx, hy] at h
      refine ⟨sliceAt_inSlice hx, sliceAt_inSlice hy, ?_⟩
      intro x1 y1 h1 h2
      rw [hx] at h1
      rw [hy] at h2
      cases h1
      cases h2
      exact hd.of_true _ _ (by simpa using h)

theorem Less_false {α : Type} {less : α → α → Bool} {le : α → α → Prop} (hd : Decides less le)
    {data : List α} {i j : Int} (h : lessSwap.Less less data i j = some false) :
    InSlice data i ∧ InSlice data j ∧ LeAt le data j i := by
  unfold lessSwap.Less at h
  cases hx : sliceAt data i with
  | none => rw [hx] at h; simp at h
  | some x =>
    cases hy : sliceAt data j with
    | none => rw [hx, hy] at h; simp at h
    | some y =>
      rw [hx, hy] at h
      refine ⟨sliceAt_inSlice hx, sliceAt_inSlice hy, ?_⟩
      intro y1 x1 h2 h1
      rw [hx] at h1
      rw [hy] at h2
      cases h1
      cases h2
      exact hd.of_false _ _ (by simpa using h)

theorem Less_total {α : Type} (less : α → α → Bool) {data : List α} {i j : Int}
    (hi : InSlice data i) (hj : InSlice data j) : ∃ r, lessSwap.Less less data i j = some r := by
  obtain ⟨x, y, _, _, h⟩ := Less_ok less hi hj
  exact ⟨_, h⟩

theorem LeAt.via {α : Type} {le : α → α → Prop} (htrans : ∀ x y z, le x y → le y z → le x z)
    {d : List α} {i j k : Int} (hj : InSlice d j) (h1 : LeAt le d i j) (h2 : LeAt le d j k) :
    LeAt le d i k := by
  obtain ⟨y, hy⟩ := sliceAt_of_inSlice hj
  intro x z hx hz
  exact htrans _ _ _ (h1 x y hx hy) (h2 y z hy hz)

theorem LeAt.self {α : Type} {less : α → α → Bool} {le : α → α → Prop} (hd : Decides less le)
    (d : List α) (i : Int) : LeAt le d i i := by
  intro x y hx hy
  rw [hx] at hy
  cases hy
  exact hd.le_self x

theorem LeAt.congr {α : Type} {le : α → α → Prop} {d d1 : List α} {i j i1 j1 : Int}
    (hi : sliceAt d1 i1 = sliceAt d i) (hj : sliceAt d1 j1 = sliceAt d j) (h : LeAt le d i j) :
    LeAt le d1 i1 j1 := by
  intro x y hx hy
  rw [hi] at hx
  rw [hj] at hy
  exact h x y hx hy

/-! ### Insertion -/

/-- The loop that moves the element at `j` to the left.  Inside `data[a:i+1]`
the other elements are in order and those behind `j` are not before it; the
loop ends with `data[a:i+1]` in order.  It may go on below `a` when the element
is beside its left neighbours, which the cut before `a` being in order
ensures. -/
theorem shiftLeft_spec {α : Type} {less : α → α → Bool} {le : α → α → Prop} (hd : Decides less le)
    (lo a i : Int) (hlo : 0 ≤ lo) (hloa : lo ≤ a) :
    ∀ (fuel : Nat) (data : List α) (j : Int),
      (j - lo + 1).toNat ≤ fuel → lo ≤ j → j ≤ i → InSlice data i →
      (a ≤ j → (∀ p q, a ≤ p → p < q → q ≤ i → p ≠ j → q ≠ j → LeAt le data p q) ∧
        ∀ q, j < q → q ≤ i → LeAt le data j q) →
      (j < a → SortedOn le data a (i + 1)) →
      (lo < a → CutOK le data a) →
      ∃ data1, shiftLeft less lo fuel data j = some data1 ∧ data1.length = data.length ∧
        data1.Perm data ∧ (∀ k, CutOK le data k → CutOK le data1 k) ∧
        (∀ k, i < k → sliceAt data1 k = sliceAt data k) ∧
        (∀ k, k < lo → sliceAt data1 k = sliceAt data k) ∧
        SortedOn le data1 a (i + 1) := by
  intro fuel
  induction fuel with
  | zero => intro data j h1 h2; omega
  | succ n ih =>
    intro data j hf hj1 hj2 hin hinv hbelow hcut
    have sorted_of_inv : a ≤ j → (j = a ∨ LeAt le data (j - 1) j) → SortedOn le data a (i + 1) := by
      intro haj hstop p q hp hpq hq
      obtain ⟨inv1, inv2⟩ := hinv haj
      by_cases hpj : p = j
      · rw [hpj]; exact inv2 q (by omega) (by omega)
      · by_cases hqj : q = j
        · rcases hstop with hja | hle
          · omega
          · by_cases hp1 : p = j - 1
            · rw [hp1, hqj]; exact hle
            · rw [hqj]
              have hj1in : InSlice data (j - 1) := ⟨by omega, by have := hin.2; omega⟩
              exact LeAt.via hd.trans hj1in (inv1 p (j - 1) hp (by omega) (by omega) hpj
                (by omega)) hle
        · exact inv1 p q hp hpq (by omega) hpj hqj
    unfold shiftLeft
    by_cases hgt : j > lo
    · rw [if_pos hgt]
      have hjin : InSlice data j := ⟨by omega, by have := hin.2; omega⟩
      have hj1in : InSlice data (j - 1) := ⟨by omega, by have := hin.2; omega⟩
      obtain ⟨r, hr⟩ := Less_total less hjin hj1in
      rw [hr]
      cases r with
      | false =>
        obtain ⟨_, _, hle⟩ := Less_false hd hr
        refine ⟨data, rfl, rfl, List.Perm.refl _, fun _ h => h, fun _ _ => rfl, fun _ _ => rfl, ?_⟩
        by_cases haj : a ≤ j
        · exact sorted_of_inv haj (Or.inr hle)
        · exact hbelow (by omega)
      | true =>
        obtain ⟨_, _, hle⟩ := Less_true hd hr
        obtain ⟨data1, hs⟩ := Swap_ok hjin hj1in
        obtain ⟨hsw, _⟩ := hs
        obtain ⟨hl, hp, hcuts, hat⟩ := Swap_adjacent hd.trans hsw hle
        simp only [hsw]
        have hat_other : ∀ k, k ≠ j → k ≠ j - 1 → sliceAt data1 k = sliceAt data k := by
          intro k h1 h2
          rw [hat k, if_neg h2, if_neg h1]
        have hat_j : sliceAt data1 j = sliceAt data (j - 1) := by
          rw [hat j, if_neg (by omega), if_pos rfl]
        have hat_j1 : sliceAt data1 (j - 1) = sliceAt data j := by
          rw [hat (j - 1), if_pos rfl]
        obtain ⟨data2, e, l2, p2, c2, a2, b2, s2⟩ := ih data1 (j - 1) (by omega) (by omega)
          (by omega) (InSlice_of_length hl hin)
          (by
            intro haj1
            obtain ⟨inv1, inv2⟩ := hinv (by omega)
            constructor
            · intro p q hp hpq hq hp1 hq1
              by_cases hpj : p = j
              · rw [hpj]
                exact LeAt.congr hat_j (hat_other q (by omega) (by omega))
                  (inv1 (j - 1) q (by omega) (by omega) hq (by omega) (by omega))
              · by_cases hqj : q = j
                · rw [hqj]
                  exact LeAt.congr (hat_other p hpj hp1) hat_j
                    (inv1 p (j - 1) hp (by omega) (by omega) hpj (by omega))
                · exact LeAt.congr (hat_other p hpj hp1) (hat_other q hqj hq1)
                    (inv1 p q hp hpq hq hpj hqj)
            · intro q hq1 hq2
              by_cases hqj : q = j
              · rw [hqj]
                exact LeAt.congr hat_j1 hat_j hle
              · exact LeAt.congr hat_j1 (hat_other q hqj (by omega))
                  (inv2 q (by omega) hq2))
          (by
            intro hlt
            by_cases haj : a ≤ j
            · -- the element crosses the cut before `a`
              have hja : j = a := by omega
              have hs := sorted_of_inv haj (Or.inl hja)
              have hc := hcut (by omega)
              intro p q hp hpq hq
              by_cases hpa : p = a
              · rw [hpa, ← hja]
                exact LeAt.congr hat_j (hat_other q (by omega) (by omega))
                  (hc (j - 1) q (by omega) (by omega))
              · exact LeAt.congr (hat_other p (by omega) (by omega))
                  (hat_other q (by omega) (by omega)) (hs p q hp hpq hq)
            · have hs := hbelow (by omega)
              intro p q hp hpq hq
              exact LeAt.congr (hat_other p (by omega) (by omega))
                (hat_other q (by omega) (by omega)) (hs p q hp hpq hq))
          (fun h => hcuts a (hcut h))
        refine ⟨data2, e, l2.trans hl, p2.trans hp, fun k h => c2 k (hcuts k h), ?_, ?_, s2⟩
        · intro k hk
          rw [a2 k hk]
          exact hat_other k (by omega) (by omega)
        · intro k hk
          rw [b2 k hk]
          exact hat_other k (by omega) (by omega)
    · rw [if_neg hgt]
      refine ⟨data, rfl, rfl, List.Perm.refl _, fun _ h => h, fun _ _ => rfl, fun _ _ => rfl, ?_⟩
      by_cases haj : a ≤ j
      · exact sorted_of_inv haj (Or.inl (by omega))
      · exact hbelow (by omega)

/-- The loop that moves the element at `j - 1` to the right. -/
theorem shiftRight_spec {α : Type} {less : α → α → Bool} {le : α → α → Prop} (hd : Decides less le)
    (hi : Int) :
    ∀ (fuel : Nat) (data : List α) (j : Int),
      (hi - j + 1).toNat ≤ fuel → 1 ≤ j → j ≤ hi → hi ≤ data.length →
      ∃ data1, shiftRight less hi fuel data j = some data1 ∧ data1.length = data.length ∧
        data1.Perm data ∧ (∀ k, CutOK le data k → CutOK le data1 k) ∧
        (∀ k, k < j - 1 → sliceAt data1 k = sliceAt data k) := by
  intro fuel
  induction fuel with
  | zero => intro data j h1 h2 h3; omega
  | succ n ih =>
    intro data j hf hj1 hj2 hlen
    unfold shiftRight
    by_cases hlt : j < hi
    · rw [if_pos hlt]
      have hjin : InSlice data j := ⟨by omega, by omega⟩
      have hj1in : InSlice data (j - 1) := ⟨by omega, by omega⟩
      obtain ⟨r, hr⟩ := Less_total less hjin hj1in
      rw [hr]
      cases r with
      | false =>
        exact ⟨data, rfl, rfl, List.Perm.refl _, fun _ h => h, fun _ _ => rfl⟩
      | true =>
        obtain ⟨_, _, hle⟩ := Less_true hd hr
        obtain ⟨data1, hs⟩ := Swap_ok hjin hj1in
        obtain ⟨hsw, _⟩ := hs
        obtain ⟨hl, hp, hcuts, hat⟩ := Swap_adjacent hd.trans hsw hle
        simp only [hsw]
        obtain ⟨data2, e, l2, p2, c2, a2⟩ := ih data1 (j + 1) (by omega) (by omega) (by omega)
          (by rw [hl]; exact hlen)
        refine ⟨data2, e, l2.trans hl, p2.trans hp, fun k h => c2 k (hcuts k h), ?_⟩
        intro k hk
        rw [a2 k (by omega), hat k, if_neg (by omega), if_neg (by omega)]
    · rw [if_neg hlt]
      exact ⟨data, rfl, rfl, List.Perm.refl _, fun _ h => h, fun _ _ => rfl⟩

theorem SortedOn.part {α : Type} {le : α → α → Prop} {d : List α} {a b a1 b1 : Int}
    (h : SortedOn le d a b) (ha : a ≤ a1) (hb : b1 ≤ b) : SortedOn le d a1 b1 :=
  fun i j h1 h2 h3 => h i j (by omega) h2 (by omega)

theorem insertionSort_loop_spec {α : Type} {less : α → α → Bool} {le : α → α → Prop}
    (hd : Decides less le) (a b : Int) (ha : 0 ≤ a) :
    ∀ (fuel : Nat) (data : List α) (i : Int),
      (b - i + 2).toNat ≤ fuel → a < i → i ≤ b + 1 → b ≤ data.length → SortedOn le data a i →
      ∃ data1, insertionSort_func.loop less a b fuel data i = some data1 ∧
        data1.length = data.length ∧ data1.Perm data ∧
        (∀ k, CutOK le data k → CutOK le data1 k) ∧ SortedOn le data1 a b := by
  intro fuel
  induction fuel with
  | zero => intro data i h1 h2 h3; omega
  | succ n ih =>
    intro data i hf hai hib hlen hs
    unfold insertionSort_func.loop
    by_cases hlt : i < b
    · rw [if_pos hlt]
      obtain ⟨data1, e, l1, p1, c1, _, _, s1⟩ := shiftLeft_spec hd a a i ha (le_refl _)
        (i - a + 1).toNat data i (le_refl _) (by omega) (le_refl _) ⟨by omega, by omega⟩
        (fun _ => ⟨fun p q hp hpq hq _ hqi => hs p q hp hpq (by omega), fun q h1 h2 => by omega⟩)
        (fun h => by omega) (fun h => by omega)
      simp only [e]
      obtain ⟨data2, e2, l2, p2, c2, s2⟩ := ih data1 (i + 1) (by omega) (by omega) (by omega)
        (by rw [l1]; exact hlen) s1
      exact ⟨data2, e2, l2.trans l1, p2.trans p1, fun k h => c2 k (c1 k h), s2⟩
    · rw [if_neg hlt]
      exact ⟨data, rfl, rfl, List.Perm.refl _, fun _ h => h, hs.part (le_refl _) (by omega)⟩

/-- `insertionSort_func` puts `data[a:b]` in order and keeps every cut in
order that was. -/
theorem insertionSort_func_spec {α : Type} {less : α → α → Bool} {le : α → α → Prop}
    (hd : Decides less le) (data : List α) (a b : Int) (ha : 0 ≤ a) (hab : a ≤ b)
    (hb : b ≤ data.length) :
    ∃ data1, insertionSort_func less data a b = some data1 ∧
      data1.length = data.length ∧ data1.Perm data ∧
      (∀ k, CutOK le data k → CutOK le data1 k) ∧ SortedOn le data1 a b := by
  unfold insertionSort_func
  exact insertionSort_loop_spec hd a b ha _ data (a + 1) (by omega) (by omega) (by omega) hb
    (fun i j h1 h2 h3 => by omega)

/-! ### Partition -/

/-- One round of the two inner loops of a partition. -/
theorem round_spec (tU tD : Int → Option Bool) (i j : Int) (hij : i ≤ j + 1)
    (hok : ∀ k, i ≤ k → k ≤ j → (∃ r, tU k = some r) ∧ ∃ r, tD k = some r)
    (hx : ∀ k, tU k = some false → tD k = some false → False) :
    ∃ i1 j1, scanUp tU j (j - i + 2).toNat i = some i1 ∧
      scanDown tD i1 (j - i1 + 2).toNat j = some j1 ∧ i ≤ i1 ∧ j1 ≤ j ∧ i1 ≤ j1 + 1 ∧
      (∀ k, i ≤ k → k < i1 → tU k = some true) ∧ (∀ k, j1 < k → k ≤ j → tD k = some true) ∧
      (i1 ≤ j1 → i1 < j1 ∧ tU i1 = some false ∧ tD j1 = some false) := by
  obtain ⟨i1, e1, a1, a2, a3, a4⟩ := scanUp_spec tU j (j - i + 2).toNat i (le_refl _) hij
    (fun k h1 h2 => (hok k h1 h2).1)
  obtain ⟨j1, e2, b1, b2, b3, b4⟩ := scanDown_spec tD i1 (j - i1 + 2).toNat j (le_refl _) a2
    (fun k h1 h2 => (hok k (by omega) h2).2)
  refine ⟨i1, j1, e1, e2, a1, b1, b2, a3, b3, ?_⟩
  intro h
  have h1 := a4 (by omega)
  have h2 := b4 h
  refine ⟨?_, h1, h2⟩
  by_contra hne
  have : i1 = j1 := by omega
  rw [this] at h1
  exact hx j1 h1 h2

theorem partition_loop_spec {α : Type} {less : α → α → Bool} {le : α → α → Prop} (hd : Decides less le)
    (a b : Int) (ha : 0 ≤ a) :
    ∀ (fuel : Nat) (data : List α) (i j : Int),
      (j - i + 2).toNat ≤ fuel → b ≤ data.length → a + 1 ≤ i → j ≤ b - 1 → i ≤ j + 1 →
      (∀ k, a + 1 ≤ k → k < i → LeAt le data k a) →
      (∀ k, j < k → k < b → LeAt le data a k) →
      ∃ data1 j1, partition_func.loop less a fuel data i j = some (data1, j1) ∧
        Inside (a + 1) b data data1 ∧ a ≤ j1 ∧ j1 ≤ b - 1 ∧
        (∀ k, a + 1 ≤ k → k ≤ j1 → LeAt le data1 k a) ∧
        (∀ k, j1 < k → k < b → LeAt le data1 a k) := by
  intro fuel
  induction fuel with
  | zero => intro data i j h1 h2 h3 h4 h5; omega
  | succ n ih =>
    intro data i j hf hlen hi hj hij hL hR
    have hain : InSlice data a := ⟨ha, by omega⟩
    obtain ⟨i1, j1, e1, e2, r1, r2, r3, r4, r5, r6⟩ := round_spec
      (fun i => lessSwap.Less less data i a) (fun j => notTest (lessSwap.Less less data j a))
      i j hij
      (fun k h1 h2 => ⟨Less_total less ⟨by omega, by omega⟩ hain,
        notTest_ok (Less_total less ⟨by omega, by omega⟩ hain)⟩)
      (fun k h1 h2 => by
        have h3 : lessSwap.Less less data k a = some false := h1
        have := notTest_false h2
        rw [h3] at this
        cases this)
    have hL1 : ∀ k, a + 1 ≤ k → k < i1 → LeAt le data k a := by
      intro k h1 h2
      by_cases hk : k < i
      · exact hL k h1 hk
      · exact (Less_true hd (r4 k (by omega) h2)).2.2
    have hR1 : ∀ k, j1 < k → k < b → LeAt le data a k := by
      intro k h1 h2
      by_cases hk : j < k
      · exact hR k hk h2
      · exact (Less_false hd (notTest_true (r5 k h1 (by omega)))).2.2
    unfold partition_func.loop
    simp only [e1, e2]
    by_cases hgt : i1 > j1
    · rw [if_pos hgt]
      exact ⟨data, j1, rfl, Inside.unchanged _ _ _, by omega, by omega,
        fun k h1 h2 => hL1 k h1 (by omega), hR1⟩
    · rw [if_neg hgt]
      obtain ⟨hlt, t1, t2⟩ := r6 (by omega)
      have hi1in : InSlice data i1 := ⟨by omega, by omega⟩
      have hj1in : InSlice data j1 := ⟨by omega, by omega⟩
      obtain ⟨data1, hsw, _⟩ := Swap_ok hi1in hj1in
      obtain ⟨hl, hp, hat⟩ := Swap_spec hsw
      have hins := Swap_inside (a + 1) (b) hsw ⟨by omega, by omega⟩ ⟨by omega, by omega⟩
      simp only [hsw]
      have hata : sliceAt data1 a = sliceAt data a := by
        rw [hat a, if_neg (by omega), if_neg (by omega)]
      obtain ⟨data2, j2, e, ins2, q1, q2, q3, q4⟩ := ih data1 (i1 + 1) (j1 - 1) (by omega)
        (by rw [hl]; exact hlen) (by omega) (by omega) (by omega)
        (by
          intro k h1 h2
          by_cases hk : k = i1
          · have hk1 : sliceAt data1 k = sliceAt data j1 := by
              rw [hat k, if_neg (by omega), if_pos hk]
            exact LeAt.congr hk1 hata (Less_true hd (notTest_false t2)).2.2
          · have hk1 : sliceAt data1 k = sliceAt data k := by
              rw [hat k, if_neg (by omega), if_neg hk]
            exact LeAt.congr hk1 hata (hL1 k h1 (by omega)))
        (by
          intro k h1 h2
          by_cases hk : k = j1
          · have hk1 : sliceAt data1 k = sliceAt data i1 := by
              rw [hat k, if_pos hk]
            exact LeAt.congr hata hk1 (Less_false hd t1).2.2
          · have hk1 : sliceAt data1 k = sliceAt data k := by
              rw [hat k, if_neg hk, if_neg (by omega)]
            exact LeAt.congr hata hk1 (hR1 k (by omega) h2))
      exact ⟨data2, j2, e, hins.andThen ins2, q1, q2, q3, q4⟩

/-- `partition_func` puts the pivot at an index `mid` of `data[a:b]`, the
elements that are not after it on its left and those that are not before it on
its right. -/
theorem partition_func_spec {α : Type} {less : α → α → Bool} {le : α → α → Prop} (hd : Decides less le)
    (data : List α) (a b pivot : Int) (ha : 0 ≤ a) (hb : b ≤ data.length)
    (hp : a ≤ pivot ∧ pivot < b) :
    ∃ data1 mid alreadyPartitioned,
      partition_func less data a b pivot = some (data1, mid, alreadyPartitioned) ∧
      Inside a b data data1 ∧ a ≤ mid ∧ mid < b ∧
      (∀ k, a ≤ k → k < mid → LeAt le data1 k mid) ∧
      (∀ k, mid < k → k < b → LeAt le data1 mid k) := by
  have hain : InSlice data a := ⟨ha, by omega⟩
  have hpin : InSlice data pivot := ⟨by omega, by omega⟩
  obtain ⟨d0, hsw0, _⟩ := Swap_ok hain hpin
  obtain ⟨hl0, _, _⟩ := Swap_spec hsw0
  have ins0 := Swap_inside (a) (b) hsw0 ⟨by omega, by omega⟩ hp
  have hain0 : InSlice d0 a := InSlice_of_length hl0 hain
  obtain ⟨i1, j1, e1, e2, r1, r2, r3, r4, r5, r6⟩ := round_spec
    (fun i => lessSwap.Less less d0 i a) (fun j => notTest (lessSwap.Less less d0 j a))
    (a + 1) (b - 1) (by omega)
    (fun k h1 h2 => ⟨Less_total less ⟨by omega, by omega⟩ hain0,
      notTest_ok (Less_total less ⟨by omega, by omega⟩ hain0)⟩)
    (fun k h1 h2 => by
      have h3 : lessSwap.Less less d0 k a = some false := h1
      have := notTest_false h2
      rw [h3] at this
      cases this)
  have e1' : scanUp (fun i => lessSwap.Less less d0 i a) (b - 1) (b - 1 - (a + 1) + 2).toNat
      (a + 1) = some i1 := e1
  have hL1 : ∀ k, a + 1 ≤ k → k < i1 → LeAt le d0 k a :=
    fun k h1 h2 => (Less_true hd (r4 k h1 h2)).2.2
  have hR1 : ∀ k, j1 < k → k < b → LeAt le d0 a k :=
    fun k h1 h2 => (Less_false hd (notTest_true (r5 k h1 (by omega)))).2.2
  -- the last exchange, of the pivot with the element at `j`
  have final : ∀ (d1 : List α) (j : Int), d1.length = data.length → a ≤ j → j ≤ b - 1 →
      (∀ k, a + 1 ≤ k → k ≤ j → LeAt le d1 k a) → (∀ k, j < k → k < b → LeAt le d1 a k) →
      ∃ d2, lessSwap.Swap d1 j a = some d2 ∧ Inside a b d1 d2 ∧
        (∀ k, a ≤ k → k < j → LeAt le d2 k j) ∧ (∀ k, j < k → k < b → LeAt le d2 j k) := by
    intro d1 j hl1 hj1 hj2 hL hR
    have hjin : InSlice d1 j := ⟨by omega, by omega⟩
    have hain1 : InSlice d1 a := ⟨ha, by omega⟩
    obtain ⟨d2, hsw, _⟩ := Swap_ok hjin hain1
    obtain ⟨_, _, hat⟩ := Swap_spec hsw
    have hatj : sliceAt d2 j = sliceAt d1 a := by
      rw [hat j]
      by_cases h : j = a
      · rw [if_pos h, h]
      · rw [if_neg h, if_pos rfl]
    refine ⟨d2, hsw, Swap_inside a b hsw ⟨by omega, by omega⟩ ⟨by omega, by omega⟩, ?_, ?_⟩
    · intro k h1 h2
      by_cases hk : k = a
      · have hk1 : sliceAt d2 k = sliceAt d1 j := by
          rw [hat k, if_pos hk]
        exact LeAt.congr hk1 hatj (hL j (by omega) (le_refl _))
      · have hk1 : sliceAt d2 k = sliceAt d1 k := by
          rw [hat k, if_neg hk, if_neg (by omega)]
        exact LeAt.congr hk1 hatj (hL k (by omega) (by omega))
    · intro k h1 h2
      have hk1 : sliceAt d2 k = sliceAt d1 k := by
        rw [hat k, if_neg (by omega), if_neg (by omega)]
      exact LeAt.congr hatj hk1 (hR k h1 h2)
  unfold partition_func
  simp only [hsw0, e1', e2]
  by_cases hgt : i1 > j1
  · rw [if_pos hgt]
    obtain ⟨d2, hsw, ins2, f1, f2⟩ := final d0 j1 hl0 (by omega) (by omega)
      (fun k h1 h2 => hL1 k h1 (by omega)) hR1
    simp only [hsw]
    exact ⟨d2, j1, true, rfl, ins0.andThen ins2, by omega, by omega, f1, f2⟩
  · rw [if_neg hgt]
    obtain ⟨hlt, t1, t2⟩ := r6 (by omega)
    have hi1in : InSlice d0 i1 := ⟨by omega, by omega⟩
    have hj1in : InSlice d0 j1 := ⟨by omega, by omega⟩
    obtain ⟨d1, hsw1, _⟩ := Swap_ok hi1in hj1in
    obtain ⟨hl1, _, hat⟩ := Swap_spec hsw1
    have ins1 := Swap_inside (a) (b) hsw1 ⟨by omega, by omega⟩ ⟨by omega, by omega⟩
    have hata : sliceAt d1 a = sliceAt d0 a := by
      rw [hat a, if_neg (by omega), if_neg (by omega)]
    obtain ⟨d2, j2, e, ins2, q1, q2, q3, q4⟩ := partition_loop_spec hd a b ha
      (b - a + 1).toNat d1 (i1 + 1) (j1 - 1) (by omega) (by omega) (by omega) (by omega)
      (by omega)
      (by
        intro k h1 h2
        by_cases hk : k = i1
        · have hk1 : sliceAt d1 k = sliceAt d0 j1 := by
            rw [hat k, if_neg (by omega), if_pos hk]
          exact LeAt.congr hk1 hata (Less_true hd (notTest_false t2)).2.2
        · have hk1 : sliceAt d1 k = sliceAt d0 k := by
            rw [hat k, if_neg (by omega), if_neg hk]
          exact LeAt.congr hk1 hata (hL1 k h1 (by omega)))
      (by
        intro k h1 h2
        by_cases hk : k = j1
        · have hk1 : sliceAt d1 k = sliceAt d0 i1 := by
            rw [hat k, if_pos hk]
          exact LeAt.congr hata hk1 (Less_false hd t1).2.2
        · have hk1 : sliceAt d1 k = sliceAt d0 k := by
            rw [hat k, if_neg hk, if_neg (by omega)]
          exact LeAt.congr hata hk1 (hR1 k (by omega) h2))
    obtain ⟨d3, hsw3, ins3, f1, f2⟩ := final d2 j2 (by rw [ins2.1, hl1, hl0]) q1 q2 q3 q4
    simp only [hsw1, e, hsw3]
    exact ⟨d3, j2, false, rfl,
      ((ins0.andThen ins1).andThen (ins2.widen (by omega) (le_refl _))).andThen ins3, q1, by omega,
      f1, f2⟩

theorem partitionEqual_loop_spec {α : Type} {less : α → α → Bool} {le : α → α → Prop}
    (hd : Decides less le) (a b : Int) (ha : 0 ≤ a) :
    ∀ (fuel : Nat) (data : List α) (i j : Int),
      (j - i + 2).toNat ≤ fuel → b ≤ data.length → a + 1 ≤ i → j ≤ b - 1 → i ≤ j + 1 →
      (∀ k, a + 1 ≤ k → k < i → LeAt le data k a) →
      ∃ data1 i1, partitionEqual_func.loop less a fuel data i j = some (data1, i1) ∧
        Inside (a + 1) b data data1 ∧ a + 1 ≤ i1 ∧ i1 ≤ b ∧
        (∀ k, a + 1 ≤ k → k < i1 → LeAt le data1 k a) := by
  intro fuel
  induction fuel with
  | zero => intro data i j h1 h2 h3 h4 h5; omega
  | succ n ih =>
    intro data i j hf hlen hi hj hij hL
    have hain : InSlice data a := ⟨ha, by omega⟩
    obtain ⟨i1, j1, e1, e2, r1, r2, r3, r4, r5, r6⟩ := round_spec
      (fun i => notTest (lessSwap.Less less data a i)) (fun j => lessSwap.Less less data a j)
      i j hij
      (fun k h1 h2 => ⟨notTest_ok (Less_total less hain ⟨by omega, by omega⟩),
        Less_total less hain ⟨by omega, by omega⟩⟩)
      (fun k h1 h2 => by
        have h3 : lessSwap.Less less data a k = some false := h2
        have := notTest_false h1
        rw [h3] at this
        cases this)
    have hL1 : ∀ k, a + 1 ≤ k → k < i1 → LeAt le data k a := by
      intro k h1 h2
      by_cases hk : k < i
      · exact hL k h1 hk
      · exact (Less_false hd (notTest_true (r4 k (by omega) h2))).2.2
    unfold partitionEqual_func.loop
    simp only [e1, e2]
    by_cases hgt : i1 > j1
    · rw [if_pos hgt]
      exact ⟨data, i1, rfl, Inside.unchanged _ _ _, by omega, by omega, hL1⟩
    · rw [if_neg hgt]
      obtain ⟨hlt, t1, t2⟩ := r6 (by omega)
      have hi1in : InSlice data i1 := ⟨by omega, by omega⟩
      have hj1in : InSlice data j1 := ⟨by omega, by omega⟩
      obtain ⟨data1, hsw, _⟩ := Swap_ok hi1in hj1in
      obtain ⟨hl, hp, hat⟩ := Swap_spec hsw
      have hins := Swap_inside (a + 1) (b) hsw ⟨by omega, by omega⟩ ⟨by omega, by omega⟩
      simp only [hsw]
      have hata : sliceAt data1 a = sliceAt data a := by
        rw [hat a, if_neg (by omega), if_neg (by omega)]
      obtain ⟨data2, i2, e, ins2, q1, q2, q3⟩ := ih data1 (i1 + 1) (j1 - 1) (by omega)
        (by rw [hl]; exact hlen) (by omega) (by omega) (by omega)
        (by
          intro k h1 h2
          by_cases hk : k = i1
          · have hk1 : sliceAt data1 k = sliceAt data j1 := by
              rw [hat k, if_neg (by omega), if_pos hk]
            exact LeAt.congr hk1 hata (Less_false hd t2).2.2
          · have hk1 : sliceAt data1 k = sliceAt data k := by
              rw [hat k, if_neg (by omega), if_neg hk]
            exact LeAt.congr hk1 hata (hL1 k h1 (by omega)))
      exact ⟨data2, i2, e, hins.andThen ins2, q1, q2, q3⟩

/-- `partitionEqual_func`, for a pivot that is before or beside every element
of `data[a:b]`: the elements up to the new index `mid` are before or beside
every element of `data[a:b]`. -/
theorem partitionEqual_func_spec {α : Type} {less : α → α → Bool} {le : α → α → Prop}
    (hd : Decides less le) (data : List α) (a b pivot : Int) (ha : 0 ≤ a)
    (hb : b ≤ data.length) (hp : a ≤ pivot ∧ pivot < b)
    (hmin : ∀ k, a ≤ k → k < b → LeAt le data pivot k) :
    ∃ data1 mid, partitionEqual_func less data a b pivot = some (data1, mid) ∧
      Inside a b data data1 ∧ a < mid ∧ mid ≤ b ∧
      ∀ k q, a ≤ k → k < mid → a ≤ q → q < b → LeAt le data1 k q := by
  have hain : InSlice data a := ⟨ha, by omega⟩
  have hpin : InSlice data pivot := ⟨by omega, by omega⟩
  obtain ⟨x, hx⟩ := sliceAt_of_inSlice hpin
  obtain ⟨d0, hsw0, _⟩ := Swap_ok hain hpin
  obtain ⟨hl0, _, hat0⟩ := Swap_spec hsw0
  have ins0 := Swap_inside (a) (b) hsw0 ⟨by omega, by omega⟩ hp
  have hxa : sliceAt d0 a = some x := by
    rw [hat0 a, ← hx]
    by_cases h1 : a = pivot
    · rw [if_pos h1, h1]
    · rw [if_neg h1, if_pos rfl]
  have hall : AllIn data a b (fun y => le x y) := fun k y h1 h2 hy => hmin k h1 h2 x y hx hy
  obtain ⟨d1, i1, e, ins1, q1, q2, q3⟩ := partitionEqual_loop_spec hd a b ha (b - a + 1).toNat
    d0 (a + 1) (b - 1) (by omega) (by omega) (le_refl _) (le_refl _) (by omega)
    (fun k h1 h2 => by omega)
  have ins : Inside a b data d1 := ins0.andThen (ins1.widen (by omega) (le_refl _))
  have hall1 := ins.2.2.2 _ hall
  have hxa1 : sliceAt d1 a = some x := by
    rw [ins1.2.2.1 a (by omega)]
    exact hxa
  unfold partitionEqual_func
  simp only [hsw0, e]
  refine ⟨d1, i1, rfl, ins, by omega, q2, ?_⟩
  intro k q hk1 hk2 hq1 hq2 y z hy hz
  have h2 : le x z := hall1 q z hq1 hq2 hz
  by_cases hka : k = a
  · rw [hka, hxa1] at hy
    cases hy
    exact h2
  · exact hd.trans _ _ _ (q3 k (by omega) hk2 y x hy hxa1) h2

/-! ### The attempt to finish by insertion -/

theorem SortedOn.extend {α : Type} {less : α → α → Bool} {le : α → α → Prop} (hd : Decides less le)
    {d : List α} {a q : Int} (h : SortedOn le d a q) (hq : InSlice d (q - 1))
    (hle : LeAt le d (q - 1) q) : SortedOn le d a (q + 1) := by
  intro i j h1 h2 h3
  by_cases hj : j = q
  · by_cases hi : i = q - 1
    · rw [hi, hj]; exact hle
    · rw [hj]
      exact LeAt.via hd.trans hq (h i (q - 1) h1 (by omega) (by omega)) hle
  · exact h i j h1 h2 (by omega)

theorem SortedOn.extend_many {α : Type} {less : α → α → Bool} {le : α → α → Prop} (hd : Decides less le)
    {d : List α} {a i : Int} (h : SortedOn le d a i) (hi : 1 ≤ i) :
    ∀ (m : Nat), i + m ≤ d.length → (∀ k, i ≤ k → k < i + m → LeAt le d (k - 1) k) →
      SortedOn le d a (i + m) := by
  intro m
  induction m with
  | zero => intro _ _; simpa using h
  | succ n ih =>
    intro hlen hk
    have h1 := ih (by push_cast at hlen ⊢; omega)
      (fun k h1 h2 => hk k h1 (by push_cast; omega))
    have h2 := SortedOn.extend hd h1 ⟨by omega, by push_cast at hlen; omega⟩
      (hk (i + n) (by omega) (by push_cast; omega))
    have e : i + ((n + 1 : Nat) : Int) = i + (n : Int) + 1 := by push_cast; ring
    rw [e]
    exact h2

theorem partialInsertionSort_loop_spec {α : Type} {less : α → α → Bool} {le : α → α → Prop}
    (hd : Decides less le) (a b : Int) (ha : 0 ≤ a) :
    ∀ (steps : Nat) (data : List α) (i : Int),
      b ≤ data.length → a + 1 ≤ i → i ≤ b → SortedOn le data a i → CutOK le data a →
      ∃ data1 ok, partialInsertionSort_func.loop less a b steps data i = some (data1, ok) ∧
        data1.length = data.length ∧ data1.Perm data ∧
        (∀ k, CutOK le data k → CutOK le data1 k) ∧ (ok = true → SortedOn le data1 a b) := by
  intro steps
  induction steps with
  | zero =>
    intro data i _ _ _ _ _
    exact ⟨data, false, rfl, rfl, List.Perm.refl _, fun _ h => h, fun h => by cases h⟩
  | succ n ih =>
    intro data i hlen hi1 hi2 hs hcut
    obtain ⟨r, e, r1, r2, r3, r4⟩ := scanUp_spec
      (fun i => notTest (lessSwap.Less less data i (i - 1))) (b - 1) (b - i + 1).toNat i
      (by omega) (by omega)
      (fun k h1 h2 => notTest_ok (Less_total less ⟨by omega, by omega⟩ ⟨by omega, by omega⟩))
    have hsr : SortedOn le data a r := by
      have := SortedOn.extend_many hd hs (by omega) (r - i).toNat (by omega)
        (fun k h1 h2 => (Less_false hd (notTest_true (r3 k h1 (by omega)))).2.2)
      have e : i + ((r - i).toNat : Int) = r := by omega
      rw [e] at this
      exact this
    unfold partialInsertionSort_func.loop
    simp only [e]
    by_cases hrb : r = b
    · rw [if_pos hrb]
      exact ⟨data, true, rfl, rfl, List.Perm.refl _, fun _ h => h, fun _ => hrb ▸ hsr⟩
    · rw [if_neg hrb]
      by_cases hshort : b - a < 50
      · rw [if_pos hshort]
        exact ⟨data, false, rfl, rfl, List.Perm.refl _, fun _ h => h, fun h => by cases h⟩
      · rw [if_neg hshort]
        have hrin : InSlice data r := ⟨by omega, by omega⟩
        have hr1in : InSlice data (r - 1) := ⟨by omega, by omega⟩
        have ht : lessSwap.Less less data r (r - 1) = some true := notTest_false (r4 (by omega))
        obtain ⟨_, _, hle⟩ := Less_true hd ht
        obtain ⟨d1, hsw, _⟩ := Swap_ok hrin hr1in
        obtain ⟨l1, p1, c1, hat⟩ := Swap_adjacent hd.trans hsw hle
        have hs1 : SortedOn le d1 a (r - 1) := by
          intro p q h1 h2 h3
          have e1 : sliceAt d1 p = sliceAt data p := by
            rw [hat p, if_neg (by omega), if_neg (by omega)]
          have e2 : sliceAt d1 q = sliceAt data q := by
            rw [hat q, if_neg (by omega), if_neg (by omega)]
          exact LeAt.congr e1 e2 (hsr p q h1 h2 (by omega))
        -- the smaller one moves to the left
        have left : ∃ d2, (if r - a ≥ 2 then shiftLeft less 0 r.toNat d1 (r - 1) else some d1)
            = some d2 ∧ d2.length = d1.length ∧ d2.Perm d1 ∧
            (∀ k, CutOK le d1 k → CutOK le d2 k) ∧ SortedOn le d2 a r := by
          by_cases h2 : r - a ≥ 2
          · rw [if_pos h2]
            obtain ⟨d2, e2, l2, p2, c2, _, _, s2⟩ := shiftLeft_spec hd 0 a (r - 1) (le_refl _) ha
              r.toNat d1 (r - 1) (by omega) (by omega) (le_refl _)
              (InSlice_of_length l1 hr1in)
              (fun _ => ⟨fun p q hp hpq hq _ hq1 => hs1 p q hp hpq (by omega),
                fun q h1 h2 => by omega⟩)
              (fun h => by omega) (fun _ => c1 a hcut)
            have e3 : r - 1 + 1 = r := by omega
            rw [e3] at s2
            exact ⟨d2, e2, l2, p2, c2, s2⟩
          · rw [if_neg h2]
            exact ⟨d1, rfl, rfl, List.Perm.refl _, fun _ h => h,
              fun p q h1 h2 h3 => by omega⟩
        obtain ⟨d2, e2, l2, p2, c2, s2⟩ := left
        -- the greater one moves to the right
        have right : ∃ d3, (if b - r ≥ 2 then shiftRight less b (b - r).toNat d2 (r + 1)
            else some d2) = some d3 ∧ d3.length = d2.length ∧ d3.Perm d2 ∧
            (∀ k, CutOK le d2 k → CutOK le d3 k) ∧ SortedOn le d3 a r := by
          by_cases h2 : b - r ≥ 2
          · rw [if_pos h2]
            obtain ⟨d3, e3, l3, p3, c3, a3⟩ := shiftRight_spec hd b (b - r).toNat d2 (r + 1)
              (by omega) (by omega) (by omega) (by rw [l2, l1]; exact hlen)
            refine ⟨d3, e3, l3, p3, c3, ?_⟩
            intro p q h1 h2 h3
            exact LeAt.congr (a3 p (by omega)) (a3 q (by omega)) (s2 p q h1 h2 h3)
          · rw [if_neg h2]
            exact ⟨d2, rfl, rfl, List.Perm.refl _, fun _ h => h, s2⟩
        obtain ⟨d3, e3, l3, p3, c3, s3⟩ := right
        obtain ⟨d4, ok, e4, l4, p4, c4, s4⟩ := ih d3 r (by rw [l3, l2, l1]; exact hlen)
          (by omega) (by omega) s3 (c3 a (c2 a (c1 a hcut)))
        simp only [hsw, e2, e3, e4]
        exact ⟨d4, ok, rfl, by rw [l4, l3, l2, l1], ((p4.trans p3).trans p2).trans p1,
          fun k h => c4 k (c3 k (c2 k (c1 k h))), s4⟩

/-- `partialInsertionSort_func` keeps every cut in order that was, and when it
answers `true`, `data[a:b]` is in order. -/
theorem partialInsertionSort_func_spec {α : Type} {less : α → α → Bool} {le : α → α → Prop}
    (hd : Decides less le) (data : List α) (a b : Int) (ha : 0 ≤ a) (hab : a < b)
    (hb : b ≤ data.length) (hcut : CutOK le data a) :
    ∃ data1 ok, partialInsertionSort_func less data a b = some (data1, ok) ∧
      data1.length = data.length ∧ data1.Perm data ∧
      (∀ k, CutOK le data k → CutOK le data1 k) ∧ (ok = true → SortedOn le data1 a b) := by
  unfold partialInsertionSort_func
  exact partialInsertionSort_loop_spec hd a b ha 5 data (a + 1) hb (le_refl _) (by omega)
    (fun i j h1 h2 h3 => by omega) hcut

/-! ### The steps that rearrange `data[a:b]` without a comparison -/

theorem reverseRange_loop_spec {α : Type} (a b : Int) (ha : 0 ≤ a) :
    ∀ (fuel : Nat) (data : List α) (i j : Int),
      (j - i + 2).toNat ≤ fuel → a ≤ i → j < b → i ≤ j + 1 → b ≤ data.length →
      ∃ data1, reverseRange_func.loop fuel data i j = some data1 ∧ Inside a b data data1 := by
  intro fuel
  induction fuel with
  | zero => intro data i j h1 h2 h3 h4; omega
  | succ n ih =>
    intro data i j hf hi hj hij hlen
    unfold reverseRange_func.loop
    by_cases hlt : i < j
    · rw [if_pos hlt]
      obtain ⟨d1, hsw, l1, _⟩ := @Swap_ok _ data i j ⟨by omega, by omega⟩
        ⟨by omega, by omega⟩
      have ins1 := Swap_inside (a) (b) hsw ⟨by omega, by omega⟩ ⟨by omega, by omega⟩
      obtain ⟨d2, e2, ins2⟩ := ih d1 (i + 1) (j - 1) (by omega) (by omega) (by omega) (by omega)
        (by rw [l1]; exact hlen)
      simp only [hsw]
      exact ⟨d2, e2, ins1.andThen ins2⟩
    · rw [if_neg hlt]
      exact ⟨data, rfl, Inside.unchanged _ _ _⟩

theorem reverseRange_func_spec {α : Type} (data : List α) (a b : Int) (ha : 0 ≤ a) (hab : a ≤ b)
    (hb : b ≤ data.length) :
    ∃ data1, reverseRange_func data a b = some data1 ∧ Inside a b data data1 := by
  unfold reverseRange_func
  exact reverseRange_loop_spec a b ha _ data a (b - 1) (by omega) (le_refl _) (by omega)
    (by omega) hb

theorem nextPowerOfTwo_mask (length : Int) (h : 1 ≤ length) :
    (((nextPowerOfTwo length + 2 ^ 64 - 1) % 2 ^ 64 : Nat) : Int) < 2 * length := by
  obtain ⟨n, rfl⟩ : ∃ n : Nat, length = (n : Int) := ⟨length.toNat, by omega⟩
  have hn : 1 ≤ n := by omega
  unfold nextPowerOfTwo bitsLen
  simp only [Int.toNat_ofNat, Nat.one_shiftLeft]
  have h1 : 2 ^ (Nat.size n - 1) ≤ n := by
    have : Nat.size n - 1 < Nat.size n := by
      have := Nat.size_pos.mpr (by omega : 0 < n)
      omega
    exact Nat.lt_size.mp this
  have h2 : 2 ^ Nat.size n = 2 * 2 ^ (Nat.size n - 1) := by
    have := Nat.size_pos.mpr (by omega : 0 < n)
    conv_lhs => rw [show Nat.size n = (Nat.size n - 1) + 1 by omega]
    rw [pow_succ]
    ring
  have h3 : 1 ≤ 2 ^ Nat.size n := Nat.one_le_two_pow
  by_cases hs : Nat.size n < 64
  · have h4 : 2 ^ Nat.size n < 2 ^ 64 := Nat.pow_lt_pow_right (by omega) hs
    rw [Nat.mod_eq_of_lt h4]
    have h5 : (2 ^ Nat.size n + 2 ^ 64 - 1) % 2 ^ 64 = 2 ^ Nat.size n - 1 := by
      have : 2 ^ Nat.size n + 2 ^ 64 - 1 = (2 ^ Nat.size n - 1) + 2 ^ 64 := by omega
      rw [this, Nat.add_mod_right, Nat.mod_eq_of_lt (by omega)]
    rw [h5]
    have : 2 ^ Nat.size n - 1 < 2 * n := by omega
    exact_mod_cast this
  · have h4 : 2 ^ 63 ≤ 2 ^ (Nat.size n - 1) := Nat.pow_le_pow_right (by omega) (by omega)
    have h5 : (2 ^ Nat.size n % 2 ^ 64 + 2 ^ 64 - 1) % 2 ^ 64 < 2 ^ 64 :=
      Nat.mod_lt _ (by positivity)
    have h6 : 2 ^ 64 ≤ 2 * n := by
      have : (2 : Nat) ^ 64 = 2 * 2 ^ 63 := by norm_num
      omega
    have : (2 ^ Nat.size n % 2 ^ 64 + 2 ^ 64 - 1) % 2 ^ 64 < 2 * n := by omega
    exact_mod_cast this

theorem breakPatterns_loop_spec {α : Type} (a b length idx : Int) (modulus : Nat) (ha : 0 ≤ a)
    (hlen : length = b - a) (hidx : a + 1 ≤ idx ∧ idx + 2 ≤ b)
    (hm : (((modulus + 2 ^ 64 - 1) % 2 ^ 64 : Nat) : Int) < 2 * length) :
    ∀ (steps : Nat) (data : List α) (random : Nat) (i : Int),
      0 ≤ i → i + steps ≤ 3 → b ≤ data.length →
      ∃ data1, breakPatterns_func.loop a length idx modulus steps data random i = some data1 ∧
        Inside a b data data1 := by
  intro steps
  induction steps with
  | zero => intro data random i _ _ _; exact ⟨data, rfl, Inside.unchanged _ _ _⟩
  | succ n ih =>
    intro data random i hi0 hi3 hb
    unfold breakPatterns_func.loop
    simp only []
    have hand : (((xorshift.Next random &&& ((modulus + 2 ^ 64 - 1) % 2 ^ 64) : Nat)) : Int) ≤
        (((modulus + 2 ^ 64 - 1) % 2 ^ 64 : Nat) : Int) := by
      exact_mod_cast Nat.and_le_right
    have h0 : (0 : Int) ≤ ((xorshift.Next random &&& ((modulus + 2 ^ 64 - 1) % 2 ^ 64) : Nat)) :=
      Int.natCast_nonneg _
    generalize (((xorshift.Next random &&& ((modulus + 2 ^ 64 - 1) % 2 ^ 64) : Nat)) : Int)
      = other at hand h0
    have hother : 0 ≤ (if other ≥ length then other - length else other) ∧
        (if other ≥ length then other - length else other) < length := by
      split_ifs <;> omega
    generalize (if other ≥ length then other - length else other) = o at hother
    push_cast at hi3
    obtain ⟨d1, hsw, l1, _⟩ := @Swap_ok _ data (idx - 1 + i) (a + o)
      ⟨by omega, by omega⟩ ⟨by omega, by omega⟩
    have ins1 := Swap_inside (a) (b) hsw ⟨by omega, by omega⟩ ⟨by omega, by omega⟩
    obtain ⟨d2, e2, ins2⟩ := ih d1 (xorshift.Next random) (i + 1) (by omega) (by omega)
      (by rw [l1]; exact hb)
    simp only [hsw]
    exact ⟨d2, e2, ins1.andThen ins2⟩

theorem breakPatterns_func_spec {α : Type} (data : List α) (a b : Int) (ha : 0 ≤ a)
    (hb : b ≤ data.length) :
    ∃ data1, breakPatterns_func data a b = some data1 ∧ Inside a b data data1 := by
  unfold breakPatterns_func
  simp only []
  by_cases h8 : b - a ≥ 8
  · rw [if_pos h8]
    have hq : Int.tdiv (b - a) 4 = (b - a) / 4 := Int.tdiv_eq_ediv (by omega) (by omega)
    rw [hq]
    exact breakPatterns_loop_spec a b (b - a) _ _ ha rfl ⟨by omega, by omega⟩
      (nextPowerOfTwo_mask (b - a) (by omega)) 3 data _ 0 (le_refl _) (by norm_num) hb
  · rw [if_neg h8]
    exact ⟨data, rfl, Inside.unchanged _ _ _⟩

/-! ### The choice of the pivot -/

theorem order2_func_spec {α : Type} (less : α → α → Bool) (data : List α) (P : Int → Prop)
    (hP : ∀ x, P x → InSlice data x) (a b swaps : Int) (ha : P a) (hb : P b) :
    ∃ a1 b1 swaps1, order2_func less data a b swaps = some (a1, b1, swaps1) ∧ P a1 ∧ P b1 := by
  obtain ⟨r, hr⟩ := Less_total less (hP b hb) (hP a ha)
  unfold order2_func
  rw [hr]
  cases r with
  | true => exact ⟨b, a, swaps + 1, rfl, hb, ha⟩
  | false => exact ⟨a, b, swaps, rfl, ha, hb⟩

theorem median_func_spec {α : Type} (less : α → α → Bool) (data : List α) (P : Int → Prop)
    (hP : ∀ x, P x → InSlice data x) (a b c swaps : Int) (ha : P a) (hb : P b) (hc : P c) :
    ∃ m swaps1, median_func less data a b c swaps = some (m, swaps1) ∧ P m := by
  obtain ⟨a1, b1, s1, e1, pa1, pb1⟩ := order2_func_spec less data P hP a b swaps ha hb
  obtain ⟨b2, c2, s2, e2, pb2, _⟩ := order2_func_spec less data P hP b1 c s1 pb1 hc
  obtain ⟨a3, b3, s3, e3, _, pb3⟩ := order2_func_spec less data P hP a1 b2 s2 pa1 pb2
  unfold median_func
  simp only [e1, e2, e3]
  exact ⟨b3, s3, rfl, pb3⟩

/-- `choosePivot_func` returns an index of `data[a:b]`. -/
theorem choosePivot_func_spec {α : Type} (less : α → α → Bool) (data : List α) (a b : Int) (ha : 0 ≤ a)
    (hab : a < b) (hb : b ≤ data.length) :
    ∃ pivot hint, choosePivot_func less data a b = some (pivot, hint) ∧ a ≤ pivot ∧ pivot < b := by
  have hq : Int.tdiv (b - a) 4 = (b - a) / 4 := Int.tdiv_eq_ediv (by omega) (by omega)
  have hP : ∀ x, (a ≤ x ∧ x < b) → InSlice data x := fun x h => ⟨by omega, by omega⟩
  have fin : ∀ (j swaps : Int), a ≤ j ∧ j < b →
      ∃ pivot hint, (if swaps = 0 then some (j, sortedHint.increasingHint)
        else if swaps = 4 * 3 then some (j, sortedHint.decreasingHint)
        else some (j, sortedHint.unknownHint)) = some (pivot, hint) ∧ a ≤ pivot ∧ pivot < b := by
    intro j swaps hj
    split_ifs
    · exact ⟨j, _, rfl, hj⟩
    · exact ⟨j, _, rfl, hj⟩
    · exact ⟨j, _, rfl, hj⟩
  unfold choosePivot_func
  simp only [hq]
  by_cases h8 : b - a ≥ 8
  · rw [if_pos h8]
    by_cases h50 : b - a ≥ 50
    · rw [if_pos h50]
      unfold medianAdjacent_func
      obtain ⟨i1, s1, e1, p1⟩ := median_func_spec less data (fun x => a ≤ x ∧ x < b) hP
        (a + (b - a) / 4 * 1 - 1) (a + (b - a) / 4 * 1) (a + (b - a) / 4 * 1 + 1) 0
        ⟨by omega, by omega⟩ ⟨by omega, by omega⟩ ⟨by omega, by omega⟩
      obtain ⟨j1, s2, e2, p2⟩ := median_func_spec less data (fun x => a ≤ x ∧ x < b) hP
        (a + (b - a) / 4 * 2 - 1) (a + (b - a) / 4 * 2) (a + (b - a) / 4 * 2 + 1) s1
        ⟨by omega, by omega⟩ ⟨by omega, by omega⟩ ⟨by omega, by omega⟩
      obtain ⟨k1, s3, e3, p3⟩ := median_func_spec less data (fun x => a ≤ x ∧ x < b) hP
        (a + (b - a) / 4 * 3 - 1) (a + (b - a) / 4 * 3) (a + (b - a) / 4 * 3 + 1) s2
        ⟨by omega, by omega⟩ ⟨by omega, by omega⟩ ⟨by omega, by omega⟩
      obtain ⟨m, s4, e4, p4⟩ := median_func_spec less data (fun x => a ≤ x ∧ x < b) hP
        i1 j1 k1 s3 p1 p2 p3
      simp only [e1, e2, e3, e4]
      exact fin m s4 p4
    · rw [if_neg h50]
      obtain ⟨m, s4, e4, p4⟩ := median_func_spec less data (fun x => a ≤ x ∧ x < b) hP
        (a + (b - a) / 4 * 1) (a + (b - a) / 4 * 2) (a + (b - a) / 4 * 3) 0
        ⟨by omega, by omega⟩ ⟨by omega, by omega⟩ ⟨by omega, by omega⟩
      simp only [e4]
      exact fin m s4 p4
  · rw [if_neg h8]
    exact fin _ 0 ⟨by omega, by omega⟩

/-! ### Heap sort -/

theorem siftDown_loop_spec {α : Type} {less : α → α → Bool} {le : α → α → Prop} (hd : Decides less le)
    (lo hi first : Int) (hlo : 0 ≤ lo) (hfirst : 0 ≤ first) :
    ∀ (fuel : Nat) (data : List α) (root : Int),
      (hi - root + 1).toNat ≤ fuel → lo ≤ root → root ≤ hi → first + hi ≤ data.length →
      (∀ p c, lo ≤ p → p ≠ root → (c = 2 * p + 1 ∨ c = 2 * p + 2) → c < hi →
        LeAt le data (first + c) (first + p)) →
      (∀ p c, lo ≤ p → (root = 2 * p + 1 ∨ root = 2 * p + 2) →
        (c = 2 * root + 1 ∨ c = 2 * root + 2) → c < hi →
        LeAt le data (first + c) (first + p)) →
      ∃ data1, siftDown_func.loop less hi first fuel data root = some data1 ∧
        Inside (first + lo) (first + hi) data data1 ∧ HeapOK le data1 first lo hi := by
  intro fuel
  induction fuel with
  | zero => intro data root h1 h2 h3; omega
  | succ n ih =>
    intro data root hf hr1 hr2 hlen I1 I2
    unfold siftDown_func.loop
    simp only []
    by_cases hc : 2 * root + 1 ≥ hi
    · rw [if_pos hc]
      refine ⟨data, rfl, Inside.unchanged _ _ _, ?_⟩
      intro p c hp hpc hch
      by_cases hpr : p = root
      · omega
      · exact I1 p c hp hpr hpc hch
    · rw [if_neg hc]
      have hin : ∀ idx, 0 ≤ idx → idx < hi → InSlice data (first + idx) :=
        fun idx h1 h2 => ⟨by omega, by omega⟩
      -- the greater child
      have hup : ∃ up, (if 2 * root + 1 + 1 < hi then
            lessSwap.Less less data (first + (2 * root + 1)) (first + (2 * root + 1) + 1)
          else some false) = some up ∧
          (if up = true then 2 * root + 1 + 1 else 2 * root + 1) < hi ∧
          ∀ c, (c = 2 * root + 1 ∨ c = 2 * root + 2) → c < hi →
            LeAt le data (first + c)
              (first + (if up = true then 2 * root + 1 + 1 else 2 * root + 1)) := by
        by_cases h2 : 2 * root + 1 + 1 < hi
        · rw [if_pos h2]
          obtain ⟨r, hr⟩ := Less_total less (hin (2 * root + 1) (by omega) (by omega))
            (hin (2 * root + 1 + 1) (by omega) h2)
          have e : first + (2 * root + 1) + 1 = first + (2 * root + 1 + 1) := by ring
          rw [e]
          refine ⟨r, hr, ?_, ?_⟩
          · cases r
            · simp; omega
            · simp; omega
          · intro c hcc hch
            cases r with
            | true =>
              simp only [if_true]
              rcases hcc with h | h
              · rw [h]; exact (Less_true hd hr).2.2
              · rw [h]
                have : 2 * root + 2 = 2 * root + 1 + 1 := by ring
                rw [this]
                exact LeAt.self hd _ _
            | false =>
              simp only [Bool.false_eq_true, if_false]
              rcases hcc with h | h
              · rw [h]; exact LeAt.self hd _ _
              · rw [h]
                have : 2 * root + 2 = 2 * root + 1 + 1 := by ring
                rw [this]
                exact (Less_false hd hr).2.2
        · rw [if_neg h2]
          refine ⟨false, rfl, by simp; omega, ?_⟩
          intro c hcc hch
          simp only [Bool.false_eq_true, if_false]
          rcases hcc with h | h
          · rw [h]; exact LeAt.self hd _ _
          · omega
      obtain ⟨up, eup, hchild, hmax⟩ := hup
      have hcs : (if up = true then 2 * root + 1 + 1 else 2 * root + 1) = 2 * root + 1 ∨
          (if up = true then 2 * root + 1 + 1 else 2 * root + 1) = 2 * root + 2 := by
        cases up
        · simp
        · simp; omega
      simp only [eup]
      generalize (if up = true then 2 * root + 1 + 1 else 2 * root + 1) = child
        at hchild hmax hcs ⊢
      have hrin : InSlice data (first + root) := hin root (by omega) (by omega)
      have hcin : InSlice data (first + child) := hin child (by omega) hchild
      obtain ⟨r, hr⟩ := Less_total less hrin hcin
      simp only [hr]
      cases r with
      | false =>
        refine ⟨data, rfl, Inside.unchanged _ _ _, ?_⟩
        intro p c hp hpc hch
        by_cases hpr : p = root
        · rw [hpr]
          exact LeAt.via hd.trans hcin (hmax c (by omega) hch) (Less_false hd hr).2.2
        · exact I1 p c hp hpr hpc hch
      | true =>
        have hle := (Less_true hd hr).2.2
        obtain ⟨d1, hsw, l1, _⟩ := Swap_ok hrin hcin
        obtain ⟨_, _, hat⟩ := Swap_spec hsw
        have ins1 := Swap_inside (first + lo) (first + hi) hsw ⟨by omega, by omega⟩
          ⟨by omega, by omega⟩
        have hat_r : sliceAt d1 (first + root) = sliceAt data (first + child) := by
          rw [hat, if_neg (by omega), if_pos rfl]
        have hat_c : sliceAt d1 (first + child) = sliceAt data (first + root) := by
          rw [hat, if_pos rfl]
        have hat_o : ∀ idx, idx ≠ root → idx ≠ child →
            sliceAt d1 (first + idx) = sliceAt data (first + idx) := by
          intro idx h1 h2
          rw [hat, if_neg (by omega), if_neg (by omega)]
        obtain ⟨d2, e2, ins2, hp2⟩ := ih d1 child (by omega) (by omega) (by omega)
          (by rw [l1]; exact hlen)
          (by
            intro p c hp hpne hpc hch
            by_cases hpr : p = root
            · by_cases hcc : c = child
              · rw [hpr, hcc]
                exact LeAt.congr hat_c hat_r hle
              · rw [hpr]
                exact LeAt.congr (hat_o c (by omega) hcc) hat_r (hmax c (by omega) hch)
            · by_cases hcr : c = root
              · rw [hcr]
                exact LeAt.congr hat_r (hat_o p hpr hpne)
                  (I2 p child hp (by omega) (by omega) hchild)
              · exact LeAt.congr (hat_o c hcr (by omega)) (hat_o p hpr hpne)
                  (I1 p c hp hpr hpc hch))
          (by
            intro p c hp hpc hcc hch
            have hpr : p = root := by omega
            rw [hpr]
            exact LeAt.congr (hat_o c (by omega) (by omega)) hat_r
              (I1 child c (by omega) (by omega) hcc hch))
        simp only [hsw]
        exact ⟨d2, e2, ins1.andThen ins2, hp2⟩

theorem siftDown_func_spec {α : Type} {less : α → α → Bool} {le : α → α → Prop} (hd : Decides less le)
    (data : List α) (lo hi first : Int) (hlo : 0 ≤ lo) (hlh : lo ≤ hi) (hfirst : 0 ≤ first)
    (hlen : first + hi ≤ data.length)
    (hheap : ∀ p c, lo < p → (c = 2 * p + 1 ∨ c = 2 * p + 2) → c < hi →
      LeAt le data (first + c) (first + p)) :
    ∃ data1, siftDown_func less data lo hi first = some data1 ∧
      Inside (first + lo) (first + hi) data data1 ∧ HeapOK le data1 first lo hi := by
  unfold siftDown_func
  exact siftDown_loop_spec hd lo hi first hlo hfirst _ data lo (by omega) (le_refl _) hlh hlen
    (fun p c hp hne hpc hch => hheap p c (by omega) hpc hch)
    (fun p c hp hpc _ _ => by omega)

theorem heapSort_build_spec {α : Type} {less : α → α → Bool} {le : α → α → Prop} (hd : Decides less le)
    (hi first : Int) (hfirst : 0 ≤ first) :
    ∀ (fuel : Nat) (data : List α) (i : Int),
      (i + 2).toNat ≤ fuel → -1 ≤ i → i ≤ hi → first + hi ≤ data.length →
      HeapOK le data first (i + 1) hi →
      ∃ data1, heapSort_func.build less hi first fuel data i = some data1 ∧
        Inside first (first + hi) data data1 ∧ HeapOK le data1 first 0 hi := by
  intro fuel
  induction fuel with
  | zero => intro data i h1 h2; omega
  | succ n ih =>
    intro data i hf hi1 hi2 hlen hheap
    unfold heapSort_func.build
    by_cases h0 : i ≥ 0
    · rw [if_pos h0]
      obtain ⟨d1, e1, ins1, hp1⟩ := siftDown_func_spec hd data i hi first h0 hi2 hfirst hlen
        (fun p c hp hpc hch => hheap p c (by omega) hpc hch)
      simp only [e1]
      obtain ⟨d2, e2, ins2, hp2⟩ := ih d1 (i - 1) (by omega) (by omega) (by omega)
        (by rw [ins1.1]; exact hlen) (by
          have : i - 1 + 1 = i := by ring
          rw [this]
          exact hp1)
      exact ⟨d2, e2, (ins1.widen (by omega) (le_refl _)).andThen ins2, hp2⟩
    · rw [if_neg h0]
      have : i + 1 = 0 := by omega
      rw [this] at hheap
      exact ⟨data, rfl, Inside.unchanged _ _ _, hheap⟩

/-- The root of a heap is not before any of its elements. -/
theorem heap_root_max {α : Type} {less : α → α → Bool} {le : α → α → Prop} (hd : Decides less le)
    (d : List α) (first n : Int) (hfirst : 0 ≤ first) (hlen : first + n ≤ d.length)
    (hheap : HeapOK le d first 0 n) :
    ∀ (m : Nat), (m : Int) < n → LeAt le d (first + m) first := by
  intro m
  induction m using Nat.strong_induction_on with
  | _ m ih =>
    intro hm
    by_cases h0 : m = 0
    · subst h0
      simpa using LeAt.self hd d first
    · have hp : ((m - 1) / 2 : Nat) < m := by omega
      have h1 := ih ((m - 1) / 2) hp (by omega)
      have h2 := hheap (((m - 1) / 2 : Nat) : Int) m (by omega) (by omega) hm
      exact LeAt.via hd.trans ⟨by omega, by omega⟩ h2 h1

theorem heapSort_pop_spec {α : Type} {less : α → α → Bool} {le : α → α → Prop} (hd : Decides less le)
    (hi first : Int) (hfirst : 0 ≤ first) :
    ∀ (fuel : Nat) (data : List α) (i : Int),
      (i + 2).toNat ≤ fuel → -1 ≤ i → i < hi → first + hi ≤ data.length →
      HeapOK le data first 0 (i + 1) →
      (∀ p q, first ≤ p → p < q → first + (i + 1) ≤ q → q < first + hi → LeAt le data p q) →
      ∃ data1, heapSort_func.pop less 0 first fuel data i = some data1 ∧
        Inside first (first + hi) data data1 ∧ SortedOn le data1 first (first + hi) := by
  intro fuel
  induction fuel with
  | zero => intro data i h1 h2; omega
  | succ n ih =>
    intro data i hf hi1 hi2 hlen hheap hQ
    unfold heapSort_func.pop
    by_cases h0 : i ≥ 0
    · rw [if_pos h0]
      have hmax : ∀ idx, 0 ≤ idx → idx < i + 1 → LeAt le data (first + idx) first := by
        intro idx h1 h2
        have := heap_root_max hd data first (i + 1) hfirst (by omega) hheap idx.toNat (by omega)
        have e : ((idx.toNat : Nat) : Int) = idx := by omega
        rw [e] at this
        exact this
      obtain ⟨d1, hsw, l1, _⟩ := @Swap_ok _ data first (first + i)
        ⟨by omega, by omega⟩ ⟨by omega, by omega⟩
      obtain ⟨_, _, hat⟩ := Swap_spec hsw
      have ins1 := Swap_inside (first) (first + hi) hsw ⟨by omega, by omega⟩
        ⟨by omega, by omega⟩
      have hat_i : sliceAt d1 (first + i) = sliceAt data first := by
        rw [hat, if_pos rfl]
      have hat_f : sliceAt d1 first = sliceAt data (first + i) := by
        rw [hat]
        by_cases h : first = first + i
        · rw [if_pos h, ← h]
        · rw [if_neg h, if_pos rfl]
      have hat_o : ∀ k, k ≠ first → k ≠ first + i → sliceAt d1 k = sliceAt data k := by
        intro k h1 h2
        rw [hat, if_neg h2, if_neg h1]
      have hQ1 : ∀ p q, first ≤ p → p < q → first + i ≤ q → q < first + hi →
          LeAt le d1 p q := by
        intro p q hp hpq hq1 hq2
        by_cases hqi : q = first + i
        · rw [hqi]
          by_cases hpf : p = first
          · rw [hpf]
            have := hmax i h0 (by omega)
            exact LeAt.congr hat_f hat_i this
          · have := hmax (p - first) (by omega) (by omega)
            have e : first + (p - first) = p := by ring
            rw [e] at this
            exact LeAt.congr (hat_o p hpf (by omega)) hat_i this
        · by_cases hpi : p = first + i
          · rw [hpi]
            by_cases hif : first + i = first
            · rw [hif]
              rw [hif] at hpi
              exact LeAt.congr (hat_f.trans (by rw [hif])) (hat_o q (by omega) hqi)
                (hQ first q (le_refl _) (by omega) (by omega) hq2)
            · exact LeAt.congr hat_i (hat_o q (by omega) hqi)
                (hQ first q (le_refl _) (by omega) (by omega) hq2)
          · by_cases hpf : p = first
            · rw [hpf]
              exact LeAt.congr hat_f (hat_o q (by omega) hqi)
                (hQ (first + i) q (by omega) (by omega) (by omega) hq2)
            · exact LeAt.congr (hat_o p hpf hpi) (hat_o q (by omega) hqi)
                (hQ p q hp hpq (by omega) hq2)
      obtain ⟨d2, e2, ins2, hp2⟩ := siftDown_func_spec hd d1 0 i first (le_refl _) h0 hfirst
        (by rw [l1]; omega)
        (by
          intro p c hp hpc hch
          exact LeAt.congr (hat_o (first + c) (by omega) (by omega))
            (hat_o (first + p) (by omega) (by omega)) (hheap p c (by omega) hpc (by omega)))
      have ins2' : Inside first (first + i) d1 d2 := by simpa using ins2
      have hQ2 : ∀ p q, first ≤ p → p < q → first + (i - 1 + 1) ≤ q → q < first + hi →
          LeAt le d2 p q := by
        intro p q hp hpq hq1 hq2 x y hx hy
        rw [ins2'.2.2.1 q (by omega)] at hy
        by_cases hpi : p < first + i
        · exact ins2'.2.2.2 (fun x => le x y)
            (fun k x h1 h2 hx => hQ1 k q h1 (by omega) (by omega) hq2 x y hx hy) p x hp hpi hx
        · rw [ins2'.2.2.1 p (by omega)] at hx
          exact hQ1 p q hp hpq (by omega) hq2 x y hx hy
      obtain ⟨d3, e3, ins3, s3⟩ := ih d2 (i - 1) (by omega) (by omega) (by omega)
        (by rw [ins2.1, l1]; exact hlen)
        (by
          have : i - 1 + 1 = i := by ring
          rw [this]
          exact hp2)
        hQ2
      simp only [hsw, e2, e3]
      exact ⟨d3, rfl, (ins1.andThen (ins2'.widen (le_refl _) (by omega))).andThen ins3, s3⟩
    · rw [if_neg h0]
      refine ⟨data, rfl, Inside.unchanged _ _ _, ?_⟩
      intro p q hp hpq hq
      exact hQ p q hp hpq (by omega) hq

/-- `heapSort_func` puts `data[a:b]` in order. -/
theorem heapSort_func_spec {α : Type} {less : α → α → Bool} {le : α → α → Prop} (hd : Decides less le)
    (data : List α) (a b : Int) (ha : 0 ≤ a) (hab : a < b) (hb : b ≤ data.length) :
    ∃ data1, heapSort_func less data a b = some data1 ∧ Inside a b data data1 ∧
      SortedOn le data1 a b := by
  have hq : Int.tdiv (b - a - 1) 2 = (b - a - 1) / 2 := Int.tdiv_eq_ediv (by omega) (by omega)
  obtain ⟨d1, e1, ins1, hp1⟩ := heapSort_build_spec hd (b - a) a ha (b - a + 2).toNat data
    ((b - a - 1) / 2) (by omega) (by omega) (by omega) (by omega)
    (fun p c hp hpc hch => by omega)
  obtain ⟨d2, e2, ins2, s2⟩ := heapSort_pop_spec hd (b - a) a ha (b - a + 2).toNat d1
    (b - a - 1) (by omega) (by omega) (by omega) (by rw [ins1.1]; omega)
    (by
      have : b - a - 1 + 1 = b - a := by ring
      rw [this]
      exact hp1)
    (fun p q hp hpq hq1 hq2 => by omega)
  have e : a + (b - a) = b := by ring
  rw [e] at ins1 ins2 s2
  unfold heapSort_func
  simp only [hq, e1, e2]
  exact ⟨d2, rfl, ins1.andThen ins2, s2⟩

/-! ### `pdqsort_func` and `sort.Slice` -/

/-- After a partition around the index `mid`, the cuts before and behind `mid`
are in order. -/
theorem cuts_of_partition {α : Type} {le : α → α → Prop} (htrans : ∀ x y z, le x y → le y z → le x z)
    {d : List α} {a b mid : Int} (ha : CutOK le d a) (hb : CutOK le d b)
    (hmid : a ≤ mid ∧ mid < b) (hin : InSlice d mid)
    (hL : ∀ k, a ≤ k → k < mid → LeAt le d k mid)
    (hR : ∀ k, mid < k → k < b → LeAt le d mid k) :
    CutOK le d mid ∧ CutOK le d (mid + 1) := by
  constructor
  · intro i j hi hj
    by_cases h1 : i < a
    · exact ha i j h1 (by omega)
    · by_cases h2 : b ≤ j
      · exact hb i j (by omega) h2
      · by_cases h3 : j = mid
        · rw [h3]; exact hL i (by omega) hi
        · exact LeAt.via htrans hin (hL i (by omega) hi) (hR j (by omega) (by omega))
  · intro i j hi hj
    by_cases h1 : i < a
    · exact ha i j h1 (by omega)
    · by_cases h2 : b ≤ j
      · exact hb i j (by omega) h2
      · by_cases h3 : i = mid
        · rw [h3]; exact hR j (by omega) (by omega)
        · exact LeAt.via htrans hin (hL i (by omega) (by omega)) (hR j (by omega) (by omega))

theorem frame_of_cuts {α : Type} {le : α → α → Prop} {d d1 : List α} (a b : Int)
    (hl : d1.length = d.length) (hp : d1.Perm d) (hc : ∀ k, CutOK le d k → CutOK le d1 k) :
    Frame le a b d d1 :=
  ⟨hl, hp, fun k _ h => hc k h⟩

theorem pdqsort_loop_spec {α : Type} {less : α → α → Bool} {le : α → α → Prop} (hd : Decides less le) :
    ∀ (fuel : Nat) (data : List α) (a b limit : Int) (wasBalanced wasPartitioned : Bool),
      (b - a + 1).toNat ≤ fuel → 0 ≤ a → a ≤ b → b ≤ data.length →
      CutOK le data a → CutOK le data b →
      ∃ data1, pdqsort_func.loop less fuel data a b limit wasBalanced wasPartitioned
          = some data1 ∧
        Frame le a b data data1 ∧ ∀ k, a ≤ k → k ≤ b → CutOK le data1 k := by
  intro fuel
  induction fuel with
  | zero => intro data a b limit wb wp h1 h2 h3; omega
  | succ n ih =>
    intro data a b limit wb wp hf ha hab hb hca hcb
    unfold pdqsort_func.loop
    simp only []
    by_cases h12 : b - a ≤ 12
    · rw [if_pos h12]
      obtain ⟨d1, e, l1, p1, c1, s1⟩ := insertionSort_func_spec hd data a b ha hab hb
      exact ⟨d1, e, frame_of_cuts a b l1 p1 c1,
        fun k h1 h2 => s1.cuts (c1 a hca) (c1 b hcb) k ⟨h1, h2⟩⟩
    · rw [if_neg h12]
      by_cases hlim : limit = 0
      · rw [if_pos hlim]
        obtain ⟨d1, e, ins1, s1⟩ := heapSort_func_spec hd data a b ha (by omega) hb
        have f1 := ins1.toFrame le
        exact ⟨d1, e, f1, fun k h1 h2 => s1.cuts (f1.2.2 a (Or.inl (le_refl _)) hca)
          (f1.2.2 b (Or.inr (le_refl _)) hcb) k ⟨h1, h2⟩⟩
      · rw [if_neg hlim]
        -- breakPatterns
        have st1 : ∃ d1 limit1, (if (!wb) = true then
              Option.map (fun data => (data, limit - 1)) (breakPatterns_func data a b)
            else some (data, limit)) = some (d1, limit1) ∧ Inside a b data d1 := by
          by_cases hwb : (!wb) = true
          · rw [if_pos hwb]
            obtain ⟨d1, e, ins1⟩ := breakPatterns_func_spec data a b ha hb
            rw [e]
            exact ⟨d1, limit - 1, rfl, ins1⟩
          · rw [if_neg hwb]
            exact ⟨data, limit, rfl, Inside.unchanged _ _ _⟩
        obtain ⟨d1, limit1, e1, ins1⟩ := st1
        have hb1 : b ≤ d1.length := by rw [ins1.1]; exact hb
        -- choosePivot
        obtain ⟨pivot0, hint0, e2, hp0⟩ := choosePivot_func_spec less d1 a b ha (by omega) hb1
        -- reverseRange
        have st3 : ∃ d2 pivot hint, (if hint0 = sortedHint.decreasingHint then
              Option.map (fun data => (data, b - 1 - (pivot0 - a), sortedHint.increasingHint))
                (reverseRange_func d1 a b)
            else some (d1, pivot0, hint0)) = some (d2, pivot, hint) ∧ Inside a b d1 d2 ∧
            a ≤ pivot ∧ pivot < b := by
          by_cases hh : hint0 = sortedHint.decreasingHint
          · rw [if_pos hh]
            obtain ⟨d2, e, ins2⟩ := reverseRange_func_spec d1 a b ha hab hb1
            rw [e]
            exact ⟨d2, _, _, rfl, ins2, by omega, by omega⟩
          · rw [if_neg hh]
            exact ⟨d1, pivot0, hint0, rfl, Inside.unchanged _ _ _, hp0⟩
        obtain ⟨d2, pivot, hint, e3, ins2, hp⟩ := st3
        have ins12 := ins1.andThen ins2
        have f12 := ins12.toFrame le
        have hb2 : b ≤ d2.length := by rw [ins12.1]; exact hb
        have hca2 := f12.2.2 a (Or.inl (le_refl _)) hca
        have hcb2 := f12.2.2 b (Or.inr (le_refl _)) hcb
        -- partialInsertionSort
        have st4 : ∃ d3 ok, (if (wb && wp && decide (hint = sortedHint.increasingHint)) = true
              then partialInsertionSort_func less d2 a b else some (d2, false)) = some (d3, ok) ∧
            d3.length = d2.length ∧ d3.Perm d2 ∧ (∀ k, CutOK le d2 k → CutOK le d3 k) ∧
            (ok = true → SortedOn le d3 a b) := by
          by_cases hc : (wb && wp && decide (hint = sortedHint.increasingHint)) = true
          · rw [if_pos hc]
            exact partialInsertionSort_func_spec hd d2 a b ha (by omega) hb2 hca2
          · rw [if_neg hc]
            exact ⟨d2, false, rfl, rfl, List.Perm.refl _, fun _ h => h, fun h => by cases h⟩
        obtain ⟨d3, ok, e4, l3, p3, c3, s3⟩ := st4
        have f3 : Frame le a b data d3 := f12.followedBy (frame_of_cuts a b l3 p3 c3)
        have hb3 : b ≤ d3.length := by rw [l3]; exact hb2
        have hca3 := c3 a hca2
        have hcb3 := c3 b hcb2
        simp only [e1, e2, e3, e4]
        cases ok with
        | true =>
          exact ⟨d3, rfl, f3, fun k h1 h2 => (s3 rfl).cuts hca3 hcb3 k ⟨h1, h2⟩⟩
        | false =>
          simp only []
          -- the test for many equal elements
          have st5 : ∃ r, (if a > 0 then notTest (lessSwap.Less less d3 (a - 1) pivot)
              else some false) = some r ∧ (r = true → 0 < a ∧ LeAt le d3 pivot (a - 1)) := by
            by_cases h0 : a > 0
            · rw [if_pos h0]
              obtain ⟨r, hr⟩ := notTest_ok (@Less_total _ less d3 (a - 1) pivot
                ⟨by omega, by omega⟩ ⟨by omega, by omega⟩)
              refine ⟨r, hr, ?_⟩
              intro h
              rw [h] at hr
              exact ⟨h0, (Less_false hd (notTest_true hr)).2.2⟩
            · rw [if_neg h0]
              exact ⟨false, rfl, fun h => by cases h⟩
          obtain ⟨r, e5, h5⟩ := st5
          simp only [e5]
          cases r with
          | true =>
            simp only []
            obtain ⟨h0, hpa⟩ := h5 rfl
            obtain ⟨d4, mid, e6, ins4, hm1, hm2, hmin⟩ := partitionEqual_func_spec hd d3 a b
              pivot ha hb3 hp
              (fun k h1 h2 => LeAt.via hd.trans ⟨by omega, by omega⟩ hpa
                (hca3 (a - 1) k (by omega) h1))
            have f4 := ins4.toFrame le
            have hca4 := f4.2.2 a (Or.inl (le_refl _)) hca3
            have hcb4 := f4.2.2 b (Or.inr (le_refl _)) hcb3
            have hcuts : ∀ k, a ≤ k → k ≤ mid → CutOK le d4 k := by
              intro k hk1 hk2 i j hi hj
              by_cases h1 : i < a
              · exact hca4 i j h1 (by omega)
              · by_cases h2 : b ≤ j
                · exact hcb4 i j (by omega) h2
                · exact hmin i j (by omega) (by omega) (by omega) (by omega)
            obtain ⟨d5, e7, f5, c5⟩ := ih d4 mid b limit1 wb wp (by omega) (by omega) hm2
              (by rw [ins4.1]; exact hb3) (hcuts mid (by omega) (le_refl _)) hcb4
            simp only [e6, e7]
            refine ⟨d5, rfl, (f3.followedBy f4).followedBy (f5.enlarge (by omega) (le_refl _)), ?_⟩
            intro k hk1 hk2
            by_cases hkm : mid ≤ k
            · exact c5 k hkm hk2
            · exact f5.2.2 k (Or.inl (by omega)) (hcuts k hk1 (by omega))
          | false =>
            simp only []
            obtain ⟨d4, mid, ap, e6, ins4, hm1, hm2, hL, hR⟩ := partition_func_spec hd d3 a b
              pivot ha hb3 hp
            have f4 := ins4.toFrame le
            have hb4 : b ≤ d4.length := by rw [ins4.1]; exact hb3
            have hca4 := f4.2.2 a (Or.inl (le_refl _)) hca3
            have hcb4 := f4.2.2 b (Or.inr (le_refl _)) hcb3
            obtain ⟨hcm, hcm1⟩ := cuts_of_partition hd.trans hca4 hcb4 ⟨hm1, hm2⟩
              ⟨by omega, by omega⟩ hL hR
            simp only [e6]
            by_cases hlr : mid - a < b - mid
            · rw [if_pos hlr]
              obtain ⟨d5, e7, f5, c5⟩ := ih d4 a mid limit1 true true (by omega) ha hm1
                (by omega) hca4 hcm
              obtain ⟨d6, e8, f6, c6⟩ := ih d5 (mid + 1) b limit1
                (decide (mid - a ≥ Int.tdiv (b - a) 8)) ap (by omega) (by omega) (by omega)
                (by rw [f5.1]; exact hb4) (f5.2.2 (mid + 1) (Or.inr (by omega)) hcm1)
                (f5.2.2 b (Or.inr (by omega)) hcb4)
              simp only [e7, e8]
              refine ⟨d6, rfl, ((f3.followedBy f4).followedBy (f5.enlarge (le_refl _) (by omega))).followedBy
                (f6.enlarge (by omega) (le_refl _)), ?_⟩
              intro k hk1 hk2
              by_cases hkm : mid + 1 ≤ k
              · exact c6 k hkm hk2
              · exact f6.2.2 k (Or.inl (by omega)) (c5 k hk1 (by omega))
            · rw [if_neg hlr]
              obtain ⟨d5, e7, f5, c5⟩ := ih d4 (mid + 1) b limit1 true true (by omega)
                (by omega) (by omega) hb4 hcm1 hcb4
              obtain ⟨d6, e8, f6, c6⟩ := ih d5 a mid limit1
                (decide (b - mid ≥ Int.tdiv (b - a) 8)) ap (by omega) ha hm1
                (by rw [f5.1]; omega) (f5.2.2 a (Or.inl (by omega)) hca4)
                (f5.2.2 mid (Or.inl (by omega)) hcm)
              simp only [e7, e8]
              refine ⟨d6, rfl, ((f3.followedBy f4).followedBy (f5.enlarge (by omega) (le_refl _))).followedBy
                (f6.enlarge (le_refl _) (by omega)), ?_⟩
              intro k hk1 hk2
              by_cases hkm : k ≤ mid
              · exact c6 k hk1 hkm
              · exact f6.2.2 k (Or.inr (by omega)) (c5 k (by omega) hk2)

/-- `sort.Slice` returns, and its result is a rearrangement of the slice that
is in the order that the comparator decides. -/
theorem Slice_spec {α : Type} {less : α → α → Bool} {le : α → α → Prop} (hd : Decides less le)
    (data : List α) :
    ∃ data1, Slice less data = some data1 ∧ data1.Perm data ∧ data1.Pairwise le := by
  obtain ⟨d1, e, f1, c1⟩ := pdqsort_loop_spec hd (data.length + 1) data 0 data.length
    (bitsLen data.length) true true (by omega) (le_refl _) (by omega) (le_refl _)
    (CutOK.atStart le data) (CutOK.atEnd le data)
  refine ⟨d1, ?_, f1.2.1, ?_⟩
  · unfold Slice pdqsort_func
    simp only []
    have : ((data.length : Int) - 0 + 1).toNat = data.length + 1 := by omega
    rw [this]
    exact e
  · apply pairwise_of_cuts
    intro k hk
    rw [f1.1] at hk
    exact c1 k hk.1 hk.2

/-- Every comparator decides the preorder in which all elements are beside
one another. -/
theorem decides_true {α : Type} (less : α → α → Bool) : Decides less (fun _ _ => True) :=
  ⟨fun _ _ _ _ _ => trivial, fun _ _ _ => trivial, fun _ _ _ => trivial⟩

/-- `sort.Slice` returns a rearrangement of the slice, whatever the comparator. -/
theorem Slice_perm {α : Type} (less : α → α → Bool) (data : List α) :
    ∃ data1, Slice less data = some data1 ∧ data1.Perm data := by
  obtain ⟨d1, e, p, _⟩ := Slice_spec (decides_true less) data
  exact ⟨d1, e, p⟩

/-! ### The library's sort as the sorter of the runtime -/

/-- What `Slice` returns is a rearrangement of the slice, for every comparator. -/
theorem Slice_getD_perm (α : Type) (less : α → α → Bool) (xs : List α) :
    ((Slice less xs).getD xs).Perm xs := by
  obtain ⟨d, e, p⟩ := Slice_perm less xs
  rw [e]
  exact p

/-- What `Slice` returns is ordered when the comparator is a strict weak
ordering, which is the contract of `sort.Slice`. -/
theorem Slice_getD_sorted (α : Type) (less : α → α → Bool) (xs : List α) (h : StrictWeak less) :
    ((Slice less xs).getD xs).Pairwise (fun a b => less b a = false) := by
  have hd : Decides less (fun a b => less b a = false) :=
    { trans := fun x y z h1 h2 => h.negTrans z y x h2 h1
      of_true := fun x y hxy => h.asymm x y hxy
      of_false := fun _ _ hxy => hxy }
  obtain ⟨d, e, _, s⟩ := Slice_spec hd xs
  rw [e]
  exact s

theorem sliceSorter_isSlice
    (hperm : ∀ (α : Type) (less : α → α → Bool) (xs : List α),
      ((Slice less xs).getD xs).Perm xs)
    (hsorted : ∀ (α : Type) (less : α → α → Bool) (xs : List α), StrictWeak less →
      ((Slice less xs).getD xs).Pairwise (fun a b => less b a = false)) :
    (sliceSorter hperm hsorted).IsSlice := by
  intro α less xs
  obtain ⟨d, e, _⟩ := Slice_perm less xs
  show Slice less xs = some ((Slice less xs).getD xs)
  rw [e]
  rfl

/-- The limit of bad pivot choices, `bits.Len(length)`, for slices of 14, 16 and
20 elements. -/
theorem bitsLen_values : bitsLen 14 = 4 ∧ bitsLen 16 = 5 ∧ bitsLen 20 = 5 := by
  have h1 : Nat.size 14 = 4 :=
    le_antisymm (Nat.size_le.mpr (by norm_num)) (Nat.lt_size.mpr (by norm_num))
  have h2 : Nat.size 16 = 5 :=
    le_antisymm (Nat.size_le.mpr (by norm_num)) (Nat.lt_size.mpr (by norm_num))
  have h3 : Nat.size 20 = 5 :=
    le_antisymm (Nat.size_le.mpr (by norm_num)) (Nat.lt_size.mpr (by norm_num))
  refine ⟨?_, ?_, ?_⟩
  · show ((Nat.size 14 : Nat) : Int) = 4
    rw [h1]
    rfl
  · show ((Nat.size 16 : Nat) : Int) = 5
    rw [h2]
    rfl
  · show ((Nat.size 20 : Nat) : Int) = 5
    rw [h3]
    rfl

/-- The library's sort orders by a total and transitive comparator, such as the
negation of a strict weak ordering. -/
theorem isSlice_ordersTotal (sorter : SortSlice) (h : sorter.IsSlice) : sorter.OrdersTotal := by
  intro α less xs htot htrans
  have hd : Decides less (fun a b => less a b = true) :=
    { trans := htrans
      of_true := fun _ _ hxy => hxy
      of_false := fun x y hxy => (htot x y).resolve_left (by rw [hxy]; decide) }
  obtain ⟨d, e, _, s⟩ := Slice_spec hd xs
  have e2 := h α less xs
  rw [e] at e2
  rw [← Option.some.inj e2]
  exact s

/-- Go's insertion sort orders by a total and transitive comparator. -/
theorem insertionSorter_ordersTotal : insertionSorter.OrdersTotal := by
  intro α less xs htot htrans
  have stepPerm : ∀ (x : α) (l : List α), (insertLeft less x l).Perm (x :: l) := by
    intro x l
    induction l with
    | nil => exact List.Perm.refl _
    | cons y ys ih =>
      unfold insertLeft
      split_ifs
      · exact ((List.Perm.cons y ih).trans (List.Perm.swap x y ys))
      · exact List.Perm.refl _
  have step : ∀ (x : α) (l : List α), l.Pairwise (fun a b => less b a = true) →
      (insertLeft less x l).Pairwise (fun a b => less b a = true) := by
    intro x l
    induction l with
    | nil => intro _; simp [insertLeft]
    | cons y ys ih =>
      intro hp
      have hy := (List.pairwise_cons.mp hp).1
      have hys := (List.pairwise_cons.mp hp).2
      unfold insertLeft
      split_ifs with hlt
      · refine List.pairwise_cons.mpr ⟨?_, ih hys⟩
        intro z hz
        have hz2 : z = x ∨ z ∈ ys := by simpa using ((stepPerm x ys).mem_iff).mp hz
        rcases hz2 with rfl | hz2
        · exact hlt
        · exact hy z hz2
      · have hyx : less y x = true := by
          rcases htot x y with h | h
          · exact absurd h hlt
          · exact h
        refine List.pairwise_cons.mpr ⟨?_, hp⟩
        intro z hz
        rcases List.mem_cons.mp hz with rfl | hz
        · exact hyx
        · exact htrans _ _ _ (hy z hz) hyx
  have loop : ∀ (ys acc : List α), acc.Pairwise (fun a b => less b a = true) →
      (ys.foldl (fun sortedRev x => insertLeft less x sortedRev) acc).Pairwise
        (fun a b => less b a = true) := by
    intro ys
    induction ys with
    | nil => intro acc h; exact h
    | cons y ys ih => intro acc h; exact ih _ (step y acc h)
  show (insertionSort less xs).Pairwise (fun a b => less a b = true)
  unfold insertionSort
  rw [List.pairwise_reverse]
  exact loop xs [] List.Pairwise.nil

theorem projectsPanel_less_asc (p : ProjectsModel) (h : p.sortDesc = false) :
    StrictWeak p.less ∧ ∀ a b, p.less b a = false → p.keyLE a b := by
  have hl : p.less = fun a b =>
      if p.sortField = ProjectSortByName then strLess a.ProjectName b.ProjectName
      else if p.sortField = ProjectSortBySessions then decide (a.SessionCount < b.SessionCount)
      else if p.sortField = ProjectSortByMessages then
        decide (a.TotalMessages < b.TotalMessages)
      else if p.sortField = ProjectSortByActivity then
        Time.Before a.LastActivity b.LastActivity
      else false := by
    funext a b
    simp only [ProjectsModel.less, h, Bool.false_eq_true, if_false]
  rw [hl]
  unfold ProjectsModel.keyLE
  split_ifs
  · exact ⟨strLess_strictWeak.comap _, fun a b h => h⟩
  · exact ⟨int_lt_strictWeak.comap _, fun a b h => by simpa using h⟩
  · exact ⟨int_lt_strictWeak.comap _, fun a b h => by simpa using h⟩
  · exact ⟨int_lt_strictWeak.comap (fun q : ProjectSummary => q.LastActivity),
      fun a b h => by simpa [Time.Before] using h⟩
  · exact ⟨const_false_strictWeak, fun _ _ _ => trivial⟩

theorem projectsPanel_less_desc (p : ProjectsModel) (h : p.sortDesc = true) :
    (∀ a b, p.less a b = true ∨ p.less b a = true) ∧
    (∀ a b c, p.less a b = true → p.less b c = true → p.less a c = true) ∧
    ∀ a b, p.less a b = true → p.keyLE b a := by
  obtain ⟨hsw, hkey⟩ := projectsPanel_less_asc { p with sortDesc := false } rfl
  have hl : p.less = fun a b => !(({ p with sortDesc := false } : ProjectsModel).less a b) := by
    funext a b
    simp only [ProjectsModel.less, h, if_true, Bool.false_eq_true, if_false]
  rw [hl]
  refine ⟨hsw.not_total.1, hsw.not_total.2, ?_⟩
  intro a b hab
  simp only [Bool.not_eq_true'] at hab
  exact hkey b a hab

theorem sessionsPanel_less_asc (s : SessionsModel) (h : s.sortDesc = false) :
    StrictWeak s.less ∧ ∀ a b, s.less b a = false → s.keyLE a b := by
  have hl : s.less = fun a b =>
      if s.sortField = SessionSortByTime then Time.Before a.Modified b.Modified
      else if s.sortField = SessionSortByMessages then decide (a.MessageCount < b.MessageCount)
      else if s.sortField = SessionSortByProject then strLess a.ProjectName b.ProjectName
      else false := by
    funext a b
    simp only [SessionsModel.less, h, Bool.false_eq_true, if_false]
  rw [hl]
  unfold SessionsModel.keyLE
  split_ifs
  · exact ⟨int_lt_strictWeak.comap (fun q : SessionEntry => q.Modified),
      fun a b h => by simpa [Time.Before] using h⟩
  · exact ⟨int_lt_strictWeak.comap _, fun a b h => by simpa using h⟩
  · exact ⟨strLess_strictWeak.comap _, fun a b h => h⟩
  · exact ⟨const_false_strictWeak, fun _ _ _ => trivial⟩

theorem sessionsPanel_less_desc (s : SessionsModel) (h : s.sortDesc = true) :
    (∀ a b, s.less a b = true ∨ s.less b a = true) ∧
    (∀ a b c, s.less a b = true → s.less b c = true → s.less a c = true) ∧
    ∀ a b, s.less a b = true → s.keyLE b a := by
  obtain ⟨hsw, hkey⟩ := sessionsPanel_less_asc { s with sortDesc := false } rfl
  have hl : s.less = fun a b => !(({ s with sortDesc := false } : SessionsModel).less a b) := by
    funext a b
    simp only [SessionsModel.less, h, if_true, Bool.false_eq_true, if_false]
  rw [hl]
  refine ⟨hsw.not_total.1, hsw.not_total.2, ?_⟩
  intro a b hab
  simp only [Bool.not_eq_true'] at hab
  exact hkey b a hab

/-- After `sortProjects` the items are a rearrangement of the items before; in
the ascending direction they are in order, and in the descending direction they
are when the sorter orders by total comparators. -/
theorem projectsPanel_sorted (rt : Runtime) (p : ProjectsModel) :
    (p.sortProjects rt).projects.Perm p.projects ∧
    (p.sortDesc = false → (p.sortProjects rt).Ordered) ∧
    (rt.sorter.OrdersTotal → (p.sortProjects rt).Ordered) := by
  have hasc : p.sortDesc = false → (p.sortProjects rt).Ordered := by
    intro h
    obtain ⟨hsw, hkey⟩ := projectsPanel_less_asc p h
    have hs := rt.sorter.sorted p.less p.projects hsw
    show (if p.sortDesc then _ else _)
    rw [if_neg (by rw [h]; decide)]
    exact hs.imp (fun {a b} hab => hkey a b hab)
  refine ⟨rt.sorter.perm _ _, hasc, ?_⟩
  intro htot
  cases h : p.sortDesc with
  | false => exact hasc h
  | true =>
    obtain ⟨h1, h2, hkey⟩ := projectsPanel_less_desc p h
    have hs := htot _ p.less p.projects h1 h2
    show (if p.sortDesc then _ else _)
    rw [if_pos h]
    exact hs.imp (fun {a b} hab => hkey a b hab)

theorem sessionsPanel_sorted (rt : Runtime) (s : SessionsModel) :
    (s.sortSessions rt).sessions.Perm s.sessions ∧
    (s.sortDesc = false → (s.sortSessions rt).Ordered) ∧
    (rt.sorter.OrdersTotal → (s.sortSessions rt).Ordered) := by
  have hasc : s.sortDesc = false → (s.sortSessions rt).Ordered := by
    intro h
    obtain ⟨hsw, hkey⟩ := sessionsPanel_less_asc s h
    have hs := rt.sorter.sorted s.less s.sessions hsw
    show (if s.sortDesc then _ else _)
    rw [if_neg (by rw [h]; decide)]
    exact hs.imp (fun {a b} hab => hkey a b hab)
  refine ⟨rt.sorter.perm _ _, hasc, ?_⟩
  intro htot
  cases h : s.sortDesc with
  | false => exact hasc h
  | true =>
    obtain ⟨h1, h2, hkey⟩ := sessionsPanel_less_desc s h
    have hs := htot _ s.less s.sessions h1 h2
    show (if s.sortDesc then _ else _)
    rw [if_pos h]
    exact hs.imp (fun {a b} hab => hkey a b hab)

/-- C28. `CycleSort` moves the sort field to the next of the 4 fields of the
Projects panel (of the 3 fields of the Sessions panel), wrapping around, and
leaves the direction; `ToggleSortDirection` flips the direction and leaves the
field.  After either, the items are a rearrangement of the items before, and
they are ordered by the current field in the current direction (pairwise, hence
for adjacent items): by non-decreasing key when ascending, by non-increasing
key when descending.  In the ascending direction this holds for every
`sort.Slice` that meets its contract.  In both directions it holds for the
`sort.Slice` of the library (`IsSlice`), on lists of every length. -/
theorem sort_commands (rt : Runtime) (p : ProjectsModel) (s : SessionsModel) :
    ((p.CycleSort rt).sortField = Int.tmod (p.sortField + 1) 4 ∧
      (0 ≤ p.sortField ∧ p.sortField < 4 → (p.CycleSort rt).sortField = (p.sortField + 1) % 4) ∧
      (p.CycleSort rt).sortDesc = p.sortDesc ∧
      (p.CycleSort rt).projects.Perm p.projects ∧
      (p.sortDesc = false → (p.CycleSort rt).Ordered) ∧
      (rt.sorter.IsSlice → (p.CycleSort rt).Ordered)) ∧
    ((p.ToggleSortDirection rt).sortDesc = (!p.sortDesc) ∧
      (p.ToggleSortDirection rt).sortField = p.sortField ∧
      (p.ToggleSortDirection rt).projects.Perm p.projects ∧
      (p.sortDesc = true → (p.ToggleSortDirection rt).Ordered) ∧
      (rt.sorter.IsSlice → (p.ToggleSortDirection rt).Ordered)) ∧
    ((s.CycleSort rt).sortField = Int.tmod (s.sortField + 1) 3 ∧
      (0 ≤ s.sortField ∧ s.sortField < 3 → (s.CycleSort rt).sortField = (s.sortField + 1) % 3) ∧
      (s.CycleSort rt).sortDesc = s.sortDesc ∧
      (s.CycleSort rt).sessions.Perm s.sessions ∧
      (s.sortDesc = false → (s.CycleSort rt).Ordered) ∧
      (rt.sorter.IsSlice → (s.CycleSort rt).Ordered)) ∧
    ((s.ToggleSortDirection rt).sortDesc = (!s.sortDesc) ∧
      (s.ToggleSortDirection rt).sortField = s.sortField ∧
      (s.ToggleSortDirection rt).sessions.Perm s.sessions ∧
      (s.sortDesc = true → (s.ToggleSortDirection rt).Ordered) ∧
      (rt.sorter.IsSlice → (s.ToggleSortDirection rt).Ordered)) := by
  refine ⟨⟨rfl, ?_, rfl, ?_, ?_, ?_⟩, ⟨rfl, rfl, ?_, ?_, ?_⟩, ⟨rfl, ?_, rfl, ?_, ?_, ?_⟩,
    ⟨rfl, rfl, ?_, ?_, ?_⟩⟩
  · intro h
    show Int.tmod (p.sortField + 1) 4 = _
    rw [Int.tmod_eq_emod (by omega) (by omega)]
  · exact (projectsPanel_sorted rt { p with sortField := Int.tmod (p.sortField + 1) 4 }).1
  · intro h
    exact (projectsPanel_sorted rt { p with sortField := Int.tmod (p.sortField + 1) 4 }).2.1 h
  · intro h
    exact (projectsPanel_sorted rt { p with sortField := Int.tmod (p.sortField + 1) 4 }).2.2
      (isSlice_ordersTotal _ h)
  · exact (projectsPanel_sorted rt { p with sortDesc := !p.sortDesc }).1
  · intro h
    exact (projectsPanel_sorted rt { p with sortDesc := !p.sortDesc }).2.1
      (by show (!p.sortDesc) = false; rw [h]; rfl)
  · intro h
    exact (projectsPanel_sorted rt { p with sortDesc := !p.sortDesc }).2.2
      (isSlice_ordersTotal _ h)
  · intro h
    show Int.tmod (s.sortField + 1) 3 = _
    rw [Int.tmod_eq_emod (by omega) (by omega)]
  · exact (sessionsPanel_sorted rt { s with sortField := Int.tmod (s.sortField + 1) 3 }).1
  · intro h
    exact (sessionsPanel_sorted rt { s with sortField := Int.tmod (s.sortField + 1) 3 }).2.1 h
  · intro h
    exact (sessionsPanel_sorted rt { s with sortField := Int.tmod (s.sortField + 1) 3 }).2.2
      (isSlice_ordersTotal _ h)
  · exact (sessionsPanel_sorted rt { s with sortDesc := !s.sortDesc }).1
  · intro h
    exact (sessionsPanel_sorted rt { s with sortDesc := !s.sortDesc }).2.1
      (by show (!s.sortDesc) = false; rw [h]; rfl)
  · intro h
    exact (sessionsPanel_sorted rt { s with sortDesc := !s.sortDesc }).2.2
      (isSlice_ordersTotal _ h)

theorem sort_commands_witness :
    (longProjects.projects.length = 14 ∧ longProjects.sortDesc = true ∧
      longSessions.sessions.length = 20 ∧ longSessions.sortDesc = true) ∧
    (longProjects.CycleSort (goRuntime Slice_getD_perm Slice_getD_sorted)).Ordered ∧
    (longProjects.ToggleSortDirection (goRuntime Slice_getD_perm Slice_getD_sorted)).Ordered ∧
    (longSessions.CycleSort (goRuntime Slice_getD_perm Slice_getD_sorted)).Ordered ∧
    (longSessions.ToggleSortDirection (goRuntime Slice_getD_perm Slice_getD_sorted)).Ordered ∧
    ((loadedTerminal PanelSessions).sessions.ToggleSortDirection asciiRuntime).Ordered ∧
    ((longProjects.CycleSort (goRuntime Slice_getD_perm Slice_getD_sorted)).projects.map
      (fun q => q.ProjectName)) =
      [ascii "pn", ascii "pm", ascii "pl", ascii "pk", ascii "pj", ascii "pi", ascii "ph",
       ascii "pg", ascii "pf", ascii "pe", ascii "pd", ascii "pc", ascii "pb", ascii "pa"] ∧
    ((longSessions.CycleSort (goRuntime Slice_getD_perm Slice_getD_sorted)).sessions.map
      (fun q => q.MessageCount)) =
      [19, 18, 17, 16, 15, 14, 13, 12, 11, 10, 9, 8, 7, 6, 5, 4, 3, 2, 1, 0] ∧
    Slice (fun a b : Int => !decide (a < b)) [3, 1, 4, 1, 5, 9, 2, 6, 5, 3, 5, 8, 9, 7, 9, 3] =
      some [9, 9, 9, 8, 7, 6, 5, 5, 5, 4, 3, 3, 3, 2, 1, 1] :=
  ⟨by decide,
   (sort_commands (goRuntime Slice_getD_perm Slice_getD_sorted) longProjects
      longSessions).1.2.2.2.2.2 (sliceSorter_isSlice _ _),
   (sort_commands (goRuntime Slice_getD_perm Slice_getD_sorted) longProjects
      longSessions).2.1.2.2.2.2 (sliceSorter_isSlice _ _),
   (sort_commands (goRuntime Slice_getD_perm Slice_getD_sorted) longProjects
      longSessions).2.2.1.2.2.2.2.2 (sliceSorter_isSlice _ _),
   (sort_commands (goRuntime Slice_getD_perm Slice_getD_sorted) longProjects
      longSessions).2.2.2.2.2.2.2 (sliceSorter_isSlice _ _),
   (sort_commands asciiRuntime (loadedTerminal PanelProjects).projects
      (loadedTerminal PanelSessions).sessions).2.2.2.2.2.2.1 (by decide),
   by
    show ((pdqsort_func _ _ 0 14 (bitsLen 14)).getD _).map _ = _
    rw [bitsLen_values.1]
    decide,
   by
    show ((pdqsort_func _ _ 0 20 (bitsLen 20)).getD _).map _ = _
    rw [bitsLen_values.2.2]
    decide,
   by
    show pdqsort_func _ _ 0 16 (bitsLen 16) = _
    rw [bitsLen_values.2.1]
    decide⟩

theorem projectsPanel_cancel_sorted (rt : Runtime) (p : ProjectsModel) :
    (p.sortDesc = false → (p.SetFilterMode rt false).Ordered) ∧
    (rt.sorter.IsSlice → (p.SetFilterMode rt false).Ordered) := by
  have e : p.SetFilterMode rt false =
      ({ p with filterMode := false, filterQuery := [], projects := p.allProjects } :
        ProjectsModel).sortProjects rt := by
    rw [projectsPanel_cancel]
    rfl
  rw [e]
  have h := projectsPanel_sorted rt
    { p with filterMode := false, filterQuery := [], projects := p.allProjects }
  exact ⟨fun hd => h.2.1 hd, fun hs => h.2.2 (isSlice_ordersTotal _ hs)⟩

theorem sessionsPanel_cancel_sorted (rt : Runtime) (s : SessionsModel) :
    (s.sortDesc = false → (s.SetFilterMode rt false).Ordered) ∧
    (rt.sorter.IsSlice → (s.SetFilterMode rt false).Ordered) := by
  have e : s.SetFilterMode rt false =
      ({ s with filterMode := false, filterQuery := [], sessions := s.allSessions } :
        SessionsModel).sortSessions rt := by
    rw [sessionsPanel_cancel]
    rfl
  rw [e]
  have h := sessionsPanel_sorted rt
    { s with filterMode := false, filterQuery := [], sessions := s.allSessions }
  exact ⟨fun hd => h.2.1 hd, fun hs => h.2.2 (isSlice_ordersTotal _ hs)⟩

/-- C15. The transitions of filter mode, for the focused list panel (Projects
or Sessions).  Entering (`/`) sets `filterMode` and changes nothing else, so the
query and the items stay.  Cancelling (`esc`) clears `filterMode`, empties the
query and makes the items the result of sorting all of `allItems` with the
comparator of the current sort: a rearrangement of `allItems` that is ordered
by the current field in the current direction, in the ascending direction for
every `sort.Slice` that meets its contract and in both directions for the
`sort.Slice` of the library (`IsSlice`).  Confirming (`enter`) clears
`filterMode` and changes nothing else.  The rest of the model is untouched. -/
theorem filter_mode_frames (rt : Runtime) (m : Model) :
    (m.focused = PanelProjects →
      m.enterFilterMode rt = { m with projects := { m.projects with filterMode := true } } ∧
      m.handleFilterInput rt (ascii "esc") =
        { m with projects :=
            { m.projects with
              filterMode := false, filterQuery := [],
              projects := rt.sorter.sort m.projects.less m.projects.allProjects } } ∧
      (m.handleFilterInput rt (ascii "esc")).projects.projects.Perm m.projects.allProjects ∧
      (m.projects.sortDesc = false →
        (m.handleFilterInput rt (ascii "esc")).projects.Ordered) ∧
      (rt.sorter.IsSlice → (m.handleFilterInput rt (ascii "esc")).projects.Ordered) ∧
      m.handleFilterInput rt (ascii "enter") =
        { m with projects := { m.projects with filterMode := false } }) ∧
    (m.focused = PanelSessions →
      m.enterFilterMode rt = { m with sessions := { m.sessions with filterMode := true } } ∧
      m.handleFilterInput rt (ascii "esc") =
        { m with sessions :=
            { m.sessions with
              filterMode := false, filterQuery := [],
              sessions := rt.sorter.sort m.sessions.less m.sessions.allSessions } } ∧
      (m.handleFilterInput rt (ascii "esc")).sessions.sessions.Perm m.sessions.allSessions ∧
      (m.sessions.sortDesc = false →
        (m.handleFilterInput rt (ascii "esc")).sessions.Ordered) ∧
      (rt.sorter.IsSlice → (m.handleFilterInput rt (ascii "esc")).sessions.Ordered) ∧
      m.handleFilterInput rt (ascii "enter") =
        { m with sessions := { m.sessions with filterMode := false } }) := by
  have hne : PanelSessions ≠ PanelProjects := by decide
  have e1 : (ascii "esc" = ascii "esc") = True := eq_self _
  have e2 : (ascii "enter" = ascii "esc") = False := by decide
  have e3 : (ascii "enter" = ascii "enter") = True := eq_self _
  constructor
  · intro hf
    have hesc : m.handleFilterInput rt (ascii "esc") =
        { m with projects := m.projects.SetFilterMode rt false } := by
      simp only [Model.handleFilterInput, e1, hf, if_true]
    refine ⟨?_, ?_, ?_, ?_, ?_, ?_⟩
    · simp only [Model.enterFilterMode, hf, if_true]
      rfl
    · rw [hesc, projectsPanel_cancel]
    · rw [hesc, projectsPanel_cancel]
      exact rt.sorter.perm _ _
    · rw [hesc]
      exact (projectsPanel_cancel_sorted rt m.projects).1
    · rw [hesc]
      exact (projectsPanel_cancel_sorted rt m.projects).2
    · simp only [Model.handleFilterInput, e2, e3, hf, if_true, if_false]
  · intro hf
    have hesc : m.handleFilterInput rt (ascii "esc") =
        { m with sessions := m.sessions.SetFilterMode rt false } := by
      simp only [Model.handleFilterInput, e1, hf, hne, if_true, if_false]
    refine ⟨?_, ?_, ?_, ?_, ?_, ?_⟩
    · simp only [Model.enterFilterMode, hf, hne, if_true, if_false]
      rfl
    · rw [hesc, sessionsPanel_cancel]
    · rw [hesc, sessionsPanel_cancel]
      exact rt.sorter.perm _ _
    · rw [hesc]
      exact (sessionsPanel_cancel_sorted rt m.sessions).1
    · rw [hesc]
      exact (sessionsPanel_cancel_sorted rt m.sessions).2
    · simp only [Model.handleFilterInput, e2, e3, hf, hne, if_true, if_false]

theorem filter_mode_frames_witness :
    ((longTerminal PanelProjects).projects.allProjects.length = 14 ∧
      (longTerminal PanelProjects).projects.sortDesc = true ∧
      (longTerminal PanelSessions).sessions.allSessions.length = 20 ∧
      (longTerminal PanelSessions).sessions.sortDesc = true) ∧
    ((longTerminal PanelProjects).handleFilterInput (goRuntime Slice_getD_perm Slice_getD_sorted)
      (ascii "esc")).projects.projects.Perm (longTerminal PanelProjects).projects.allProjects ∧
    ((longTerminal PanelProjects).handleFilterInput (goRuntime Slice_getD_perm Slice_getD_sorted)
      (ascii "esc")).projects.Ordered ∧
    ((longTerminal PanelSessions).handleFilterInput (goRuntime Slice_getD_perm Slice_getD_sorted)
      (ascii "esc")).sessions.sessions.Perm (longTerminal PanelSessions).sessions.allSessions ∧
    ((longTerminal PanelSessions).handleFilterInput (goRuntime Slice_getD_perm Slice_getD_sorted)
      (ascii "esc")).sessions.Ordered ∧
    (longTerminal PanelProjects).projects.projects = [] ∧
    (((longTerminal PanelProjects).handleFilterInput (goRuntime Slice_getD_perm Slice_getD_sorted)
      (ascii "esc")).projects.projects.map (fun q => q.ProjectName)) =
      [ascii "pn", ascii "pm", ascii "pl", ascii "pk", ascii "pj", ascii "pi", ascii "ph",
       ascii "pg", ascii "pf", ascii "pe", ascii "pd", ascii "pc", ascii "pb", ascii "pa"] :=
  ⟨by decide,
   ((filter_mode_frames (goRuntime Slice_getD_perm Slice_getD_sorted)
      (longTerminal PanelProjects)).1 (by decide)).2.2.1,
   ((filter_mode_frames (goRuntime Slice_getD_perm Slice_getD_sorted)
      (longTerminal PanelProjects)).1 (by decide)).2.2.2.2.1 (sliceSorter_isSlice _ _),
   ((filter_mode_frames (goRuntime Slice_getD_perm Slice_getD_sorted)
      (longTerminal PanelSessions)).2 (by decide)).2.2.1,
   ((filter_mode_frames (goRuntime Slice_getD_perm Slice_getD_sorted)
      (longTerminal PanelSessions)).2 (by decide)).2.2.2.2.1 (sliceSorter_isSlice _ _),
   by decide,
   by
    show ((pdqsort_func _ _ 0 14 (bitsLen 14)).getD _).map _ = _
    rw [bitsLen_values.1]
    decide⟩

theorem printableKey_length (key : GoString) (h : printableKey key = true) : key.length = 1 := by
  match key with
  | [] => simp [printableKey] at h
  | [_] => rfl
  | _ :: _ :: _ => simp [printableKey] at h

theorem projectsPanel_refilter_frame (rt : Runtime) (p : ProjectsModel) :
    p.FilterFrame ((p.applyFilter rt).sortProjects rt) := by
  unfold ProjectsModel.FilterFrame ProjectsModel.sortProjects ProjectsModel.applyFilter
  split_ifs <;> rfl

theorem sessionsPanel_refilter_frame (rt : Runtime) (s : SessionsModel) :
    s.FilterFrame ((s.applyFilter rt).sortSessions rt) := by
  unfold SessionsModel.FilterFrame SessionsModel.sortSessions SessionsModel.applyFilter
  split_ifs <;> rfl

theorem projectsPanel_filter_frame (rt : Runtime) (p : ProjectsModel) (key : GoString) :
    p.FilterFrame (p.SetFilterMode rt false) ∧ p.FilterFrame { p with filterMode := false } ∧
    p.FilterFrame (p.HandleFilterBackspace rt) ∧ p.FilterFrame (p.HandleFilterInput rt key) ∧
    p.FilterFrame p := by
  refine ⟨?_, rfl, ?_, ?_, rfl⟩
  · rw [projectsPanel_cancel]
    rfl
  · unfold ProjectsModel.HandleFilterBackspace
    split_ifs
    · have h := projectsPanel_refilter_frame rt
        { p with filterQuery := p.filterQuery.take (p.filterQuery.length - 1) }
      unfold ProjectsModel.FilterFrame at h ⊢
      rw [h]
    · rfl
  · have h := projectsPanel_refilter_frame rt { p with filterQuery := p.filterQuery ++ key }
    unfold ProjectsModel.FilterFrame at h ⊢
    unfold ProjectsModel.HandleFilterInput
    simp only []
    rw [h]

theorem sessionsPanel_filter_frame (rt : Runtime) (s : SessionsModel) (key : GoString) :
    s.FilterFrame (s.SetFilterMode rt false) ∧ s.FilterFrame { s with filterMode := false } ∧
    s.FilterFrame (s.HandleFilterBackspace rt) ∧ s.FilterFrame (s.HandleFilterInput rt key) ∧
    s.FilterFrame s := by
  refine ⟨?_, rfl, ?_, ?_, rfl⟩
  · rw [sessionsPanel_cancel]
    rfl
  · unfold SessionsModel.HandleFilterBackspace
    split_ifs
    · have h := sessionsPanel_refilter_frame rt
        { s with filterQuery := s.filterQuery.take (s.filterQuery.length - 1) }
      unfold SessionsModel.FilterFrame at h ⊢
      rw [h]
    · rfl
  · have h := sessionsPanel_refilter_frame rt { s with filterQuery := s.filterQuery ++ key }
    unfold SessionsModel.FilterFrame at h ⊢
    unfold SessionsModel.HandleFilterInput
    simp only []
    rw [h]

/-- C22. While the detail modal is visible, every key other than `esc`,
`enter`, `q` and `y` leaves the controller, the data manager, the world, the
theme and the clipboard as they are and returns no command, and `q` hides the
modal and returns no command (it does not quit).  While the help modal is
visible and the detail modal is not, every key other than `esc` and `?` leaves
everything as it is and returns no command. -/
theorem modal_keys (rt : Runtime) (a : App) (key : GoString) :
    (a.model.detail.visible = true →
      (key ≠ ascii "esc" → key ≠ ascii "enter" → key ≠ ascii "q" → key ≠ ascii "y" →
        a.handleKeypress rt key = some (a, none)) ∧
      a.handleKeypress rt (ascii "q") =
        some ({ a with model := { a.model with detail := a.model.detail.Hide } }, none)) ∧
    (a.model.help.visible = true → a.model.detail.visible = false →
      key ≠ ascii "esc" → key ≠ ascii "?" → a.handleKeypress rt key = some (a, none)) := by
  constructor
  · intro hd
    constructor
    · intro h1 h2 h3 h4
      simp only [App.handleKeypress, hd, if_true, h1, h2, h3, h4, or_self, if_false]
    ·       simp only [App.handleKeypress, hd, if_true, or_true]
  · intro hh hd h1 h2
    simp only [App.handleKeypress, hd, hh, if_true, h1, h2, or_self, if_false,
      Bool.false_eq_true]

theorem modal_keys_witness :
    detailOpen.handleKeypress asciiRuntime (ascii "r") = some (detailOpen, none) ∧
    helpOpen.handleKeypress asciiRuntime (ascii "q") = some (helpOpen, none) :=
  ⟨((modal_keys asciiRuntime detailOpen (ascii "r")).1 rfl).1 (by decide) (by decide)
      (by decide) (by decide),
   (modal_keys asciiRuntime helpOpen (ascii "q")).2 rfl rfl (by decide) (by decide)⟩

theorem isFilterMode_focus (m : Model) (h : m.isFilterMode = true) :
    (m.focused = PanelProjects ∧ m.projects.filterMode = true) ∨
    (m.focused = PanelSessions ∧ m.focused ≠ PanelProjects ∧ m.sessions.filterMode = true) := by
  unfold Model.isFilterMode at h
  split_ifs at h with h1 h2
  · exact Or.inl ⟨h1, h⟩
  · exact Or.inr ⟨h2, h1, h⟩

theorem projectsPanel_refilter_mode (rt : Runtime) (p : ProjectsModel) :
    ((p.applyFilter rt).sortProjects rt).filterMode = p.filterMode := by
  unfold ProjectsModel.sortProjects ProjectsModel.applyFilter
  split_ifs <;> rfl

theorem sessionsPanel_refilter_mode (rt : Runtime) (s : SessionsModel) :
    ((s.applyFilter rt).sortSessions rt).filterMode = s.filterMode := by
  unfold SessionsModel.sortSessions SessionsModel.applyFilter
  split_ifs <;> rfl

/-- What `HandleFilterBackspace` does on every query: the query loses its last
byte, if it has one, and the mode, the cursor and the offset stay; on an empty
query nothing changes. -/
theorem projectsPanel_backspace_fields (rt : Runtime) (p : ProjectsModel) :
    (p.HandleFilterBackspace rt).filterQuery = p.filterQuery.dropLast ∧
    (p.HandleFilterBackspace rt).filterMode = p.filterMode ∧
    (p.HandleFilterBackspace rt).cursor = p.cursor ∧
    (p.HandleFilterBackspace rt).offset = p.offset ∧
    (p.filterQuery = [] → p.HandleFilterBackspace rt = p) := by
  by_cases h : p.filterQuery = []
  · have e : p.HandleFilterBackspace rt = p := by
      simp [ProjectsModel.HandleFilterBackspace, h]
    rw [e, h]
    exact ⟨rfl, rfl, rfl, rfl, fun _ => rfl⟩
  · obtain ⟨h1, _, _, h4, h5⟩ := projectsPanel_backspace rt p h
    refine ⟨h1, ?_, h4, h5, fun h0 => absurd h0 h⟩
    have hl : p.filterQuery.length > 0 := List.length_pos.mpr h
    simp only [ProjectsModel.HandleFilterBackspace, hl, if_true]
    exact projectsPanel_refilter_mode rt _

theorem sessionsPanel_backspace_fields (rt : Runtime) (s : SessionsModel) :
    (s.HandleFilterBackspace rt).filterQuery = s.filterQuery.dropLast ∧
    (s.HandleFilterBackspace rt).filterMode = s.filterMode ∧
    (s.HandleFilterBackspace rt).cursor = s.cursor ∧
    (s.HandleFilterBackspace rt).offset = s.offset ∧
    (s.filterQuery = [] → s.HandleFilterBackspace rt = s) := by
  by_cases h : s.filterQuery = []
  · have e : s.HandleFilterBackspace rt = s := by
      simp [SessionsModel.HandleFilterBackspace, h]
    rw [e, h]
    exact ⟨rfl, rfl, rfl, rfl, fun _ => rfl⟩
  · obtain ⟨h1, _, _, h4, h5⟩ := sessionsPanel_backspace rt s h
    refine ⟨h1, ?_, h4, h5, fun h0 => absurd h0 h⟩
    have hl : s.filterQuery.length > 0 := List.length_pos.mpr h
    simp only [SessionsModel.HandleFilterBackspace, hl, if_true]
    exact sessionsPanel_refilter_mode rt _

theorem projectsPanel_input_mode (rt : Runtime) (p : ProjectsModel) (key : GoString) :
    (p.HandleFilterInput rt key).filterMode = p.filterMode :=
  projectsPanel_refilter_mode rt { p with filterQuery := p.filterQuery ++ key }

theorem sessionsPanel_input_mode (rt : Runtime) (s : SessionsModel) (key : GoString) :
    (s.HandleFilterInput rt key).filterMode = s.filterMode :=
  sessionsPanel_refilter_mode rt { s with filterQuery := s.filterQuery ++ key }

/-- The keys of filter mode, for a focused Projects panel. -/
theorem projects_filter_keys (rt : Runtime) (m : Model) (key : GoString)
    (hp : m.focused = PanelProjects) :
    m.handleFilterInput rt (ascii "esc") =
      { m with projects :=
          { m.projects with
            filterMode := false, filterQuery := [],
            projects := rt.sorter.sort m.projects.less m.projects.allProjects } } ∧
    m.handleFilterInput rt (ascii "enter") =
      { m with projects := { m.projects with filterMode := false } } ∧
    m.handleFilterInput rt (ascii "backspace") =
      { m with projects := m.projects.HandleFilterBackspace rt } ∧
    (printableKey key = true →
      m.handleFilterInput rt key = { m with projects := m.projects.HandleFilterInput rt key }) := by
  have e1 : (ascii "enter" = ascii "esc") = False := by decide
  have e2 : (ascii "backspace" = ascii "esc") = False := by decide
  have e3 : (ascii "backspace" = ascii "enter") = False := by decide
  refine ⟨?_, ?_, ?_, ?_⟩
  · simp only [Model.handleFilterInput, hp, if_true, projectsPanel_cancel]
  · simp only [Model.handleFilterInput, e1, hp, if_true, if_false]
  · simp only [Model.handleFilterInput, e2, e3, hp, if_true, if_false]
  · intro hpr
    have h1 := printableKey_length key hpr
    have k1 : key ≠ ascii "esc" := by intro h; rw [h] at h1; revert h1; decide
    have k2 : key ≠ ascii "enter" := by intro h; rw [h] at h1; revert h1; decide
    have k3 : key ≠ ascii "backspace" := by intro h; rw [h] at h1; revert h1; decide
    unfold Model.handleFilterInput
    rw [if_neg k1, if_neg k2, if_neg k3, if_pos hpr, if_pos hp]

/-- The keys of filter mode, for a focused Sessions panel. -/
theorem sessions_filter_keys (rt : Runtime) (m : Model) (key : GoString)
    (hs : m.focused = PanelSessions) :
    m.handleFilterInput rt (ascii "esc") =
      { m with sessions :=
          { m.sessions with
            filterMode := false, filterQuery := [],
            sessions := rt.sorter.sort m.sessions.less m.sessions.allSessions } } ∧
    m.handleFilterInput rt (ascii "enter") =
      { m with sessions := { m.sessions with filterMode := false } } ∧
    m.handleFilterInput rt (ascii "backspace") =
      { m with sessions := m.sessions.HandleFilterBackspace rt } ∧
    (printableKey key = true →
      m.handleFilterInput rt key = { m with sessions := m.sessions.HandleFilterInput rt key }) := by
  have hne : ¬ m.focused = PanelProjects := by rw [hs]; decide
  have e1 : (ascii "enter" = ascii "esc") = False := by decide
  have e2 : (ascii "backspace" = ascii "esc") = False := by decide
  have e3 : (ascii "backspace" = ascii "enter") = False := by decide
  refine ⟨?_, ?_, ?_, ?_⟩
  · unfold Model.handleFilterInput
    rw [if_pos rfl, if_neg hne, if_pos hs, sessionsPanel_cancel]
  · unfold Model.handleFilterInput
    rw [if_neg (by decide), if_pos rfl, if_neg hne, if_pos hs]
  · unfold Model.handleFilterInput
    rw [if_neg (by decide), if_neg (by decide), if_pos rfl, if_neg hne, if_pos hs]
  · intro hpr
    have h1 := printableKey_length key hpr
    have k1 : key ≠ ascii "esc" := by intro h; rw [h] at h1; revert h1; decide
    have k2 : key ≠ ascii "enter" := by intro h; rw [h] at h1; revert h1; decide
    have k3 : key ≠ ascii "backspace" := by intro h; rw [h] at h1; revert h1; decide
    unfold Model.handleFilterInput
    rw [if_neg k1, if_neg k2, if_neg k3, if_pos hpr, if_neg hne, if_pos hs]

/-- C23. With no modal visible and the focused panel in filter mode, every key
is handled by `handleFilterInput` and returns no command, so `q` and `ctrl+c`
do not quit: the data manager, the world, the theme and the clipboard stay, and
the model changes in the filter fields (query, filter mode, items, cursor,
offset) of the focused panel at most.  `esc` cancels: the mode is cleared, the
query is emptied and the items are all of `allItems`, sorted again.  `enter`
confirms: the mode is cleared and nothing else changes.  `backspace` deletes:
the query loses its last byte and the items are recomputed for the shorter
query, the mode, the cursor and the offset stay (an empty query changes
nothing).  A printable key is appended to the query, the items are recomputed
and the cursor and the offset become 0.  A key that is neither `esc`, `enter`,
`backspace` nor printable changes nothing. -/
theorem filter_mode_routing (rt : Runtime) (a : App) (key : GoString)
    (hd : a.model.detail.visible = false) (hh : a.model.help.visible = false)
    (hf : a.model.isFilterMode = true) :
    a.handleKeypress rt key = some ({ a with model := a.model.handleFilterInput rt key }, none) ∧
    (a.model.focused = PanelProjects →
      a.model.handleFilterInput rt key =
        { a.model with projects := (a.model.handleFilterInput rt key).projects } ∧
      a.model.projects.FilterFrame (a.model.handleFilterInput rt key).projects ∧
      a.model.handleFilterInput rt (ascii "esc") =
        { a.model with projects :=
            { a.model.projects with
              filterMode := false, filterQuery := [],
              projects := rt.sorter.sort a.model.projects.less a.model.projects.allProjects } } ∧
      a.model.handleFilterInput rt (ascii "enter") =
        { a.model with projects := { a.model.projects with filterMode := false } } ∧
      (a.model.handleFilterInput rt (ascii "backspace") =
          { a.model with projects := a.model.projects.HandleFilterBackspace rt } ∧
        (a.model.projects.HandleFilterBackspace rt).filterQuery = a.model.projects.filterQuery.dropLast ∧
        (a.model.projects.HandleFilterBackspace rt).filterMode = a.model.projects.filterMode ∧
        (a.model.projects.HandleFilterBackspace rt).cursor = a.model.projects.cursor ∧
        (a.model.projects.HandleFilterBackspace rt).offset = a.model.projects.offset ∧
        (a.model.projects.filterQuery = [] → a.model.projects.HandleFilterBackspace rt = a.model.projects) ∧
        (a.model.projects.filterQuery ≠ [] →
          (a.model.projects.HandleFilterBackspace rt).filterQuery.length + 1 = a.model.projects.filterQuery.length ∧
          (a.model.projects.HandleFilterBackspace rt).projects.Perm
            (a.model.projects.allProjects.filter (fun project =>
              Contains (ToLower rt.unicodeLower project.ProjectName)
                (ToLower rt.unicodeLower a.model.projects.filterQuery.dropLast))))) ∧
      (printableKey key = true →
        a.model.handleFilterInput rt key =
          { a.model with projects := a.model.projects.HandleFilterInput rt key } ∧
        (a.model.projects.HandleFilterInput rt key).filterQuery = a.model.projects.filterQuery ++ key ∧
        (a.model.projects.HandleFilterInput rt key).filterMode = a.model.projects.filterMode ∧
        (a.model.projects.HandleFilterInput rt key).projects.Perm
          (a.model.projects.allProjects.filter (fun project =>
              Contains (ToLower rt.unicodeLower project.ProjectName)
                (ToLower rt.unicodeLower (a.model.projects.filterQuery ++ key)))) ∧
        (a.model.projects.HandleFilterInput rt key).cursor = 0 ∧
        (a.model.projects.HandleFilterInput rt key).offset = 0)) ∧
    (a.model.focused = PanelSessions →
      a.model.handleFilterInput rt key =
        { a.model with sessions := (a.model.handleFilterInput rt key).sessions } ∧
      a.model.sessions.FilterFrame (a.model.handleFilterInput rt key).sessions ∧
      a.model.handleFilterInput rt (ascii "esc") =
        { a.model with sessions :=
            { a.model.sessions with
              filterMode := false, filterQuery := [],
              sessions := rt.sorter.sort a.model.sessions.less a.model.sessions.allSessions } } ∧
      a.model.handleFilterInput rt (ascii "enter") =
        { a.model with sessions := { a.model.sessions with filterMode := false } } ∧
      (a.model.handleFilterInput rt (ascii "backspace") =
          { a.model with sessions := a.model.sessions.HandleFilterBackspace rt } ∧
        (a.model.sessions.HandleFilterBackspace rt).filterQuery = a.model.sessions.filterQuery.dropLast ∧
        (a.model.sessions.HandleFilterBackspace rt).filterMode = a.model.sessions.filterMode ∧
        (a.model.sessions.HandleFilterBackspace rt).cursor = a.model.sessions.cursor ∧
        (a.model.sessions.HandleFilterBackspace rt).offset = a.model.sessions.offset ∧
        (a.model.sessions.filterQuery = [] → a.model.sessions.HandleFilterBackspace rt = a.model.sessions) ∧
        (a.model.sessions.filterQuery ≠ [] →
          (a.model.sessions.HandleFilterBackspace rt).filterQuery.length + 1 = a.model.sessions.filterQuery.length ∧
          (a.model.sessions.HandleFilterBackspace rt).sessions.Perm
            (a.model.sessions.allSessions.filter (fun session =>
              Contains (ToLower rt.unicodeLower session.Summary)
                  (ToLower rt.unicodeLower a.model.sessions.filterQuery.dropLast) ||
                Contains (ToLower rt.unicodeLower session.ProjectName)
                  (ToLower rt.unicodeLower a.model.sessions.filterQuery.dropLast))))) ∧
      (printableKey key = true →
        a.model.handleFilterInput rt key =
          { a.model with sessions := a.model.sessions.HandleFilterInput rt key } ∧
        (a.model.sessions.HandleFilterInput rt key).filterQuery = a.model.sessions.filterQuery ++ key ∧
        (a.model.sessions.HandleFilterInput rt key).filterMode = a.model.sessions.filterMode ∧
        (a.model.sessions.HandleFilterInput rt key).sessions.Perm
          (a.model.sessions.allSessions.filter (fun session =>
              Contains (ToLower rt.unicodeLower session.Summary)
                  (ToLower rt.unicodeLower (a.model.sessions.filterQuery ++ key)) ||
                Contains (ToLower rt.unicodeLower session.ProjectName)
                  (ToLower rt.unicodeLower (a.model.sessions.filterQuery ++ key)))) ∧
        (a.model.sessions.HandleFilterInput rt key).cursor = 0 ∧
        (a.model.sessions.HandleFilterInput rt key).offset = 0)) ∧
    (a.model.focused = PanelProjects ∨ a.model.focused = PanelSessions) ∧
    (key ≠ ascii "esc" → key ≠ ascii "enter" → key ≠ ascii "backspace" →
      printableKey key = false → a.model.handleFilterInput rt key = a.model) := by
  refine ⟨?_, ?_, ?_, ?_, ?_⟩
  · simp only [App.handleKeypress, hd, hh, hf, if_true, if_false, Bool.false_eq_true]
  · intro hp
    obtain ⟨f1, f2, f3, f4, f5⟩ := projectsPanel_filter_frame rt a.model.projects key
    obtain ⟨k1, k2, k3, k4⟩ := projects_filter_keys rt a.model key hp
    obtain ⟨b1, b2, b3, b4, b5⟩ := projectsPanel_backspace_fields rt a.model.projects
    refine ⟨?_, ?_, k1, k2, ⟨k3, b1, b2, b3, b4, b5, ?_⟩, ?_⟩
    · unfold Model.handleFilterInput
      split_ifs <;> rfl
    · unfold Model.handleFilterInput
      split_ifs <;> first | exact f1 | exact f2 | exact f3 | exact f4 | exact f5
    · intro hq
      obtain ⟨_, c2, c3, _, _⟩ := projectsPanel_backspace rt a.model.projects hq
      exact ⟨c2, c3⟩
    · intro hpr
      obtain ⟨i1, i2, i3, i4⟩ := projectsPanel_input rt a.model.projects key
      exact ⟨k4 hpr, i1, projectsPanel_input_mode rt a.model.projects key, i2, i3, i4⟩
  · intro hp
    have hs2 : ¬ a.model.focused = PanelProjects := by rw [hp]; decide
    obtain ⟨f1, f2, f3, f4, f5⟩ := sessionsPanel_filter_frame rt a.model.sessions key
    obtain ⟨k1, k2, k3, k4⟩ := sessions_filter_keys rt a.model key hp
    obtain ⟨b1, b2, b3, b4, b5⟩ := sessionsPanel_backspace_fields rt a.model.sessions
    refine ⟨?_, ?_, k1, k2, ⟨k3, b1, b2, b3, b4, b5, ?_⟩, ?_⟩
    · unfold Model.handleFilterInput
      split_ifs <;> rfl
    · unfold Model.handleFilterInput
      split_ifs <;> first | exact f1 | exact f2 | exact f3 | exact f4 | exact f5
    · intro hq
      obtain ⟨_, c2, c3, _, _⟩ := sessionsPanel_backspace rt a.model.sessions hq
      exact ⟨c2, c3⟩
    · intro hpr
      obtain ⟨i1, i2, i3, i4⟩ := sessionsPanel_input rt a.model.sessions key
      exact ⟨k4 hpr, i1, sessionsPanel_input_mode rt a.model.sessions key, i2, i3, i4⟩
  · rcases isFilterMode_focus a.model hf with h | h
    · exact Or.inl h.1
    · exact Or.inr h.1
  · intro k1 k2 k3 hpr
    simp only [Model.handleFilterInput, k1, k2, k3, hpr, if_false, Bool.false_eq_true]

theorem filter_mode_routing_witness :
    (sampleApp projectsFiltering).handleKeypress asciiRuntime (ascii "q") =
      some ({ sampleApp projectsFiltering with
        model := projectsFiltering.handleFilterInput asciiRuntime (ascii "q") }, none) ∧
    (projectsFiltering.handleFilterInput asciiRuntime (ascii "q")).projects.filterQuery
      = ascii "pq" ∧
    (projectsFiltering.handleFilterInput asciiRuntime (ascii "backspace")).projects.filterQuery
      = [] ∧
    (projectsFiltering.handleFilterInput asciiRuntime (ascii "esc")).projects.filterMode
      = false ∧
    ((projectsFiltering.handleFilterInput asciiRuntime (ascii "enter")).projects.filterMode,
      (projectsFiltering.handleFilterInput asciiRuntime (ascii "enter")).projects.filterQuery)
      = (false, ascii "p") :=
  ⟨(filter_mode_routing asciiRuntime (sampleApp projectsFiltering) (ascii "q") (by decide)
      (by decide) (by decide)).1, by decide, by decide, by decide, by decide⟩

/-- C24. While the controller is paused, a tick of the VM timer leaves the
controller, the data manager and the world (so the count of fetches and the
VM status of the header) as they are and returns the command that arms the VM
timer again; a tick of the sessions timer leaves them as they are and returns
the command that arms the sessions timer again. -/
theorem paused_ticks (rt : Runtime) (a : App) (hp : a.model.paused = true) :
    a.Update rt .vmTickMsg = some (a, some .vmTickCmd) ∧
    a.Update rt .sessionsTickMsg = some (a, some .sessionsTickCmd) ∧
    App.runCmd rt a .vmTickCmd = (a, some .vmTickMsg) ∧
    App.runCmd rt a .sessionsTickCmd = (a, some .sessionsTickMsg) := by
  refine ⟨?_, ?_, rfl, rfl⟩
  · simp only [App.Update, hp, Bool.not_true, Bool.false_eq_true, if_false]
  · simp only [App.Update, hp, Bool.not_true, Bool.false_eq_true, if_false]

theorem paused_ticks_witness :
    pausedApp.Update asciiRuntime .vmTickMsg = some (pausedApp, some .vmTickCmd) ∧
    pausedApp.Update asciiRuntime .sessionsTickMsg = some (pausedApp, some .sessionsTickCmd) :=
  ⟨(paused_ticks asciiRuntime pausedApp rfl).1, (paused_ticks asciiRuntime pausedApp rfl).2.1⟩

/-- After a tick of the sessions timer in a controller that is not paused,
the chain of commands delivers the loaded data and ends: no later message is a
tick of the sessions timer. -/
theorem sessions_chain_ends (rt : Runtime) (a : App) (hp : a.model.paused = false)
    (fuel : Nat) :
    a.Update rt .sessionsTickMsg = some (a, some .loadData) ∧
    (∀ d : DashboardData, ∃ a1, a.Update rt (.DashboardData d) = some (a1, none)) ∧
    Msg.sessionsTickMsg ∉ App.followCmd rt fuel a (some .loadData) := by
  refine ⟨?_, ?_, ?_⟩
  · simp only [App.Update, hp, Bool.not_false, if_true]
  · intro d
    exact ⟨_, rfl⟩
  · cases fuel with
    | zero => simp [App.followCmd]
    | succ n =>
      cases n with
      | zero => simp [App.followCmd, App.runCmd, App.Update]
      | succ k => simp [App.followCmd, App.runCmd, App.Update]

/-- The VM timer arms itself again at every tick, paused or not. -/
theorem vm_chain_goes_on (rt : Runtime) (a : App) :
    ∃ a1, a.Update rt .vmTickMsg = some (a1, some .vmTickCmd) := by
  unfold App.Update
  split_ifs
  · exact ⟨_, rfl⟩
  · exact ⟨_, rfl⟩

/-- C25 (fails for the sessions timer). In a controller that is not paused, a
tick of the sessions timer returns the command `loadData` and no command for
the timer; the data message that `loadData` delivers is handled without a
command.  The chain of commands after the tick delivers the loaded data and
nothing else, so the sessions timer does not fire again.  The VM timer, and
the sessions timer of a paused controller, arm themselves again at each
tick. -/
theorem sessions_timer_stops :
    ((sampleApp NewModel).Update asciiRuntime .sessionsTickMsg).map (fun r => r.2) =
      some (some .loadData) ∧
    (App.followCmd asciiRuntime 10 (sampleApp NewModel) (some .loadData)).length = 1 ∧
    Msg.sessionsTickMsg ∉ App.followCmd asciiRuntime 10 (sampleApp NewModel) (some .loadData) ∧
    App.followCmd asciiRuntime 3 (sampleApp NewModel) (some .vmTickCmd) =
      [.vmTickMsg, .vmTickMsg, .vmTickMsg] ∧
    App.followCmd asciiRuntime 3 pausedApp (some .sessionsTickCmd) =
      [.sessionsTickMsg, .sessionsTickMsg, .sessionsTickMsg] := by
  refine ⟨rfl, rfl, ?_, rfl, rfl⟩
  exact (sessions_chain_ends asciiRuntime (sampleApp NewModel) rfl 10).2.2

/-- C27 (fails for all four keys). Three projects are loaded and the Projects
panel is focused.  With the cursor on the first project, `j` leaves it there
(it calls `cursorUp`) and `G` leaves it there (no case handles it); with the
cursor on the second project, `j` moves it to the first, `k` moves it to the
third (it calls `cursorDown`) and `g` leaves it on the second. -/
theorem list_keys_reversed :
    (sampleApp (loadedTerminal PanelProjects)).model.projects.cursor = 0 ∧
    (sampleApp (loadedTerminal PanelProjects)).model.projects.projects.length = 3 ∧
    ((sampleApp (loadedTerminal PanelProjects)).handleKeypress asciiRuntime (ascii "j")).map
      (fun r => r.1.model.projects.cursor) = some 0 ∧
    ((sampleApp (loadedTerminal PanelProjects)).handleKeypress asciiRuntime (ascii "k")).map
      (fun r => r.1.model.projects.cursor) = some 1 ∧
    ((sampleApp (loadedTerminal PanelProjects)).handleKeypress asciiRuntime (ascii "G")).map
      (fun r => r.1.model.projects.cursor) = some 0 ∧
    secondRow.model.projects.cursor = 1 ∧
    (secondRow.handleKeypress asciiRuntime (ascii "j")).map
      (fun r => r.1.model.projects.cursor) = some 0 ∧
    (secondRow.handleKeypress asciiRuntime (ascii "k")).map
      (fun r => r.1.model.projects.cursor) = some 2 ∧
    (secondRow.handleKeypress asciiRuntime (ascii "g")).map
      (fun r => r.1.model.projects.cursor) = some 1 := by
  decide

end Lazyvibe
